import Mathlib

/-!
# cpp-optparse: the option parser of `OptionParser.cpp` / `OptionParser.h`

A shallow embedding of the parsing engine, and the properties of its
specification that concern lookup, scanning, actions and defaults.

* `fextl::string` is a list of characters (`Str`); `std::map` and `std::set`
  keyed by strings are association lists kept in ascending key order, the
  order in which the C++ iterators visit them.
* `Option const*` entries of the lookup maps are modelled by the value of the
  pointee at the time `parse_args` runs (the parser never changes an option
  while it scans).
* `error(msg)` prints the usage line and `msg` and ends the process with
  `EXIT_FAILURE`; the `help` and `version` actions print and end the process
  with status 0.  Both are outcomes of `Outcome`, next to the normal return.
* `_(s)` is the identity (`ENABLE_NLS` is not defined).
* What the source leaves to the C++ run time (the extractors of `double` and
  `std::complex`, uninitialised memory) is a parameter `Env` of the model.
* The first loop of `parse_args` pushes tokens back to the queue, so the model
  runs it for a bounded number of iterations; the bound that `parse_args` uses
  is never reached (`scan_terminates`).
-/

namespace optparse

/-! ## Strings -/

/-- The type `fextl::string`: a sequence of `char`. -/
abbrev Str := List Char

/-- The call `s.substr(pos, n)`, for `pos ≤ s.size()`. -/
def substr (s : Str) (pos n : Nat) : Str := (s.drop pos).take n

/-- The call `s.substr(pos)`, for `pos ≤ s.size()`. -/
def substr_from (s : Str) (pos : Nat) : Str := s.drop pos

/-- The comparison `a < b` of two `char`s. -/
def char_lt (a b : Char) : Bool := decide (a.toNat < b.toNat)

/-- The comparison `a < b` of `std::string` (lexicographic), the key order of
`std::map<fextl::string, T>` and `std::set<fextl::string>`. -/
def str_lt : Str → Str → Bool
  | [], [] => false
  | [], _ :: _ => true
  | _ :: _, [] => false
  | a :: as, b :: bs =>
    if char_lt a b then true
    else if char_lt b a then false
    else str_lt as bs

/-- The test `key.compare(0, opt.length(), opt) == 0`: the first `opt.length()`
characters of `key` (all of `key` when it is shorter) are equal to `opt`. -/
def compare_prefix_eq (key opt : Str) : Bool := decide (substr key 0 opt.length = opt)

/-- The function `str_join_trans(sep, begin, end, op)`. -/
def str_join_trans (sep : Str) (op : Str → Str) : List Str → Str
  | [] => []
  | x :: xs => xs.foldl (fun buf y => buf ++ sep ++ op y) (op x)

/-- The functor `str_wrap(l, r)`. -/
def str_wrap (l r : Str) (s : Str) : Str := l ++ s ++ r

/-- The function `str_join(sep, begin, end)`. -/
def str_join (sep : Str) (xs : List Str) : Str := str_join_trans sep (str_wrap [] []) xs

/-- The loop of `str_replace`: `find` the next occurrence of `patt` at or after
the current position, replace it, continue behind the replacement. The first
argument bounds the number of positions visited. -/
def str_replace.go (patt repl : Str) : Nat → Str → Str
  | 0, s => s
  | _ + 1, [] => []
  | fuel + 1, c :: cs =>
    if patt.isPrefixOf (c :: cs) then repl ++ str_replace.go patt repl fuel ((c :: cs).drop patt.length)
    else c :: str_replace.go patt repl fuel cs

/-- The function `str_replace(s, patt, repl)`, for a non-empty `patt` (with an
empty `patt` the C++ loop does not end). -/
def str_replace (s patt repl : Str) : Str := str_replace.go patt repl (s.length + 1) s

/-! ## `std::map` and `std::set` keyed by strings -/

/-- A `std::map<fextl::string, α>`: its entries in iteration order. -/
abbrev SMap (α : Type) := List (Str × α)

/-- The call `m.find(k)`; `none` is `m.end()`. -/
def SMap.find {α : Type} : SMap α → Str → Option α
  | [], _ => none
  | (k', v) :: m, k => if k' = k then some v else SMap.find m k

/-- The assignment `m[k] = v`: the entry of `k` is replaced, or a new entry is
put at its place in key order. -/
def SMap.insert {α : Type} : SMap α → Str → α → SMap α
  | [], k, v => [(k, v)]
  | (k', v') :: m, k, v =>
    if k' = k then (k, v) :: m
    else if str_lt k k' then (k, v) :: (k', v') :: m
    else (k', v') :: SMap.insert m k v

/-- The keys of a map, in iteration order. -/
def SMap.keys {α : Type} (m : SMap α) : List Str := m.map Prod.fst

/-- The representation invariant of a `std::map`: keys strictly ascending. -/
def SMap.ordered {α : Type} (m : SMap α) : Prop :=
  List.Pairwise (fun a b => str_lt a b = true) m.keys

/-- A `std::set<fextl::string>`: its elements in iteration order. -/
abbrev SSet := List Str

/-- The call `s.insert(k)`. -/
def SSet.insert : SSet → Str → SSet
  | [], k => [k]
  | k' :: s, k =>
    if k' = k then k' :: s
    else if str_lt k k' then k :: k' :: s
    else k' :: SSet.insert s k

/-- The call `s.erase(k)`. -/
def SSet.erase (s : SSet) (k : Str) : SSet := s.filter (fun k' => decide (k' ≠ k))

/-- The test `s.find(k) != s.end()`. -/
def SSet.contains (s : SSet) (k : Str) : Bool := decide (k ∈ s)

/-- The type `strMap`. -/
abbrev strMap := SMap Str

/-- The type `lstMap`. -/
abbrev lstMap := SMap (List Str)

/-! ## What the source takes from outside -/

/-- The parts of the C++ run time that the source leaves open: the stream
extractors for `double` and `std::complex<double>` (only whether they succeed
matters to `check_type`), the contents of memory that the source reads
without having initialised it, and the width of the terminal. -/
structure Env where
  /-- Whether `istringstream(val) >> t` succeeds for a `double t`. -/
  extract_double : Str → Bool
  /-- Whether `istringstream(val) >> t` succeeds for a `std::complex<double> t`. -/
  extract_complex : Str → Bool
  /-- The value of `_optional_value` in a new `Option`: the constructor does not initialise it. -/
  uninit_optional_value : Bool
  /-- The value of the local `long i` of `str_inc` before the extraction. -/
  uninit_long : Int
  /-- The value that `cols()` returns, an `unsigned int`: 80, or what the
  extraction from the environment variable `COLUMNS` gives. -/
  cols : Nat

/-! ## Integers through string streams -/

/-- The whitespace that the sentry of an input stream skips (`isspace` in the "C" locale). -/
def is_space (c : Char) : Bool :=
  c = ' ' || c = '\t' || c = '\n' || c = '\r' || c.toNat = 11 || c.toNat = 12

/-- Whether `c` is a decimal digit. -/
def is_digit (c : Char) : Bool := decide ('0'.toNat ≤ c.toNat ∧ c.toNat ≤ '9'.toNat)

/-- The number written by a sequence of decimal digits. -/
def digits_value (ds : Str) : Nat := ds.foldl (fun acc c => 10 * acc + (c.toNat - '0'.toNat)) 0

/-- The constant `LONG_MAX` of a 64-bit `long`. -/
def LONG_MAX : Int := 2 ^ 63 - 1

/-- The constant `LONG_MIN` of a 64-bit `long`. -/
def LONG_MIN : Int := -(2 ^ 63)

/-- The digits part of the extraction of a `long`, after the optional sign:
the longest run of decimal digits is converted. No digit: failure, 0 is
stored. Out of range: failure, the nearest bound is stored. -/
def extract_long.number (negative : Bool) (s : Str) : Bool × Int :=
  let ds := s.takeWhile is_digit
  if ds = [] then (false, 0)
  else
    let n : Int := if negative then -(digits_value ds : Int) else (digits_value ds : Int)
    if n > LONG_MAX then (false, LONG_MAX)
    else if n < LONG_MIN then (false, LONG_MIN)
    else (true, n)

/-- The extraction `fextl::istringstream(s) >> t` for a `long t` (flags `dec`
and `skipws`, "C" locale). `none`: the sentry fails because only whitespace is
left, `t` is not written and the stream fails. `some (ok, x)`: `x` is written to
`t`, and `ok` tells whether the stream is good for `if (ss >> t)`. -/
def extract_long (s : Str) : Option (Bool × Int) :=
  match s.dropWhile is_space with
  | [] => none
  | '-' :: rest => some (extract_long.number true rest)
  | '+' :: rest => some (extract_long.number false rest)
  | c :: rest => some (extract_long.number false (c :: rest))

/-- Whether `ss >> t` is true for a `long t`. -/
def extract_long_ok (s : Str) : Bool :=
  match extract_long s with
  | some (ok, _) => ok
  | none => false

/-- The decimal digit character of a number below 10. -/
def digit_char (d : Nat) : Char := Char.ofNat ('0'.toNat + d)

/-- The decimal digits of `n`, most significant first; the first argument
bounds the number of digits. -/
def nat_to_str.go : Nat → Nat → Str
  | 0, _ => []
  | fuel + 1, n =>
    if n < 10 then [digit_char n]
    else nat_to_str.go fuel (n / 10) ++ [digit_char (n % 10)]

/-- The text `ss << n` writes for a non-negative integer. -/
def nat_to_str (n : Nat) : Str := nat_to_str.go (n + 1) n

/-- The text `ss << i` writes for a `long i`. -/
def long_to_str (i : Int) : Str :=
  if i < 0 then '-' :: nat_to_str (-i).toNat else nat_to_str i.toNat

/-- The value of a `long` expression: signed overflow wraps around 64 bits. -/
def wrap_long (x : Int) : Int := (x + 2 ^ 63) % 2 ^ 64 - 2 ^ 63

/-- The function `str_inc(s)`. -/
def str_inc (E : Env) (s : Str) : Str :=
  let v : Str := if s ≠ [] then s else "0".toList
  let i : Int :=
    match extract_long v with
    | some (_, x) => x
    | none => E.uninit_long
  long_to_str (wrap_long (i + 1))

/-! ## The data model of `OptionParser.h` -/

/-- The class `Values`. -/
structure Values where
  _map : strMap
  _appendMap : lstMap
  _userSet : SSet
deriving DecidableEq

/-- The constructor `Values()`. -/
def Values.new : Values := { _map := [], _appendMap := [], _userSet := [] }

/-- The const `operator[]` of `Values`: the stored string of `d`, if any. -/
def Values.get (vs : Values) (d : Str) : Option Str := vs._map.find d

/-- The assignment `values[d] = x` through the non-const `operator[]`. -/
def Values.assign (vs : Values) (d x : Str) : Values := { vs with _map := vs._map.insert d x }

/-- The value read through the non-const `operator[]`: an absent entry is
created empty. -/
def Values.read (vs : Values) (d : Str) : Str := (vs._map.find d).getD []

/-- The method `is_set(d)`. -/
def Values.is_set (vs : Values) (d : Str) : Bool := (vs._map.find d).isSome

/-- The const method `is_set_by_user(d)`. -/
def Values.is_set_by_user (vs : Values) (d : Str) : Bool := vs._userSet.contains d

/-- The method `is_set_by_user(d, yes)`. -/
def Values.set_by_user (vs : Values) (d : Str) (yes : Bool) : Values :=
  if yes then { vs with _userSet := vs._userSet.insert d }
  else { vs with _userSet := vs._userSet.erase d }

/-- The list `all(d)`; an absent list is empty. -/
def Values.all (vs : Values) (d : Str) : List Str := (vs._appendMap.find d).getD []

/-- The call `values.all(d).push_back(x)`. -/
def Values.all_push_back (vs : Values) (d x : Str) : Values :=
  { vs with _appendMap := vs._appendMap.insert d (vs.all d ++ [x]) }

/-- The class `Option`. The member `_callback` tells whether the callback
pointer is set; the reference `_parser` is the parser that owns the option or
the group of the option. -/
structure Opt where
  _short_opts : SSet
  _long_opts : SSet
  _optional_value : Bool
  _action : Str
  _type : Str
  _dest : Str
  _default : Str
  _nargs : Nat
  _const : Str
  _choices : List Str
  _help : Str
  _metavar : Str
  _callback : Bool
deriving DecidableEq

/-- The constructor `Option(p)`. -/
def Opt.new (E : Env) : Opt :=
  { _short_opts := [], _long_opts := [], _optional_value := E.uninit_optional_value,
    _action := "store".toList, _type := "string".toList, _dest := [], _default := [],
    _nargs := 1, _const := [], _choices := [], _help := [], _metavar := [],
    _callback := false }

/-- The setter `nargs(n)`. -/
def Opt.nargs (o : Opt) (n : Nat) : Opt := { o with _nargs := n }

/-- The setter `Option::type(t)`. -/
def Opt.type (o : Opt) (t : Str) : Opt :=
  ({ o with _type := t }).nargs (if t = [] then 0 else 1)

/-- The setter `Option::action(a)`. -/
def Opt.action (o : Opt) (a : Str) : Opt :=
  let o := { o with _action := a }
  if a = "store_const".toList ∨ a = "store_true".toList ∨ a = "store_false".toList ∨
      a = "append_const".toList ∨ a = "count".toList ∨ a = "help".toList ∨ a = "version".toList then
    o.nargs 0
  else if a = "callback".toList then
    (o.nargs 0).type []
  else o

/-- The setter `dest(d)`. -/
def Opt.dest (o : Opt) (d : Str) : Opt := { o with _dest := d }

/-- The setter `set_default(d)`. -/
def Opt.set_default (o : Opt) (d : Str) : Opt := { o with _default := d }

/-- The setter `set_optional_value(v)`. -/
def Opt.set_optional_value (o : Opt) (v : Bool) : Opt := { o with _optional_value := v }

/-- The setter `set_const(c)`. -/
def Opt.set_const (o : Opt) (c : Str) : Opt := { o with _const := c }

/-- The setter `choices(begin, end)`. -/
def Opt.choices (o : Opt) (cs : List Str) : Opt := ({ o with _choices := cs }).type "choice".toList

/-- The setter `help(h)`. -/
def Opt.help (o : Opt) (h : Str) : Opt := { o with _help := h }

/-- The setter `metavar(m)`. -/
def Opt.metavar (o : Opt) (m : Str) : Opt := { o with _metavar := m }

/-- The setter `callback(c)`. -/
def Opt.callback (o : Opt) : Opt := { o with _callback := true }

/-- The class `OptionContainer`. -/
structure OptionContainer where
  _description : Str
  _opts : List Opt
  _optmap_s : SMap Opt
  _optmap_l : SMap Opt
deriving DecidableEq

/-- The class `OptionGroup`; its parser is the parser it is attached to. -/
structure OptionGroup extends OptionContainer where
  _title : Str
deriving DecidableEq

/-- The class `OptionParser`. -/
structure OptionParser extends OptionContainer where
  _usage : Str
  _version : Str
  _add_help_option : Bool
  _add_version_option : Bool
  _prog : Str
  _epilog : Str
  _interspersed_args : Bool
  _values : Values
  _defaults : strMap
  _groups : List OptionGroup
  _remaining : List Str
  _leftover : List Str
  _parsed : List Str
deriving DecidableEq

/-- The constructor `OptionParser()`. -/
def OptionParser.new : OptionParser :=
  { _description := [], _opts := [], _optmap_s := [], _optmap_l := [],
    _usage := "%prog [options]".toList, _version := [],
    _add_help_option := true, _add_version_option := true, _prog := [], _epilog := [],
    _interspersed_args := true, _values := Values.new,
    _defaults := [], _groups := [], _remaining := [], _leftover := [], _parsed := [] }

/-- The method `enable_interspersed_args()`. -/
def OptionParser.enable_interspersed_args (p : OptionParser) : OptionParser :=
  { p with _interspersed_args := true }

/-- The method `disable_interspersed_args()`. -/
def OptionParser.disable_interspersed_args (p : OptionParser) : OptionParser :=
  { p with _interspersed_args := false }

/-- The method `set_defaults(dest, val)`. -/
def OptionParser.set_defaults (p : OptionParser) (dest val : Str) : OptionParser :=
  { p with _defaults := p._defaults.insert dest val }

/-- The constructor `OptionGroup(p, t, d)`. -/
def OptionGroup.new (t d : Str) : OptionGroup :=
  { _description := d, _opts := [], _optmap_s := [], _optmap_l := [], _title := t }

/-- How a call into the parser ends. -/
inductive Outcome where
  /-- The call returns; the parser is in state `p`. -/
  | ok (p : OptionParser)
  /-- The call `error(msg)`: usage and `msg` go to `std::cerr`, the process ends with `EXIT_FAILURE`. -/
  | error (msg : Str)
  /-- The action `help`: `print_help()` in state `p`, then `std::exit(0)`. -/
  | help (p : OptionParser)
  /-- The action `version`: `print_version()` in state `p`, then `std::exit(0)`. -/
  | version (p : OptionParser)
deriving DecidableEq

/-! ## Registration -/

/-- The body of the loop of `add_option` over the names, for a name of at
least one character, as far as it changes the new option and `dest_fallback`. -/
def OptionContainer.add_option.name (st : Opt × Str) (it : Str) : Opt × Str :=
  let (option, dest_fallback) := st
  if substr it 0 2 = "--".toList then
    let s := substr_from it 2
    let option := if option._dest = [] then option.dest (str_replace s "-".toList "_".toList) else option
    ({ option with _long_opts := option._long_opts.insert s }, dest_fallback)
  else
    let s := substr it 1 1
    let dest_fallback := if dest_fallback = [] then s else dest_fallback
    ({ option with _short_opts := option._short_opts.insert s }, dest_fallback)

/-- The body of the loop of `add_option` over the names, for a name of at
least one character, as far as it changes the lookup maps:
`_optmap_l[s] = &option` or `_optmap_s[s] = &option`. -/
def OptionContainer.add_option.bind (option : Opt) (c : OptionContainer) (it : Str) : OptionContainer :=
  if substr it 0 2 = "--".toList then { c with _optmap_l := c._optmap_l.insert (substr_from it 2) option }
  else { c with _optmap_s := c._optmap_s.insert (substr it 1 1) option }

/-- What `add_option(v)` followed by the setters `cfg` that the caller chains
on the returned reference leaves of the container, for names of at least one
character each: the statements of `add_option` from the first to the `return`.
The maps hold pointers to the new option, so they see what the setters do: the
model enters the option in the list and in the maps as the setters leave it. -/
def OptionContainer.add_option_result (c : OptionContainer) (E : Env) (v : List Str) (cfg : Opt → Opt) :
    OptionContainer :=
  let st := v.foldl OptionContainer.add_option.name (Opt.new E, [])
  let option := if st.1._dest = [] then st.1.dest st.2 else st.1
  let option := cfg option
  v.foldl (OptionContainer.add_option.bind option) { c with _opts := c._opts ++ [option] }

/-- The method `add_option(v)` followed by the setters `cfg`. On an empty name
`it->substr(0,2)` is not `--` and `it->substr(1,1)` throws `std::out_of_range`
(the position 1 is behind the end of the string): the call does not return, the
model gives `none`. On a name of one character `substr(1,1)` is the empty
string. -/
def OptionContainer.add_option (c : OptionContainer) (E : Env) (v : List Str) (cfg : Opt → Opt) :
    Option OptionContainer :=
  if [] ∈ v then none else some (c.add_option_result E v cfg)

/-- What `add_option` of a parser leaves of the parser, for names of at least
one character each. -/
def OptionParser.add_option_result (p : OptionParser) (E : Env) (v : List Str) (cfg : Opt → Opt) : OptionParser :=
  { p with toOptionContainer := p.toOptionContainer.add_option_result E v cfg }

/-- The method `add_option` of a parser; `none` when it throws. -/
def OptionParser.add_option (p : OptionParser) (E : Env) (v : List Str) (cfg : Opt → Opt) :
    Option OptionParser :=
  (p.toOptionContainer.add_option E v cfg).map (fun c => { p with toOptionContainer := c })

/-- What `add_option` of a group leaves of the group, for names of at least one
character each. -/
def OptionGroup.add_option_result (g : OptionGroup) (E : Env) (v : List Str) (cfg : Opt → Opt) : OptionGroup :=
  { g with toOptionContainer := g.toOptionContainer.add_option_result E v cfg }

/-- The method `add_option` of a group; `none` when it throws. -/
def OptionGroup.add_option (g : OptionGroup) (E : Env) (v : List Str) (cfg : Opt → Opt) :
    Option OptionGroup :=
  (g.toOptionContainer.add_option E v cfg).map (fun c => { g with toOptionContainer := c })

/-- The body of the outer loop of `add_option_group`: the names of one option
of the group are entered in the maps of the parser. -/
def OptionParser.add_option_group.enter (p : OptionParser) (option : Opt) : OptionParser :=
  let p := option._short_opts.foldl
    (fun (p : OptionParser) it => { p with _optmap_s := p._optmap_s.insert it option }) p
  option._long_opts.foldl
    (fun (p : OptionParser) it => { p with _optmap_l := p._optmap_l.insert it option }) p

/-- The method `add_option_group(group)`. -/
def OptionParser.add_option_group (p : OptionParser) (group : OptionGroup) : OptionParser :=
  let p := group._opts.foldl OptionParser.add_option_group.enter p
  { p with _groups := p._groups ++ [group] }

/-- The call `_opts.splice(_opts.begin(), _opts, --(_opts.end()))`: the last
option moves to the front. -/
def splice_last_to_front (opts : List Opt) : List Opt :=
  match opts.getLast? with
  | some o => o :: opts.dropLast
  | none => opts

/-! ## Options -/

/-- The method `Option::get_default()`. -/
def Opt.get_default (o : Opt) (p : OptionParser) : Str :=
  match p._defaults.find o._dest with
  | some d => d
  | none => o._default

/-- The method `Option::check_type(opt, val)`: an error message, empty when
the value is accepted. -/
def Opt.check_type (o : Opt) (E : Env) (opt val : Str) : Str :=
  if o._type = "int".toList ∨ o._type = "long".toList then
    if ¬ extract_long_ok val then
      "option".toList ++ " ".toList ++ opt ++ ": ".toList ++ "invalid integer value".toList ++
        ": '".toList ++ val ++ "'".toList
    else []
  else if o._type = "float".toList ∨ o._type = "double".toList then
    if ¬ E.extract_double val then
      "option".toList ++ " ".toList ++ opt ++ ": ".toList ++ "invalid floating-point value".toList ++
        ": '".toList ++ val ++ "'".toList
    else []
  else if o._type = "choice".toList then
    if val ∉ o._choices then
      "option".toList ++ " ".toList ++ opt ++ ": ".toList ++ "invalid choice".toList ++
        ": '".toList ++ val ++ "'".toList ++ " (".toList ++ "choose from".toList ++ " ".toList ++
        str_join ", ".toList (o._choices.map (str_wrap "'".toList "'".toList)) ++ ")".toList
    else []
  else if o._type = "complex".toList then
    if ¬ E.extract_complex val then
      "option".toList ++ " ".toList ++ opt ++ ": ".toList ++ "invalid complex value".toList ++
        ": '".toList ++ val ++ "'".toList
    else []
  else []

/-! ## Lookup -/

/-- The method `lookup_short_opt(opt)`. -/
def OptionParser.lookup_short_opt (p : OptionParser) (opt : Str) : Except Str Opt :=
  match p._optmap_s.find opt with
  | none => .error ("no such option".toList ++ ": -".toList ++ opt)
  | some o => .ok o

/-- The loop of `lookup_long_opt` over `_optmap_l`: the list `matching` after
the loop. -/
def OptionParser.lookup_long_opt.matching (opt : Str) : SMap Opt → List Str → List Str
  | [], matching => matching
  | it :: rest, matching =>
    if compare_prefix_eq it.1 opt then
      if it.1.length = opt.length then matching ++ [it.1]
      else OptionParser.lookup_long_opt.matching opt rest (matching ++ [it.1])
    else OptionParser.lookup_long_opt.matching opt rest matching

/-- The method `lookup_long_opt(opt)`. The last line dereferences
`_optmap_l.find(matching.front())`; `matching` holds keys of the map, so the
iterator is never `end()` (the model gives an empty error message there). -/
def OptionParser.lookup_long_opt (p : OptionParser) (opt : Str) : Except Str Opt :=
  let matching := OptionParser.lookup_long_opt.matching opt p._optmap_l []
  if matching.length > 1 then
    let x := str_join_trans ", ".toList (str_wrap "--".toList []) matching
    .error ("ambiguous option".toList ++ ": --".toList ++ opt ++ " (".toList ++ x ++ "?)".toList)
  else if matching.length = 0 then
    .error ("no such option".toList ++ ": --".toList ++ opt)
  else
    match p._optmap_l.find (matching.headD []) with
    | some o => .ok o
    | none => .error []

/-! ## Actions -/

/-- The method `process_opt(o, opt, value)`. A callback gets the option and
the parser by const reference: it leaves the state of the parser as it is. -/
def OptionParser.process_opt (p : OptionParser) (E : Env) (o : Opt) (opt value : Str) : Outcome :=
  if o._action = "store".toList then
    let err := o.check_type E opt value
    if err ≠ [] then .error err
    else .ok { p with _values := (p._values.assign o._dest value).set_by_user o._dest true }
  else if o._action = "store_const".toList then
    .ok { p with _values := (p._values.assign o._dest o._const).set_by_user o._dest true }
  else if o._action = "store_true".toList then
    .ok { p with _values := (p._values.assign o._dest "1".toList).set_by_user o._dest true }
  else if o._action = "store_false".toList then
    .ok { p with _values := (p._values.assign o._dest "0".toList).set_by_user o._dest true }
  else if o._action = "append".toList then
    let err := o.check_type E opt value
    if err ≠ [] then .error err
    else .ok { p with _values :=
      ((p._values.assign o._dest value).all_push_back o._dest value).set_by_user o._dest true }
  else if o._action = "append_const".toList then
    .ok { p with _values :=
      ((p._values.assign o._dest o._const).all_push_back o._dest o._const).set_by_user o._dest true }
  else if o._action = "count".toList then
    .ok { p with _values :=
      (p._values.assign o._dest (str_inc E (p._values.read o._dest))).set_by_user o._dest true }
  else if o._action = "help".toList then .help p
  else if o._action = "version".toList then .version p
  else if o._action = "callback".toList ∧ o._callback = true then
    let err := o.check_type E opt value
    if err ≠ [] then .error err
    else .ok p
  else .ok p

/-! ## Scanning -/

/-- The method `handle_short_opt(opt, arg)`. -/
def OptionParser.handle_short_opt (p : OptionParser) (E : Env) (opt arg : Str) : Outcome :=
  let p := { p with _parsed := p._parsed ++ ["-".toList ++ opt], _remaining := p._remaining.tail }
  match p.lookup_short_opt opt with
  | .error msg => .error msg
  | .ok option =>
    if option._nargs = 1 then
      let value := substr_from arg 2
      if value = [] then
        match p._remaining with
        | [] =>
          if option._optional_value then
            let value := option.get_default p
            ({ p with _parsed := p._parsed ++ [value] }).process_opt E option ("-".toList ++ opt) value
          else
            .error ("-".toList ++ opt ++ " ".toList ++ "option requires an argument".toList)
        | front :: rest =>
          ({ p with _remaining := rest, _parsed := p._parsed ++ [front] }).process_opt E option
            ("-".toList ++ opt) front
      else p.process_opt E option ("-".toList ++ opt) value
    else
      let p := if arg.length > 2 then
          { p with _remaining := ("-".toList ++ substr_from arg 2) :: p._remaining }
        else p
      p.process_opt E option ("-".toList ++ opt) []

/-- The call `optstr.find("=")`; `none` is `npos`. -/
def str_find_eq : Str → Option Nat
  | [] => none
  | c :: cs => if c = '=' then some 0 else (str_find_eq cs).map (· + 1)

/-- The method `handle_long_opt(optstr)`; `st` is the queue and `value` after
the first `if`. -/
def OptionParser.handle_long_opt (p : OptionParser) (E : Env) (optstr : Str) : Outcome :=
  let p := { p with _remaining := p._remaining.tail }
  let delim := str_find_eq optstr
  let opt : Str := match delim with
    | some d => substr optstr 0 d
    | none => optstr
  let value : Str := match delim with
    | some d => substr_from optstr (d + 1)
    | none => []
  match p.lookup_long_opt opt with
  | .error msg => .error msg
  | .ok option =>
    let st : OptionParser × Str :=
      if option._nargs = 1 ∧ delim = none then
        match p._remaining with
        | front :: rest => ({ p with _remaining := rest }, front)
        | [] => (p, value)
      else (p, value)
    if option._nargs = 1 ∧ st.2 = [] then
      .error ("--".toList ++ opt ++ " ".toList ++ "option requires an argument".toList)
    else st.1.process_opt E option ("--".toList ++ opt) st.2

/-- The start of `parse_args`: the options `-h`, `--help` and `--version` are
added and moved to the front of `_opts`. None of the three names is empty, so
these calls of `add_option` return. -/
def OptionParser.parse_args.builtin (p : OptionParser) (E : Env) : OptionParser :=
  let p :=
    if p._add_help_option then
      let p := p.add_option_result E ["-h".toList, "--help".toList]
        (fun o => (o.action "help".toList).help "show this help message and exit".toList)
      { p with _opts := splice_last_to_front p._opts }
    else p
  if p._add_version_option ∧ p._version ≠ [] then
    let p := p.add_option_result E ["--version".toList]
      (fun o => (o.action "version".toList).help "show program's version number and exit".toList)
    { p with _opts := splice_last_to_front p._opts }
  else p

/-- What one iteration of the first `while` loop of `parse_args` leads to. -/
inductive Iteration where
  /-- The loop is left (its condition fails, or `break`) in state `p`, or the process ends. -/
  | stop (r : Outcome)
  /-- The next iteration starts in state `p`. -/
  | next (p : OptionParser)
deriving DecidableEq

/-- The test and the body of the first `while` loop of `parse_args`. -/
def OptionParser.parse_args.iteration (E : Env) (p : OptionParser) : Iteration :=
  match p._remaining with
  | [] => .stop (.ok p)
  | arg :: rest =>
    if arg = "--".toList then .stop (.ok { p with _remaining := rest })
    else if substr arg 0 2 = "--".toList then
      match ({ p with _parsed := p._parsed ++ [arg] }).handle_long_opt E (substr_from arg 2) with
      | .ok p => .next p
      | r => .stop r
    else if substr arg 0 1 = "-".toList ∧ arg.length > 1 then
      match p.handle_short_opt E (substr arg 1 1) arg with
      | .ok p => .next p
      | r => .stop r
    else
      let p := { p with _remaining := rest, _leftover := p._leftover ++ [arg] }
      if ¬ p._interspersed_args then .stop (.ok p)
      else .next p

/-- The first `while` loop of `parse_args`. The first argument bounds the
number of iterations; `none` tells that the bound was reached. -/
def OptionParser.parse_args.scan (E : Env) : Nat → OptionParser → Option Outcome
  | 0, _ => none
  | fuel + 1, p =>
    match OptionParser.parse_args.iteration E p with
    | .stop r => some r
    | .next p => OptionParser.parse_args.scan E fuel p

/-- The second `while` loop of `parse_args`: what is left in the queue goes to `_leftover`. -/
def OptionParser.parse_args.drain (p : OptionParser) : OptionParser :=
  { p with _leftover := p._leftover ++ p._remaining, _remaining := [] }

/-- One `for` loop over options at the end of `parse_args`: the defaults of
the destinations that are not set. -/
def OptionParser.parse_args.fill (p : OptionParser) (opts : List Opt) : OptionParser :=
  opts.foldl (fun (p : OptionParser) it =>
    if it.get_default p ≠ [] ∧ ¬ p._values.is_set it._dest then
      { p with _values := p._values.assign it._dest (it.get_default p) }
    else p) p

/-- The end of `parse_args`: the defaults of the options of the parser, then
of the options of each group. -/
def OptionParser.parse_args.defaults (p : OptionParser) : OptionParser :=
  p._groups.foldl (fun (p : OptionParser) group => OptionParser.parse_args.fill p group._opts)
    (OptionParser.parse_args.fill p p._opts)

/-- The size of the queue: the number of its tokens plus the number of their
characters. An iteration of the first loop of `parse_args` takes a token from
the queue or makes the first token shorter. -/
def queue_size (v : List Str) : Nat := (v.map (fun t => t.length + 1)).sum

/-- A bound on the iterations of the first loop of `parse_args` on the queue `v`. -/
def OptionParser.parse_args.bound (v : List Str) : Nat := queue_size v + 1

/-- What follows the first loop of `parse_args`. -/
def OptionParser.parse_args.finish (r : Option Outcome) : Option Outcome :=
  match r with
  | some (.ok p) => some (.ok (OptionParser.parse_args.defaults (OptionParser.parse_args.drain p)))
  | r => r

/-- The method `parse_args(v)`. -/
def OptionParser.parse_args (p : OptionParser) (E : Env) (v : List Str) : Option Outcome :=
  let p := OptionParser.parse_args.builtin { p with _remaining := v } E
  OptionParser.parse_args.finish
    (OptionParser.parse_args.scan E (OptionParser.parse_args.bound v) p)

/-! ## Help -/

/-- The constant `SUPPRESS_HELP`. -/
def SUPPRESS_HELP : Str := "SUPPRESSHELP".toList

/-- The constant `SUPPRESS_USAGE`. -/
def SUPPRESS_USAGE : Str := "SUPPRESSUSAGE".toList

/-- The difference `a - b` of two `size_t`. -/
def size_t_sub (a b : Nat) : Nat := (a + (2 ^ 64 - b % 2 ^ 64)) % 2 ^ 64

/-- The difference `a - b` of two `unsigned int`. -/
def unsigned_sub (a b : Nat) : Nat := (a + (2 ^ 32 - b % 2 ^ 32)) % 2 ^ 32

/-- The loop of `str_format` on the text `s`. The first list is what
`find_first_of` has not yet looked at, `i` its index in `s`; then the local
variables `pos`, `linestart`, `line`, `p` and the stream `ss`. The characters
that `find_first_of` skips leave the local variables as they are. -/
def str_format.loop (s : Str) (pre len : Nat) : Str → Nat → Nat → Nat → Nat → Str → Str → Str
  | [], _, _, linestart, _, p, ss => ss ++ p ++ substr_from s linestart ++ ['\n']
  | c :: rest, i, pos, linestart, line, p, ss =>
    if c = ' ' ∨ c = '\n' ∨ c = '\t' then
      let new_pos := i
      let wrap := decide (c = '\n')
      let pos := if wrap then new_pos + 1 else pos
      let p := if line = 1 then List.replicate pre ' ' else p
      if wrap ∨ (new_pos + pre) % 2 ^ 64 > (linestart + len) % 2 ^ 64 then
        str_format.loop s pre len rest (i + 1) (new_pos + 1) pos (line + 1) p
          (ss ++ p ++ substr s linestart (size_t_sub (size_t_sub pos linestart) 1) ++ ['\n'])
      else str_format.loop s pre len rest (i + 1) (new_pos + 1) linestart line p ss
    else str_format.loop s pre len rest (i + 1) pos linestart line p ss

/-- The function `str_format(str, pre, len, running_text, indent_first)`. -/
def str_format (str : Str) (pre len : Nat) (running_text indent_first : Bool) : Str :=
  let s := if running_text then str.map (fun c => if c = '\n' then ' ' else c) else str
  let p := if indent_first then List.replicate pre ' ' else []
  str_format.loop s pre (size_t_sub len 2) s 0 0 0 0 p []

/-- The method `Option::format_option_help(indent)`; `::toupper` is that of
the "C" locale. -/
def Opt.format_option_help (o : Opt) (indent : Nat) : Str :=
  let mvar := if o._metavar = [] then o._dest.map Char.toUpper else o._metavar
  let mvar_short :=
    if o._nargs = 1 then
      if o._optional_value then " [".toList ++ mvar ++ "]".toList else " ".toList ++ mvar
    else []
  let mvar_long :=
    if o._nargs = 1 then
      if o._optional_value then "[=".toList ++ mvar ++ "]".toList else "=".toList ++ mvar
    else []
  let ss := List.replicate indent ' '
  let ss :=
    if o._short_opts ≠ [] then
      let ss := ss ++ str_join_trans ", ".toList (str_wrap "-".toList mvar_short) o._short_opts
      if o._long_opts ≠ [] then ss ++ ", ".toList else ss
    else ss
  if o._long_opts ≠ [] then
    ss ++ str_join_trans ", ".toList (str_wrap "--".toList mvar_long) o._long_opts
  else ss

/-- The method `Option::format_help(indent)` of an option of the parser `p`.
The count `opt_width - h.length()` of the blanks is a `size_t`; when `h` is
longer than `opt_width` (in this branch: `opt_width` is 0 and `h` is not
empty) it wraps around to more than `2 ^ 63`, beyond the `max_size()` of a
string, and the constructor `fextl::string(count, ' ')` throws
`std::length_error`: the call does not return, the model gives `none`. -/
def Opt.format_help (o : Opt) (p : OptionParser) (E : Env) (indent : Nat) : Option Str :=
  let h := o.format_option_help indent
  let width := E.cols
  let opt_width := min ((width * 3) % 2 ^ 32 / 10) 36
  let st : Option (Str × Bool) :=
    if h.length ≥ unsigned_sub opt_width 1 then some (h ++ ['\n'], true)
    else if size_t_sub opt_width h.length ≥ 2 ^ 63 then none
    else
      let ss := h ++ List.replicate (size_t_sub opt_width h.length) ' '
      some (if o._help = [] then ss ++ ['\n'] else ss, false)
  st.map (fun st =>
    if o._help ≠ [] then
      let help_str :=
        if o.get_default p ≠ [] then str_replace o._help "%default".toList (o.get_default p)
        else o._help
      st.1 ++ str_format help_str opt_width width false st.2
    else st.1)

/-- The method `OptionContainer::format_option_help(indent)` of a container of
the parser `p`; `none` when `Option::format_help` throws for one of the
options. -/
def OptionContainer.format_option_help (c : OptionContainer) (p : OptionParser) (E : Env)
    (indent : Nat) : Option Str :=
  c._opts.foldl
    (fun ss o =>
      if o._help ≠ SUPPRESS_HELP then
        ss.bind (fun s => (o.format_help p E indent).map (fun t => s ++ t))
      else ss) (some [])

/-- The method `format_usage(u)`. -/
def OptionParser.format_usage (u : Str) : Str :=
  "Usage".toList ++ ": ".toList ++ u ++ ['\n']

/-- The method `get_usage()`. -/
def OptionParser.get_usage (p : OptionParser) : Str :=
  if p._usage = SUPPRESS_USAGE then []
  else OptionParser.format_usage (str_replace p._usage "%prog".toList p._prog)

/-- The body of the loop of `format_help` over the groups; `none` when a call
has thrown. -/
def OptionParser.format_help.group (p : OptionParser) (E : Env) (ss : Option Str)
    (group : OptionGroup) : Option Str :=
  ss.bind (fun ss =>
    let ss := ss ++ ['\n'] ++ "  ".toList ++ group._title ++ ":".toList ++ ['\n']
    let ss :=
      if group._description ≠ [] then
        ss ++ str_format group._description 4 (unsigned_sub E.cols 4) true true ++ ['\n']
      else ss
    (group.toOptionContainer.format_option_help p E 4).map (fun t => ss ++ t))

/-- The method `format_help()`; `none` when `Option::format_help` throws for
one of the options. -/
def OptionParser.format_help (p : OptionParser) (E : Env) : Option Str :=
  let ss := if p._usage ≠ SUPPRESS_USAGE then p.get_usage ++ ['\n'] else []
  let ss :=
    if p._description ≠ [] then ss ++ str_format p._description 0 E.cols true true ++ ['\n']
    else ss
  let ss := ss ++ "Options".toList ++ ":".toList ++ ['\n']
  let ss := (p.toOptionContainer.format_option_help p E 2).map (fun t => ss ++ t)
  let ss := p._groups.foldl (OptionParser.format_help.group p E) ss
  ss.map (fun ss =>
    if p._epilog ≠ [] then ss ++ ['\n'] ++ str_format p._epilog 0 E.cols true true else ss)

/-- The method `get_version()`. -/
def OptionParser.get_version (p : OptionParser) : Str :=
  str_replace p._version "%prog".toList p._prog

/-! ## Definitions for the statements -/

/-- The registry of the first example: long names `--foo` and `--foobar`. -/
def demo_foo (E : Env) : OptionParser :=
  (OptionParser.new.add_option_result E ["--foo".toList] id).add_option_result E ["--foobar".toList] id

/-- An environment for the examples. -/
def demo_env : Env :=
  { extract_double := fun _ => false, extract_complex := fun _ => false,
    uninit_optional_value := false, uninit_long := 0, cols := 80 }

/-- A token that the loop takes for a positional argument: one that does not
start with `-` (the empty token is one), or the single character `-`. -/
def is_positional (arg : Str) : Bool := decide (arg.head? ≠ some '-' ∨ arg = ['-'])

/-- The option that `parse_args` adds for `-h` and `--help`. -/
def help_option (E : Env) : Opt :=
  { _short_opts := ["h".toList], _long_opts := ["help".toList],
    _optional_value := E.uninit_optional_value, _action := "help".toList, _type := "string".toList,
    _dest := "help".toList, _default := [], _nargs := 0, _const := [], _choices := [],
    _help := "show this help message and exit".toList, _metavar := [], _callback := false }

/-- The option that `parse_args` adds for `--version`. -/
def version_option (E : Env) : Opt :=
  { _short_opts := [], _long_opts := ["version".toList],
    _optional_value := E.uninit_optional_value, _action := "version".toList, _type := "string".toList,
    _dest := "version".toList, _default := [], _nargs := 0, _const := [], _choices := [],
    _help := "show program's version number and exit".toList, _metavar := [], _callback := false }

/-- The options in the order in which the end of `parse_args` visits them:
those of the parser, then those of each group. -/
def fill_order (p : OptionParser) : List Opt := p._opts ++ (p._groups.map (fun g => g._opts)).flatten

/-- The registry of the cluster example: `-a` (store_true) and `-b` (store). -/
def demo_ab (E : Env) : OptionParser :=
  (OptionParser.new.add_option_result E ["-a".toList] (fun o => o.action "store_true".toList)).add_option_result E
    ["-b".toList] id

/-- A registry in which the short name `-` is bound: `add_option` takes the
second character of any name that does not start with `--`. -/
def demo_dash (E : Env) : OptionParser :=
  OptionParser.new.add_option_result E ["x-".toList] (fun o => o.action "store_true".toList)

/-- The destination `d` holds the count `k`: nothing for 0, else the decimal
string of `k`, set by the user. -/
def counted (vs : Values) (d : Str) (k : Nat) : Prop :=
  (k = 0 ∧ vs.get d = none) ∨
    (0 < k ∧ vs.get d = some (nat_to_str k) ∧ vs.is_set_by_user d = true)

/-- The ways of writing one occurrence of a flag that takes a value. -/
inductive Occurrence where
  /-- The token `--name=value`. -/
  | long_inline (name value : Str)
  /-- The tokens `--name` and `value`. -/
  | long_next (name value : Str)
  /-- The token `-xvalue`. -/
  | short_inline (x : Char) (value : Str)
  /-- The tokens `-x` and `value`. -/
  | short_next (x : Char) (value : Str)

/-- The tokens of an occurrence. -/
def Occurrence.tokens : Occurrence → List Str
  | .long_inline name value => ["--".toList ++ name ++ "=".toList ++ value]
  | .long_next name value => ["--".toList ++ name, value]
  | .short_inline x value => ['-' :: x :: value]
  | .short_next x value => [['-', x], value]

/-- The value of an occurrence. -/
def Occurrence.value : Occurrence → Str
  | .long_inline _ value => value
  | .long_next _ value => value
  | .short_inline _ value => value
  | .short_next _ value => value

/-- The occurrence is one of the option `o` with a value, for the parser `p`:
its name resolves to `o`, a long name has no `=` and is not empty when it
stands alone, a short name is not `-`, and the value is not empty where an
empty value would read as no value. -/
def Occurrence.resolves (p : OptionParser) (o : Opt) : Occurrence → Prop
  | .long_inline name value => '=' ∉ name ∧ p.lookup_long_opt name = .ok o ∧ value ≠ []
  | .long_next name value =>
    '=' ∉ name ∧ name ≠ [] ∧ p.lookup_long_opt name = .ok o ∧ value ≠ []
  | .short_inline x value => x ≠ '-' ∧ SMap.find p._optmap_s [x] = some o ∧ value ≠ []
  | .short_next x _ => x ≠ '-' ∧ SMap.find p._optmap_s [x] = some o

/-- The registry of the append example: `--tag` with action `append`. -/
def demo_tag (E : Env) : OptionParser :=
  OptionParser.new.add_option_result E ["--tag".toList] (fun o => o.action "append".toList)

/-- The registry of the choice example: `--mode` with the choices `a` and `b`. -/
def demo_choice (E : Env) : OptionParser :=
  OptionParser.new.add_option_result E ["--mode".toList] (fun o => o.choices ["a".toList, "b".toList])

/-- The append example after the action of a flag of destination `other`. -/
def demo_tag_other (E : Env) : OptionParser :=
  { (demo_tag E) with
    _values := ((demo_tag E)._values.assign "other".toList "z".toList).set_by_user "other".toList true }

/-- A queue that starts with the terminator. -/
def demo_queue_terminator : OptionParser :=
  { OptionParser.new with _remaining := ["--".toList, "-x".toList] }

/-- A queue that starts with the positional token `-`, interspersed arguments disabled. -/
def demo_queue_positional : OptionParser :=
  { (OptionParser.new.disable_interspersed_args) with _remaining := ["-".toList, "-x".toList] }

/-- The registry of the ambiguity example: long names `--foobar` and `--foobaz`. -/
def demo_baz (E : Env) : OptionParser :=
  (OptionParser.new.add_option_result E ["--foobar".toList] id).add_option_result E ["--foobaz".toList] id

/-- The registry of the default example: `--level` with default `7`. -/
def demo_level (E : Env) : OptionParser :=
  OptionParser.new.add_option_result E ["--level".toList] (fun o => o.set_default "7".toList)

/-- A group that holds `--depth` with default `5`. -/
def demo_group (E : Env) : OptionGroup :=
  (OptionGroup.new "Advanced".toList []).add_option_result E ["--depth".toList]
    (fun o => o.set_default "5".toList)

/-- The default example with the group attached. -/
def demo_grouped (E : Env) : OptionParser := (demo_level E).add_option_group (demo_group E)

/-- Two flags with one destination and different defaults. -/
def demo_shared (E : Env) : OptionParser :=
  (OptionParser.new.add_option_result E ["-a".toList]
    (fun o => (o.dest "x".toList).set_default "1".toList)).add_option_result E ["-b".toList]
    (fun o => (o.dest "x".toList).set_default "2".toList)

/-- The default example after a scan that stored `3` under `level`. -/
def demo_level_stored (E : Env) : OptionParser :=
  { (demo_level E) with _values := Values.new.assign "level".toList "3".toList }

/-- The registry of the count example: `-v` with action `count`. -/
def demo_count (E : Env) : OptionParser :=
  OptionParser.new.add_option_result E ["-v".toList] (fun o => o.action "count".toList)

/-- A base-10 integer literal: an optional sign followed by one or more decimal digits. -/
def is_int_literal (v : Str) : Bool :=
  match v with
  | '-' :: ds => decide (ds ≠ []) && ds.all is_digit
  | '+' :: ds => decide (ds ≠ []) && ds.all is_digit
  | ds => decide (ds ≠ []) && ds.all is_digit

/-- The number that a base-10 integer literal writes. -/
def int_literal_value (v : Str) : Int :=
  match v with
  | '-' :: ds => -(digits_value ds : Int)
  | '+' :: ds => (digits_value ds : Int)
  | ds => (digits_value ds : Int)

/-- A flag of type `int` for the examples. -/
def demo_int (E : Env) : OptionParser :=
  OptionParser.new.add_option_result E ["--num".toList] (fun o => o.type "int".toList)

/-- A flag `--name` with a value, of type `string` and action `store`. -/
def demo_name (E : Env) : OptionParser :=
  OptionParser.new.add_option_result E ["--name".toList] id

/-- The registry of the short value example: `-b` with a value that is not
optional, `-o` with an optional value and the default `dflt`. -/
def demo_optional (E : Env) : OptionParser :=
  (OptionParser.new.add_option_result E ["-b".toList] (fun o => o.set_optional_value false)).add_option_result E
    ["-o".toList] (fun o => (o.set_optional_value true).set_default "dflt".toList)

/-- The tokens of the positional example. -/
def demo_tokens : List Str :=
  ["x".toList, "-ab".toList, "v".toList, "y".toList, "--".toList, "-a".toList]

/-- The invariant of the first loop of `parse_args` on the input `v`: the
positional arguments are a subsequence of a first part of `v`, and the queue is
the rest of `v`, possibly behind one token that `handle_short_opt` has pushed
back (a `-` followed by the rest of a cluster). -/
def raw_queue (v : List Str) (p : OptionParser) : Prop :=
  ∃ pre suf, v = pre ++ suf ∧ p._leftover.Sublist pre ∧
    (p._remaining = suf ∨ ∃ t, t ≠ [] ∧ p._remaining = ('-' :: t) :: suf)

/-- The parser `p'` differs from `p` at most in what a parse works on: the
store, the queue, the positional arguments and the log of parsed tokens. -/
def same_registry (p p' : OptionParser) : Prop :=
  ∃ vs r l pa, p' = { p with _values := vs, _remaining := r, _leftover := l, _parsed := pa }

/-- Every destination that holds a value is marked as set by the user. -/
def stored_marked (vs : Values) : Prop := ∀ d, vs.get d ≠ none → vs.is_set_by_user d = true

/-- The default example with the override `9` for the destination `level`. -/
def demo_override (E : Env) : OptionParser := (demo_level E).set_defaults "level".toList "9".toList

/-- Two flags with the destination `x`, `-a` with the default `1`, and the
override `9` for `x`. -/
def demo_override_shared (E : Env) : OptionParser :=
  ((OptionParser.new.add_option_result E ["-a".toList]
    (fun o => (o.dest "x".toList).set_default "1".toList)).add_option_result E ["-b".toList]
    (fun o => o.dest "x".toList)).set_defaults "x".toList "9".toList

/-- The long name `--foo` registered twice, the second time with the destination `other`. -/
def demo_twice (E : Env) : OptionParser :=
  (OptionParser.new.add_option_result E ["--foo".toList] id).add_option_result E ["--foo".toList]
    (fun o => o.dest "other".toList)

/-- A registry in which the caller has bound `-h` to a switch of its own. -/
def demo_own_h (E : Env) : OptionParser :=
  OptionParser.new.add_option_result E ["-h".toList]
    (fun o => (o.action "store_true".toList).dest "human".toList)

/-- A call of one of the setters `action`, `type`, `choices`, `nargs`. -/
inductive BuilderCall where
  /-- The call `action(a)`. -/
  | action (a : Str)
  /-- The call `type(t)`. -/
  | type (t : Str)
  /-- The call `choices(begin, end)`. -/
  | choices (cs : List Str)
  /-- The call `nargs(n)`. -/
  | nargs (n : Nat)

/-- The option after a call of a setter. -/
def BuilderCall.apply (o : Opt) : BuilderCall → Opt
  | .action a => o.action a
  | .type t => o.type t
  | .choices cs => o.choices cs
  | .nargs n => o.nargs n

/-- The call gives the option a value type: `type(t)` with `t` not empty, or `choices`. -/
def BuilderCall.gives_type : BuilderCall → Prop
  | .type t => t ≠ []
  | .choices _ => True
  | _ => False

/-- The actions that take no value. -/
def switch_actions : List Str :=
  ["store_true".toList, "store_false".toList, "store_const".toList, "append_const".toList,
    "count".toList, "help".toList, "version".toList]

/-- The arity by action: 0 for the actions that take no value, 0 for
`callback` without a value type, 1 otherwise. -/
def arity_by_action (o : Opt) : Nat :=
  if o._action ∈ switch_actions then 0
  else if o._action = "callback".toList ∧ o._type = [] then 0
  else 1

/-- The registry of the help example. -/
def demo_help (E : Env) : OptionParser :=
  ({ OptionParser.new with _prog := "prog".toList, _description := "A demo.".toList }.add_option_result E
    ["-f".toList, "--file".toList]
    (fun o => ((o.set_optional_value false).help "write to FILE [%default]".toList).set_default
      "out.txt".toList)).add_option_result E ["-q".toList]
    (fun o => (o.action "store_true".toList).help "be quiet".toList)

/-- A registry whose flag of arity 1 has the short name `-`. -/
def demo_dash_value (E : Env) : OptionParser := OptionParser.new.add_option_result E ["x-".toList] id

/-- The invariant of the store during the scan: a destination is marked as set
by the user exactly when it holds a value, and a destination with a list that
is not empty is marked. -/
def store_inv (vs : Values) : Prop :=
  (∀ d, vs.is_set_by_user d = true → vs.get d ≠ none) ∧
  (∀ d, vs.all d ≠ [] → vs.is_set_by_user d = true) ∧
  (∀ d, vs.get d ≠ none → vs.is_set_by_user d = true)

/-- A character at which `str_format` may break a line: one of those that its
`find_first_of(" \n\t", pos)` looks for. -/
def is_break (c : Char) : Bool := decide (c = ' ' ∨ c = '\n' ∨ c = '\t')

/-- The words of a text after the word in progress `acc`: the longest
stretches without a blank, a line break or a tab. -/
def words.go : Str → Str → List Str
  | [], acc => if acc = [] then [] else [acc]
  | c :: cs, acc =>
    if is_break c then (if acc = [] then words.go cs [] else acc :: words.go cs [])
    else words.go cs (acc ++ [c])

/-- The words of a text, in order. -/
def words (s : Str) : List Str := words.go s []

/-- The lines of a text after the line in progress `acc`. -/
def lines.go : Str → Str → List Str
  | [], acc => if acc = [] then [] else [acc]
  | c :: cs, acc => if c = '\n' then acc :: lines.go cs [] else lines.go cs (acc ++ [c])

/-- The lines of a text: what stands before each line break, and what stands
behind the last one when that is not empty. -/
def lines (s : Str) : List Str := lines.go s []

/-- No break point of the line `l` lies beyond the width: what stands before a
blank, a line break or a tab of `l` takes, with the margin `pre`, at most `len`
columns. -/
def break_points_fit (pre len : Nat) (l : Str) : Prop :=
  ∀ u d v, l = u ++ d :: v → is_break d = true → u.length + pre ≤ len

/-- The text `t` cut into the lines of `out`. The last line is a margin, the
rest of the text and a line break. A line before it is a margin, a part `l` of
the text and a line break; the character `d` of the text behind `l`, a blank, a
line break or a tab, is left out. The margin is empty or `pre` blanks. A line
that ends at a blank or a tab fits into `len` columns with the margin `pre`; in
a line that ends at a line break of the text, and in the last line, the break
points do. -/
inductive wrapped (pre len : Nat) : Str → Str → Prop where
  /-- The last line: the margin `m`, the rest `t` of the text, a line break. -/
  | last (m t : Str) : (m = [] ∨ m = List.replicate pre ' ') → break_points_fit pre len t →
      wrapped pre len t (m ++ t ++ ['\n'])
  /-- A line before the last: the margin `m`, the part `l` of the text, a line break; `d` is left out. -/
  | line (m l : Str) (d : Char) (t out : Str) : (m = [] ∨ m = List.replicate pre ' ') →
      is_break d = true → break_points_fit pre len l → (d ≠ '\n' → l.length + pre ≤ len) →
      wrapped pre len t out → wrapped pre len (l ++ d :: t) (m ++ l ++ '\n' :: out)

/-- A registry with a line break in the description, in the epilog and in the
help text of its flag. -/
def demo_breaks : OptionParser :=
  { OptionParser.new with _prog := "prog".toList, _description := "one\ntwo".toList, _epilog := "three\nfour".toList }.add_option_result
    demo_env ["-f".toList] (fun o => o.help "first\nsecond".toList)

/-- A registry with the long name `--foo`, to which a group is attached whose
flag has the long name `--foo` too, with the destination `other`. -/
def demo_group_twice (E : Env) : OptionParser :=
  (OptionParser.new.add_option_result E ["--foo".toList] id).add_option_group
    ((OptionGroup.new "More".toList []).add_option_result E ["--foo".toList]
      (fun o => o.dest "other".toList))

/-- A registry with the flag `-b`, on which `set_optional_value` is not called. -/
def demo_plain (E : Env) : OptionParser := OptionParser.new.add_option_result E ["-b".toList] id

/-- An environment in which the memory of `_optional_value` of a new option
holds `true`. -/
def demo_env_set : Env := { demo_env with uninit_optional_value := true }

/-- The registry of the short value example with the override `over` for the
destination `o`. -/
def demo_optional_override (E : Env) : OptionParser :=
  (demo_optional E).set_defaults "o".toList "over".toList

/-- The name in a long flag token without its `--`: what stands before the
first `=`. -/
def long_name (s : Str) : Str := s.takeWhile (fun c => decide (c ≠ '='))

/-- The inline value in a long flag token: what stands behind the first `=`. -/
def inline_value (s : Str) : Str := (s.dropWhile (fun c => decide (c ≠ '='))).tail

/-- Reading of the long flag token `--s` at the front of a queue, for the flag
`o` of the registry `p`: the values with which `o` occurs there (one, or none
when the name resolves to another flag) and the queue behind the occurrence.
A flag of arity 1 takes the inline value, or else the next token. `none` where
the scan ends: the name resolves to no flag, or the value is missing. -/
def flag_step.long (p : OptionParser) (o : Opt) (s : Str) (rest : List Str) :
    Option (List Str × List Str) :=
  match p.lookup_long_opt (long_name s) with
  | .error _ => none
  | .ok o' =>
    if o'._nargs = 1 then
      if '=' ∈ s then some (if o' = o then [inline_value s] else [], rest)
      else
        match rest with
        | value :: rest' => some (if o' = o then [value] else [], rest')
        | [] => none
    else some ([], rest)

/-- Reading of the short flag token `-x` followed by `t` at the front of a
queue, for the flag `o` of the registry `p`. A flag of arity 1 takes `t` when
it is not empty, or else the next token, or else, with an optional value, its
resolved default; another flag leaves `-` followed by `t` at the front of the
queue when `t` is not empty. `none` where the scan ends. -/
def flag_step.short (p : OptionParser) (o : Opt) (x : Char) (t : Str) (rest : List Str) :
    Option (List Str × List Str) :=
  match SMap.find p._optmap_s [x] with
  | none => none
  | some o' =>
    if o'._nargs = 1 then
      if t ≠ [] then some (if o' = o then [t] else [], rest)
      else
        match rest with
        | value :: rest' => some (if o' = o then [value] else [], rest')
        | [] =>
          if o'._optional_value = true then some (if o' = o then [o'.get_default p] else [], [])
          else none
    else some ([], if t ≠ [] then ('-' :: t) :: rest else rest)

/-- Reading of the token `arg` at the front of a queue, `rest` behind it, for
the flag `o` of the registry `p`: the token `--` ends the scan; a longer token
that starts with `--` is a long flag; another token of two or more characters
that starts with `-` is a short flag; any other token is a positional argument,
which ends the scan unless arguments may be interspersed. -/
def flag_step (p : OptionParser) (o : Opt) (arg : Str) (rest : List Str) :
    Option (List Str × List Str) :=
  match arg with
  | c1 :: c2 :: s =>
    if c1 = '-' then
      if c2 = '-' then (if s = [] then none else flag_step.long p o s rest)
      else flag_step.short p o c2 s rest
    else if p._interspersed_args = true then some ([], rest) else none
  | _ => if p._interspersed_args = true then some ([], rest) else none

/-- The values with which the flag `o` occurs in a queue of tokens, in order,
as the tokens are read one after the other; the first argument bounds the
number of tokens read. -/
def flag_values (p : OptionParser) (o : Opt) : Nat → List Str → List Str
  | 0, _ => []
  | _ + 1, [] => []
  | n + 1, arg :: rest =>
    match flag_step p o arg rest with
    | none => []
    | some (vals, queue) => vals ++ flag_values p o n queue

/-- The values with which the flag `o` occurs in the token list `v`, in order. -/
def occurrence_values (p : OptionParser) (o : Opt) (v : List Str) : List Str :=
  flag_values p o (queue_size v + 1) v

/-- The store `vs'` is the store `vs` after the values `vals` were appended
under the destination `d`, one after the other. -/
def appended (d : Str) (vs vs' : Values) (vals : List Str) : Prop :=
  vs'.all d = vs.all d ++ vals ∧
  vs'.get d = (match vals.getLast? with
    | some v => some v
    | none => vs.get d) ∧
  (vals ≠ [] → vs'.is_set_by_user d = true) ∧
  (vs.is_set_by_user d = true → vs'.is_set_by_user d = true)

/-- The flags that the names of the registry are bound to. -/
def bound_flags (p : OptionParser) : List Opt :=
  p._optmap_s.map Prod.snd ++ p._optmap_l.map Prod.snd

/-- A registry with the switch `-a`, the flag `-t`, `--tag` of action `append`
and the flag `-n` that takes a value. -/
def demo_tag_mixed (E : Env) : OptionParser :=
  ((OptionParser.new.add_option_result E ["-a".toList]
    (fun o => o.action "store_true".toList)).add_option_result E ["-t".toList, "--tag".toList]
    (fun o => o.action "append".toList)).add_option_result E ["-n".toList]
    (fun o => o.set_optional_value false)

/-- The flag `-t`, `--tag` of that registry. -/
def demo_tag_flag (E : Env) : Opt := ((demo_tag_mixed E)._opts.drop 1).headD (Opt.new E)

/-- The tokens of the append example: the flag occurs four times, between a
positional argument, a switch, a cluster and a flag whose value looks like an
occurrence. -/
def demo_tag_tokens : List Str :=
  ["x".toList, "--tag=p".toList, "-a".toList, "-atq".toList, "-n".toList, "--tag=no".toList,
   "--tag".toList, "r".toList, "y".toList, "-t".toList, "s".toList, "--".toList, "--tag=z".toList]

/-- An environment with a terminal of 3 columns. -/
def demo_env_narrow : Env := { demo_env with cols := 3 }

set_option maxRecDepth 100000

/-! ## Lemmas -/

theorem char_lt_irrefl (a : Char) : char_lt a a = false := by
  simp [char_lt]

theorem str_lt_irrefl (a : Str) : str_lt a a = false := by
  induction a with
  | nil => rfl
  | cons c cs ih => simp [str_lt, char_lt_irrefl, ih]

theorem compare_prefix_eq_iff (key opt : Str) : compare_prefix_eq key opt = true ↔ opt <+: key := by
  simp only [compare_prefix_eq, substr, List.drop_zero, decide_eq_true_eq]
  rw [List.prefix_iff_eq_take]
  exact eq_comm

theorem str_lt_of_starts_with {key opt : Str} (h : opt <+: key) : str_lt key opt = false := by
  induction opt generalizing key with
  | nil => cases key <;> rfl
  | cons c cs ih =>
    cases key with
    | nil => simp at h
    | cons k ks =>
      rw [List.cons_prefix_cons] at h
      obtain ⟨rfl, h⟩ := h
      simp [str_lt, char_lt_irrefl, ih h]

theorem SMap.find_some_mem_keys {α : Type} {m : SMap α} {k : Str} {v : α} (h : SMap.find m k = some v) :
    k ∈ SMap.keys m := by
  induction m with
  | nil => simp [SMap.find] at h
  | cons e m ih =>
    obtain ⟨k', v'⟩ := e
    simp only [SMap.find] at h
    by_cases hk : k' = k
    · subst hk
      exact List.mem_cons_self _ _
    · simp only [hk, if_false] at h
      have := ih h
      simp only [SMap.keys, List.map_cons, List.mem_cons]
      exact Or.inr this

theorem SMap.find_none_iff {α : Type} {m : SMap α} {k : Str} : SMap.find m k = none ↔ k ∉ SMap.keys m := by
  induction m with
  | nil => simp [SMap.find, SMap.keys]
  | cons e m ih =>
    obtain ⟨k', v'⟩ := e
    simp only [SMap.find, SMap.keys, List.map_cons, List.mem_cons, not_or]
    by_cases hk : k' = k
    · subst hk
      simp only [if_true]
      constructor
      · intro h; cases h
      · intro h; exact absurd trivial h.1
    · simp only [hk, if_false]
      rw [ih]
      constructor
      · intro h; exact ⟨fun h' => hk h'.symm, h⟩
      · intro h; exact h.2

theorem SMap.ordered_tail {α : Type} {e : Str × α} {m : SMap α} (h : SMap.ordered (e :: m)) :
    SMap.ordered m := by
  simp only [SMap.ordered, SMap.keys, List.map_cons, List.pairwise_cons] at h
  exact h.2

theorem SMap.ordered_head_lt {α : Type} {e : Str × α} {m : SMap α} (h : SMap.ordered (e :: m))
    {k : Str} (hk : k ∈ SMap.keys m) : str_lt e.1 k = true := by
  simp only [SMap.ordered, SMap.keys, List.map_cons, List.pairwise_cons] at h
  exact h.1 k hk

/-- With `opt` a key of an ordered map, the loop of `lookup_long_opt` stops at
`opt` and has collected nothing before it. -/
theorem matching_exact {m : SMap Opt} (hm : SMap.ordered m) {opt : Str} (h : opt ∈ SMap.keys m)
    (acc : List Str) : OptionParser.lookup_long_opt.matching opt m acc = acc ++ [opt] := by
  induction m with
  | nil => simp [SMap.keys] at h
  | cons e m ih =>
    simp only [SMap.keys, List.map_cons, List.mem_cons] at h
    simp only [OptionParser.lookup_long_opt.matching]
    by_cases he : e.1 = opt
    · have : compare_prefix_eq e.1 opt = true := by
        rw [compare_prefix_eq_iff, he]
      rw [he] at this ⊢
      simp [this]
    · have hin : opt ∈ SMap.keys m := by
        rcases h with h | h
        · exact absurd h.symm he
        · exact h
      have hlt := SMap.ordered_head_lt hm hin
      have : compare_prefix_eq e.1 opt = false := by
        by_contra hc
        rw [Bool.not_eq_false, compare_prefix_eq_iff] at hc
        rw [str_lt_of_starts_with hc] at hlt
        exact Bool.false_ne_true hlt
      simp only [this, Bool.false_eq_true, if_false]
      exact ih (SMap.ordered_tail hm) hin

/-- With `opt` not a key, the loop of `lookup_long_opt` collects every key that
starts with `opt`, in the order of the map. -/
theorem matching_no_exact {m : SMap Opt} {opt : Str} (h : opt ∉ SMap.keys m) (acc : List Str) :
    OptionParser.lookup_long_opt.matching opt m acc
      = acc ++ (SMap.keys m).filter (fun k => decide (opt <+: k)) := by
  induction m generalizing acc with
  | nil => simp [OptionParser.lookup_long_opt.matching, SMap.keys]
  | cons e m ih =>
    simp only [SMap.keys, List.map_cons, List.mem_cons, not_or] at h
    simp only [OptionParser.lookup_long_opt.matching, SMap.keys, List.map_cons, List.filter_cons]
    by_cases hp : opt <+: e.1
    · have hc : compare_prefix_eq e.1 opt = true := (compare_prefix_eq_iff _ _).2 hp
      have hlen : e.1.length ≠ opt.length := by
        intro hl
        exact h.1 (List.IsPrefix.eq_of_length hp hl.symm)
      simp only [hc, if_true, hlen, if_false, hp, decide_True]
      rw [ih h.2]
      simp [SMap.keys]
    · have hc : compare_prefix_eq e.1 opt = false := by
        rw [← Bool.not_eq_true, compare_prefix_eq_iff]; exact hp
      simp only [hc, Bool.false_eq_true, if_false, hp, decide_False]
      exact ih h.2 acc

theorem matching_subset (opt : Str) (m : SMap Opt) :
    ∀ (acc : List Str), ∀ k ∈ OptionParser.lookup_long_opt.matching opt m acc,
      k ∈ acc ∨ k ∈ SMap.keys m := by
  induction m with
  | nil => intro acc k hk; exact Or.inl hk
  | cons e m ih =>
    intro acc k hk
    simp only [OptionParser.lookup_long_opt.matching] at hk
    simp only [SMap.keys, List.map_cons, List.mem_cons]
    split_ifs at hk
    · rcases List.mem_append.1 hk with h | h
      · exact Or.inl h
      · exact Or.inr (Or.inl (List.mem_singleton.1 h))
    · rcases ih _ k hk with h | h
      · rcases List.mem_append.1 h with h | h
        · exact Or.inl h
        · exact Or.inr (Or.inl (List.mem_singleton.1 h))
      · exact Or.inr (Or.inr h)
    · rcases ih _ k hk with h | h
      · exact Or.inl h
      · exact Or.inr (Or.inr h)

/-- The last line of `lookup_long_opt` never dereferences `end()`: the result
is an option or one of the two error messages. -/
theorem lookup_long_opt_defined (p : OptionParser) (opt : Str) :
    p.lookup_long_opt opt ≠ .error [] := by
  unfold OptionParser.lookup_long_opt
  simp only
  split_ifs with h1 h2
  · intro h
    have := congrArg List.length (Except.error.inj h)
    simp [String.toList] at this
  · intro h
    have := congrArg List.length (Except.error.inj h)
    simp [String.toList] at this
  · cases hm : OptionParser.lookup_long_opt.matching opt p._optmap_l [] with
    | nil => rw [hm] at h2; exact absurd rfl h2
    | cons k ks =>
      have hk : k ∈ SMap.keys p._optmap_l := by
        rcases matching_subset opt p._optmap_l [] k (by rw [hm]; exact List.mem_cons_self _ _) with h | h
        · cases h
        · exact h
      simp only [List.headD_cons]
      cases hf : SMap.find p._optmap_l k with
      | none => exact absurd hk (SMap.find_none_iff.1 hf)
      | some o => simp

theorem lookup_long_opt_of_matching_single {p : OptionParser} {opt n : Str} {o : Opt}
    (hm : OptionParser.lookup_long_opt.matching opt p._optmap_l [] = [n])
    (hf : SMap.find p._optmap_l n = some o) : p.lookup_long_opt opt = .ok o := by
  simp [OptionParser.lookup_long_opt, hm, hf]

theorem ordered_keys_nodup {α : Type} {m : SMap α} (hm : SMap.ordered m) : (SMap.keys m).Nodup := by
  unfold SMap.ordered at hm
  refine List.Pairwise.imp ?_ hm
  intro a b hlt heq
  subst heq
  rw [str_lt_irrefl] at hlt
  exact Bool.false_ne_true hlt

theorem filter_eq_singleton {l : List Str} {f : Str → Bool} {n : Str} (hnd : l.Nodup) (hn : n ∈ l)
    (hf : f n = true) (huniq : ∀ k ∈ l, f k = true → k = n) : l.filter f = [n] := by
  induction l with
  | nil => simp at hn
  | cons a l ih =>
    rw [List.nodup_cons] at hnd
    rw [List.filter_cons]
    by_cases ha : a = n
    · subst ha
      rw [if_pos hf]
      congr 1
      rw [List.filter_eq_nil_iff]
      intro k hk hfk
      have := huniq k (List.mem_cons_of_mem _ hk) hfk
      subst this
      exact hnd.1 hk
    · have hfa : ¬ f a = true := fun h => ha (huniq a (List.mem_cons_self _ _) h)
      rw [if_neg hfa]
      have hn' : n ∈ l := by
        rcases List.mem_cons.1 hn with h | h
        · exact absurd h.symm ha
        · exact h
      exact ih hnd.2 hn' (fun k hk => huniq k (List.mem_cons_of_mem _ hk))

theorem lookup_long_opt_ambiguous_general (p : OptionParser) (opt : Str)
    (hord : SMap.ordered p._optmap_l)
    (hnot : SMap.find p._optmap_l opt = none)
    (htwo : 2 ≤ ((SMap.keys p._optmap_l).filter (fun k => decide (opt <+: k))).length) :
    p.lookup_long_opt opt = .error ("ambiguous option: --".toList ++ opt ++ " (".toList ++
        str_join_trans ", ".toList (str_wrap "--".toList [])
          ((SMap.keys p._optmap_l).filter (fun k => decide (opt <+: k))) ++ "?)".toList) ∧
      ((SMap.keys p._optmap_l).filter (fun k => decide (opt <+: k))).Pairwise
        (fun a b => str_lt a b = true) := by
  have hm := matching_no_exact (SMap.find_none_iff.1 hnot) []
  rw [List.nil_append] at hm
  refine ⟨?_, ?_⟩
  · unfold OptionParser.lookup_long_opt
    simp only [hm]
    rw [if_pos (by omega)]
    simp
  · exact List.Pairwise.sublist (List.filter_sublist _) hord

theorem process_opt_ok {p p' : OptionParser} {E : Env} {o : Opt} {opt value : Str}
    (h : p.process_opt E o opt value = .ok p') : ∃ vs, p' = { p with _values := vs } := by
  unfold OptionParser.process_opt at h
  by_cases h1 : o._action = "store".toList
  · rw [if_pos h1] at h
    dsimp only at h
    by_cases e : o.check_type E opt value ≠ []
    · rw [if_pos e] at h; cases h
    · rw [if_neg e] at h; exact ⟨_, (Outcome.ok.inj h).symm⟩
  rw [if_neg h1] at h
  by_cases h2 : o._action = "store_const".toList
  · rw [if_pos h2] at h; exact ⟨_, (Outcome.ok.inj h).symm⟩
  rw [if_neg h2] at h
  by_cases h3 : o._action = "store_true".toList
  · rw [if_pos h3] at h; exact ⟨_, (Outcome.ok.inj h).symm⟩
  rw [if_neg h3] at h
  by_cases h4 : o._action = "store_false".toList
  · rw [if_pos h4] at h; exact ⟨_, (Outcome.ok.inj h).symm⟩
  rw [if_neg h4] at h
  by_cases h5 : o._action = "append".toList
  · rw [if_pos h5] at h
    dsimp only at h
    by_cases e : o.check_type E opt value ≠ []
    · rw [if_pos e] at h; cases h
    · rw [if_neg e] at h; exact ⟨_, (Outcome.ok.inj h).symm⟩
  rw [if_neg h5] at h
  by_cases h6 : o._action = "append_const".toList
  · rw [if_pos h6] at h; exact ⟨_, (Outcome.ok.inj h).symm⟩
  rw [if_neg h6] at h
  by_cases h7 : o._action = "count".toList
  · rw [if_pos h7] at h; exact ⟨_, (Outcome.ok.inj h).symm⟩
  rw [if_neg h7] at h
  by_cases h8 : o._action = "help".toList
  · rw [if_pos h8] at h; cases h
  rw [if_neg h8] at h
  by_cases h9 : o._action = "version".toList
  · rw [if_pos h9] at h; cases h
  rw [if_neg h9] at h
  by_cases h10 : o._action = "callback".toList ∧ o._callback = true
  · rw [if_pos h10] at h
    dsimp only at h
    by_cases e : o.check_type E opt value ≠ []
    · rw [if_pos e] at h; cases h
    · rw [if_neg e] at h; exact ⟨_, (Outcome.ok.inj h).symm⟩
  rw [if_neg h10] at h
  exact ⟨_, (Outcome.ok.inj h).symm⟩

theorem process_opt_remaining {p p' : OptionParser} {E : Env} {o : Opt} {opt value : Str}
    (h : p.process_opt E o opt value = .ok p') : p'._remaining = p._remaining := by
  obtain ⟨vs, rfl⟩ := process_opt_ok h
  rfl

theorem queue_size_cons (t : Str) (v : List Str) : queue_size (t :: v) = t.length + 1 + queue_size v := by
  simp [queue_size]

theorem handle_short_opt_unknown {p : OptionParser} {E : Env} {opt arg : Str}
    (hfind : SMap.find p._optmap_s opt = none) :
    p.handle_short_opt E opt arg = .error ("no such option".toList ++ ": -".toList ++ opt) := by
  unfold OptionParser.handle_short_opt
  simp only [OptionParser.lookup_short_opt, hfind]

theorem handle_short_opt_flag {p : OptionParser} {E : Env} {opt arg : Str} {o : Opt}
    (hfind : SMap.find p._optmap_s opt = some o) (hn : o._nargs ≠ 1) :
    p.handle_short_opt E opt arg =
      (if arg.length > 2 then
        { p with _parsed := p._parsed ++ ["-".toList ++ opt],
                 _remaining := ("-".toList ++ substr_from arg 2) :: p._remaining.tail }
      else { p with _parsed := p._parsed ++ ["-".toList ++ opt], _remaining := p._remaining.tail }).process_opt
        E o ("-".toList ++ opt) [] := by
  unfold OptionParser.handle_short_opt
  simp only [OptionParser.lookup_short_opt, hfind]
  rw [if_neg hn]

theorem handle_short_opt_attached {p : OptionParser} {E : Env} {opt arg : Str} {o : Opt}
    (hfind : SMap.find p._optmap_s opt = some o) (hn : o._nargs = 1) (hv : substr_from arg 2 ≠ []) :
    p.handle_short_opt E opt arg =
      ({ p with _parsed := p._parsed ++ ["-".toList ++ opt], _remaining := p._remaining.tail }).process_opt
        E o ("-".toList ++ opt) (substr_from arg 2) := by
  unfold OptionParser.handle_short_opt
  simp only [OptionParser.lookup_short_opt, hfind]
  rw [if_pos hn, if_neg hv]

theorem handle_short_opt_next {p : OptionParser} {E : Env} {opt arg : Str} {o : Opt}
    (hfind : SMap.find p._optmap_s opt = some o) (hn : o._nargs = 1) (hv : substr_from arg 2 = [])
    {first front : Str} {rest : List Str} (hq : p._remaining = first :: front :: rest) :
    p.handle_short_opt E opt arg =
      ({ p with _parsed := p._parsed ++ ["-".toList ++ opt] ++ [front], _remaining := rest }).process_opt
        E o ("-".toList ++ opt) front := by
  unfold OptionParser.handle_short_opt
  simp only [OptionParser.lookup_short_opt, hfind, hq, List.tail_cons]
  rw [if_pos hn, if_pos hv]

theorem handle_short_opt_optional {p : OptionParser} {E : Env} {opt arg : Str} {o : Opt}
    (hfind : SMap.find p._optmap_s opt = some o) (hn : o._nargs = 1) (hv : substr_from arg 2 = [])
    (hq : p._remaining.tail = []) (hopt : o._optional_value = true) :
    p.handle_short_opt E opt arg =
      ({ p with _parsed := p._parsed ++ ["-".toList ++ opt] ++ [o.get_default p],
                _remaining := [] }).process_opt E o ("-".toList ++ opt) (o.get_default p) := by
  unfold OptionParser.handle_short_opt
  simp only [OptionParser.lookup_short_opt, hfind, hq]
  rw [if_pos hn, if_pos hv, if_pos hopt]
  rfl

theorem handle_short_opt_missing {p : OptionParser} {E : Env} {opt arg : Str} {o : Opt}
    (hfind : SMap.find p._optmap_s opt = some o) (hn : o._nargs = 1) (hv : substr_from arg 2 = [])
    (hq : p._remaining.tail = []) (hopt : o._optional_value = false) :
    p.handle_short_opt E opt arg =
      .error ("-".toList ++ opt ++ " ".toList ++ "option requires an argument".toList) := by
  unfold OptionParser.handle_short_opt
  simp only [OptionParser.lookup_short_opt, hfind, hq]
  rw [if_pos hn, if_pos hv, if_neg (by simp [hopt])]

theorem str_find_eq_none {s : Str} (h : '=' ∉ s) : str_find_eq s = none := by
  induction s with
  | nil => rfl
  | cons c cs ih =>
    rw [List.mem_cons, not_or] at h
    simp only [str_find_eq]
    rw [if_neg (fun e => h.1 e.symm), ih h.2]
    rfl

theorem str_find_eq_append {name value : Str} (h : '=' ∉ name) :
    str_find_eq (name ++ '=' :: value) = some name.length := by
  induction name with
  | nil => simp [str_find_eq]
  | cons c cs ih =>
    rw [List.mem_cons, not_or] at h
    simp only [List.cons_append, str_find_eq]
    rw [if_neg (fun e => h.1 e.symm)]
    have := ih h.2
    simp only [List.append_eq] at this ⊢
    rw [this]
    rfl

theorem str_find_eq_some {s : Str} {d : Nat} (h : str_find_eq s = some d) :
    '=' ∉ substr s 0 d ∧ s = substr s 0 d ++ '=' :: substr_from s (d + 1) := by
  induction s generalizing d with
  | nil => simp [str_find_eq] at h
  | cons c cs ih =>
    simp only [str_find_eq] at h
    by_cases hc : c = '='
    · rw [if_pos hc] at h
      cases h
      subst hc
      simp [substr, substr_from]
    · rw [if_neg hc] at h
      cases hf : str_find_eq cs with
      | none => rw [hf] at h; cases h
      | some d' =>
        rw [hf] at h
        cases h
        have := ih hf
        simp only [substr, substr_from, List.drop_zero, List.take_succ_cons, List.mem_cons, not_or,
          List.drop_succ_cons, List.cons_append, List.cons.injEq, true_and] at this ⊢
        exact ⟨⟨fun e => hc e.symm, this.1⟩, this.2⟩

theorem lookup_long_opt_queue (p : OptionParser) (r : List Str) (opt : Str) :
    ({ p with _remaining := r }).lookup_long_opt opt = p.lookup_long_opt opt := rfl

theorem handle_long_opt_error {p : OptionParser} {E : Env} {optstr msg : Str}
    (hnone : str_find_eq optstr = none) (hl : p.lookup_long_opt optstr = .error msg) :
    p.handle_long_opt E optstr = .error msg := by
  unfold OptionParser.handle_long_opt
  simp only [hnone, lookup_long_opt_queue, hl]

theorem handle_long_opt_inline {p : OptionParser} {E : Env} {name value : Str} {o : Opt}
    (hname : '=' ∉ name) (hl : p.lookup_long_opt name = .ok o) (hv : o._nargs = 1 → value ≠ []) :
    p.handle_long_opt E (name ++ '=' :: value) =
      ({ p with _remaining := p._remaining.tail }).process_opt E o ("--".toList ++ name) value := by
  unfold OptionParser.handle_long_opt
  have h1 : substr (name ++ '=' :: value) 0 name.length = name := by simp [substr]
  have h2 : substr_from (name ++ '=' :: value) (name.length + 1) = value := by
    simp [substr_from, List.drop_append]
  simp only [str_find_eq_append hname, lookup_long_opt_queue, h1, h2, hl, reduceCtorEq, and_false,
    if_false]
  rw [if_neg (fun h => hv h.1 h.2)]

theorem handle_long_opt_inline_empty {p : OptionParser} {E : Env} {name : Str} {o : Opt}
    (hname : '=' ∉ name) (hl : p.lookup_long_opt name = .ok o) (hn : o._nargs = 1) :
    p.handle_long_opt E (name ++ ['=']) =
      .error ("--".toList ++ name ++ " ".toList ++ "option requires an argument".toList) := by
  unfold OptionParser.handle_long_opt
  have h1 : substr (name ++ ['=']) 0 name.length = name := by simp [substr]
  have h2 : substr_from (name ++ ['=']) (name.length + 1) = [] := by
    simp [substr_from, List.drop_append]
  simp only [str_find_eq_append hname, lookup_long_opt_queue, h1, h2, hl, reduceCtorEq, and_false,
    if_false]
  rw [if_pos ⟨hn, trivial⟩]

theorem handle_long_opt_flag {p : OptionParser} {E : Env} {name : Str} {o : Opt}
    (hname : '=' ∉ name) (hl : p.lookup_long_opt name = .ok o) (hn : o._nargs ≠ 1) :
    p.handle_long_opt E name =
      ({ p with _remaining := p._remaining.tail }).process_opt E o ("--".toList ++ name) [] := by
  unfold OptionParser.handle_long_opt
  simp only [str_find_eq_none hname, lookup_long_opt_queue, hl, hn, false_and, if_false]

theorem handle_long_opt_next {p : OptionParser} {E : Env} {name : Str} {o : Opt}
    (hname : '=' ∉ name) (hl : p.lookup_long_opt name = .ok o) (hn : o._nargs = 1)
    {first front : Str} {rest : List Str} (hq : p._remaining = first :: front :: rest)
    (hv : front ≠ []) :
    p.handle_long_opt E name =
      ({ p with _remaining := rest }).process_opt E o ("--".toList ++ name) front := by
  unfold OptionParser.handle_long_opt
  simp only [str_find_eq_none hname, lookup_long_opt_queue, hl, hq, List.tail_cons, hn, and_self,
    if_true, true_and, hv, if_false]

theorem iteration_nil {E : Env} {p : OptionParser} (hq : p._remaining = []) :
    OptionParser.parse_args.iteration E p = .stop (.ok p) := by
  unfold OptionParser.parse_args.iteration
  simp only [hq]

theorem iteration_terminator {E : Env} {p : OptionParser} {rest : List Str}
    (hq : p._remaining = "--".toList :: rest) :
    OptionParser.parse_args.iteration E p = .stop (.ok { p with _remaining := rest }) := by
  unfold OptionParser.parse_args.iteration
  simp only [hq, if_true]

theorem iteration_long {E : Env} {p : OptionParser} {s : Str} {rest : List Str}
    (hq : p._remaining = ('-' :: '-' :: s) :: rest) (hs : s ≠ []) :
    OptionParser.parse_args.iteration E p =
      match ({ p with _parsed := p._parsed ++ ['-' :: '-' :: s] }).handle_long_opt E s with
      | .ok p => .next p
      | r => .stop r := by
  unfold OptionParser.parse_args.iteration
  simp only [hq]
  have h1 : ¬ ('-' :: '-' :: s = "--".toList) := by
    intro h
    simp only [String.toList, List.cons.injEq, true_and] at h
    exact hs h
  have h2 : substr ('-' :: '-' :: s) 0 2 = "--".toList := by
    simp [substr]
  rw [if_neg h1, if_pos h2]
  rfl

theorem iteration_short {E : Env} {p : OptionParser} {x : Char} {t : Str} {rest : List Str}
    (hq : p._remaining = ('-' :: x :: t) :: rest) (hx : x ≠ '-') :
    OptionParser.parse_args.iteration E p =
      match p.handle_short_opt E [x] ('-' :: x :: t) with
      | .ok p => .next p
      | r => .stop r := by
  unfold OptionParser.parse_args.iteration
  simp only [hq]
  have h1 : ¬ ('-' :: x :: t = "--".toList) := by
    intro h
    simp only [String.toList, List.cons.injEq, true_and] at h
    exact hx h.1
  have h2 : ¬ (substr ('-' :: x :: t) 0 2 = "--".toList) := by
    intro h
    simp only [substr, String.toList, List.drop_zero, List.take_succ_cons, List.cons.injEq,
      true_and] at h
    exact hx h.1
  have h3 : substr ('-' :: x :: t) 0 1 = "-".toList ∧ ('-' :: x :: t).length > 1 := by
    simp [substr]
  rw [if_neg h1, if_neg h2, if_pos h3]
  rfl

theorem is_positional_cases {arg : Str} (h : is_positional arg = true) :
    arg = [] ∨ arg = ['-'] ∨ ∃ c t, arg = c :: t ∧ c ≠ '-' := by
  unfold is_positional at h
  rw [decide_eq_true_iff] at h
  cases arg with
  | nil => exact Or.inl rfl
  | cons c t =>
    rcases h with h | h
    · refine Or.inr (Or.inr ⟨c, t, rfl, ?_⟩)
      intro e
      exact h (by rw [e]; rfl)
    · exact Or.inr (Or.inl h)

theorem is_positional_of_cases {arg : Str}
    (h : arg = [] ∨ arg = ['-'] ∨ ∃ c t, arg = c :: t ∧ c ≠ '-') : is_positional arg = true := by
  unfold is_positional
  rw [decide_eq_true_iff]
  rcases h with h | h | ⟨c, t, h, hc⟩
  · left; rw [h]; simp
  · right; exact h
  · left
    rw [h]
    intro e
    exact hc (Option.some.inj e)

theorem iteration_positional {E : Env} {p : OptionParser} {arg : Str} {rest : List Str}
    (hq : p._remaining = arg :: rest) (ha : is_positional arg = true) :
    OptionParser.parse_args.iteration E p =
      if p._interspersed_args = true then
        .next { p with _remaining := rest, _leftover := p._leftover ++ [arg] }
      else .stop (.ok { p with _remaining := rest, _leftover := p._leftover ++ [arg] }) := by
  unfold OptionParser.parse_args.iteration
  simp only [hq]
  have h1 : ¬ (arg = "--".toList) := by
    rcases is_positional_cases ha with h | h | ⟨c, t, h, hc⟩ <;> subst h
    · simp
    · simp
    · intro h
      simp only [String.toList, List.cons.injEq] at h
      exact hc h.1
  have h2 : ¬ (substr arg 0 2 = "--".toList) := by
    rcases is_positional_cases ha with h | h | ⟨c, t, h, hc⟩ <;> subst h
    · simp [substr]
    · simp [substr]
    · intro h
      simp only [substr, String.toList, List.drop_zero, List.take_succ_cons, List.cons.injEq] at h
      exact hc h.1
  have h3 : ¬ (substr arg 0 1 = "-".toList ∧ arg.length > 1) := by
    rcases is_positional_cases ha with h | h | ⟨c, t, h, hc⟩ <;> subst h
    · simp [substr]
    · simp [substr]
    · intro h
      simp only [substr, String.toList, List.drop_zero, List.take_succ_cons, List.cons.injEq] at h
      exact hc h.1.1
  rw [if_neg h1, if_neg h2, if_neg h3]
  cases p._interspersed_args <;> simp

/-- Every token is the terminator, a long option, a short option, or positional. -/
theorem token_cases (arg : Str) :
    arg = "--".toList ∨ (∃ s, arg = '-' :: '-' :: s ∧ s ≠ []) ∨
      (∃ x t, arg = '-' :: x :: t ∧ x ≠ '-') ∨ is_positional arg = true := by
  match arg with
  | [] => exact Or.inr (Or.inr (Or.inr (is_positional_of_cases (Or.inl rfl))))
  | [c] =>
    by_cases hc : c = '-'
    · subst hc; exact Or.inr (Or.inr (Or.inr (is_positional_of_cases (Or.inr (Or.inl rfl)))))
    · exact Or.inr (Or.inr (Or.inr (is_positional_of_cases (Or.inr (Or.inr ⟨c, [], rfl, hc⟩)))))
  | c :: x :: t =>
    by_cases hc : c = '-'
    · subst hc
      by_cases hx : x = '-'
      · subst hx
        by_cases ht : t = []
        · subst ht; exact Or.inl rfl
        · exact Or.inr (Or.inl ⟨t, rfl, ht⟩)
      · exact Or.inr (Or.inr (Or.inl ⟨x, t, rfl, hx⟩))
    · exact Or.inr (Or.inr (Or.inr (is_positional_of_cases (Or.inr (Or.inr ⟨c, x :: t, rfl, hc⟩)))))

theorem handle_long_opt_queue {p p' : OptionParser} {E : Env} {optstr : Str}
    (h : p.handle_long_opt E optstr = .ok p') :
    queue_size p'._remaining ≤ queue_size p._remaining.tail := by
  unfold OptionParser.handle_long_opt at h
  simp only [lookup_long_opt_queue] at h
  split at h
  · cases h
  · rename_i option _
    split_ifs at h with h1 h2
    all_goals rw [process_opt_remaining h]
    cases hr : p._remaining.tail with
    | nil => simp [queue_size]
    | cons front rest => simp only [queue_size_cons]; omega

theorem handle_short_opt_queue {p p' : OptionParser} {E : Env} {x : Char} {t : Str}
    (h : p.handle_short_opt E [x] ('-' :: x :: t) = .ok p') :
    queue_size p'._remaining ≤ t.length + 2 + queue_size p._remaining.tail := by
  cases hf : SMap.find p._optmap_s [x] with
  | none => rw [handle_short_opt_unknown hf] at h; cases h
  | some o =>
    by_cases hn : o._nargs = 1
    · by_cases hv : substr_from ('-' :: x :: t) 2 = []
      · cases hr : p._remaining.tail with
        | nil =>
          cases hopt : o._optional_value with
          | true =>
            rw [handle_short_opt_optional hf hn hv hr hopt] at h
            rw [process_opt_remaining h]
            simp [queue_size]
          | false =>
            rw [handle_short_opt_missing hf hn hv hr hopt] at h
            cases h
        | cons front rest =>
          cases hq : p._remaining with
          | nil => rw [hq] at hr; cases hr
          | cons first tl =>
            rw [hq, List.tail_cons] at hr
            subst hr
            rw [handle_short_opt_next hf hn hv hq] at h
            rw [process_opt_remaining h]
            simp only [queue_size_cons]
            omega
      · rw [handle_short_opt_attached hf hn hv] at h
        rw [process_opt_remaining h]
        simp only
        omega
    · rw [handle_short_opt_flag hf hn] at h
      rw [process_opt_remaining h]
      by_cases hl : ('-' :: x :: t).length > 2
      · rw [if_pos hl]
        simp only [queue_size_cons, substr_from, List.length_append]
        simp
        omega
      · rw [if_neg hl]
        simp only
        omega

/-- An iteration that does not leave the loop makes the queue smaller. -/
theorem iteration_queue {E : Env} {p p' : OptionParser}
    (h : OptionParser.parse_args.iteration E p = .next p') :
    queue_size p'._remaining < queue_size p._remaining := by
  cases hq : p._remaining with
  | nil => rw [iteration_nil hq] at h; cases h
  | cons arg rest =>
    rcases token_cases arg with ha | ⟨s, ha, hs⟩ | ⟨x, t, ha, hx⟩ | ha
    · subst ha; rw [iteration_terminator hq] at h; cases h
    · subst ha
      rw [iteration_long hq hs] at h
      split at h
      · rename_i p1 hh
        cases h
        have := handle_long_opt_queue hh
        simp only [hq, List.tail_cons] at this
        simp only [queue_size_cons]; omega
      · cases h
    · subst ha
      rw [iteration_short hq hx] at h
      split at h
      · rename_i p1 hh
        cases h
        have := handle_short_opt_queue hh
        simp only [hq, List.tail_cons] at this
        simp only [queue_size_cons, List.length_cons]; omega
      · cases h
    · rw [iteration_positional hq ha] at h
      split_ifs at h
      cases h
      simp only [queue_size_cons]; omega

/-- One more iteration allowed does not change a result of the scanning loop. -/
theorem scan_fuel_succ (E : Env) (n : Nat) :
    ∀ (p : OptionParser) (r : Outcome), OptionParser.parse_args.scan E n p = some r →
      OptionParser.parse_args.scan E (n + 1) p = some r := by
  induction n with
  | zero => intro p r h; simp [OptionParser.parse_args.scan] at h
  | succ n ih =>
    intro p r h
    rw [OptionParser.parse_args.scan] at h ⊢
    cases hi : OptionParser.parse_args.iteration E p with
    | stop r1 => rw [hi] at h; exact h
    | next p1 => rw [hi] at h; exact ih p1 r h

theorem scan_fuel_le (E : Env) {n m : Nat} (hnm : n ≤ m) {p : OptionParser} {r : Outcome}
    (h : OptionParser.parse_args.scan E n p = some r) :
    OptionParser.parse_args.scan E m p = some r := by
  induction hnm with
  | refl => exact h
  | step _ ih => exact scan_fuel_succ E _ p r ih

/-- The scanning loop ends within as many iterations as the queue measures. -/
theorem scan_terminates (E : Env) (n : Nat) :
    ∀ p : OptionParser, queue_size p._remaining < n →
      ∃ r, OptionParser.parse_args.scan E n p = some r := by
  induction n with
  | zero => intro p h; omega
  | succ n ih =>
    intro p h
    rw [OptionParser.parse_args.scan]
    cases hi : OptionParser.parse_args.iteration E p with
    | stop r1 => exact ⟨r1, rfl⟩
    | next p1 =>
      have := iteration_queue hi
      exact ih p1 (by omega)

theorem splice_last_to_front_concat (l : List Opt) (o : Opt) :
    splice_last_to_front (l ++ [o]) = o :: l := by
  simp [splice_last_to_front]

theorem add_help_eq (p : OptionParser) (E : Env) :
    p.add_option_result E ["-h".toList, "--help".toList]
        (fun o => (o.action "help".toList).help "show this help message and exit".toList) =
      { p with _opts := p._opts ++ [help_option E],
               _optmap_s := SMap.insert p._optmap_s "h".toList (help_option E),
               _optmap_l := SMap.insert p._optmap_l "help".toList (help_option E) } := rfl

theorem add_version_eq (p : OptionParser) (E : Env) :
    p.add_option_result E ["--version".toList]
        (fun o => (o.action "version".toList).help "show program's version number and exit".toList) =
      { p with _opts := p._opts ++ [version_option E],
               _optmap_l := SMap.insert p._optmap_l "version".toList (version_option E) } := rfl

/-- The state after the start of `parse_args`, written out. -/
theorem builtin_eq (p : OptionParser) (E : Env) :
    OptionParser.parse_args.builtin p E =
      { p with
        _opts := (if p._add_version_option = true ∧ p._version ≠ [] then [version_option E] else []) ++
          (if p._add_help_option = true then [help_option E] else []) ++ p._opts,
        _optmap_s := if p._add_help_option = true then
            SMap.insert p._optmap_s "h".toList (help_option E) else p._optmap_s,
        _optmap_l :=
          if p._add_version_option = true ∧ p._version ≠ [] then
            SMap.insert (if p._add_help_option = true then
              SMap.insert p._optmap_l "help".toList (help_option E) else p._optmap_l)
              "version".toList (version_option E)
          else if p._add_help_option = true then
            SMap.insert p._optmap_l "help".toList (help_option E) else p._optmap_l } := by
  unfold OptionParser.parse_args.builtin
  simp only [add_help_eq, add_version_eq, splice_last_to_front_concat]
  by_cases hh : p._add_help_option = true
  · simp only [if_pos hh]
    by_cases hv : p._add_version_option = true ∧ p._version ≠ []
    · rw [if_pos hv, if_pos hv, if_pos hv]; rfl
    · rw [if_neg hv, if_neg hv, if_neg hv]; rfl
  · simp only [if_neg hh]
    by_cases hv : p._add_version_option = true ∧ p._version ≠ []
    · rw [if_pos hv, if_pos hv, if_pos hv]; rfl
    · rw [if_neg hv, if_neg hv, if_neg hv]; rfl

theorem SMap.find_insert_self {α : Type} (m : SMap α) (k : Str) (v : α) :
    SMap.find (SMap.insert m k v) k = some v := by
  induction m with
  | nil => simp [SMap.insert, SMap.find]
  | cons e m ih =>
    obtain ⟨k', v'⟩ := e
    simp only [SMap.insert]
    by_cases h1 : k' = k
    · rw [if_pos h1]; simp [SMap.find]
    · rw [if_neg h1]
      by_cases h2 : str_lt k k' = true
      · rw [if_pos h2]; simp [SMap.find]
      · rw [if_neg h2]
        simp only [SMap.find]
        rw [if_neg h1]
        exact ih

theorem SMap.find_insert_ne {α : Type} (m : SMap α) {k k2 : Str} (v : α) (hne : k2 ≠ k) :
    SMap.find (SMap.insert m k v) k2 = SMap.find m k2 := by
  induction m with
  | nil =>
    simp only [SMap.insert, SMap.find]
    rw [if_neg (fun h => hne h.symm)]
  | cons e m ih =>
    obtain ⟨k', v'⟩ := e
    simp only [SMap.insert]
    by_cases h1 : k' = k
    · rw [if_pos h1]
      subst h1
      simp only [SMap.find]
      rw [if_neg (fun h => hne h.symm), if_neg (fun h => hne h.symm)]
    · rw [if_neg h1]
      by_cases h2 : str_lt k k' = true
      · rw [if_pos h2]
        simp only [SMap.find]
        rw [if_neg (fun h => hne h.symm)]
      · rw [if_neg h2]
        simp only [SMap.find]
        by_cases h3 : k' = k2
        · rw [if_pos h3, if_pos h3]
        · rw [if_neg h3, if_neg h3]
          exact ih

theorem SSet.mem_insert (s : SSet) (k x : Str) : x ∈ SSet.insert s k ↔ x = k ∨ x ∈ s := by
  induction s with
  | nil => simp [SSet.insert]
  | cons a s ih =>
    simp only [SSet.insert]
    by_cases h1 : a = k
    · rw [if_pos h1]
      subst h1
      simp
    · rw [if_neg h1]
      by_cases h2 : str_lt k a = true
      · rw [if_pos h2]; simp
      · rw [if_neg h2]
        simp only [List.mem_cons, ih]
        tauto

theorem fill_step_proj {β : Type} (F : OptionParser → β)
    (hF : ∀ (p : OptionParser) (m : strMap), F { p with _values := { p._values with _map := m } } = F p)
    (p : OptionParser) (opts : List Opt) : F (OptionParser.parse_args.fill p opts) = F p := by
  unfold OptionParser.parse_args.fill
  induction opts generalizing p with
  | nil => rfl
  | cons o opts ih =>
    rw [List.foldl_cons, ih]
    split_ifs
    · exact hF p _
    · rfl

theorem defaults_proj {β : Type} (F : OptionParser → β)
    (hF : ∀ (p : OptionParser) (m : strMap), F { p with _values := { p._values with _map := m } } = F p)
    (p : OptionParser) : F (OptionParser.parse_args.defaults p) = F p := by
  unfold OptionParser.parse_args.defaults
  have key : ∀ (gs : List OptionGroup) (q : OptionParser),
      F (gs.foldl (fun (p : OptionParser) group => OptionParser.parse_args.fill p group._opts) q) = F q := by
    intro gs
    induction gs with
    | nil => intro q; rfl
    | cons g gs ih => intro q; rw [List.foldl_cons, ih, fill_step_proj F hF]
  rw [key, fill_step_proj F hF]

theorem fill_append (p : OptionParser) (l1 l2 : List Opt) :
    OptionParser.parse_args.fill p (l1 ++ l2) =
      OptionParser.parse_args.fill (OptionParser.parse_args.fill p l1) l2 := by
  simp [OptionParser.parse_args.fill]

theorem defaults_eq_fill (p : OptionParser) :
    OptionParser.parse_args.defaults p = OptionParser.parse_args.fill p (fill_order p) := by
  unfold OptionParser.parse_args.defaults fill_order
  rw [fill_append]
  generalize OptionParser.parse_args.fill p p._opts = q
  generalize p._groups = gs
  induction gs generalizing q with
  | nil => simp [OptionParser.parse_args.fill]
  | cons g gs ih =>
    rw [List.foldl_cons, ih, List.map_cons, List.flatten_cons, fill_append]

theorem fill_cons (p : OptionParser) (o : Opt) (l : List Opt) :
    OptionParser.parse_args.fill p (o :: l) =
      OptionParser.parse_args.fill
        (if o.get_default p ≠ [] ∧ ¬ p._values.is_set o._dest then
          { p with _values := p._values.assign o._dest (o.get_default p) }
        else p) l := by
  simp [OptionParser.parse_args.fill]

theorem fill_nil (p : OptionParser) : OptionParser.parse_args.fill p [] = p := rfl

theorem Values.get_assign_self (vs : Values) (d x : Str) : (vs.assign d x).get d = some x :=
  SMap.find_insert_self _ _ _

theorem Values.get_assign_ne (vs : Values) {d d2 : Str} (x : Str) (h : d2 ≠ d) :
    (vs.assign d x).get d2 = vs.get d2 :=
  SMap.find_insert_ne _ _ h

theorem Values.is_set_iff (vs : Values) (d : Str) : vs.is_set d = true ↔ ∃ x, vs.get d = some x := by
  unfold Values.is_set Values.get
  cases SMap.find vs._map d <;> simp

/-- The defaults never replace a stored value. -/
theorem fill_get_some (opts : List Opt) :
    ∀ (p : OptionParser) (d x : Str), p._values.get d = some x →
      (OptionParser.parse_args.fill p opts)._values.get d = some x := by
  induction opts with
  | nil => intro p d x h; exact h
  | cons o opts ih =>
    intro p d x h
    rw [fill_cons]
    apply ih
    split_ifs with hc
    · have hne : d ≠ o._dest := by
        intro e
        subst e
        exact hc.2 ((Values.is_set_iff _ _).2 ⟨x, h⟩)
      show (p._values.assign o._dest (o.get_default p)).get d = some x
      rw [Values.get_assign_ne _ _ hne]
      exact h
    · exact h

theorem get_default_values (o : Opt) (p : OptionParser) (vs : Values) :
    o.get_default { p with _values := vs } = o.get_default p := rfl

theorem fill_inv (d D : Str) (opts : List Opt) :
    ∀ (p : OptionParser),
      (∀ o ∈ opts, o._dest = d → o.get_default p = [] ∨ o.get_default p = D) →
      (p._values.get d = none ∨ p._values.get d = some D) →
      ((OptionParser.parse_args.fill p opts)._values.get d = none ∨
        (OptionParser.parse_args.fill p opts)._values.get d = some D) ∧
      (∀ o : Opt, o.get_default (OptionParser.parse_args.fill p opts) = o.get_default p) := by
  induction opts with
  | nil => intro p _ h; exact ⟨h, fun _ => rfl⟩
  | cons o opts ih =>
    intro p hall h
    rw [fill_cons]
    by_cases hc : o.get_default p ≠ [] ∧ ¬ p._values.is_set o._dest
    · rw [if_pos hc]
      have := ih { p with _values := p._values.assign o._dest (o.get_default p) }
        (fun o' ho' => hall o' (List.mem_cons_of_mem _ ho'))
        (by
          show (p._values.assign o._dest (o.get_default p)).get d = none ∨
            (p._values.assign o._dest (o.get_default p)).get d = some D
          by_cases hd : d = o._dest
          · subst hd
            rw [Values.get_assign_self]
            rcases hall o (List.mem_cons_self _ _) rfl with h0 | h0
            · exact absurd h0 hc.1
            · right; rw [h0]
          · rw [Values.get_assign_ne _ _ hd]; exact h)
      exact this
    · rw [if_neg hc]
      exact ih p (fun o' ho' => hall o' (List.mem_cons_of_mem _ ho')) h

theorem fill_hit (o : Opt) (post : List Opt) (p : OptionParser) (D : Str)
    (hD : o.get_default p = D) (hne : D ≠ [])
    (h : p._values.get o._dest = none ∨ p._values.get o._dest = some D) :
    (OptionParser.parse_args.fill p (o :: post))._values.get o._dest = some D := by
  rw [fill_cons]
  apply fill_get_some
  by_cases hc : o.get_default p ≠ [] ∧ ¬ p._values.is_set o._dest
  · rw [if_pos hc]
    show (p._values.assign o._dest (o.get_default p)).get o._dest = some D
    rw [Values.get_assign_self, hD]
  · rw [if_neg hc]
    rcases h with h | h
    · exfalso
      apply hc
      refine ⟨by rw [hD]; exact hne, ?_⟩
      intro hs
      obtain ⟨x, hx⟩ := (Values.is_set_iff _ _).1 hs
      rw [h] at hx
      cases hx
    · exact h

theorem get_default_congr (o : Opt) {p q : OptionParser} (h : q._defaults = p._defaults) :
    o.get_default q = o.get_default p := by
  unfold Opt.get_default
  rw [h]

theorem scan_of_stop {E : Env} {p : OptionParser} {r : Outcome} (n : Nat)
    (h : OptionParser.parse_args.iteration E p = .stop r) :
    OptionParser.parse_args.scan E (n + 1) p = some r := by
  rw [OptionParser.parse_args.scan, h]

theorem scan_of_next {E : Env} {p p' : OptionParser} (n : Nat)
    (h : OptionParser.parse_args.iteration E p = .next p') :
    OptionParser.parse_args.scan E (n + 1) p = OptionParser.parse_args.scan E n p' := by
  rw [OptionParser.parse_args.scan, h]

/-- What `parse_args` does after its start, with enough iterations allowed. -/
theorem parse_args_eq (p : OptionParser) (E : Env) (v : List Str) :
    p.parse_args E v = OptionParser.parse_args.finish
      (OptionParser.parse_args.scan E (queue_size v + 1)
        (OptionParser.parse_args.builtin { p with _remaining := v } E)) := rfl

theorem builtin_remaining (p : OptionParser) (E : Env) :
    (OptionParser.parse_args.builtin p E)._remaining = p._remaining := by
  rw [builtin_eq]

theorem builtin_values (p : OptionParser) (E : Env) :
    (OptionParser.parse_args.builtin p E)._values = p._values := by
  rw [builtin_eq]

theorem builtin_defaults (p : OptionParser) (E : Env) :
    (OptionParser.parse_args.builtin p E)._defaults = p._defaults := by
  rw [builtin_eq]

theorem builtin_groups (p : OptionParser) (E : Env) :
    (OptionParser.parse_args.builtin p E)._groups = p._groups := by
  rw [builtin_eq]

theorem builtin_leftover (p : OptionParser) (E : Env) :
    (OptionParser.parse_args.builtin p E)._leftover = p._leftover := by
  rw [builtin_eq]

theorem builtin_interspersed (p : OptionParser) (E : Env) :
    (OptionParser.parse_args.builtin p E)._interspersed_args = p._interspersed_args := by
  rw [builtin_eq]

theorem builtin_opts (p : OptionParser) (E : Env) :
    ∃ extra : List Opt, (OptionParser.parse_args.builtin p E)._opts = extra ++ p._opts ∧
      ∀ a ∈ extra, a._default = [] := by
  rw [builtin_eq]
  refine ⟨_, rfl, ?_⟩
  intro a ha
  rw [List.mem_append] at ha
  rcases ha with ha | ha
  · split_ifs at ha
    · rw [List.mem_singleton] at ha; subst ha; rfl
    · cases ha
  · split_ifs at ha
    · rw [List.mem_singleton] at ha; subst ha; rfl
    · cases ha

theorem parse_args_nil (p : OptionParser) (E : Env) :
    p.parse_args E [] = some (.ok (OptionParser.parse_args.defaults (OptionParser.parse_args.drain
      (OptionParser.parse_args.builtin { p with _remaining := [] } E)))) := by
  rw [parse_args_eq, scan_of_stop _ (iteration_nil (by rw [builtin_remaining]))]
  rfl

theorem builtin_optmap_s (p : OptionParser) (E : Env) :
    (OptionParser.parse_args.builtin p E)._optmap_s =
      if p._add_help_option = true then SMap.insert p._optmap_s "h".toList (help_option E)
      else p._optmap_s := by
  rw [builtin_eq]

theorem builtin_short_flag {p : OptionParser} (E : Env) {x : Char} {o : Opt}
    (hf : SMap.find p._optmap_s [x] = some o) (hn : o._nargs = 0) :
    ∃ o', SMap.find (OptionParser.parse_args.builtin p E)._optmap_s [x] = some o' ∧ o'._nargs ≠ 1 := by
  rw [builtin_optmap_s]
  by_cases hh : p._add_help_option = true
  · rw [if_pos hh]
    by_cases hx : [x] = "h".toList
    · rw [hx]
      exact ⟨_, SMap.find_insert_self _ _ _, by show (0 : Nat) ≠ 1; omega⟩
    · rw [SMap.find_insert_ne _ _ hx]
      exact ⟨o, hf, by omega⟩
  · rw [if_neg hh]
    exact ⟨o, hf, by omega⟩

/-- The two ways of writing a cluster lead the loop to the same state after
the first letter. -/
theorem cluster_first_step (E : Env) (p : OptionParser) (x : Char) (t : Str) (rest : List Str)
    (o : Opt) (hx : x ≠ '-') (ht : t ≠ []) (hf : SMap.find p._optmap_s [x] = some o)
    (hn : o._nargs = 0) :
    OptionParser.parse_args.iteration E
        (OptionParser.parse_args.builtin { p with _remaining := ('-' :: x :: t) :: rest } E) =
      OptionParser.parse_args.iteration E
        (OptionParser.parse_args.builtin { p with _remaining := ['-', x] :: ('-' :: t) :: rest } E) := by
  obtain ⟨o1, hf1, hn1⟩ := builtin_short_flag (p := { p with _remaining := ('-' :: x :: t) :: rest }) E hf hn
  obtain ⟨o2, hf2, hn2⟩ := builtin_short_flag (p := { p with _remaining := ['-', x] :: ('-' :: t) :: rest }) E hf hn
  have ho : o2 = o1 := by
    have : SMap.find (OptionParser.parse_args.builtin
        { p with _remaining := ['-', x] :: ('-' :: t) :: rest } E)._optmap_s [x] = some o1 := by
      rw [builtin_optmap_s] at hf1 ⊢
      exact hf1
    rw [this] at hf2
    exact (Option.some.inj hf2).symm
  subst ho
  rw [iteration_short (builtin_remaining _ E) hx, iteration_short (builtin_remaining _ E) hx,
    handle_short_opt_flag hf1 hn1, handle_short_opt_flag hf2 hn1]
  have hlen1 : ('-' :: x :: t).length > 2 := by
    cases t with
    | nil => exact absurd rfl ht
    | cons c t => simp
  have hlen2 : ¬ (['-', x].length > 2) := by simp
  rw [if_pos hlen1, if_neg hlen2]
  simp only [builtin_eq]
  rfl

theorem finish_some (r : Outcome) : ∃ r', OptionParser.parse_args.finish (some r) = some r' := by
  cases r <;> exact ⟨_, rfl⟩

theorem digit_char_toNat {d : Nat} (h : d < 10) : (digit_char d).toNat = 48 + d := by
  interval_cases d <;> rfl

theorem is_digit_iff (c : Char) : is_digit c = true ↔ 48 ≤ c.toNat ∧ c.toNat ≤ 57 := by
  unfold is_digit
  rw [decide_eq_true_iff]
  rfl

theorem is_digit_digit_char {d : Nat} (h : d < 10) : is_digit (digit_char d) = true := by
  rw [is_digit_iff, digit_char_toNat h]; omega

theorem digit_not_space {c : Char} (h : is_digit c = true) : is_space c = false := by
  rw [is_digit_iff] at h
  unfold is_space
  have h1 : c ≠ ' ' := by intro e; subst e; revert h; decide
  have h2 : c ≠ '\t' := by intro e; subst e; revert h; decide
  have h3 : c ≠ '\n' := by intro e; subst e; revert h; decide
  have h4 : c ≠ '\r' := by intro e; subst e; revert h; decide
  have h5 : c.toNat ≠ 11 := by omega
  have h6 : c.toNat ≠ 12 := by omega
  simp [h1, h2, h3, h4, h5, h6]

theorem digit_not_sign {c : Char} (h : is_digit c = true) : c ≠ '-' ∧ c ≠ '+' := by
  rw [is_digit_iff] at h
  constructor
  · intro e; subst e; revert h; decide
  · intro e; subst e; revert h; decide

theorem digits_value_append (ds : Str) (c : Char) :
    digits_value (ds ++ [c]) = 10 * digits_value ds + (c.toNat - 48) := by
  simp [digits_value, List.foldl_append]

theorem go_ne_nil (fuel n : Nat) : nat_to_str.go (fuel + 1) n ≠ [] := by
  rw [nat_to_str.go]
  split_ifs <;> simp

theorem go_all_digits (fuel : Nat) : ∀ n, ∀ c ∈ nat_to_str.go fuel n, is_digit c = true := by
  induction fuel with
  | zero => intro n c hc; simp [nat_to_str.go] at hc
  | succ fuel ih =>
    intro n c hc
    rw [nat_to_str.go] at hc
    split_ifs at hc with h
    · rw [List.mem_singleton] at hc
      subst hc
      exact is_digit_digit_char h
    · rw [List.mem_append, List.mem_singleton] at hc
      rcases hc with hc | hc
      · exact ih _ c hc
      · subst hc
        exact is_digit_digit_char (Nat.mod_lt _ (by omega))

theorem go_value (fuel : Nat) : ∀ n, n < fuel → digits_value (nat_to_str.go fuel n) = n := by
  induction fuel with
  | zero => intro n h; omega
  | succ fuel ih =>
    intro n h
    rw [nat_to_str.go]
    split_ifs with h10
    · simp [digits_value, digit_char_toNat h10]
    · rw [digits_value_append, ih _ (by omega), digit_char_toNat (Nat.mod_lt _ (by omega))]
      omega

theorem nat_to_str_ne_nil (n : Nat) : nat_to_str n ≠ [] := go_ne_nil n n

theorem nat_to_str_digits (n : Nat) : ∀ c ∈ nat_to_str n, is_digit c = true := go_all_digits _ n

theorem nat_to_str_value (n : Nat) : digits_value (nat_to_str n) = n := go_value _ n (by omega)

theorem takeWhile_all {l : Str} {f : Char → Bool} (h : ∀ c ∈ l, f c = true) : l.takeWhile f = l := by
  induction l with
  | nil => rfl
  | cons a l ih =>
    rw [List.takeWhile_cons, h a (List.mem_cons_self _ _)]
    simp only [if_true]
    rw [ih (fun c hc => h c (List.mem_cons_of_mem _ hc))]

/-- Reading back what `ss << n` wrote gives `n`. -/
theorem extract_long_nat_to_str {n : Nat} (h : n < 2 ^ 63) :
    extract_long (nat_to_str n) = some (true, (n : Int)) := by
  have hne := nat_to_str_ne_nil n
  have hd := nat_to_str_digits n
  have hv := nat_to_str_value n
  generalize nat_to_str n = s at hne hd hv
  cases s with
  | nil => exact absurd rfl hne
  | cons c rest =>
    have hc := hd c (List.mem_cons_self _ _)
    have hsp := digit_not_space hc
    have hsg := digit_not_sign hc
    unfold extract_long
    rw [List.dropWhile_cons, hsp]
    simp only [Bool.false_eq_true, if_false]
    split
    · rename_i heq; cases heq
    · rename_i heq; exact absurd (List.cons.inj heq).1 hsg.1
    · rename_i heq; exact absurd (List.cons.inj heq).1 hsg.2
    · rename_i c' rest' _ _ heq
      rw [← heq]
      unfold extract_long.number
      rw [takeWhile_all hd]
      simp only [hv, Bool.false_eq_true, if_false]
      rw [if_neg (by simp)]
      have h1 : ¬ ((n : Int) > LONG_MAX) := by unfold LONG_MAX; omega
      have h2 : ¬ ((n : Int) < LONG_MIN) := by unfold LONG_MIN; omega
      rw [if_neg h1, if_neg h2]

theorem wrap_long_id {x : Int} (h1 : -(2 ^ 63) ≤ x) (h2 : x < 2 ^ 63) : wrap_long x = x := by
  unfold wrap_long
  omega

/-- The function `str_inc` on the strings that the count action stores. -/
theorem str_inc_spec (E : Env) :
    str_inc E [] = nat_to_str 1 ∧
      ∀ k : Nat, k + 1 < 2 ^ 63 → str_inc E (nat_to_str k) = nat_to_str (k + 1) := by
  refine ⟨rfl, ?_⟩
  intro k hk
  unfold str_inc
  simp only [if_pos (nat_to_str_ne_nil k), extract_long_nat_to_str (show k < 2 ^ 63 by omega)]
  rw [wrap_long_id (by omega) (by omega)]
  unfold long_to_str
  rw [if_neg (by omega)]
  congr 1

theorem process_opt_count {p : OptionParser} (E : Env) {o : Opt} (opt value : Str)
    (ha : o._action = "count".toList) :
    p.process_opt E o opt value = .ok { p with _values :=
      (p._values.assign o._dest (str_inc E (p._values.read o._dest))).set_by_user o._dest true } := by
  unfold OptionParser.process_opt
  rw [if_neg (by rw [ha]; decide), if_neg (by rw [ha]; decide), if_neg (by rw [ha]; decide),
    if_neg (by rw [ha]; decide), if_neg (by rw [ha]; decide), if_neg (by rw [ha]; decide),
    if_pos ha]

theorem Values.get_set_by_user (vs : Values) (d d2 : Str) (b : Bool) :
    (vs.set_by_user d b).get d2 = vs.get d2 := by
  unfold Values.set_by_user
  split_ifs <;> rfl

theorem Values.is_set_by_user_set (vs : Values) (d : Str) :
    (vs.set_by_user d true).is_set_by_user d = true := by
  unfold Values.set_by_user Values.is_set_by_user SSet.contains
  simp only [if_true, decide_eq_true_eq]
  exact (SSet.mem_insert _ _ _).2 (Or.inl rfl)

theorem Values.read_eq (vs : Values) (d : Str) : vs.read d = (vs.get d).getD [] := rfl

theorem counted_step (E : Env) {vs : Values} {d : Str} {k : Nat} (h : counted vs d k)
    (hk : k + 1 < 2 ^ 63) :
    counted ((vs.assign d (str_inc E (vs.read d))).set_by_user d true) d (k + 1) := by
  right
  refine ⟨by omega, ?_, Values.is_set_by_user_set _ _⟩
  rw [Values.get_set_by_user, Values.get_assign_self, Values.read_eq]
  rcases h with ⟨h0, hg⟩ | ⟨_, hg, _⟩
  · subst h0
    rw [hg]
    exact congrArg some (str_inc_spec E).1
  · rw [hg]
    exact congrArg some ((str_inc_spec E).2 k hk)

theorem iteration_count {E : Env} {p : OptionParser} {x : Char} {t : Str} {rest : List Str}
    {o : Opt} {k : Nat} (hq : p._remaining = ('-' :: x :: t) :: rest) (hx : x ≠ '-')
    (hf : SMap.find p._optmap_s [x] = some o) (ha : o._action = "count".toList)
    (hn : o._nargs = 0) (hc : counted p._values o._dest k) (hk : k + 1 < 2 ^ 63) :
    ∃ p', OptionParser.parse_args.iteration E p = .next p' ∧
      p'._remaining = (if t = [] then rest else ('-' :: t) :: rest) ∧
      p'._optmap_s = p._optmap_s ∧ counted p'._values o._dest (k + 1) := by
  rw [iteration_short hq hx, handle_short_opt_flag hf (by omega), process_opt_count E _ _ ha]
  refine ⟨_, rfl, ?_, ?_, ?_⟩
  · cases t with
    | nil => simp [hq]
    | cons c t => simp [hq, substr_from]
  · split_ifs <;> rfl
  · split_ifs <;> exact counted_step E hc hk

theorem scan_count_cluster (E : Env) (x : Char) (o : Opt) (hx : x ≠ '-')
    (ha : o._action = "count".toList) (hn : o._nargs = 0) (rest : List Str) :
    ∀ (m : Nat) (p : OptionParser) (k : Nat),
      p._remaining = ('-' :: x :: List.replicate m x) :: rest →
      SMap.find p._optmap_s [x] = some o → counted p._values o._dest k → k + m + 1 < 2 ^ 63 →
      ∃ p', (∀ n, OptionParser.parse_args.scan E (n + (m + 1)) p =
          OptionParser.parse_args.scan E n p') ∧
        p'._remaining = rest ∧ counted p'._values o._dest (k + m + 1) := by
  intro m
  induction m with
  | zero =>
    intro p k hq hf hc hk
    obtain ⟨p', hi, hr, _, hc'⟩ := iteration_count (E := E) hq hx hf ha hn hc (by omega)
    refine ⟨p', fun n => scan_of_next n hi, ?_, hc'⟩
    simpa using hr
  | succ m ih =>
    intro p k hq hf hc hk
    obtain ⟨p1, hi, hr, hm, hc'⟩ := iteration_count (E := E) hq hx hf ha hn hc (by omega)
    rw [if_neg (by simp [List.replicate_succ])] at hr
    rw [List.replicate_succ] at hr
    obtain ⟨p', hs, hr', hc''⟩ := ih p1 (k + 1) hr (by rw [hm]; exact hf) hc' (by omega)
    refine ⟨p', ?_, hr', ?_⟩
    · intro n
      rw [show n + (m + 1 + 1) = (n + (m + 1)) + 1 by omega, scan_of_next _ hi]
      exact hs n
    · rw [show k + (m + 1) + 1 = k + 1 + m + 1 by omega]
      exact hc''

theorem scan_count_tokens (E : Env) (x : Char) (o : Opt) (hx : x ≠ '-')
    (ha : o._action = "count".toList) (hn : o._nargs = 0) (rest : List Str) :
    ∀ (m : Nat) (p : OptionParser) (k : Nat),
      p._remaining = List.replicate m ['-', x] ++ rest →
      SMap.find p._optmap_s [x] = some o → counted p._values o._dest k → k + m < 2 ^ 63 →
      ∃ p', (∀ n, OptionParser.parse_args.scan E (n + m) p =
          OptionParser.parse_args.scan E n p') ∧
        p'._remaining = rest ∧ counted p'._values o._dest (k + m) := by
  intro m
  induction m with
  | zero =>
    intro p k hq _ hc _
    exact ⟨p, fun _ => rfl, by simpa using hq, hc⟩
  | succ m ih =>
    intro p k hq hf hc hk
    rw [List.replicate_succ, List.cons_append] at hq
    obtain ⟨p1, hi, hr, hm, hc'⟩ := iteration_count (E := E) hq hx hf ha hn hc (by omega)
    rw [if_pos rfl] at hr
    obtain ⟨p', hs, hr', hc''⟩ := ih p1 (k + 1) hr (by rw [hm]; exact hf) hc' (by omega)
    refine ⟨p', ?_, hr', ?_⟩
    · intro n
      rw [show n + (m + 1) = (n + m) + 1 by omega, scan_of_next _ hi]
      exact hs n
    · rw [show k + (m + 1) = k + 1 + m by omega]
      exact hc''

theorem builtin_find_short_ne {p : OptionParser} (E : Env) {k : Str} (hk : k ≠ "h".toList) :
    SMap.find (OptionParser.parse_args.builtin p E)._optmap_s k = SMap.find p._optmap_s k := by
  rw [builtin_optmap_s]
  split_ifs
  · exact SMap.find_insert_ne _ _ hk
  · rfl

theorem finish_ok (p : OptionParser) :
    OptionParser.parse_args.finish (some (.ok p)) =
      some (.ok (OptionParser.parse_args.defaults (OptionParser.parse_args.drain p))) := rfl

theorem finish_get_some {p : OptionParser} {d x : Str} (h : p._values.get d = some x) :
    (OptionParser.parse_args.defaults (OptionParser.parse_args.drain p))._values.get d = some x := by
  rw [defaults_eq_fill]
  exact fill_get_some _ _ d x h

theorem finish_user_set (p : OptionParser) (d : Str) :
    (OptionParser.parse_args.defaults (OptionParser.parse_args.drain p))._values.is_set_by_user d =
      p._values.is_set_by_user d := by
  rw [defaults_proj (fun p => p._values.is_set_by_user d) (fun _ _ => rfl)]
  rfl

theorem finish_all (p : OptionParser) (d : Str) :
    (OptionParser.parse_args.defaults (OptionParser.parse_args.drain p))._values.all d =
      p._values.all d := by
  rw [defaults_proj (fun p => p._values.all d) (fun _ _ => rfl)]
  rfl

theorem finish_leftover (p : OptionParser) :
    (OptionParser.parse_args.defaults (OptionParser.parse_args.drain p))._leftover =
      p._leftover ++ p._remaining := by
  rw [defaults_proj (fun p => p._leftover) (fun _ _ => rfl)]
  rfl

theorem check_type_string (E : Env) {o : Opt} (ht : o._type = "string".toList) (opt val : Str) :
    o.check_type E opt val = [] := by
  unfold Opt.check_type
  rw [if_neg (by rw [ht]; decide), if_neg (by rw [ht]; decide), if_neg (by rw [ht]; decide),
    if_neg (by rw [ht]; decide)]

theorem process_opt_append {p : OptionParser} (E : Env) {o : Opt} (opt value : Str)
    (ha : o._action = "append".toList) (ht : o._type = "string".toList) :
    p.process_opt E o opt value = .ok { p with _values :=
      ((p._values.assign o._dest value).all_push_back o._dest value).set_by_user o._dest true } := by
  unfold OptionParser.process_opt
  rw [if_neg (by rw [ha]; decide), if_neg (by rw [ha]; decide), if_neg (by rw [ha]; decide),
    if_neg (by rw [ha]; decide), if_pos ha]
  simp only [check_type_string E ht, ne_eq, not_true_eq_false, if_false]

theorem lookup_long_opt_congr {p q : OptionParser} (h : q._optmap_l = p._optmap_l) (opt : Str) :
    q.lookup_long_opt opt = p.lookup_long_opt opt := by
  unfold OptionParser.lookup_long_opt
  rw [h]

theorem resolves_congr {p q : OptionParser} (hs : q._optmap_s = p._optmap_s)
    (hl : q._optmap_l = p._optmap_l) {o : Opt} {c : Occurrence} (h : c.resolves p o) :
    c.resolves q o := by
  cases c <;> simp only [Occurrence.resolves, lookup_long_opt_congr hl, hs] at h ⊢ <;> exact h

/-- One occurrence of an append flag: the loop goes on with the value stored. -/
theorem iteration_append {E : Env} {p : OptionParser} {o : Opt} {c : Occurrence} {rest : List Str}
    (ha : o._action = "append".toList) (ht : o._type = "string".toList) (hn : o._nargs = 1)
    (hq : p._remaining = c.tokens ++ rest) (hc : c.resolves p o) :
    ∃ p', OptionParser.parse_args.iteration E p = .next p' ∧ p'._remaining = rest ∧
      p'._optmap_s = p._optmap_s ∧ p'._optmap_l = p._optmap_l ∧
      p'._values = ((p._values.assign o._dest c.value).all_push_back o._dest c.value).set_by_user
        o._dest true := by
  cases c with
  | long_inline name value =>
    obtain ⟨h1, h2, h3⟩ := hc
    have hq' : p._remaining = ('-' :: '-' :: (name ++ '=' :: value)) :: rest := by
      rw [hq]; simp [Occurrence.tokens]
    rw [iteration_long hq' (by simp),
      handle_long_opt_inline h1 (by rw [← h2]; rfl) (fun _ => h3), process_opt_append E _ _ ha ht]
    exact ⟨_, rfl, by simp [hq'], rfl, rfl, rfl⟩
  | long_next name value =>
    obtain ⟨h1, h0, h2, h3⟩ := hc
    have hq' : p._remaining = ('-' :: '-' :: name) :: value :: rest := by
      rw [hq]; simp [Occurrence.tokens]
    rw [iteration_long hq' h0,
      handle_long_opt_next h1 (by rw [← h2]; rfl) hn
        (show ({ p with _parsed := p._parsed ++ ['-' :: '-' :: name] } : OptionParser)._remaining =
          ('-' :: '-' :: name) :: value :: rest from hq') h3,
      process_opt_append E _ _ ha ht]
    exact ⟨_, rfl, rfl, rfl, rfl, rfl⟩
  | short_inline x value =>
    obtain ⟨h1, h2, h3⟩ := hc
    have hq' : p._remaining = ('-' :: x :: value) :: rest := by
      rw [hq]; simp [Occurrence.tokens]
    rw [iteration_short hq' h1, handle_short_opt_attached h2 hn (by simpa [substr_from] using h3),
      process_opt_append E _ _ ha ht]
    exact ⟨_, rfl, by simp [hq'], rfl, rfl, rfl⟩
  | short_next x value =>
    obtain ⟨h1, h2⟩ := hc
    have hq' : p._remaining = ('-' :: x :: []) :: value :: rest := by
      rw [hq]; simp [Occurrence.tokens]
    rw [iteration_short hq' h1,
      handle_short_opt_next h2 hn (by simp [substr_from]) hq',
      process_opt_append E _ _ ha ht]
    exact ⟨_, rfl, rfl, rfl, rfl, rfl⟩

theorem Values.all_after_append (vs : Values) (d x : Str) :
    (((vs.assign d x).all_push_back d x).set_by_user d true).all d = vs.all d ++ [x] := by
  unfold Values.set_by_user
  simp only [if_true]
  unfold Values.all_push_back Values.all
  simp only [SMap.find_insert_self, Option.getD_some]
  rfl

theorem Values.get_after_append (vs : Values) (d x : Str) :
    (((vs.assign d x).all_push_back d x).set_by_user d true).get d = some x := by
  rw [Values.get_set_by_user]
  exact Values.get_assign_self vs d x

theorem Values.all_push_back_ne (vs : Values) {d d2 : Str} (x : Str) (h : d2 ≠ d) :
    (vs.all_push_back d x).all d2 = vs.all d2 := by
  unfold Values.all_push_back Values.all
  simp only [SMap.find_insert_ne _ _ h]

theorem Values.all_set_by_user (vs : Values) (d d2 : Str) (b : Bool) :
    (vs.set_by_user d b).all d2 = vs.all d2 := by
  unfold Values.set_by_user
  split_ifs <;> rfl

theorem Values.is_set_by_user_set_ne (vs : Values) {d d2 : Str} (h : d2 ≠ d) :
    (vs.set_by_user d true).is_set_by_user d2 = vs.is_set_by_user d2 := by
  unfold Values.set_by_user Values.is_set_by_user SSet.contains
  simp only [if_true]
  rw [decide_eq_decide, SSet.mem_insert]
  constructor
  · intro h'
    rcases h' with h' | h'
    · exact absurd h' h
    · exact h'
  · intro h'
    exact Or.inr h'

/-- Storing under another destination leaves a destination as it is. -/
theorem Values.store_frame (vs : Values) {d d2 : Str} (x : Str) (h : d2 ≠ d) :
    ((vs.assign d x).set_by_user d true).all d2 = vs.all d2 ∧
      ((vs.assign d x).set_by_user d true).get d2 = vs.get d2 ∧
      ((vs.assign d x).set_by_user d true).is_set_by_user d2 = vs.is_set_by_user d2 := by
  refine ⟨?_, ?_, ?_⟩
  · rw [Values.all_set_by_user]; rfl
  · rw [Values.get_set_by_user, Values.get_assign_ne _ _ h]
  · rw [Values.is_set_by_user_set_ne _ h]; rfl

/-- Appending under another destination leaves a destination as it is. -/
theorem Values.append_frame (vs : Values) {d d2 : Str} (x y : Str) (h : d2 ≠ d) :
    (((vs.assign d x).all_push_back d y).set_by_user d true).all d2 = vs.all d2 ∧
      (((vs.assign d x).all_push_back d y).set_by_user d true).get d2 = vs.get d2 ∧
      (((vs.assign d x).all_push_back d y).set_by_user d true).is_set_by_user d2 =
        vs.is_set_by_user d2 := by
  refine ⟨?_, ?_, ?_⟩
  · rw [Values.all_set_by_user, Values.all_push_back_ne _ _ h]; rfl
  · rw [Values.get_set_by_user]
    show (vs.assign d x).get d2 = vs.get d2
    rw [Values.get_assign_ne _ _ h]
  · rw [Values.is_set_by_user_set_ne _ h]; rfl

/-- An action of a flag leaves every destination other than its own as it is. -/
theorem process_opt_frame {p p' : OptionParser} {E : Env} {o : Opt} {opt value d : Str}
    (hd : d ≠ o._dest) (h : p.process_opt E o opt value = .ok p') :
    p'._values.all d = p._values.all d ∧ p'._values.get d = p._values.get d ∧
      p'._values.is_set_by_user d = p._values.is_set_by_user d := by
  unfold OptionParser.process_opt at h
  by_cases h1 : o._action = "store".toList
  · rw [if_pos h1] at h
    dsimp only at h
    by_cases e : o.check_type E opt value ≠ []
    · rw [if_pos e] at h; cases h
    · rw [if_neg e] at h; cases h; exact Values.store_frame _ _ hd
  rw [if_neg h1] at h
  by_cases h2 : o._action = "store_const".toList
  · rw [if_pos h2] at h; cases h; exact Values.store_frame _ _ hd
  rw [if_neg h2] at h
  by_cases h3 : o._action = "store_true".toList
  · rw [if_pos h3] at h; cases h; exact Values.store_frame _ _ hd
  rw [if_neg h3] at h
  by_cases h4 : o._action = "store_false".toList
  · rw [if_pos h4] at h; cases h; exact Values.store_frame _ _ hd
  rw [if_neg h4] at h
  by_cases h5 : o._action = "append".toList
  · rw [if_pos h5] at h
    dsimp only at h
    by_cases e : o.check_type E opt value ≠ []
    · rw [if_pos e] at h; cases h
    · rw [if_neg e] at h; cases h; exact Values.append_frame _ _ _ hd
  rw [if_neg h5] at h
  by_cases h6 : o._action = "append_const".toList
  · rw [if_pos h6] at h; cases h; exact Values.append_frame _ _ _ hd
  rw [if_neg h6] at h
  by_cases h7 : o._action = "count".toList
  · rw [if_pos h7] at h; cases h; exact Values.store_frame _ _ hd
  rw [if_neg h7] at h
  by_cases h8 : o._action = "help".toList
  · rw [if_pos h8] at h; cases h
  rw [if_neg h8] at h
  by_cases h9 : o._action = "version".toList
  · rw [if_pos h9] at h; cases h
  rw [if_neg h9] at h
  by_cases h10 : o._action = "callback".toList ∧ o._callback = true
  · rw [if_pos h10] at h
    dsimp only at h
    by_cases e : o.check_type E opt value ≠ []
    · rw [if_pos e] at h; cases h
    · rw [if_neg e] at h; cases h; exact ⟨rfl, rfl, rfl⟩
  rw [if_neg h10] at h
  cases h
  exact ⟨rfl, rfl, rfl⟩

theorem getLast?_cons_or (a : Str) (l : List Str) :
    (a :: l).getLast? = some ((l.getLast?).getD a) := by
  cases l with
  | nil => rfl
  | cons b l =>
    rw [List.getLast?_cons_cons]
    cases h : (b :: l).getLast? with
    | none => simp at h
    | some x => rfl

theorem scan_append (E : Env) (o : Opt) (ha : o._action = "append".toList)
    (ht : o._type = "string".toList) (hn : o._nargs = 1) (rest : List Str) :
    ∀ (occs : List Occurrence) (p : OptionParser),
      p._remaining = occs.flatMap Occurrence.tokens ++ rest →
      (∀ c ∈ occs, c.resolves p o) →
      ∃ p', (∀ n, OptionParser.parse_args.scan E (n + occs.length) p =
          OptionParser.parse_args.scan E n p') ∧
        p'._remaining = rest ∧
        p'._values.all o._dest = p._values.all o._dest ++ occs.map Occurrence.value ∧
        p'._values.get o._dest =
          (match (occs.map Occurrence.value).getLast? with
            | some v => some v
            | none => p._values.get o._dest) ∧
        (occs ≠ [] → p'._values.is_set_by_user o._dest = true) ∧
        (p._values.is_set_by_user o._dest = true → p'._values.is_set_by_user o._dest = true) := by
  intro occs
  induction occs with
  | nil =>
    intro p hq _
    exact ⟨p, fun _ => rfl, by simpa using hq, by simp, rfl, fun h => absurd rfl h, id⟩
  | cons c occs ih =>
    intro p hq hres
    rw [List.flatMap_cons, List.append_assoc] at hq
    obtain ⟨p1, hi, hr, hs, hl, hv⟩ :=
      iteration_append (E := E) ha ht hn hq (hres c (List.mem_cons_self _ _))
    obtain ⟨p', hscan, hr', hall, hlast, _, huser⟩ := ih p1 hr
      (fun c' hc' => resolves_congr hs hl (hres c' (List.mem_cons_of_mem _ hc')))
    have hu1 : p1._values.is_set_by_user o._dest = true := by
      rw [hv]; exact Values.is_set_by_user_set _ _
    refine ⟨p', ?_, hr', ?_, ?_, fun _ => huser hu1, fun _ => huser hu1⟩
    · intro n
      rw [List.length_cons, show n + (occs.length + 1) = (n + occs.length) + 1 by omega,
        scan_of_next _ hi]
      exact hscan n
    · rw [hall, hv, Values.all_after_append]
      simp
    · rw [hlast, List.map_cons, getLast?_cons_or, hv, Values.get_after_append]
      cases (occs.map Occurrence.value).getLast? <;> rfl

theorem occurrences_length_le (occs : List Occurrence) :
    occs.length ≤ queue_size (occs.flatMap Occurrence.tokens) := by
  induction occs with
  | nil => simp [queue_size]
  | cons c occs ih =>
    have : queue_size ((c :: occs).flatMap Occurrence.tokens) =
        queue_size c.tokens + queue_size (occs.flatMap Occurrence.tokens) := by
      simp [queue_size]
    rw [this, List.length_cons]
    have h1 : 1 ≤ queue_size c.tokens := by
      cases c <;> simp [Occurrence.tokens, queue_size] <;> omega
    omega

theorem digit_char_eq_digitChar {d : Nat} (h : d < 10) : Nat.digitChar d = digit_char d := by
  interval_cases d <;> rfl

theorem toDigitsCore_eq_go (fuel : Nat) :
    ∀ (n : Nat) (acc : Str), n < fuel →
      Nat.toDigitsCore 10 fuel n acc = nat_to_str.go fuel n ++ acc := by
  induction fuel with
  | zero => intro n acc h; omega
  | succ fuel ih =>
    intro n acc h
    rw [Nat.toDigitsCore, nat_to_str.go]
    by_cases h10 : n < 10
    · have h0 : n / 10 = 0 := Nat.div_eq_of_lt h10
      simp only [h0, if_true, h10]
      rw [Nat.mod_eq_of_lt h10, digit_char_eq_digitChar h10]
      rfl
    · have h0 : n / 10 ≠ 0 := by omega
      simp only [h0, if_false, h10]
      rw [ih _ _ (by omega), digit_char_eq_digitChar (Nat.mod_lt _ (by omega))]
      simp

/-- The model of `ss << n` writes the decimal numeral of `n`. -/
theorem nat_to_str_eq_repr (n : Nat) : nat_to_str n = (Nat.repr n).toList := by
  unfold nat_to_str Nat.repr Nat.toDigits
  rw [toDigitsCore_eq_go _ _ _ (by omega)]
  simp [List.asString]

theorem char_lt_iff (a b : Char) : char_lt a b = true ↔ a.toNat < b.toNat := by
  simp [char_lt]

theorem char_eq_of_not_lt {a b : Char} (h1 : ¬ char_lt a b = true) (h2 : ¬ char_lt b a = true) :
    a = b := by
  rw [char_lt_iff] at h1 h2
  have : a.toNat = b.toNat := by omega
  exact Char.ext (UInt32.ext (by simpa [Char.toNat, UInt32.toNat] using this))

theorem str_lt_trans : ∀ {a b c : Str}, str_lt a b = true → str_lt b c = true → str_lt a c = true := by
  intro a
  induction a with
  | nil =>
    intro b c h1 h2
    cases b with
    | nil => simp [str_lt] at h1
    | cons y ys =>
      cases c with
      | nil => simp [str_lt] at h2
      | cons z zs => rfl
  | cons x xs ih =>
    intro b c h1 h2
    cases b with
    | nil => simp [str_lt] at h1
    | cons y ys =>
      cases c with
      | nil => simp [str_lt] at h2
      | cons z zs =>
        simp only [str_lt] at h1 h2 ⊢
        by_cases hxy : char_lt x y = true
        · by_cases hyz : char_lt y z = true
          · have : char_lt x z = true := by
              rw [char_lt_iff] at hxy hyz ⊢; omega
            rw [if_pos this]
          · rw [if_neg hyz] at h2
            by_cases hzy : char_lt z y = true
            · rw [if_pos hzy] at h2; cases h2
            · have := char_eq_of_not_lt hyz hzy
              subst this
              rw [if_pos hxy]
        · rw [if_neg hxy] at h1
          by_cases hyx : char_lt y x = true
          · rw [if_pos hyx] at h1; cases h1
          · rw [if_neg hyx] at h1
            have := char_eq_of_not_lt hxy hyx
            subst this
            by_cases hyz : char_lt x z = true
            · rw [if_pos hyz]
            · rw [if_neg hyz] at h2 ⊢
              by_cases hzy : char_lt z x = true
              · rw [if_pos hzy] at h2; cases h2
              · rw [if_neg hzy] at h2 ⊢
                exact ih h1 h2

theorem str_lt_total : ∀ {a b : Str}, a ≠ b → ¬ str_lt a b = true → str_lt b a = true := by
  intro a
  induction a with
  | nil =>
    intro b hne h
    cases b with
    | nil => exact absurd rfl hne
    | cons y ys => simp [str_lt] at h
  | cons x xs ih =>
    intro b hne h
    cases b with
    | nil => rfl
    | cons y ys =>
      simp only [str_lt] at h ⊢
      by_cases hxy : char_lt x y = true
      · rw [if_pos hxy] at h; exact absurd rfl h
      · rw [if_neg hxy] at h
        by_cases hyx : char_lt y x = true
        · rw [if_pos hyx]
        · rw [if_neg hyx] at h ⊢
          have := char_eq_of_not_lt hxy hyx
          subst this
          rw [if_neg hxy]
          exact ih (fun e => hne (by rw [e])) h

theorem SMap.keys_insert_mem {α : Type} {m : SMap α} {k x : Str} {v : α}
    (h : x ∈ SMap.keys (SMap.insert m k v)) : x = k ∨ x ∈ SMap.keys m := by
  induction m with
  | nil => simpa [SMap.insert, SMap.keys] using h
  | cons e m ih =>
    obtain ⟨k', v'⟩ := e
    simp only [SMap.insert] at h
    by_cases h1 : k' = k
    · rw [if_pos h1] at h
      subst h1
      simp only [SMap.keys, List.map_cons, List.mem_cons] at h ⊢
      tauto
    · rw [if_neg h1] at h
      by_cases h2 : str_lt k k' = true
      · rw [if_pos h2] at h
        simp only [SMap.keys, List.map_cons, List.mem_cons] at h ⊢
        tauto
      · rw [if_neg h2] at h
        simp only [SMap.keys, List.map_cons, List.mem_cons] at h ⊢
        rcases h with h | h
        · exact Or.inr (Or.inl h)
        · rcases ih h with h | h
          · exact Or.inl h
          · exact Or.inr (Or.inr h)

/-- The assignment `m[k] = v` keeps the keys of a map in ascending order. -/
theorem SMap.insert_ordered {α : Type} {m : SMap α} (hm : SMap.ordered m) (k : Str) (v : α) :
    SMap.ordered (SMap.insert m k v) := by
  induction m with
  | nil => simp [SMap.insert, SMap.ordered, SMap.keys]
  | cons e m ih =>
    obtain ⟨k', v'⟩ := e
    simp only [SMap.insert]
    have hm' := hm
    simp only [SMap.ordered, SMap.keys, List.map_cons, List.pairwise_cons] at hm'
    by_cases h1 : k' = k
    · rw [if_pos h1]
      subst h1
      exact hm
    · rw [if_neg h1]
      by_cases h2 : str_lt k k' = true
      · rw [if_pos h2]
        simp only [SMap.ordered, SMap.keys, List.map_cons, List.pairwise_cons, List.mem_cons]
        refine ⟨?_, hm'⟩
        intro x hx
        rcases hx with hx | hx
        · rw [hx]; exact h2
        · exact str_lt_trans h2 (hm'.1 x hx)
      · rw [if_neg h2]
        have hlt : str_lt k' k = true := str_lt_total (fun e => h1 e.symm) h2
        have ih' := ih (SMap.ordered_tail hm)
        simp only [SMap.ordered, SMap.keys, List.map_cons, List.pairwise_cons]
        refine ⟨?_, ih'⟩
        intro x hx
        rcases SMap.keys_insert_mem hx with hx | hx
        · rw [hx]; exact hlt
        · exact hm'.1 x hx

/-- The start of `parse_args` keeps the map of long names in ascending order. -/
theorem builtin_ordered_l {p : OptionParser} (E : Env) (h : SMap.ordered p._optmap_l) :
    SMap.ordered (OptionParser.parse_args.builtin p E)._optmap_l := by
  rw [builtin_eq]
  simp only
  split_ifs
  · exact SMap.insert_ordered (SMap.insert_ordered h _ _) _ _
  · exact SMap.insert_ordered h _ _
  · exact SMap.insert_ordered h _ _
  · exact h

/-- The method `add_option` keeps both lookup maps in ascending key order. -/
theorem add_option_ordered (c : OptionContainer) (E : Env) (v : List Str) (cfg : Opt → Opt)
    (hs : SMap.ordered c._optmap_s) (hl : SMap.ordered c._optmap_l) :
    SMap.ordered (c.add_option_result E v cfg)._optmap_s ∧ SMap.ordered (c.add_option_result E v cfg)._optmap_l := by
  unfold OptionContainer.add_option_result
  simp only
  generalize cfg _ = option
  have key : ∀ (v : List Str) (c : OptionContainer), SMap.ordered c._optmap_s →
      SMap.ordered c._optmap_l →
      SMap.ordered (v.foldl (OptionContainer.add_option.bind option) c)._optmap_s ∧
        SMap.ordered (v.foldl (OptionContainer.add_option.bind option) c)._optmap_l := by
    intro v
    induction v with
    | nil => intro c hs hl; exact ⟨hs, hl⟩
    | cons it v ih =>
      intro c hs hl
      rw [List.foldl_cons]
      apply ih
      · unfold OptionContainer.add_option.bind
        split_ifs
        · exact hs
        · exact SMap.insert_ordered hs _ _
      · unfold OptionContainer.add_option.bind
        split_ifs
        · exact SMap.insert_ordered hl _ _
        · exact hl
  exact key v _ hs hl

theorem extract_long_cases (s : Str) :
    (s.dropWhile is_space = [] ∧ extract_long s = none) ∨
    (∃ rest, s.dropWhile is_space = '-' :: rest ∧ extract_long s = some (extract_long.number true rest)) ∨
    (∃ rest, s.dropWhile is_space = '+' :: rest ∧ extract_long s = some (extract_long.number false rest)) ∨
    (∃ c rest, s.dropWhile is_space = c :: rest ∧ c ≠ '-' ∧ c ≠ '+' ∧
      extract_long s = some (extract_long.number false (c :: rest))) := by
  unfold extract_long
  split
  · rename_i heq; exact Or.inl ⟨heq, rfl⟩
  · rename_i rest heq; exact Or.inr (Or.inl ⟨rest, heq, rfl⟩)
  · rename_i rest heq; exact Or.inr (Or.inr (Or.inl ⟨rest, heq, rfl⟩))
  · rename_i c rest h1 h2 heq
    refine Or.inr (Or.inr (Or.inr ⟨c, rest, heq, ?_, ?_, rfl⟩))
    · intro e; subst e; exact h1 rfl
    · intro e; subst e; exact h2 rfl

theorem is_int_literal_cases (v : Str) :
    is_int_literal v = true ↔
      (∃ ds, v = '-' :: ds ∧ ds ≠ [] ∧ ∀ c ∈ ds, is_digit c = true) ∨
      (∃ ds, v = '+' :: ds ∧ ds ≠ [] ∧ ∀ c ∈ ds, is_digit c = true) ∨
      (v ≠ [] ∧ ∀ c ∈ v, is_digit c = true) := by
  unfold is_int_literal
  split
  · rename_i ds
    simp only [Bool.and_eq_true, decide_eq_true_eq, List.all_eq_true]
    constructor
    · intro h; exact Or.inl ⟨ds, rfl, h⟩
    · rintro (⟨ds', e, h⟩ | ⟨ds', e, h⟩ | ⟨_, h⟩)
      · cases e; exact h
      · cases e
      · exact absurd rfl (digit_not_sign (h _ (List.mem_cons_self _ _))).1
  · rename_i ds
    simp only [Bool.and_eq_true, decide_eq_true_eq, List.all_eq_true]
    constructor
    · intro h; exact Or.inr (Or.inl ⟨ds, rfl, h⟩)
    · rintro (⟨ds', e, h⟩ | ⟨ds', e, h⟩ | ⟨_, h⟩)
      · cases e
      · cases e; exact h
      · exact absurd rfl (digit_not_sign (h _ (List.mem_cons_self _ _))).2
  · rename_i ds h1 h2
    simp only [Bool.and_eq_true, decide_eq_true_eq, List.all_eq_true]
    constructor
    · intro h; exact Or.inr (Or.inr h)
    · rintro (⟨ds', e, h⟩ | ⟨ds', e, h⟩ | h)
      · exact absurd e (h1 ds')
      · exact absurd e (h2 ds')
      · exact h

theorem int_literal_value_minus (ds : Str) : int_literal_value ('-' :: ds) = -(digits_value ds : Int) := rfl
theorem int_literal_value_plus (ds : Str) : int_literal_value ('+' :: ds) = (digits_value ds : Int) := rfl
theorem int_literal_value_digits {v : Str} (h : ∀ c ∈ v, is_digit c = true) :
    int_literal_value v = (digits_value v : Int) := by
  unfold int_literal_value
  split
  · exact absurd rfl (digit_not_sign (h _ (List.mem_cons_self _ _))).1
  · exact absurd rfl (digit_not_sign (h _ (List.mem_cons_self _ _))).2
  · rfl

theorem dropWhile_space_append {ws : Str} (h : ∀ c ∈ ws, is_space c = true) (c : Char) (t : Str)
    (hc : is_space c = false) : (ws ++ c :: t).dropWhile is_space = c :: t := by
  induction ws with
  | nil => rw [List.nil_append, List.dropWhile_cons, hc]; rfl
  | cons a ws ih =>
    rw [List.cons_append, List.dropWhile_cons, h a (List.mem_cons_self _ _)]
    simp only [if_true]
    exact ih (fun c hc => h c (List.mem_cons_of_mem _ hc))

theorem takeWhile_digit_append {ds rest : Str} (h : ∀ c ∈ ds, is_digit c = true)
    (hr : ∀ c, rest.head? = some c → is_digit c = false) :
    (ds ++ rest).takeWhile is_digit = ds := by
  induction ds with
  | nil =>
    cases rest with
    | nil => rfl
    | cons a rest => rw [List.nil_append, List.takeWhile_cons, hr a rfl]; rfl
  | cons a ds ih =>
    rw [List.cons_append, List.takeWhile_cons, h a (List.mem_cons_self _ _)]
    simp only [if_true]
    rw [ih (fun c hc => h c (List.mem_cons_of_mem _ hc))]

theorem head_dropWhile_digit (s : Str) :
    ∀ c, (s.dropWhile is_digit).head? = some c → is_digit c = false := by
  induction s with
  | nil => intro c h; cases h
  | cons a s ih =>
    intro c h
    rw [List.dropWhile_cons] at h
    by_cases ha : is_digit a = true
    · rw [if_pos ha] at h; exact ih c h
    · rw [if_neg ha] at h
      cases h
      simpa using ha

theorem number_ok_iff (neg : Bool) (s : Str) :
    (extract_long.number neg s).1 = true ↔
      s.takeWhile is_digit ≠ [] ∧
      LONG_MIN ≤ (if neg then -(digits_value (s.takeWhile is_digit) : Int) else (digits_value (s.takeWhile is_digit) : Int)) ∧
      (if neg then -(digits_value (s.takeWhile is_digit) : Int) else (digits_value (s.takeWhile is_digit) : Int)) ≤ LONG_MAX := by
  unfold extract_long.number
  dsimp only
  by_cases h : s.takeWhile is_digit = []
  · rw [if_pos h]; simp [h]
  · rw [if_neg h]
    split_ifs with h1 h2 h3 h4 <;> simp [h] <;> omega

theorem extract_long_ok_iff (v : Str) :
    extract_long_ok v = true ↔
      ∃ ws lit rest, v = ws ++ lit ++ rest ∧ (∀ c ∈ ws, is_space c = true) ∧
        is_int_literal lit = true ∧ (∀ c, rest.head? = some c → is_digit c = false) ∧
        LONG_MIN ≤ int_literal_value lit ∧ int_literal_value lit ≤ LONG_MAX := by
  have hsplit : v = v.takeWhile is_space ++ v.dropWhile is_space :=
    (List.takeWhile_append_dropWhile _ _).symm
  have hws : ∀ c ∈ v.takeWhile is_space, is_space c = true := fun c hc =>
    (List.mem_takeWhile_imp hc)
  constructor
  · intro h
    unfold extract_long_ok at h
    rcases extract_long_cases v with ⟨_, e⟩ | ⟨rest, ht, e⟩ | ⟨rest, ht, e⟩ | ⟨c, rest, ht, hc1, hc2, e⟩
    · rw [e] at h; cases h
    · rw [e] at h
      have h' := (number_ok_iff true rest).1 h
      simp only [if_true] at h'
      have hd : ∀ c ∈ rest.takeWhile is_digit, is_digit c = true := fun c hc =>
        List.mem_takeWhile_imp hc
      refine ⟨v.takeWhile is_space, '-' :: rest.takeWhile is_digit, rest.dropWhile is_digit,
        ?_, hws, ?_, head_dropWhile_digit rest, ?_, ?_⟩
      · rw [List.append_assoc, List.cons_append, List.takeWhile_append_dropWhile, ← ht]
        exact hsplit
      · exact (is_int_literal_cases _).2 (Or.inl ⟨_, rfl, h'.1, hd⟩)
      · rw [int_literal_value_minus]; exact h'.2.1
      · rw [int_literal_value_minus]; exact h'.2.2
    · rw [e] at h
      have h' := (number_ok_iff false rest).1 h
      simp only [Bool.false_eq_true, if_false] at h'
      have hd : ∀ c ∈ rest.takeWhile is_digit, is_digit c = true := fun c hc =>
        List.mem_takeWhile_imp hc
      refine ⟨v.takeWhile is_space, '+' :: rest.takeWhile is_digit, rest.dropWhile is_digit,
        ?_, hws, ?_, head_dropWhile_digit rest, ?_, ?_⟩
      · rw [List.append_assoc, List.cons_append, List.takeWhile_append_dropWhile, ← ht]
        exact hsplit
      · exact (is_int_literal_cases _).2 (Or.inr (Or.inl ⟨_, rfl, h'.1, hd⟩))
      · rw [int_literal_value_plus]; exact h'.2.1
      · rw [int_literal_value_plus]; exact h'.2.2
    · rw [e] at h
      have h' := (number_ok_iff false (c :: rest)).1 h
      simp only [Bool.false_eq_true, if_false] at h'
      have hd : ∀ x ∈ (c :: rest).takeWhile is_digit, is_digit x = true := fun x hx =>
        List.mem_takeWhile_imp hx
      refine ⟨v.takeWhile is_space, (c :: rest).takeWhile is_digit, (c :: rest).dropWhile is_digit,
        ?_, hws, ?_, head_dropWhile_digit _, ?_, ?_⟩
      · rw [List.append_assoc, List.takeWhile_append_dropWhile, ← ht]
        exact hsplit
      · exact (is_int_literal_cases _).2 (Or.inr (Or.inr ⟨h'.1, hd⟩))
      · rw [int_literal_value_digits hd]; exact h'.2.1
      · rw [int_literal_value_digits hd]; exact h'.2.2
  · rintro ⟨ws, lit, rest, rfl, hw, hl, hr, hmin, hmax⟩
    unfold extract_long_ok
    rcases (is_int_literal_cases lit).1 hl with ⟨ds, rfl, hne, hd⟩ | ⟨ds, rfl, hne, hd⟩ | ⟨hne, hd⟩
    · have ht : (ws ++ '-' :: ds ++ rest).dropWhile is_space = '-' :: (ds ++ rest) := by
        rw [List.append_assoc, List.cons_append]
        exact dropWhile_space_append hw _ _ (by decide)
      rcases extract_long_cases (ws ++ '-' :: ds ++ rest) with ⟨e, _⟩ | ⟨r, e, e2⟩ | ⟨r, e, _⟩ | ⟨c, r, e, hc1, _, _⟩
      · rw [ht] at e; cases e
      · rw [ht] at e; cases e
        rw [e2]
        refine (number_ok_iff true _).2 ?_
        rw [takeWhile_digit_append hd hr]
        exact ⟨hne, hmin, hmax⟩
      · rw [ht] at e; cases e
      · rw [ht] at e; cases e; exact absurd rfl hc1
    · have ht : (ws ++ '+' :: ds ++ rest).dropWhile is_space = '+' :: (ds ++ rest) := by
        rw [List.append_assoc, List.cons_append]
        exact dropWhile_space_append hw _ _ (by decide)
      rcases extract_long_cases (ws ++ '+' :: ds ++ rest) with ⟨e, _⟩ | ⟨r, e, _⟩ | ⟨r, e, e2⟩ | ⟨c, r, e, _, hc2, _⟩
      · rw [ht] at e; cases e
      · rw [ht] at e; cases e
      · rw [ht] at e; cases e
        rw [e2]
        refine (number_ok_iff false _).2 ?_
        rw [takeWhile_digit_append hd hr]
        exact ⟨hne, hmin, hmax⟩
      · rw [ht] at e; cases e; exact absurd rfl hc2
    · cases lit with
      | nil => exact absurd rfl hne
      | cons a ds =>
        have ha := hd a (List.mem_cons_self _ _)
        have ht : (ws ++ a :: ds ++ rest).dropWhile is_space = a :: (ds ++ rest) := by
          rw [List.append_assoc, List.cons_append]
          exact dropWhile_space_append hw _ _ (digit_not_space ha)
        rw [int_literal_value_digits hd] at hmin hmax
        rcases extract_long_cases (ws ++ a :: ds ++ rest) with ⟨e, _⟩ | ⟨r, e, _⟩ | ⟨r, e, _⟩ | ⟨c, r, e, _, _, e2⟩
        · rw [ht] at e; cases e
        · rw [ht] at e; cases e; exact absurd rfl (digit_not_sign ha).1
        · rw [ht] at e; cases e; exact absurd rfl (digit_not_sign ha).2
        · rw [ht] at e; cases e
          rw [e2]
          refine (number_ok_iff false _).2 ?_
          rw [← List.cons_append, takeWhile_digit_append hd hr]
          exact ⟨hne, hmin, hmax⟩

theorem check_type_int (E : Env) {o : Opt} (ht : o._type = "int".toList ∨ o._type = "long".toList)
    (opt val : Str) :
    o.check_type E opt val =
      if extract_long_ok val = true then []
      else "option".toList ++ " ".toList ++ opt ++ ": ".toList ++ "invalid integer value".toList ++
        ": '".toList ++ val ++ "'".toList := by
  unfold Opt.check_type
  rw [if_pos ht]
  by_cases h : extract_long_ok val = true
  · rw [if_pos h, if_neg (by simpa using h)]
  · rw [if_neg h, if_pos (by simpa using h)]

theorem process_opt_rejected {p : OptionParser} (E : Env) {o : Opt} (opt value : Str)
    (ha : o._action = "store".toList ∨ o._action = "append".toList)
    (hr : o.check_type E opt value ≠ []) :
    p.process_opt E o opt value = .error (o.check_type E opt value) := by
  unfold OptionParser.process_opt
  rcases ha with ha | ha
  · rw [if_pos ha]
    simp only [hr, ne_eq, not_false_eq_true, if_true]
  · rw [if_neg (by rw [ha]; decide), if_neg (by rw [ha]; decide), if_neg (by rw [ha]; decide),
      if_neg (by rw [ha]; decide), if_pos ha]
    simp only [hr, ne_eq, not_false_eq_true, if_true]

theorem handle_long_opt_missing {p : OptionParser} {E : Env} {name : Str} {o : Opt}
    (hname : '=' ∉ name) (hl : p.lookup_long_opt name = .ok o) (hn : o._nargs = 1)
    (hq : p._remaining.tail = []) :
    p.handle_long_opt E name =
      .error ("--".toList ++ name ++ " ".toList ++ "option requires an argument".toList) := by
  unfold OptionParser.handle_long_opt
  simp only [str_find_eq_none hname, lookup_long_opt_queue, hl, hq, hn, and_self, if_true]

theorem handle_long_opt_next_empty {p : OptionParser} {E : Env} {name : Str} {o : Opt}
    (hname : '=' ∉ name) (hl : p.lookup_long_opt name = .ok o) (hn : o._nargs = 1)
    {first : Str} {rest : List Str} (hq : p._remaining = first :: [] :: rest) :
    p.handle_long_opt E name =
      .error ("--".toList ++ name ++ " ".toList ++ "option requires an argument".toList) := by
  unfold OptionParser.handle_long_opt
  simp only [str_find_eq_none hname, lookup_long_opt_queue, hl, hq, hn, List.tail_cons, and_self,
    if_true]

theorem process_opt_store {p : OptionParser} (E : Env) {o : Opt} (opt value : Str)
    (ha : o._action = "store".toList) (ht : o._type = "string".toList) :
    p.process_opt E o opt value =
      .ok { p with _values := (p._values.assign o._dest value).set_by_user o._dest true } := by
  unfold OptionParser.process_opt
  rw [if_pos ha]
  simp only [check_type_string E ht, ne_eq, not_true_eq_false, if_false]

theorem fill_parsed (opts : List Opt) : ∀ (p : OptionParser) (X : List Str),
    OptionParser.parse_args.fill { p with _parsed := X } opts =
      { (OptionParser.parse_args.fill p opts) with _parsed := X } := by
  induction opts with
  | nil => intro p X; rfl
  | cons o l ih =>
    intro p X
    rw [fill_cons, fill_cons]
    by_cases h : o.get_default p ≠ [] ∧ ¬ p._values.is_set o._dest
    · rw [if_pos h, if_pos (show o.get_default { p with _parsed := X } ≠ [] ∧
        ¬ ({ p with _parsed := X } : OptionParser)._values.is_set o._dest from h)]
      exact ih { p with _values := p._values.assign o._dest (o.get_default p) } X
    · rw [if_neg h, if_neg (show ¬ (o.get_default { p with _parsed := X } ≠ [] ∧
        ¬ ({ p with _parsed := X } : OptionParser)._values.is_set o._dest) from h)]
      exact ih p X

theorem finish_parsed (p : OptionParser) (X : List Str) :
    OptionParser.parse_args.defaults (OptionParser.parse_args.drain { p with _parsed := X }) =
      { (OptionParser.parse_args.defaults (OptionParser.parse_args.drain p)) with _parsed := X } := by
  rw [defaults_eq_fill, defaults_eq_fill]
  exact fill_parsed (fill_order (OptionParser.parse_args.drain p)) (OptionParser.parse_args.drain p) X

theorem long_store_inline_step {E : Env} {q : OptionParser} {name V : Str} {o : Opt}
    (hname : '=' ∉ name) (hV : V ≠ []) (hl : q.lookup_long_opt name = .ok o)
    (ha : o._action = "store".toList) (ht : o._type = "string".toList)
    (hq : q._remaining = ["--".toList ++ name ++ '=' :: V]) :
    ∃ X, OptionParser.parse_args.iteration E q =
      .next { q with _parsed := X, _remaining := [],
                     _values := (q._values.assign o._dest V).set_by_user o._dest true } := by
  have hq' : q._remaining = ('-' :: '-' :: (name ++ '=' :: V)) :: [] := by rw [hq]; simp
  rw [iteration_long hq' (by simp),
    handle_long_opt_inline hname (by rw [← hl]; rfl) (fun _ => hV), process_opt_store E _ _ ha ht]
  exact ⟨q._parsed ++ ['-' :: '-' :: (name ++ '=' :: V)], by simp [hq']⟩

theorem long_store_next_step {E : Env} {q : OptionParser} {name V : Str} {o : Opt}
    (hname : '=' ∉ name) (hne : name ≠ []) (hV : V ≠ []) (hl : q.lookup_long_opt name = .ok o)
    (hn : o._nargs = 1) (ha : o._action = "store".toList) (ht : o._type = "string".toList)
    (hq : q._remaining = ["--".toList ++ name, V]) :
    ∃ X, OptionParser.parse_args.iteration E q =
      .next { q with _parsed := X, _remaining := [],
                     _values := (q._values.assign o._dest V).set_by_user o._dest true } := by
  have hq' : q._remaining = ('-' :: '-' :: name) :: V :: [] := by rw [hq]; simp
  rw [iteration_long hq' hne,
    handle_long_opt_next hname (by rw [← hl]; rfl) hn
      (show ({ q with _parsed := q._parsed ++ ['-' :: '-' :: name] } : OptionParser)._remaining =
        ('-' :: '-' :: name) :: V :: [] from hq') hV,
    process_opt_store E _ _ ha ht]
  exact ⟨q._parsed ++ ['-' :: '-' :: name], rfl⟩

theorem process_opt_leftover {p p' : OptionParser} {E : Env} {o : Opt} {opt value : Str}
    (h : p.process_opt E o opt value = .ok p') : p'._leftover = p._leftover := by
  obtain ⟨vs, rfl⟩ := process_opt_ok h
  rfl

/-- What a long option leaves of the queue and of the positional arguments. -/
theorem handle_long_opt_shape {p p' : OptionParser} {E : Env} {optstr : Str}
    (h : p.handle_long_opt E optstr = .ok p') :
    p'._leftover = p._leftover ∧
      (p'._remaining = p._remaining.tail ∨ p'._remaining = p._remaining.tail.tail) := by
  unfold OptionParser.handle_long_opt at h
  simp only [lookup_long_opt_queue] at h
  split at h
  · cases h
  · rename_i option _
    split_ifs at h with h1 h2
    all_goals rw [process_opt_remaining h, process_opt_leftover h]
    · cases hr : p._remaining.tail with
      | nil => simp
      | cons front rest => simp
    · simp

/-- What a short option leaves of the queue and of the positional arguments. -/
theorem handle_short_opt_shape {p p' : OptionParser} {E : Env} {x : Char} {t : Str}
    (h : p.handle_short_opt E [x] ('-' :: x :: t) = .ok p') :
    p'._leftover = p._leftover ∧
      (p'._remaining = p._remaining.tail ∨ p'._remaining = p._remaining.tail.tail ∨
        (t ≠ [] ∧ p'._remaining = ('-' :: t) :: p._remaining.tail)) := by
  cases hf : SMap.find p._optmap_s [x] with
  | none => rw [handle_short_opt_unknown hf] at h; cases h
  | some o =>
    by_cases hn : o._nargs = 1
    · by_cases hv : substr_from ('-' :: x :: t) 2 = []
      · cases hr : p._remaining.tail with
        | nil =>
          cases hopt : o._optional_value with
          | true =>
            rw [handle_short_opt_optional hf hn hv hr hopt] at h
            rw [process_opt_remaining h, process_opt_leftover h]
            exact ⟨rfl, Or.inl rfl⟩
          | false =>
            rw [handle_short_opt_missing hf hn hv hr hopt] at h
            cases h
        | cons front rest =>
          cases hq : p._remaining with
          | nil => rw [hq] at hr; cases hr
          | cons first tl =>
            rw [hq, List.tail_cons] at hr
            subst hr
            rw [handle_short_opt_next hf hn hv hq] at h
            rw [process_opt_remaining h, process_opt_leftover h]
            exact ⟨rfl, Or.inr (Or.inl rfl)⟩
      · rw [handle_short_opt_attached hf hn hv] at h
        rw [process_opt_remaining h, process_opt_leftover h]
        exact ⟨rfl, Or.inl rfl⟩
    · rw [handle_short_opt_flag hf hn] at h
      rw [process_opt_remaining h, process_opt_leftover h]
      by_cases hl : ('-' :: x :: t).length > 2
      · rw [if_pos hl]
        refine ⟨rfl, Or.inr (Or.inr ⟨?_, rfl⟩)⟩
        intro e; subst e; simp at hl
      · rw [if_neg hl]
        exact ⟨rfl, Or.inl rfl⟩

/-- An iteration that goes on either handles a flag, which leaves the
positional arguments as they are, or appends the positional token at the front
of the queue. -/
theorem iteration_next_shape {E : Env} {p p' : OptionParser}
    (h : OptionParser.parse_args.iteration E p = .next p') :
    (p'._leftover = p._leftover ∧ is_positional (p._remaining.headD []) = false ∧
      (p'._remaining = p._remaining.tail ∨ p'._remaining = p._remaining.tail.tail ∨
        ∃ t, t ≠ [] ∧ p'._remaining = ('-' :: t) :: p._remaining.tail)) ∨
    (∃ arg rest, p._remaining = arg :: rest ∧ is_positional arg = true ∧
      p'._leftover = p._leftover ++ [arg] ∧ p'._remaining = rest) := by
  cases hq : p._remaining with
  | nil => rw [iteration_nil hq] at h; cases h
  | cons arg rest =>
    rcases token_cases arg with ha | ⟨s, ha, hs⟩ | ⟨x, t, ha, hx⟩ | ha
    · subst ha; rw [iteration_terminator hq] at h; cases h
    · subst ha
      rw [iteration_long hq hs] at h
      split at h
      · rename_i p1 hh
        cases h
        have := handle_long_opt_shape hh
        simp only [hq, List.tail_cons] at this
        refine Or.inl ⟨this.1, by simp [is_positional], ?_⟩
        rcases this.2 with e | e
        · exact Or.inl e
        · exact Or.inr (Or.inl e)
      · cases h
    · subst ha
      rw [iteration_short hq hx] at h
      split at h
      · rename_i p1 hh
        cases h
        have := handle_short_opt_shape hh
        simp only [hq, List.tail_cons] at this
        refine Or.inl ⟨this.1, by simp [is_positional], ?_⟩
        rcases this.2 with e | e | ⟨e1, e2⟩
        · exact Or.inl e
        · exact Or.inr (Or.inl e)
        · exact Or.inr (Or.inr ⟨t, e1, e2⟩)
      · cases h
    · rw [iteration_positional hq ha] at h
      split_ifs at h
      cases h
      exact Or.inr ⟨arg, rest, rfl, ha, rfl, rfl⟩

/-- An iteration that leaves the loop with a state: the queue is empty, or
the terminator is dropped, or a positional token is appended. -/
theorem iteration_stop_shape {E : Env} {p p' : OptionParser}
    (h : OptionParser.parse_args.iteration E p = .stop (.ok p')) :
    (p._remaining = [] ∧ p' = p) ∨
    (∃ rest, p._remaining = "--".toList :: rest ∧ p'._leftover = p._leftover ∧
      p'._remaining = rest) ∨
    (∃ arg rest, p._remaining = arg :: rest ∧ is_positional arg = true ∧
      p'._leftover = p._leftover ++ [arg] ∧ p'._remaining = rest) := by
  cases hq : p._remaining with
  | nil =>
    rw [iteration_nil hq] at h
    cases h
    exact Or.inl ⟨rfl, rfl⟩
  | cons arg rest =>
    rcases token_cases arg with ha | ⟨s, ha, hs⟩ | ⟨x, t, ha, hx⟩ | ha
    · subst ha
      rw [iteration_terminator hq] at h
      cases h
      exact Or.inr (Or.inl ⟨rest, rfl, rfl, rfl⟩)
    · subst ha
      rw [iteration_long hq hs] at h
      split at h
      · cases h
      · rename_i hne
        exact absurd (Iteration.stop.inj h) (hne _)
    · subst ha
      rw [iteration_short hq hx] at h
      split at h
      · cases h
      · rename_i hne
        exact absurd (Iteration.stop.inj h) (hne _)
    · rw [iteration_positional hq ha] at h
      split_ifs at h
      cases h
      exact Or.inr (Or.inr ⟨arg, rest, rfl, ha, rfl, rfl⟩)


theorem raw_drop {v pre suf L : List Str} (k : Nat) (hv : v = pre ++ suf) (hL : L.Sublist pre) :
    v = (pre ++ suf.take k) ++ suf.drop k ∧ L.Sublist (pre ++ suf.take k) := by
  constructor
  · rw [List.append_assoc, List.take_append_drop]; exact hv
  · exact hL.trans (List.sublist_append_left _ _)

theorem pushed_back_not_positional {t : Str} (ht : t ≠ []) : is_positional ('-' :: t) = false := by
  cases h : is_positional ('-' :: t) with
  | false => rfl
  | true =>
    rcases is_positional_cases h with e | e | ⟨c, t', e, hc⟩
    · cases e
    · cases e; exact absurd rfl ht
    · cases e; exact absurd rfl hc

theorem tail_eq_drop (l : List Str) : l.tail = l.drop 1 := by
  cases l <;> rfl

theorem tail_tail_eq_drop (l : List Str) : l.tail.tail = l.drop 2 := by
  cases l with
  | nil => rfl
  | cons a l => cases l <;> rfl

/-- The invariant goes from one iteration to the next. -/
theorem raw_queue_next {E : Env} {v : List Str} {p p' : OptionParser} (hI : raw_queue v p)
    (h : OptionParser.parse_args.iteration E p = .next p') : raw_queue v p' := by
  obtain ⟨pre, suf, hv, hL, hR⟩ := hI
  rcases iteration_next_shape h with ⟨hl, _, hr⟩ | ⟨arg, rest, hq, ha, hl, hr⟩
  · rw [← hl] at hL
    rcases hR with hR | ⟨t0, ht0, hR⟩
    · rw [hR] at hr
      rcases hr with hr | hr | ⟨t, ht, hr⟩
      · rw [tail_eq_drop] at hr
        exact ⟨_, _, (raw_drop 1 hv hL).1, (raw_drop 1 hv hL).2, Or.inl hr⟩
      · rw [tail_tail_eq_drop] at hr
        exact ⟨_, _, (raw_drop 2 hv hL).1, (raw_drop 2 hv hL).2, Or.inl hr⟩
      · rw [tail_eq_drop] at hr
        exact ⟨_, _, (raw_drop 1 hv hL).1, (raw_drop 1 hv hL).2, Or.inr ⟨t, ht, hr⟩⟩
    · rw [hR, List.tail_cons] at hr
      rcases hr with hr | hr | ⟨t, ht, hr⟩
      · exact ⟨pre, suf, hv, hL, Or.inl hr⟩
      · rw [tail_eq_drop] at hr
        exact ⟨_, _, (raw_drop 1 hv hL).1, (raw_drop 1 hv hL).2, Or.inl hr⟩
      · exact ⟨pre, suf, hv, hL, Or.inr ⟨t, ht, hr⟩⟩
  · rcases hR with hR | ⟨t0, ht0, hR⟩
    · rw [hq] at hR
      refine ⟨pre ++ [arg], rest, ?_, ?_, Or.inl hr⟩
      · rw [hv, ← hR]; simp
      · rw [hl]; exact List.Sublist.append hL (List.Sublist.refl _)
    · rw [hq] at hR
      cases hR
      rw [pushed_back_not_positional ht0] at ha
      cases ha

/-- When the loop is left with a state, the positional arguments followed by
the queue are a subsequence of the input. -/
theorem raw_queue_stop {E : Env} {v : List Str} {p p' : OptionParser} (hI : raw_queue v p)
    (h : OptionParser.parse_args.iteration E p = .stop (.ok p')) :
    (p'._leftover ++ p'._remaining).Sublist v := by
  obtain ⟨pre, suf, hv, hL, hR⟩ := hI
  rcases iteration_stop_shape h with ⟨hq, e⟩ | ⟨rest, hq, hl, hr⟩ | ⟨arg, rest, hq, ha, hl, hr⟩
  · subst e
    rw [hq, List.append_nil, hv]
    exact hL.trans (List.sublist_append_left _ _)
  · rw [hl, hr, hv]
    rcases hR with hR | ⟨t0, ht0, hR⟩
    · rw [← hR, hq]
      exact List.Sublist.append hL (List.sublist_cons_self _ _)
    · rw [hq] at hR
      cases hR
      exact List.Sublist.append hL (List.Sublist.refl _)
  · rw [hl, hr, hv]
    rcases hR with hR | ⟨t0, ht0, hR⟩
    · rw [← hR, hq, List.append_assoc]
      exact List.Sublist.append hL (List.Sublist.refl _)
    · rw [hq] at hR
      cases hR
      rw [pushed_back_not_positional ht0] at ha
      cases ha

theorem scan_sublist (E : Env) (v : List Str) (n : Nat) :
    ∀ (p p' : OptionParser), raw_queue v p →
      OptionParser.parse_args.scan E n p = some (.ok p') →
      (p'._leftover ++ p'._remaining).Sublist v := by
  induction n with
  | zero => intro p p' _ h; cases h
  | succ n ih =>
    intro p p' hI h
    cases hi : OptionParser.parse_args.iteration E p with
    | stop r =>
      rw [scan_of_stop n hi] at h
      cases h
      exact raw_queue_stop hI hi
    | next q =>
      rw [scan_of_next n hi] at h
      exact ih q p' (raw_queue_next hI hi) h

theorem finish_ok_inv {r : Option Outcome} {p' : OptionParser}
    (h : OptionParser.parse_args.finish r = some (.ok p')) :
    ∃ p0, r = some (.ok p0) ∧
      p' = OptionParser.parse_args.defaults (OptionParser.parse_args.drain p0) := by
  cases r with
  | none => cases h
  | some o =>
    cases o with
    | ok p0 => rw [finish_ok] at h; cases h; exact ⟨p0, rfl, rfl⟩
    | error m => cases h
    | help q => cases h
    | version q => cases h

theorem same_registry_refl (p : OptionParser) : same_registry p p := ⟨_, _, _, _, rfl⟩

theorem same_registry_trans {p q r : OptionParser} (h1 : same_registry p q)
    (h2 : same_registry q r) : same_registry p r := by
  obtain ⟨vs, r1, l, pa, rfl⟩ := h1
  obtain ⟨vs2, r2, l2, pa2, rfl⟩ := h2
  exact ⟨_, _, _, _, rfl⟩

theorem process_opt_same_registry {p p' : OptionParser} {E : Env} {o : Opt} {opt value : Str}
    (h : p.process_opt E o opt value = .ok p') : same_registry p p' := by
  obtain ⟨vs, rfl⟩ := process_opt_ok h
  exact ⟨_, _, _, _, rfl⟩

theorem handle_long_opt_same_registry {p p' : OptionParser} {E : Env} {optstr : Str}
    (h : p.handle_long_opt E optstr = .ok p') : same_registry p p' := by
  unfold OptionParser.handle_long_opt at h
  simp only [lookup_long_opt_queue] at h
  split at h
  · cases h
  · rename_i option _
    split_ifs at h with h1 h2
    all_goals obtain ⟨vs, rfl⟩ := process_opt_ok h
    · cases hr : p._remaining.tail with
      | nil => exact ⟨_, _, _, _, rfl⟩
      | cons front rest => exact ⟨_, _, _, _, rfl⟩
    · exact ⟨_, _, _, _, rfl⟩

theorem handle_short_opt_same_registry {p p' : OptionParser} {E : Env} {x : Char} {t : Str}
    (h : p.handle_short_opt E [x] ('-' :: x :: t) = .ok p') : same_registry p p' := by
  cases hf : SMap.find p._optmap_s [x] with
  | none => rw [handle_short_opt_unknown hf] at h; cases h
  | some o =>
    by_cases hn : o._nargs = 1
    · by_cases hv : substr_from ('-' :: x :: t) 2 = []
      · cases hr : p._remaining.tail with
        | nil =>
          cases hopt : o._optional_value with
          | true =>
            rw [handle_short_opt_optional hf hn hv hr hopt] at h
            exact same_registry_trans ⟨_, _, _, _, rfl⟩ (process_opt_same_registry h)
          | false =>
            rw [handle_short_opt_missing hf hn hv hr hopt] at h
            cases h
        | cons front rest =>
          cases hq : p._remaining with
          | nil => rw [hq] at hr; cases hr
          | cons first tl =>
            rw [hq, List.tail_cons] at hr
            subst hr
            rw [handle_short_opt_next hf hn hv hq] at h
            exact same_registry_trans ⟨_, _, _, _, rfl⟩ (process_opt_same_registry h)
      · rw [handle_short_opt_attached hf hn hv] at h
        exact same_registry_trans ⟨_, _, _, _, rfl⟩ (process_opt_same_registry h)
    · rw [handle_short_opt_flag hf hn] at h
      by_cases hl : ('-' :: x :: t).length > 2
      · rw [if_pos hl] at h
        exact same_registry_trans ⟨_, _, _, _, rfl⟩ (process_opt_same_registry h)
      · rw [if_neg hl] at h
        exact same_registry_trans ⟨_, _, _, _, rfl⟩ (process_opt_same_registry h)

/-- An iteration of the scan leaves the registry as it is. -/
theorem iteration_same_registry {E : Env} {p p' : OptionParser}
    (h : OptionParser.parse_args.iteration E p = .next p' ∨
      OptionParser.parse_args.iteration E p = .stop (.ok p')) : same_registry p p' := by
  cases hq : p._remaining with
  | nil =>
    rw [iteration_nil hq] at h
    rcases h with h | h
    · cases h
    · cases h; exact same_registry_refl _
  | cons arg rest =>
    rcases token_cases arg with ha | ⟨s, ha, hs⟩ | ⟨x, t, ha, hx⟩ | ha
    · subst ha
      rw [iteration_terminator hq] at h
      rcases h with h | h
      · cases h
      · cases h; exact ⟨_, _, _, _, rfl⟩
    · subst ha
      rw [iteration_long hq hs] at h
      rcases h with h | h
      · split at h
        · rename_i p1 hh
          cases h
          exact same_registry_trans ⟨_, _, _, _, rfl⟩ (handle_long_opt_same_registry hh)
        · cases h
      · split at h
        · cases h
        · rename_i hne
          exact absurd (Iteration.stop.inj h) (hne _)
    · subst ha
      rw [iteration_short hq hx] at h
      rcases h with h | h
      · split at h
        · rename_i p1 hh
          cases h
          exact handle_short_opt_same_registry hh
        · cases h
      · split at h
        · cases h
        · rename_i hne
          exact absurd (Iteration.stop.inj h) (hne _)
    · rw [iteration_positional hq ha] at h
      rcases h with h | h
      · split_ifs at h
        cases h
        exact ⟨_, _, _, _, rfl⟩
      · split_ifs at h
        cases h
        exact ⟨_, _, _, _, rfl⟩

/-- The scan leaves the registry as it is. -/
theorem scan_same_registry (E : Env) (n : Nat) :
    ∀ (p p' : OptionParser), OptionParser.parse_args.scan E n p = some (.ok p') →
      same_registry p p' := by
  induction n with
  | zero => intro p p' h; cases h
  | succ n ih =>
    intro p p' h
    cases hi : OptionParser.parse_args.iteration E p with
    | stop r =>
      rw [scan_of_stop n hi] at h
      cases h
      exact iteration_same_registry (Or.inr hi)
    | next q =>
      rw [scan_of_next n hi] at h
      exact same_registry_trans (iteration_same_registry (Or.inl hi)) (ih q p' h)


theorem handle_long_opt_values (P : Values → Prop) {E : Env}
    (hP : ∀ (p p' : OptionParser) (o : Opt) (opt value : Str), P p._values →
      p.process_opt E o opt value = .ok p' → P p'._values)
    {p p' : OptionParser} {optstr : Str} (h0 : P p._values)
    (h : p.handle_long_opt E optstr = .ok p') : P p'._values := by
  unfold OptionParser.handle_long_opt at h
  simp only [lookup_long_opt_queue] at h
  split at h
  · cases h
  · rename_i option _
    split_ifs at h with h1 h2
    · cases hr : p._remaining.tail with
      | nil => rw [hr] at h; exact hP _ _ _ _ _ (by exact h0) h
      | cons front rest => rw [hr] at h; exact hP _ _ _ _ _ (by exact h0) h
    · exact hP _ _ _ _ _ (by exact h0) h

theorem handle_short_opt_values (P : Values → Prop) {E : Env}
    (hP : ∀ (p p' : OptionParser) (o : Opt) (opt value : Str), P p._values →
      p.process_opt E o opt value = .ok p' → P p'._values)
    {p p' : OptionParser} {x : Char} {t : Str} (h0 : P p._values)
    (h : p.handle_short_opt E [x] ('-' :: x :: t) = .ok p') : P p'._values := by
  cases hf : SMap.find p._optmap_s [x] with
  | none => rw [handle_short_opt_unknown hf] at h; cases h
  | some o =>
    by_cases hn : o._nargs = 1
    · by_cases hv : substr_from ('-' :: x :: t) 2 = []
      · cases hr : p._remaining.tail with
        | nil =>
          cases hopt : o._optional_value with
          | true =>
            rw [handle_short_opt_optional hf hn hv hr hopt] at h
            exact hP _ _ _ _ _ (by exact h0) h
          | false =>
            rw [handle_short_opt_missing hf hn hv hr hopt] at h
            cases h
        | cons front rest =>
          cases hq : p._remaining with
          | nil => rw [hq] at hr; cases hr
          | cons first tl =>
            rw [hq, List.tail_cons] at hr
            subst hr
            rw [handle_short_opt_next hf hn hv hq] at h
            exact hP _ _ _ _ _ (by exact h0) h
      · rw [handle_short_opt_attached hf hn hv] at h
        exact hP _ _ _ _ _ (by exact h0) h
    · rw [handle_short_opt_flag hf hn] at h
      by_cases hl : ('-' :: x :: t).length > 2
      · rw [if_pos hl] at h
        exact hP _ _ _ _ _ (by exact h0) h
      · rw [if_neg hl] at h
        exact hP _ _ _ _ _ (by exact h0) h

/-- A property of the store that every action keeps is kept by an iteration of the scan. -/
theorem iteration_values (P : Values → Prop) {E : Env}
    (hP : ∀ (p p' : OptionParser) (o : Opt) (opt value : Str), P p._values →
      p.process_opt E o opt value = .ok p' → P p'._values)
    {p p' : OptionParser} (h0 : P p._values)
    (h : OptionParser.parse_args.iteration E p = .next p' ∨
      OptionParser.parse_args.iteration E p = .stop (.ok p')) : P p'._values := by
  cases hq : p._remaining with
  | nil =>
    rw [iteration_nil hq] at h
    rcases h with h | h
    · cases h
    · cases h; exact h0
  | cons arg rest =>
    rcases token_cases arg with ha | ⟨s, ha, hs⟩ | ⟨x, t, ha, hx⟩ | ha
    · subst ha
      rw [iteration_terminator hq] at h
      rcases h with h | h
      · cases h
      · cases h; exact h0
    · subst ha
      rw [iteration_long hq hs] at h
      rcases h with h | h
      · split at h
        · rename_i p1 hh
          cases h
          exact handle_long_opt_values P hP (by exact h0) hh
        · cases h
      · split at h
        · cases h
        · rename_i hne
          exact absurd (Iteration.stop.inj h) (hne _)
    · subst ha
      rw [iteration_short hq hx] at h
      rcases h with h | h
      · split at h
        · rename_i p1 hh
          cases h
          exact handle_short_opt_values P hP (by exact h0) hh
        · cases h
      · split at h
        · cases h
        · rename_i hne
          exact absurd (Iteration.stop.inj h) (hne _)
    · rw [iteration_positional hq ha] at h
      rcases h with h | h
      · split_ifs at h
        cases h
        exact h0
      · split_ifs at h
        cases h
        exact h0

/-- A property of the store that every action keeps is kept by the scan. -/
theorem scan_values (P : Values → Prop) (E : Env)
    (hP : ∀ (p p' : OptionParser) (o : Opt) (opt value : Str), P p._values →
      p.process_opt E o opt value = .ok p' → P p'._values) (n : Nat) :
    ∀ (p p' : OptionParser), P p._values →
      OptionParser.parse_args.scan E n p = some (.ok p') → P p'._values := by
  induction n with
  | zero => intro p p' _ h; cases h
  | succ n ih =>
    intro p p' h0 h
    cases hi : OptionParser.parse_args.iteration E p with
    | stop r =>
      rw [scan_of_stop n hi] at h
      cases h
      exact iteration_values P hP h0 (Or.inr hi)
    | next q =>
      rw [scan_of_next n hi] at h
      exact ih q p' (iteration_values P hP h0 (Or.inl hi)) h

/-- An action leaves the store as it is or marks the destination of its flag. -/
theorem process_opt_mark {p p' : OptionParser} {E : Env} {o : Opt} {opt value : Str}
    (h : p.process_opt E o opt value = .ok p') :
    p'._values = p._values ∨ p'._values.is_set_by_user o._dest = true := by
  unfold OptionParser.process_opt at h
  by_cases h1 : o._action = "store".toList
  · rw [if_pos h1] at h
    dsimp only at h
    by_cases e : o.check_type E opt value ≠ []
    · rw [if_pos e] at h; cases h
    · rw [if_neg e] at h; cases h; exact Or.inr (Values.is_set_by_user_set _ _)
  rw [if_neg h1] at h
  by_cases h2 : o._action = "store_const".toList
  · rw [if_pos h2] at h; cases h; exact Or.inr (Values.is_set_by_user_set _ _)
  rw [if_neg h2] at h
  by_cases h3 : o._action = "store_true".toList
  · rw [if_pos h3] at h; cases h; exact Or.inr (Values.is_set_by_user_set _ _)
  rw [if_neg h3] at h
  by_cases h4 : o._action = "store_false".toList
  · rw [if_pos h4] at h; cases h; exact Or.inr (Values.is_set_by_user_set _ _)
  rw [if_neg h4] at h
  by_cases h5 : o._action = "append".toList
  · rw [if_pos h5] at h
    dsimp only at h
    by_cases e : o.check_type E opt value ≠ []
    · rw [if_pos e] at h; cases h
    · rw [if_neg e] at h; cases h; exact Or.inr (Values.is_set_by_user_set _ _)
  rw [if_neg h5] at h
  by_cases h6 : o._action = "append_const".toList
  · rw [if_pos h6] at h; cases h; exact Or.inr (Values.is_set_by_user_set _ _)
  rw [if_neg h6] at h
  by_cases h7 : o._action = "count".toList
  · rw [if_pos h7] at h; cases h; exact Or.inr (Values.is_set_by_user_set _ _)
  rw [if_neg h7] at h
  by_cases h8 : o._action = "help".toList
  · rw [if_pos h8] at h; cases h
  rw [if_neg h8] at h
  by_cases h9 : o._action = "version".toList
  · rw [if_pos h9] at h; cases h
  rw [if_neg h9] at h
  by_cases h10 : o._action = "callback".toList ∧ o._callback = true
  · rw [if_pos h10] at h
    dsimp only at h
    by_cases e : o.check_type E opt value ≠ []
    · rw [if_pos e] at h; cases h
    · rw [if_neg e] at h; cases h; exact Or.inl rfl
  rw [if_neg h10] at h
  cases h
  exact Or.inl rfl

theorem process_opt_stored_marked (E : Env) (p p' : OptionParser) (o : Opt) (opt value : Str)
    (h0 : stored_marked p._values) (h : p.process_opt E o opt value = .ok p') :
    stored_marked p'._values := by
  intro d hd
  by_cases e : d = o._dest
  · rcases process_opt_mark h with hm | hm
    · rw [hm] at hd ⊢; exact h0 d hd
    · rw [e]; exact hm
  · obtain ⟨_, hg, hu⟩ := process_opt_frame e h
    rw [hu]
    rw [hg] at hd
    exact h0 d hd

theorem fill_none (d : Str) (opts : List Opt) :
    ∀ (p : OptionParser), (∀ o ∈ opts, o._dest = d → o.get_default p = []) →
      p._values.get d = none → (OptionParser.parse_args.fill p opts)._values.get d = none := by
  induction opts with
  | nil => intro p _ h; exact h
  | cons o opts ih =>
    intro p hall h
    rw [fill_cons]
    by_cases hc : o.get_default p ≠ [] ∧ ¬ p._values.is_set o._dest
    · rw [if_pos hc]
      refine ih { p with _values := p._values.assign o._dest (o.get_default p) }
        (fun o' ho' => hall o' (List.mem_cons_of_mem _ ho')) ?_
      show (p._values.assign o._dest (o.get_default p)).get d = none
      by_cases hd : d = o._dest
      · exact absurd (hall o (List.mem_cons_self _ _) hd.symm) hc.1
      · rw [Values.get_assign_ne _ _ hd]; exact h
    · rw [if_neg hc]
      exact ih p (fun o' ho' => hall o' (List.mem_cons_of_mem _ ho')) h

theorem get_default_override {o : Opt} {p : OptionParser} {V : Str}
    (h : SMap.find p._defaults o._dest = some V) : o.get_default p = V := by
  unfold Opt.get_default
  rw [h]

/-- The store at the end of the default fill, for a destination with an
override `V` that the scan has left without a value. -/
theorem fill_override {q : OptionParser} {o : Opt} {V : Str} (ho : o ∈ fill_order q)
    (hV : SMap.find q._defaults o._dest = some V) (h0 : q._values.get o._dest = none) :
    (V ≠ [] → (OptionParser.parse_args.fill q (fill_order q))._values.get o._dest = some V) ∧
    (V = [] → (OptionParser.parse_args.fill q (fill_order q))._values.get o._dest = none) := by
  have hall : ∀ o' ∈ fill_order q, o'._dest = o._dest → o'.get_default q = V := by
    intro o' _ hd
    exact get_default_override (by rw [hd]; exact hV)
  constructor
  · intro hne
    obtain ⟨pre, post, hsplit⟩ := List.append_of_mem ho
    rw [hsplit, fill_append]
    obtain ⟨h1, h2⟩ := fill_inv o._dest V pre q
      (fun o' ho' hd => Or.inr (hall o' (by rw [hsplit]; exact List.mem_append_left _ ho') hd))
      (Or.inl h0)
    exact fill_hit o post _ V (by rw [h2]; exact get_default_override hV) hne h1
  · intro he
    exact fill_none o._dest _ q (fun o' ho' hd => by rw [hall o' ho' hd, he]) h0


theorem builtin_fill_order (p : OptionParser) (E : Env) :
    ∃ extra, fill_order (OptionParser.parse_args.builtin p E) = extra ++ fill_order p := by
  obtain ⟨extra, hopts, _⟩ := builtin_opts p E
  refine ⟨extra, ?_⟩
  unfold fill_order
  rw [hopts, builtin_groups, List.append_assoc]

/-- The store that `parse_args` returns, for a destination with an override
`V` that is not marked as set by the user. -/
theorem parse_args_override {E : Env} {p p' : OptionParser} {v : List Str} {o : Opt} {V : Str}
    (hfresh : p._values = Values.new) (ho : o ∈ fill_order p)
    (hV : SMap.find p._defaults o._dest = some V) (h : p.parse_args E v = some (.ok p'))
    (huser : p'._values.is_set_by_user o._dest = false) :
    (V ≠ [] → p'._values.get o._dest = some V) ∧ (V = [] → p'._values.get o._dest = none) := by
  rw [parse_args_eq] at h
  obtain ⟨p0, hs, rfl⟩ := finish_ok_inv h
  have hreg := scan_same_registry E _ _ p0 hs
  have hmark : stored_marked p0._values := by
    refine scan_values stored_marked E (process_opt_stored_marked E) _ _ p0 ?_ hs
    rw [builtin_values]
    show stored_marked p._values
    rw [hfresh]
    intro d hd
    exact absurd rfl hd
  rw [finish_user_set] at huser
  have hnone : p0._values.get o._dest = none := by
    by_contra hne
    have := hmark _ hne
    rw [huser] at this
    cases this
  obtain ⟨extra, hfo⟩ := builtin_fill_order { p with _remaining := v } E
  have hmem : o ∈ fill_order (OptionParser.parse_args.builtin { p with _remaining := v } E) := by
    rw [hfo]; exact List.mem_append_right _ ho
  have hV' : SMap.find (OptionParser.parse_args.builtin { p with _remaining := v } E)._defaults
      o._dest = some V := by
    rw [builtin_defaults]; exact hV
  obtain ⟨vs, r, l, pa, rfl⟩ := hreg
  rw [defaults_eq_fill]
  exact fill_override (q := OptionParser.parse_args.drain _) hmem hV' hnone

theorem bind_fold_opts (option : Opt) (v : List Str) : ∀ c : OptionContainer,
    (v.foldl (OptionContainer.add_option.bind option) c)._opts = c._opts := by
  induction v with
  | nil => intro c; rfl
  | cons it v ih =>
    intro c
    rw [List.foldl_cons, ih]
    unfold OptionContainer.add_option.bind
    split_ifs <;> rfl

/-- The options of a container after `add_option`: the new option is the
last, as the chained setters leave it. -/
theorem add_option_opts (c : OptionContainer) (E : Env) (v : List Str) (cfg : Opt → Opt) :
    (c.add_option_result E v cfg)._opts = c._opts ++
      [cfg (if (v.foldl OptionContainer.add_option.name (Opt.new E, [])).1._dest = [] then
        (v.foldl OptionContainer.add_option.name (Opt.new E, [])).1.dest
          (v.foldl OptionContainer.add_option.name (Opt.new E, [])).2
      else (v.foldl OptionContainer.add_option.name (Opt.new E, [])).1)] := by
  unfold OptionContainer.add_option_result
  simp only
  rw [bind_fold_opts]

theorem lookup_long_opt_unknown {p : OptionParser} {opt : Str}
    (hnone : ∀ k ∈ SMap.keys p._optmap_l, ¬ opt <+: k) :
    p.lookup_long_opt opt = .error ("no such option".toList ++ ": --".toList ++ opt) := by
  have hex : opt ∉ SMap.keys p._optmap_l := fun h => hnone opt h (List.prefix_refl _)
  have hm := matching_no_exact hex []
  rw [List.nil_append] at hm
  have : (SMap.keys p._optmap_l).filter (fun k => decide (opt <+: k)) = [] := by
    rw [List.filter_eq_nil_iff]
    intro k hk
    simpa using hnone k hk
  rw [this] at hm
  simp [OptionParser.lookup_long_opt, hm]

theorem handle_long_opt_error_inline {p : OptionParser} {E : Env} {name value msg : Str}
    (hname : '=' ∉ name) (hl : p.lookup_long_opt name = .error msg) :
    p.handle_long_opt E (name ++ '=' :: value) = .error msg := by
  unfold OptionParser.handle_long_opt
  have hsub : substr (name ++ '=' :: value) 0 name.length = name := by
    simp [substr]
  simp only [str_find_eq_append hname, hsub, lookup_long_opt_queue, hl]

/-- An unknown short flag at the front of the queue ends the scan. -/
theorem iteration_unknown_short {E : Env} {p : OptionParser} {x : Char} {t : Str} {rest : List Str}
    (hq : p._remaining = ('-' :: x :: t) :: rest) (hx : x ≠ '-')
    (hf : SMap.find p._optmap_s [x] = none) :
    OptionParser.parse_args.iteration E p =
      .stop (.error ("no such option".toList ++ ": -".toList ++ [x])) := by
  rw [iteration_short hq hx, handle_short_opt_unknown hf]

/-- An unknown long flag at the front of the queue ends the scan. -/
theorem iteration_unknown_long {E : Env} {p : OptionParser} {name : Str} {rest : List Str}
    (hq : p._remaining = ('-' :: '-' :: name) :: rest) (hne : name ≠ []) (hname : '=' ∉ name)
    (hnone : ∀ k ∈ SMap.keys p._optmap_l, ¬ name <+: k) :
    OptionParser.parse_args.iteration E p =
      .stop (.error ("no such option".toList ++ ": --".toList ++ name)) := by
  rw [iteration_long hq hne,
    handle_long_opt_error (str_find_eq_none hname)
      (by exact lookup_long_opt_unknown hnone)]

/-- An unknown long flag with an inline value at the front of the queue ends the scan. -/
theorem iteration_unknown_long_inline {E : Env} {p : OptionParser} {name value : Str}
    {rest : List Str} (hq : p._remaining = ('-' :: '-' :: (name ++ '=' :: value)) :: rest)
    (hname : '=' ∉ name) (hnone : ∀ k ∈ SMap.keys p._optmap_l, ¬ name <+: k) :
    OptionParser.parse_args.iteration E p =
      .stop (.error ("no such option".toList ++ ": --".toList ++ name)) := by
  rw [iteration_long hq (by simp),
    handle_long_opt_error_inline hname
      (by exact lookup_long_opt_unknown hnone)]

theorem finish_error (msg : Str) :
    OptionParser.parse_args.finish (some (.error msg)) = some (.error msg) := rfl

/-- The maps after the loop of `add_option`: a name of the list, and a name
that was bound to the new option before, is bound to the new option. -/
theorem bind_fold_find (option : Opt) (v : List Str) : ∀ (c : OptionContainer) (k : Str),
    ((SMap.find c._optmap_l k = some option ∨
        ∃ it ∈ v, substr it 0 2 = "--".toList ∧ substr_from it 2 = k) →
      SMap.find (v.foldl (OptionContainer.add_option.bind option) c)._optmap_l k = some option) ∧
    ((SMap.find c._optmap_s k = some option ∨
        ∃ it ∈ v, ¬ substr it 0 2 = "--".toList ∧ substr it 1 1 = k) →
      SMap.find (v.foldl (OptionContainer.add_option.bind option) c)._optmap_s k = some option) := by
  induction v with
  | nil =>
    intro c k
    constructor
    · rintro (h | ⟨it, hit, _⟩)
      · exact h
      · cases hit
    · rintro (h | ⟨it, hit, _⟩)
      · exact h
      · cases hit
  | cons a v ih =>
    intro c k
    rw [List.foldl_cons]
    by_cases ha : substr a 0 2 = "--".toList
    · have hb : OptionContainer.add_option.bind option c a =
          { c with _optmap_l := c._optmap_l.insert (substr_from a 2) option } := by
        unfold OptionContainer.add_option.bind; rw [if_pos ha]
      rw [hb]
      constructor
      · intro h
        apply (ih _ k).1
        by_cases hk : k = substr_from a 2
        · left; subst hk; exact SMap.find_insert_self _ _ _
        · rcases h with h | ⟨it, hit, h1, h2⟩
          · left
            show SMap.find (SMap.insert c._optmap_l (substr_from a 2) option) k = some option
            rw [SMap.find_insert_ne _ _ hk]; exact h
          · rcases List.mem_cons.1 hit with e | hit
            · subst e; exact absurd h2.symm hk
            · right; exact ⟨it, hit, h1, h2⟩
      · intro h
        apply (ih _ k).2
        rcases h with h | ⟨it, hit, h1, h2⟩
        · left; exact h
        · rcases List.mem_cons.1 hit with e | hit
          · subst e; exact absurd ha h1
          · right; exact ⟨it, hit, h1, h2⟩
    · have hb : OptionContainer.add_option.bind option c a =
          { c with _optmap_s := c._optmap_s.insert (substr a 1 1) option } := by
        unfold OptionContainer.add_option.bind; rw [if_neg ha]
      rw [hb]
      constructor
      · intro h
        apply (ih _ k).1
        rcases h with h | ⟨it, hit, h1, h2⟩
        · left; exact h
        · rcases List.mem_cons.1 hit with e | hit
          · subst e; exact absurd h1 ha
          · right; exact ⟨it, hit, h1, h2⟩
      · intro h
        apply (ih _ k).2
        by_cases hk : k = substr a 1 1
        · left; subst hk; exact SMap.find_insert_self _ _ _
        · rcases h with h | ⟨it, hit, h1, h2⟩
          · left
            show SMap.find (SMap.insert c._optmap_s (substr a 1 1) option) k = some option
            rw [SMap.find_insert_ne _ _ hk]; exact h
          · rcases List.mem_cons.1 hit with e | hit
            · subst e; exact absurd h2.symm hk
            · right; exact ⟨it, hit, h1, h2⟩

/-- What `add_option` registers: the new option is appended to the options,
and every name of the list is bound to it in the maps. -/
theorem add_option_binds (c : OptionContainer) (E : Env) (v : List Str) (cfg : Opt → Opt) :
    ∃ o, (c.add_option_result E v cfg)._opts = c._opts ++ [o] ∧
      (∀ it ∈ v, substr it 0 2 = "--".toList →
        SMap.find (c.add_option_result E v cfg)._optmap_l (substr_from it 2) = some o) ∧
      (∀ it ∈ v, ¬ substr it 0 2 = "--".toList →
        SMap.find (c.add_option_result E v cfg)._optmap_s (substr it 1 1) = some o) := by
  refine ⟨_, add_option_opts c E v cfg, ?_, ?_⟩
  · intro it hit hl
    unfold OptionContainer.add_option_result
    exact (bind_fold_find _ v _ _).1 (Or.inr ⟨it, hit, hl, rfl⟩)
  · intro it hit hl
    unfold OptionContainer.add_option_result
    exact (bind_fold_find _ v _ _).2 (Or.inr ⟨it, hit, hl, rfl⟩)

theorem enter_groups (o : Opt) (p : OptionParser) :
    (OptionParser.add_option_group.enter p o)._groups = p._groups ∧
      (OptionParser.add_option_group.enter p o)._opts = p._opts := by
  unfold OptionParser.add_option_group.enter
  have key : ∀ (l : List Str) (q : OptionParser),
      (l.foldl (fun (p : OptionParser) it =>
        { p with _optmap_l := p._optmap_l.insert it o }) q)._groups = q._groups ∧
      (l.foldl (fun (p : OptionParser) it =>
        { p with _optmap_l := p._optmap_l.insert it o }) q)._opts = q._opts := by
    intro l
    induction l with
    | nil => intro q; exact ⟨rfl, rfl⟩
    | cons a l ih => intro q; rw [List.foldl_cons]; exact ih _
  have key2 : ∀ (l : List Str) (q : OptionParser),
      (l.foldl (fun (p : OptionParser) it =>
        { p with _optmap_s := p._optmap_s.insert it o }) q)._groups = q._groups ∧
      (l.foldl (fun (p : OptionParser) it =>
        { p with _optmap_s := p._optmap_s.insert it o }) q)._opts = q._opts := by
    intro l
    induction l with
    | nil => intro q; exact ⟨rfl, rfl⟩
    | cons a l ih => intro q; rw [List.foldl_cons]; exact ih _
  simp only
  exact ⟨(key _ _).1.trans (key2 _ _).1, (key _ _).2.trans (key2 _ _).2⟩

/-- The method `add_option_group` appends the group and leaves the options of
the parser as they are. -/
theorem add_option_group_groups (p : OptionParser) (g : OptionGroup) :
    (p.add_option_group g)._groups = p._groups ++ [g] ∧ (p.add_option_group g)._opts = p._opts := by
  unfold OptionParser.add_option_group
  have key : ∀ (l : List Opt) (q : OptionParser),
      (l.foldl OptionParser.add_option_group.enter q)._groups = q._groups ∧
      (l.foldl OptionParser.add_option_group.enter q)._opts = q._opts := by
    intro l
    induction l with
    | nil => intro q; exact ⟨rfl, rfl⟩
    | cons a l ih =>
      intro q
      rw [List.foldl_cons]
      exact ⟨(ih _).1.trans (enter_groups a q).1, (ih _).2.trans (enter_groups a q).2⟩
  simp only
  exact ⟨by rw [(key _ _).1], (key _ _).2⟩

theorem action_switch {o : Opt} {a : Str} (h : a ∈ switch_actions) :
    o.action a = { o with _action := a, _nargs := 0 } := by
  unfold Opt.action
  have h' : a = "store_const".toList ∨ a = "store_true".toList ∨ a = "store_false".toList ∨
      a = "append_const".toList ∨ a = "count".toList ∨ a = "help".toList ∨
      a = "version".toList := by
    simp only [switch_actions, List.mem_cons, List.mem_singleton, List.not_mem_nil, or_false] at h
    tauto
  simp only [h', if_true]
  rfl

theorem action_callback (o : Opt) :
    o.action "callback".toList = { o with _action := "callback".toList, _nargs := 0, _type := [] } := by
  rfl

theorem action_other {o : Opt} {a : Str} (h : a ∉ switch_actions) (hc : a ≠ "callback".toList) :
    o.action a = { o with _action := a } := by
  unfold Opt.action
  have h' : ¬ (a = "store_const".toList ∨ a = "store_true".toList ∨ a = "store_false".toList ∨
      a = "append_const".toList ∨ a = "count".toList ∨ a = "help".toList ∨
      a = "version".toList) := by
    simp only [switch_actions, List.mem_cons, List.mem_singleton, List.not_mem_nil, or_false] at h
    tauto
  simp only [h', hc, if_false]

theorem callback_not_switch : "callback".toList ∉ switch_actions := by decide

/-- After calls that give a value type the arity is 1. -/
theorem gives_type_nargs (calls : List BuilderCall) : ∀ o : Opt, o._nargs = 1 →
    (∀ c ∈ calls, c.gives_type) → (calls.foldl BuilderCall.apply o)._nargs = 1 := by
  induction calls with
  | nil => intro o h _; exact h
  | cons c calls ih =>
    intro o h hall
    rw [List.foldl_cons]
    apply ih _ _ (fun c' hc' => hall c' (List.mem_cons_of_mem _ hc'))
    have hc := hall c (List.mem_cons_self _ _)
    cases c with
    | action a => exact absurd hc (by simp [BuilderCall.gives_type])
    | type t =>
      have ht : t ≠ [] := hc
      show (o.type t)._nargs = 1
      unfold Opt.type Opt.nargs
      simp [ht]
    | choices cs => rfl
    | nargs n => exact absurd hc (by simp [BuilderCall.gives_type])

/-- The arity after a call of `action` on an option of arity 1. -/
theorem action_arity {o : Opt} (h : o._nargs = 1) (a : Str) :
    (o.action a)._nargs = arity_by_action (o.action a) := by
  by_cases hs : a ∈ switch_actions
  · rw [action_switch hs]
    unfold arity_by_action
    rw [if_pos hs]
  · by_cases hc : a = "callback".toList
    · subst hc
      rw [action_callback]
      unfold arity_by_action
      rw [if_neg callback_not_switch, if_pos ⟨rfl, rfl⟩]
    · rw [action_other hs hc]
      unfold arity_by_action
      rw [if_neg hs, if_neg (fun h' => hc h'.1)]
      exact h

/-- The help text is a function of the registry and of the width: the store,
the queue, the positional arguments and the log of parsed tokens do not go
into it. -/
theorem format_help_same_registry {p p' : OptionParser} (E : Env) (h : same_registry p p') :
    p'.format_help E = p.format_help E := by
  obtain ⟨vs, r, l, pa, rfl⟩ := h
  rfl

/-- The action `help` prints in the state in which it finds the parser. -/
theorem process_opt_help_inv {p p' : OptionParser} {E : Env} {o : Opt} {opt value : Str}
    (h : p.process_opt E o opt value = .help p') : p' = p := by
  unfold OptionParser.process_opt at h
  by_cases h1 : o._action = "store".toList
  · rw [if_pos h1] at h
    dsimp only at h
    by_cases e : o.check_type E opt value ≠ []
    · rw [if_pos e] at h; cases h
    · rw [if_neg e] at h; cases h
  rw [if_neg h1] at h
  by_cases h2 : o._action = "store_const".toList
  · rw [if_pos h2] at h; cases h
  rw [if_neg h2] at h
  by_cases h3 : o._action = "store_true".toList
  · rw [if_pos h3] at h; cases h
  rw [if_neg h3] at h
  by_cases h4 : o._action = "store_false".toList
  · rw [if_pos h4] at h; cases h
  rw [if_neg h4] at h
  by_cases h5 : o._action = "append".toList
  · rw [if_pos h5] at h
    dsimp only at h
    by_cases e : o.check_type E opt value ≠ []
    · rw [if_pos e] at h; cases h
    · rw [if_neg e] at h; cases h
  rw [if_neg h5] at h
  by_cases h6 : o._action = "append_const".toList
  · rw [if_pos h6] at h; cases h
  rw [if_neg h6] at h
  by_cases h7 : o._action = "count".toList
  · rw [if_pos h7] at h; cases h
  rw [if_neg h7] at h
  by_cases h8 : o._action = "help".toList
  · rw [if_pos h8] at h; cases h; rfl
  rw [if_neg h8] at h
  by_cases h9 : o._action = "version".toList
  · rw [if_pos h9] at h; cases h
  rw [if_neg h9] at h
  by_cases h10 : o._action = "callback".toList ∧ o._callback = true
  · rw [if_pos h10] at h
    dsimp only at h
    by_cases e : o.check_type E opt value ≠ []
    · rw [if_pos e] at h; cases h
    · rw [if_neg e] at h; cases h
  rw [if_neg h10] at h
  cases h

theorem process_opt_help {p : OptionParser} (E : Env) {o : Opt} (opt value : Str)
    (ha : o._action = "help".toList) : p.process_opt E o opt value = .help p := by
  unfold OptionParser.process_opt
  rw [if_neg (by rw [ha]; decide), if_neg (by rw [ha]; decide), if_neg (by rw [ha]; decide),
    if_neg (by rw [ha]; decide), if_neg (by rw [ha]; decide), if_neg (by rw [ha]; decide),
    if_neg (by rw [ha]; decide), if_pos ha]

theorem handle_long_opt_help {p p' : OptionParser} {E : Env} {optstr : Str}
    (h : p.handle_long_opt E optstr = .help p') : same_registry p p' := by
  unfold OptionParser.handle_long_opt at h
  simp only [lookup_long_opt_queue] at h
  split at h
  · cases h
  · rename_i option _
    split_ifs at h with h1 h2
    all_goals have e := process_opt_help_inv h
    all_goals subst e
    · cases hr : p._remaining.tail with
      | nil => exact ⟨_, _, _, _, rfl⟩
      | cons front rest => exact ⟨_, _, _, _, rfl⟩
    · exact ⟨_, _, _, _, rfl⟩

theorem handle_short_opt_help {p p' : OptionParser} {E : Env} {x : Char} {t : Str}
    (h : p.handle_short_opt E [x] ('-' :: x :: t) = .help p') : same_registry p p' := by
  cases hf : SMap.find p._optmap_s [x] with
  | none => rw [handle_short_opt_unknown hf] at h; cases h
  | some o =>
    by_cases hn : o._nargs = 1
    · by_cases hv : substr_from ('-' :: x :: t) 2 = []
      · cases hr : p._remaining.tail with
        | nil =>
          cases hopt : o._optional_value with
          | true =>
            rw [handle_short_opt_optional hf hn hv hr hopt] at h
            rw [process_opt_help_inv h]
            exact ⟨_, _, _, _, rfl⟩
          | false =>
            rw [handle_short_opt_missing hf hn hv hr hopt] at h
            cases h
        | cons front rest =>
          cases hq : p._remaining with
          | nil => rw [hq] at hr; cases hr
          | cons first tl =>
            rw [hq, List.tail_cons] at hr
            subst hr
            rw [handle_short_opt_next hf hn hv hq] at h
            rw [process_opt_help_inv h]
            exact ⟨_, _, _, _, rfl⟩
      · rw [handle_short_opt_attached hf hn hv] at h
        rw [process_opt_help_inv h]
        exact ⟨_, _, _, _, rfl⟩
    · rw [handle_short_opt_flag hf hn] at h
      by_cases hl : ('-' :: x :: t).length > 2
      · rw [if_pos hl] at h
        rw [process_opt_help_inv h]
        exact ⟨_, _, _, _, rfl⟩
      · rw [if_neg hl] at h
        rw [process_opt_help_inv h]
        exact ⟨_, _, _, _, rfl⟩

theorem iteration_help {E : Env} {p p' : OptionParser}
    (h : OptionParser.parse_args.iteration E p = .stop (.help p')) : same_registry p p' := by
  cases hq : p._remaining with
  | nil => rw [iteration_nil hq] at h; cases h
  | cons arg rest =>
    rcases token_cases arg with ha | ⟨s, ha, hs⟩ | ⟨x, t, ha, hx⟩ | ha
    · subst ha; rw [iteration_terminator hq] at h; cases h
    · subst ha
      rw [iteration_long hq hs] at h
      split at h
      · cases h
      · exact same_registry_trans ⟨_, _, _, _, rfl⟩
          (handle_long_opt_help (Iteration.stop.inj h))
    · subst ha
      rw [iteration_short hq hx] at h
      split at h
      · cases h
      · exact handle_short_opt_help (Iteration.stop.inj h)
    · rw [iteration_positional hq ha] at h
      split_ifs at h
      cases h

/-- When the scan ends in the action `help`, the registry is the one the scan started with. -/
theorem scan_help (E : Env) (n : Nat) :
    ∀ (p p' : OptionParser), OptionParser.parse_args.scan E n p = some (.help p') →
      same_registry p p' := by
  induction n with
  | zero => intro p p' h; cases h
  | succ n ih =>
    intro p p' h
    cases hi : OptionParser.parse_args.iteration E p with
    | stop r =>
      rw [scan_of_stop n hi] at h
      cases h
      exact iteration_help hi
    | next q =>
      rw [scan_of_next n hi] at h
      exact same_registry_trans (iteration_same_registry (Or.inl hi)) (ih q p' h)

theorem finish_help_inv {r : Option Outcome} {p' : OptionParser}
    (h : OptionParser.parse_args.finish r = some (.help p')) : r = some (.help p') := by
  cases r with
  | none => cases h
  | some o =>
    cases o with
    | ok p0 => rw [finish_ok] at h; cases h
    | error m => exact h
    | help q => exact h
    | version q => exact h

theorem builtin_same_registry (p : OptionParser) (E : Env) (v : List Str) :
    same_registry (OptionParser.parse_args.builtin p E)
      (OptionParser.parse_args.builtin { p with _remaining := v } E) := by
  rw [builtin_eq, builtin_eq]
  exact ⟨_, _, _, _, rfl⟩

/-- What an iteration that goes on does to the queue: it takes the front token
away, or the front token and the one behind it, or it puts `-` and the rest of
a cluster in the place of the front token `-x` and the rest. -/
theorem iteration_next_queue {E : Env} {p p' : OptionParser}
    (h : OptionParser.parse_args.iteration E p = .next p') :
    p'._remaining = p._remaining.tail ∨ p'._remaining = p._remaining.tail.tail ∨
      ∃ x t rest, p._remaining = ('-' :: x :: t) :: rest ∧ t ≠ [] ∧
        p'._remaining = ('-' :: t) :: rest := by
  cases hq : p._remaining with
  | nil => rw [iteration_nil hq] at h; cases h
  | cons arg rest =>
    rcases token_cases arg with ha | ⟨s, ha, hs⟩ | ⟨x, t, ha, hx⟩ | ha
    · subst ha; rw [iteration_terminator hq] at h; cases h
    · subst ha
      rw [iteration_long hq hs] at h
      split at h
      · rename_i p1 hh
        cases h
        have := handle_long_opt_shape hh
        simp only [hq, List.tail_cons] at this
        rcases this.2 with e | e
        · exact Or.inl e
        · exact Or.inr (Or.inl e)
      · cases h
    · subst ha
      rw [iteration_short hq hx] at h
      split at h
      · rename_i p1 hh
        cases h
        have := handle_short_opt_shape hh
        simp only [hq, List.tail_cons] at this
        rcases this.2 with e | e | ⟨e1, e2⟩
        · exact Or.inl e
        · exact Or.inr (Or.inl e)
        · exact Or.inr (Or.inr ⟨x, t, rest, rfl, e1, e2⟩)
      · cases h
    · rw [iteration_positional hq ha] at h
      split_ifs at h
      cases h
      exact Or.inl rfl

/-- The method `parse_args` reaches an outcome within the bound on its iterations. -/
theorem parse_args_total (p : OptionParser) (E : Env) (v : List Str) :
    ∃ r, p.parse_args E v = some r := by
  rw [parse_args_eq]
  obtain ⟨r, hr⟩ := scan_terminates E (queue_size v + 1)
    (OptionParser.parse_args.builtin { p with _remaining := v } E)
    (by rw [builtin_remaining]; exact Nat.lt_succ_self _)
  rw [hr]
  exact finish_some r

/-- A short flag with action `store` and type `string` that takes the next
token as its value stores it, also when it is empty. -/
theorem handle_short_opt_store_next {p : OptionParser} {E : Env} {x : Char} {o : Opt}
    (hf : SMap.find p._optmap_s [x] = some o) (hn : o._nargs = 1)
    (ha : o._action = "store".toList) (ht : o._type = "string".toList)
    {first front : Str} {rest : List Str} (hq : p._remaining = first :: front :: rest) :
    p.handle_short_opt E [x] ['-', x] =
      .ok { p with _parsed := p._parsed ++ ["-".toList ++ [x]] ++ [front], _remaining := rest,
                   _values := (p._values.assign o._dest front).set_by_user o._dest true } := by
  rw [handle_short_opt_next hf hn (show substr_from ['-', x] 2 = [] from rfl) hq,
    process_opt_store E _ _ ha ht]

theorem iteration_long_error {E : Env} {p : OptionParser} {s msg : Str} {rest : List Str}
    (hq : p._remaining = ('-' :: '-' :: s) :: rest) (hs : s ≠ [])
    (hh : ({ p with _parsed := p._parsed ++ ['-' :: '-' :: s] }).handle_long_opt E s = .error msg) :
    OptionParser.parse_args.iteration E p = .stop (.error msg) := by
  rw [iteration_long hq hs, hh]

/-- An action leaves the store as it is, or stores a value under the
destination of its flag and marks it. -/
theorem process_opt_dest {p p' : OptionParser} {E : Env} {o : Opt} {opt value : Str}
    (h : p.process_opt E o opt value = .ok p') :
    p'._values = p._values ∨
      (p'._values.is_set_by_user o._dest = true ∧ p'._values.get o._dest ≠ none) := by
  have hstore : ∀ (vs : Values) (x : Str),
      ((vs.assign o._dest x).set_by_user o._dest true).is_set_by_user o._dest = true ∧
      ((vs.assign o._dest x).set_by_user o._dest true).get o._dest ≠ none := by
    intro vs x
    refine ⟨Values.is_set_by_user_set _ _, ?_⟩
    rw [Values.get_set_by_user, Values.get_assign_self]
    exact fun e => Option.noConfusion e
  have happend : ∀ (vs : Values) (x : Str),
      (((vs.assign o._dest x).all_push_back o._dest x).set_by_user o._dest true).is_set_by_user
        o._dest = true ∧
      (((vs.assign o._dest x).all_push_back o._dest x).set_by_user o._dest true).get
        o._dest ≠ none := by
    intro vs x
    refine ⟨Values.is_set_by_user_set _ _, ?_⟩
    rw [Values.get_after_append]
    exact fun e => Option.noConfusion e
  unfold OptionParser.process_opt at h
  by_cases h1 : o._action = "store".toList
  · rw [if_pos h1] at h
    dsimp only at h
    by_cases e : o.check_type E opt value ≠ []
    · rw [if_pos e] at h; cases h
    · rw [if_neg e] at h; cases h; exact Or.inr (hstore _ _)
  rw [if_neg h1] at h
  by_cases h2 : o._action = "store_const".toList
  · rw [if_pos h2] at h; cases h; exact Or.inr (hstore _ _)
  rw [if_neg h2] at h
  by_cases h3 : o._action = "store_true".toList
  · rw [if_pos h3] at h; cases h; exact Or.inr (hstore _ _)
  rw [if_neg h3] at h
  by_cases h4 : o._action = "store_false".toList
  · rw [if_pos h4] at h; cases h; exact Or.inr (hstore _ _)
  rw [if_neg h4] at h
  by_cases h5 : o._action = "append".toList
  · rw [if_pos h5] at h
    dsimp only at h
    by_cases e : o.check_type E opt value ≠ []
    · rw [if_pos e] at h; cases h
    · rw [if_neg e] at h; cases h; exact Or.inr (happend _ _)
  rw [if_neg h5] at h
  by_cases h6 : o._action = "append_const".toList
  · rw [if_pos h6] at h; cases h; exact Or.inr (happend _ _)
  rw [if_neg h6] at h
  by_cases h7 : o._action = "count".toList
  · rw [if_pos h7] at h; cases h; exact Or.inr (hstore _ _)
  rw [if_neg h7] at h
  by_cases h8 : o._action = "help".toList
  · rw [if_pos h8] at h; cases h
  rw [if_neg h8] at h
  by_cases h9 : o._action = "version".toList
  · rw [if_pos h9] at h; cases h
  rw [if_neg h9] at h
  by_cases h10 : o._action = "callback".toList ∧ o._callback = true
  · rw [if_pos h10] at h
    dsimp only at h
    by_cases e : o.check_type E opt value ≠ []
    · rw [if_pos e] at h; cases h
    · rw [if_neg e] at h; cases h; exact Or.inl rfl
  rw [if_neg h10] at h
  cases h
  exact Or.inl rfl

theorem process_opt_store_inv (E : Env) (p p' : OptionParser) (o : Opt) (opt value : Str)
    (h0 : store_inv p._values) (h : p.process_opt E o opt value = .ok p') :
    store_inv p'._values := by
  obtain ⟨i1, i2, i3⟩ := h0
  have key : ∀ d, d ≠ o._dest → p'._values.all d = p._values.all d ∧
      p'._values.get d = p._values.get d ∧
      p'._values.is_set_by_user d = p._values.is_set_by_user d :=
    fun d hd => process_opt_frame hd h
  rcases process_opt_dest h with hv | ⟨hu, hg⟩
  · rw [hv]; exact ⟨i1, i2, i3⟩
  · refine ⟨?_, ?_, ?_⟩
    · intro d hd
      by_cases e : d = o._dest
      · rw [e]; exact hg
      · obtain ⟨_, k2, k3⟩ := key d e
        rw [k2]; rw [k3] at hd; exact i1 d hd
    · intro d hd
      by_cases e : d = o._dest
      · rw [e]; exact hu
      · obtain ⟨k1, _, k3⟩ := key d e
        rw [k3]; rw [k1] at hd; exact i2 d hd
    · intro d hd
      by_cases e : d = o._dest
      · rw [e]; exact hu
      · obtain ⟨_, k2, k3⟩ := key d e
        rw [k3]; rw [k2] at hd; exact i3 d hd

/-- Where a value that the default fill leaves in the store comes from. -/
theorem fill_source (d x : Str) (opts : List Opt) :
    ∀ (p : OptionParser), (OptionParser.parse_args.fill p opts)._values.get d = some x →
      p._values.get d = some x ∨
        ∃ o ∈ opts, o._dest = d ∧ o.get_default p = x ∧ x ≠ [] := by
  induction opts with
  | nil => intro p h; exact Or.inl h
  | cons o opts ih =>
    intro p h
    rw [fill_cons] at h
    by_cases hc : o.get_default p ≠ [] ∧ ¬ p._values.is_set o._dest
    · rw [if_pos hc] at h
      rcases ih _ h with h1 | ⟨o', ho', hd', hx', hne⟩
      · by_cases e : d = o._dest
        · right
          refine ⟨o, List.mem_cons_self _ _, e.symm, ?_, ?_⟩
          · have h2 : (p._values.assign o._dest (o.get_default p)).get d = some x := h1
            rw [e, Values.get_assign_self] at h2
            exact Option.some.inj h2
          · have h2 : (p._values.assign o._dest (o.get_default p)).get d = some x := h1
            rw [e, Values.get_assign_self] at h2
            rw [← Option.some.inj h2]
            exact hc.1
        · left
          have h2 : (p._values.assign o._dest (o.get_default p)).get d = some x := h1
          rw [Values.get_assign_ne _ _ e] at h2
          exact h2
      · right
        exact ⟨o', List.mem_cons_of_mem _ ho', hd', hx', hne⟩
    · rw [if_neg hc] at h
      rcases ih _ h with h1 | ⟨o', ho', hd', hx', hne⟩
      · exact Or.inl h1
      · exact Or.inr ⟨o', List.mem_cons_of_mem _ ho', hd', hx', hne⟩


theorem store_inv_new : store_inv Values.new := by
  refine ⟨?_, ?_, ?_⟩
  · intro d h
    simp [Values.is_set_by_user, Values.new, SSet.contains] at h
  · intro d h
    exact absurd rfl h
  · intro d h
    exact absurd rfl h

theorem same_registry_fill_order {p q : OptionParser} (h : same_registry p q) :
    fill_order q = fill_order p ∧ q._defaults = p._defaults := by
  obtain ⟨vs, r, l, pa, rfl⟩ := h
  exact ⟨rfl, rfl⟩

/-- The store that `parse_args` returns from an empty store. -/
theorem parse_args_store_inv {E : Env} {p p' : OptionParser} {v : List Str}
    (hfresh : p._values = Values.new) (h : p.parse_args E v = some (.ok p')) :
    (∀ d, p'._values.is_set_by_user d = true → p'._values.get d ≠ none) ∧
    (∀ d, p'._values.all d ≠ [] → p'._values.is_set_by_user d = true) ∧
    (∀ d x, p'._values.get d = some x → p'._values.is_set_by_user d = false →
      ∃ o ∈ fill_order p', o._dest = d ∧ o.get_default p' = x ∧ x ≠ []) ∧
    fill_order p' = fill_order (OptionParser.parse_args.builtin p E) := by
  rw [parse_args_eq] at h
  obtain ⟨p0, hs, rfl⟩ := finish_ok_inv h
  have hreg := same_registry_trans (builtin_same_registry p E v) (scan_same_registry E _ _ p0 hs)
  have hinv : store_inv p0._values := by
    refine scan_values store_inv E (process_opt_store_inv E) _ _ p0 ?_ hs
    rw [builtin_values]
    show store_inv p._values
    rw [hfresh]
    exact store_inv_new
  obtain ⟨i1, i2, i3⟩ := hinv
  have hfo : fill_order (OptionParser.parse_args.defaults (OptionParser.parse_args.drain p0)) =
      fill_order (OptionParser.parse_args.drain p0) :=
    defaults_proj fill_order (fun _ _ => rfl) _
  have hdf : (OptionParser.parse_args.defaults (OptionParser.parse_args.drain p0))._defaults =
      (OptionParser.parse_args.drain p0)._defaults :=
    defaults_proj (fun p => p._defaults) (fun _ _ => rfl) _
  refine ⟨?_, ?_, ?_, ?_⟩
  · intro d hd
    rw [finish_user_set] at hd
    cases hg : p0._values.get d with
    | none => exact absurd hg (i1 d hd)
    | some x =>
      rw [finish_get_some hg]
      exact fun e => Option.noConfusion e
  · intro d hd
    rw [finish_all] at hd
    rw [finish_user_set]
    exact i2 d hd
  · intro d x hg hu
    rw [finish_user_set] at hu
    have hnone : p0._values.get d = none := by
      by_contra hne
      have := i3 d hne
      rw [hu] at this
      cases this
    rw [defaults_eq_fill] at hg
    rcases fill_source d x _ _ hg with h1 | ⟨o, ho, hd, hx, hne⟩
    · have h2 : p0._values.get d = some x := h1
      rw [hnone] at h2
      cases h2
    · refine ⟨o, by rw [hfo]; exact ho, hd, ?_, hne⟩
      rw [get_default_congr o hdf]
      exact hx
  · rw [hfo]
    exact (same_registry_fill_order hreg).1

theorem is_break_iff (c : Char) : is_break c = true ↔ (c = ' ' ∨ c = '\n' ∨ c = '\t') := by
  unfold is_break
  rw [decide_eq_true_iff]

theorem loop_nil (s : Str) (pre len i pos ls line : Nat) (p ss : Str) :
    str_format.loop s pre len [] i pos ls line p ss = ss ++ p ++ substr_from s ls ++ ['\n'] := by
  rw [str_format.loop]

theorem loop_word {s : Str} {pre len : Nat} {c : Char} (hc : is_break c = false) (rest : Str)
    (i pos ls line : Nat) (p ss : Str) :
    str_format.loop s pre len (c :: rest) i pos ls line p ss =
      str_format.loop s pre len rest (i + 1) pos ls line p ss := by
  rw [str_format.loop, if_neg]
  intro h
  rw [(is_break_iff c).2 h] at hc
  cases hc

/-- The body of the loop of `str_format` at a character that ends a line, by
itself or by the width. -/
theorem loop_wrap {s : Str} {pre len : Nat} {c : Char} (hc : is_break c = true) (rest : Str)
    (i pos ls line : Nat) (p ss : Str)
    (hw : c = '\n' ∨ (i + pre) % 2 ^ 64 > (ls + len) % 2 ^ 64) :
    str_format.loop s pre len (c :: rest) i pos ls line p ss =
      str_format.loop s pre len rest (i + 1) (i + 1) (if c = '\n' then i + 1 else pos) (line + 1)
        (if line = 1 then List.replicate pre ' ' else p)
        (ss ++ (if line = 1 then List.replicate pre ' ' else p) ++
          substr s ls (size_t_sub (size_t_sub (if c = '\n' then i + 1 else pos) ls) 1) ++ ['\n']) := by
  rw [str_format.loop, if_pos ((is_break_iff c).1 hc)]
  simp only [decide_eq_true_eq]
  rw [if_pos hw]

/-- The body of the loop of `str_format` at a blank or a tab within the width. -/
theorem loop_nowrap {s : Str} {pre len : Nat} {c : Char} (hc : is_break c = true) (rest : Str)
    (i pos ls line : Nat) (p ss : Str)
    (hw : ¬ (c = '\n' ∨ (i + pre) % 2 ^ 64 > (ls + len) % 2 ^ 64)) :
    str_format.loop s pre len (c :: rest) i pos ls line p ss =
      str_format.loop s pre len rest (i + 1) (i + 1) ls line
        (if line = 1 then List.replicate pre ' ' else p) ss := by
  rw [str_format.loop, if_pos ((is_break_iff c).1 hc)]
  simp only [decide_eq_true_eq]
  rw [if_neg hw]

theorem size_t_sub_eq {a b : Nat} (h : b ≤ a) (ha : a < 2 ^ 64) : size_t_sub a b = a - b := by
  unfold size_t_sub
  have hb : b % 2 ^ 64 = b := Nat.mod_eq_of_lt (lt_of_le_of_lt h ha)
  rw [hb]
  have : a + (2 ^ 64 - b) = (a - b) + 2 ^ 64 := by omega
  rw [this, Nat.add_mod_right]
  exact Nat.mod_eq_of_lt (by omega)

theorem break_points_fit_nil (pre len : Nat) : break_points_fit pre len [] := by
  intro u d v h
  cases u <;> cases h

/-- A character that is no break point adds no break point to a line. -/
theorem break_points_fit_word {pre len : Nat} {l : Str} {c : Char}
    (h : break_points_fit pre len l) (hc : is_break c = false) :
    break_points_fit pre len (l ++ [c]) := by
  intro u d v he hd
  rcases List.eq_nil_or_concat v with hv | ⟨v', c', hv⟩
  · subst hv
    have := List.append_inj' he rfl
    have e2 : [c] = [d] := this.2
    cases e2
    rw [hd] at hc; cases hc
  · subst hv
    have he' : l ++ [c] = (u ++ d :: v') ++ [c'] := by
      rw [he]; simp
    have := List.append_inj' he' rfl
    exact h u d v' this.1 hd

/-- A break point within the width, added to a line whose break points fit. -/
theorem break_points_fit_break {pre len : Nat} {l : Str} {c : Char}
    (h : break_points_fit pre len l) (hl : l.length + pre ≤ len) :
    break_points_fit pre len (l ++ [c]) := by
  intro u d v he hd
  rcases List.eq_nil_or_concat v with hv | ⟨v', c', hv⟩
  · subst hv
    have := List.append_inj' he rfl
    rw [← this.1]
    exact hl
  · subst hv
    have he' : l ++ [c] = (u ++ d :: v') ++ [c'] := by
      rw [he]; simp
    have := List.append_inj' he' rfl
    exact h u d v' this.1 hd

theorem break_points_fit_left {pre len : Nat} {l r : Str}
    (h : break_points_fit pre len (l ++ r)) : break_points_fit pre len l := by
  intro u d v he hd
  exact h u d (v ++ r) (by rw [he]; simp) hd

/-- A stretch without break points followed by one break point: the stretch
is what stands before the only break point. -/
theorem break_points_fit_run {pre len : Nat} {run : Str} {c : Char}
    (hrun : ∀ x ∈ run, is_break x = false) (hl : run.length + pre ≤ len) :
    break_points_fit pre len (run ++ [c]) :=
  break_points_fit_break
    (by
      intro u d v he hd
      have hm : d ∈ run := by rw [he]; simp
      rw [hrun d hm] at hd
      cases hd)
    hl


theorem margin_update {pre line : Nat} {p : Str} (hp : p = [] ∨ p = List.replicate pre ' ') :
    (if line = 1 then List.replicate pre ' ' else p) = [] ∨
      (if line = 1 then List.replicate pre ' ' else p) = List.replicate pre ' ' := by
  split_ifs
  · exact Or.inr rfl
  · exact hp

/-- The loop of `str_format` cuts the text into lines. The text is `A`, the
lines already written, then the line in progress, `B1` up to the last break
point and the word `run` behind it, then `rest`. No word of the text is too
long for a line, and the sizes do not overflow `size_t`. -/
theorem loop_wrapped (s : Str) (pre len : Nat)
    (hfit : ∀ a u b, s = a ++ u ++ b → (∀ x ∈ u, is_break x = false) → u.length + pre ≤ len)
    (hsz : s.length + pre < 2 ^ 64 ∧ s.length + len < 2 ^ 64) :
    ∀ (rest A B1 run : Str) (i pos ls line : Nat) (p ss : Str),
      s = A ++ B1 ++ run ++ rest → ls = A.length → pos = A.length + B1.length →
      i = A.length + B1.length + run.length → (∀ x ∈ run, is_break x = false) →
      (B1 = [] ∨ ∃ B0 d, B1 = B0 ++ [d] ∧ is_break d = true) →
      break_points_fit pre len (B1 ++ run) → (p = [] ∨ p = List.replicate pre ' ') →
      ∃ out, str_format.loop s pre len rest i pos ls line p ss = ss ++ out ∧
        wrapped pre len (B1 ++ run ++ rest) out := by
  intro rest
  induction rest with
  | nil =>
    intro A B1 run i pos ls line p ss hs hls hpos hi hrun hB1 hbp hp
    refine ⟨p ++ (B1 ++ run) ++ ['\n'], ?_, ?_⟩
    · rw [loop_nil]
      have : substr_from s ls = B1 ++ run := by
        unfold substr_from
        rw [hs, hls]
        simp
      rw [this]
      simp
    · rw [List.append_nil]
      exact wrapped.last p (B1 ++ run) hp hbp
  | cons c rest ih =>
    intro A B1 run i pos ls line p ss hs hls hpos hi hrun hB1 hbp hp
    have hlen : s.length = A.length + B1.length + run.length + (rest.length + 1) := by
      rw [hs]; simp; omega
    cases hc : is_break c with
    | false =>
      rw [loop_word hc]
      obtain ⟨out, h1, h2⟩ := ih A B1 (run ++ [c]) (i + 1) pos ls line p ss
        (by rw [hs]; simp) hls hpos (by rw [hi]; simp; omega)
        (by
          intro x hx
          rcases List.mem_append.1 hx with hx | hx
          · exact hrun x hx
          · rw [List.mem_singleton] at hx; rw [hx]; exact hc)
        hB1
        (by rw [← List.append_assoc]; exact break_points_fit_word hbp hc) hp
      refine ⟨out, h1, ?_⟩
      have e : B1 ++ run ++ c :: rest = B1 ++ (run ++ [c]) ++ rest := by simp
      rw [e]; exact h2
    | true =>
      have hmod1 : (i + pre) % 2 ^ 64 = i + pre := Nat.mod_eq_of_lt (by omega)
      have hmod2 : (ls + len) % 2 ^ 64 = ls + len := Nat.mod_eq_of_lt (by omega)
      by_cases hw : c = '\n' ∨ (i + pre) % 2 ^ 64 > (ls + len) % 2 ^ 64
      · rw [loop_wrap hc rest i pos ls line p ss hw]
        have hp' := @margin_update pre line _ hp
        generalize (if line = 1 then List.replicate pre ' ' else p) = p' at hp' ⊢
        by_cases hnl : c = '\n'
        · -- a line break of the text
          rw [if_pos hnl]
          have hpiece : substr s ls (size_t_sub (size_t_sub (i + 1) ls) 1) = B1 ++ run := by
            have e1 : size_t_sub (i + 1) ls = i + 1 - ls := size_t_sub_eq (by omega) (by omega)
            have e2 : size_t_sub (i + 1 - ls) 1 = i + 1 - ls - 1 :=
              size_t_sub_eq (by omega) (by omega)
            rw [e1, e2]
            unfold substr
            rw [hs, hls, hi]
            have e : A ++ B1 ++ run ++ c :: rest = A ++ ((B1 ++ run) ++ c :: rest) := by simp
            rw [e, List.drop_left]
            have e2 : A.length + B1.length + run.length + 1 - A.length - 1 = (B1 ++ run).length := by
              simp; omega
            rw [e2, List.take_left]
          rw [hpiece]
          obtain ⟨out, h1, h2⟩ := ih (A ++ B1 ++ run ++ [c]) [] [] (i + 1) (i + 1) (i + 1)
            (line + 1) p' (ss ++ p' ++ (B1 ++ run) ++ ['\n'])
            (by rw [hs]; simp) (by rw [hi]; simp; omega) (by rw [hi]; simp; omega)
            (by rw [hi]; simp; omega) (by simp) (Or.inl rfl) (break_points_fit_nil pre len) hp'
          refine ⟨p' ++ (B1 ++ run) ++ '\n' :: out, ?_, ?_⟩
          · rw [h1]; simp
          · have h2' : wrapped pre len rest out := by simpa using h2
            have := wrapped.line p' (B1 ++ run) c rest out hp' hc hbp (fun h => absurd hnl h) h2'
            exact this
        · -- a blank or a tab beyond the width
          rw [if_neg hnl]
          have hover : i + pre > ls + len := by
            rcases hw with h | h
            · exact absurd h hnl
            · rw [hmod1, hmod2] at h; exact h
          rcases hB1 with hB1 | ⟨B0, d, hB1, hd⟩
          · -- the word at the start of the line is too long: excluded
            exfalso
            subst hB1
            have := hfit A run (c :: rest) (by rw [hs]; simp) hrun
            simp at hi hls
            omega
          · subst hB1
            have hpiece : substr s ls (size_t_sub (size_t_sub pos ls) 1) = B0 := by
              have hB : (B0 ++ [d]).length = B0.length + 1 := by simp
              have e1 : size_t_sub pos ls = pos - ls := size_t_sub_eq (by omega) (by omega)
              have e2 : size_t_sub (pos - ls) 1 = pos - ls - 1 :=
                size_t_sub_eq (by omega) (by omega)
              rw [e1, e2]
              unfold substr
              rw [hs, hls, hpos]
              have e : A ++ (B0 ++ [d]) ++ run ++ c :: rest = A ++ (B0 ++ (d :: run ++ c :: rest)) := by
                simp
              rw [e, List.drop_left]
              have e2 : A.length + (B0 ++ [d]).length - A.length - 1 = B0.length := by
                simp
              rw [e2, List.take_left]
            rw [hpiece]
            have hrunfit : run.length + pre ≤ len :=
              hfit (A ++ (B0 ++ [d])) run (c :: rest) hs hrun
            obtain ⟨out, h1, h2⟩ := ih (A ++ (B0 ++ [d])) (run ++ [c]) [] (i + 1) (i + 1) pos
              (line + 1) p' (ss ++ p' ++ B0 ++ ['\n'])
              (by rw [hs]; simp) (by rw [hpos]; simp) (by rw [hi]; simp; omega)
              (by rw [hi]; simp; omega) (by simp) (Or.inr ⟨run, c, rfl, hc⟩)
              (by rw [List.append_nil]; exact break_points_fit_run hrun hrunfit) hp'
            refine ⟨p' ++ B0 ++ '\n' :: out, ?_, ?_⟩
            · rw [h1]; simp
            · have h2' : wrapped pre len (run ++ c :: rest) out := by simpa using h2
              have hB0 : B0.length + pre ≤ len :=
                hbp B0 d run (by simp) hd
              have hB0fit : break_points_fit pre len B0 := by
                have e : B0 ++ [d] ++ run = B0 ++ ([d] ++ run) := by simp
                rw [e] at hbp
                exact break_points_fit_left hbp
              have := wrapped.line p' B0 d (run ++ c :: rest) out hp' hd hB0fit (fun _ => hB0) h2'
              have e : B0 ++ [d] ++ run ++ c :: rest = B0 ++ d :: (run ++ c :: rest) := by simp
              rw [e]; exact this
      · -- a blank or a tab within the width
        rw [loop_nowrap hc rest i pos ls line p ss hw]
        have hp' := @margin_update pre line _ hp
        generalize (if line = 1 then List.replicate pre ' ' else p) = p' at hp' ⊢
        have hin : i + pre ≤ ls + len := by
          by_contra h
          apply hw
          right
          rw [hmod1, hmod2]
          omega
        obtain ⟨out, h1, h2⟩ := ih A (B1 ++ run ++ [c]) [] (i + 1) (i + 1) ls line p' ss
          (by rw [hs]; simp) hls (by rw [hi]; simp; omega) (by rw [hi]; simp; omega)
          (by simp) (Or.inr ⟨B1 ++ run, c, rfl, hc⟩)
          (by
            rw [List.append_nil]
            exact break_points_fit_break hbp (by rw [hi, hls] at hin; simp; omega))
          hp'
        refine ⟨out, h1, ?_⟩
        have e : B1 ++ run ++ c :: rest = B1 ++ run ++ [c] ++ [] ++ rest := by simp
        rw [e]; exact h2


theorem words_go_break (a : Str) : ∀ (acc : Str) (d : Char) (b : Str), is_break d = true →
    words.go (a ++ d :: b) acc = words.go a acc ++ words.go b [] := by
  induction a with
  | nil =>
    intro acc d b hd
    rw [List.nil_append, words.go, words.go, if_pos hd]
    split_ifs <;> rfl
  | cons c a ih =>
    intro acc d b hd
    rw [List.cons_append, words.go, words.go]
    by_cases hc : is_break c = true
    · rw [if_pos hc, if_pos hc, ih [] d b hd]
      split_ifs <;> rfl
    · rw [if_neg hc, if_neg hc, ih _ d b hd]

theorem words_break (a b : Str) {d : Char} (hd : is_break d = true) :
    words (a ++ d :: b) = words a ++ words b :=
  words_go_break a [] d b hd

theorem words_margin (m x : Str) (hm : ∀ c ∈ m, is_break c = true) : words (m ++ x) = words x := by
  induction m with
  | nil => rfl
  | cons c m ih =>
    unfold words
    rw [List.cons_append, words.go, if_pos (hm c (List.mem_cons_self _ _)), if_pos rfl]
    exact ih (fun c' hc' => hm c' (List.mem_cons_of_mem _ hc'))

theorem words_all_break (x : Str) (hx : ∀ c ∈ x, is_break c = true) : words x = [] := by
  have := words_margin x [] hx
  rw [List.append_nil] at this
  exact this

theorem margin_break {pre : Nat} {m : Str} (hm : m = [] ∨ m = List.replicate pre ' ') :
    ∀ c ∈ m, is_break c = true := by
  intro c hc
  rcases hm with hm | hm
  · rw [hm] at hc; cases hc
  · rw [hm] at hc
    rw [(List.mem_replicate.1 hc).2]
    rfl

/-- The lines that `str_format` cuts a text into hold the words of the text, in order. -/
theorem words_wrapped {pre len : Nat} {t out : Str} (h : wrapped pre len t out) :
    words out = words t := by
  induction h with
  | last m t hm _ =>
    rw [List.append_assoc, words_margin m _ (margin_break hm), words_break t [] (by rfl)]
    exact List.append_nil _
  | line m l d t out hm hd _ _ _ ih =>
    rw [List.append_assoc, words_margin m _ (margin_break hm), words_break l out (by rfl),
      words_break l t hd, ih]

theorem words_go_map (s : Str) : ∀ acc : Str,
    words.go (s.map (fun c => if c = '\n' then ' ' else c)) acc = words.go s acc := by
  induction s with
  | nil => intro acc; rfl
  | cons c s ih =>
    intro acc
    rw [List.map_cons, words.go, words.go]
    by_cases hn : c = '\n'
    · subst hn
      have e : (if ('\n' : Char) = '\n' then ' ' else '\n') = ' ' := rfl
      rw [e, if_pos (show is_break ' ' = true from rfl),
        if_pos (show is_break '\n' = true from rfl), ih]
    · rw [if_neg hn, ih, ih]

theorem words_go_run (u : Str) : ∀ (b acc : Str), (∀ x ∈ u, is_break x = false) →
    words.go (u ++ b) acc = words.go b (acc ++ u) := by
  induction u with
  | nil => intro b acc _; simp
  | cons c u ih =>
    intro b acc hu
    rw [List.cons_append, words.go, if_neg (by rw [hu c (List.mem_cons_self _ _)]; simp),
      ih b _ (fun x hx => hu x (List.mem_cons_of_mem _ hx))]
    simp

theorem words_go_acc (b : Str) : ∀ acc : Str, acc ≠ [] →
    ∃ w ∈ words.go b acc, acc.length ≤ w.length := by
  induction b with
  | nil =>
    intro acc hacc
    rw [words.go, if_neg hacc]
    exact ⟨acc, List.mem_singleton_self _, le_refl _⟩
  | cons c b ih =>
    intro acc hacc
    rw [words.go]
    by_cases hc : is_break c = true
    · rw [if_pos hc, if_neg hacc]
      exact ⟨acc, List.mem_cons_self _ _, le_refl _⟩
    · rw [if_neg hc]
      obtain ⟨w, hw, hl⟩ := ih (acc ++ [c]) (by simp)
      exact ⟨w, hw, by simp at hl; omega⟩

/-- A stretch of a text without break points lies within a word of the text. -/
theorem run_le_word (a : Str) : ∀ (acc u b : Str), (∀ x ∈ u, is_break x = false) → u ≠ [] →
    ∃ w ∈ words.go (a ++ u ++ b) acc, u.length ≤ w.length := by
  induction a with
  | nil =>
    intro acc u b hu hne
    rw [List.nil_append, words_go_run u b acc hu]
    obtain ⟨w, hw, hl⟩ := words_go_acc b (acc ++ u) (by simp [hne])
    exact ⟨w, hw, by simp at hl; omega⟩
  | cons c a ih =>
    intro acc u b hu hne
    rw [List.cons_append, List.cons_append, words.go]
    by_cases hc : is_break c = true
    · rw [if_pos hc]
      obtain ⟨w, hw, hl⟩ := ih [] u b hu hne
      split_ifs
      · exact ⟨w, hw, hl⟩
      · exact ⟨w, List.mem_cons_of_mem _ hw, hl⟩
    · rw [if_neg hc]
      exact ih _ u b hu hne

theorem words_go_ne_nil (s : Str) : ∀ (acc w : Str), w ∈ words.go s acc → w ≠ [] := by
  induction s with
  | nil =>
    intro acc w hw
    rw [words.go] at hw
    split_ifs at hw with h
    · cases hw
    · rw [List.mem_singleton] at hw; rw [hw]; exact h
  | cons c s ih =>
    intro acc w hw
    rw [words.go] at hw
    by_cases hc : is_break c = true
    · rw [if_pos hc] at hw
      split_ifs at hw with h
      · exact ih _ w hw
      · rcases List.mem_cons.1 hw with e | e
        · rw [e]; exact h
        · exact ih _ w e
    · rw [if_neg hc] at hw
      exact ih _ w hw

/-- When no word of the text is longer than `len - pre`, and the margin fits,
no stretch without break points is. -/
theorem fit_of_words {s : Str} {pre len : Nat} (hpre : pre ≤ len)
    (hw : ∀ w ∈ words s, w.length ≤ len - pre) :
    ∀ a u b, s = a ++ u ++ b → (∀ x ∈ u, is_break x = false) → u.length + pre ≤ len := by
  intro a u b hs hu
  by_cases hne : u = []
  · rw [hne]; simpa using hpre
  · obtain ⟨w, hmem, hl⟩ := run_le_word a [] u b hu hne
    have := hw w (by rw [hs]; exact hmem)
    omega

/-- The function `str_format` cuts the text, with its line breaks replaced by
blanks when it is running text, into lines. -/
theorem str_format_wrapped (str : Str) (pre w : Nat) (rt ind : Bool) (hw : 2 ≤ w)
    (hsz : str.length + pre < 2 ^ 64 ∧ str.length + w < 2 ^ 64) (hpre : pre ≤ w - 2)
    (hfit : ∀ wd ∈ words str, wd.length ≤ w - 2 - pre) :
    wrapped pre (w - 2)
      (if rt = true then str.map (fun c => if c = '\n' then ' ' else c) else str)
      (str_format str pre w rt ind) := by
  unfold str_format
  simp only
  have hlen : size_t_sub w 2 = w - 2 := size_t_sub_eq hw (by omega)
  rw [hlen]
  generalize hs : (if rt = true then str.map (fun c => if c = '\n' then ' ' else c) else str) = s
  have hsl : s.length = str.length := by
    rw [← hs]; split_ifs <;> simp
  have hws : words s = words str := by
    rw [← hs]
    split_ifs
    · exact words_go_map str []
    · rfl
  obtain ⟨out, h1, h2⟩ := loop_wrapped s pre (w - 2)
    (fit_of_words hpre (by rw [hws]; exact hfit)) (by rw [hsl]; omega)
    s [] [] [] 0 0 0 0 (if ind = true then List.replicate pre ' ' else []) []
    (by simp) rfl rfl rfl (by simp) (Or.inl rfl) (break_points_fit_nil _ _)
    (by split_ifs; exact Or.inr rfl; exact Or.inl rfl)
  rw [h1]
  simpa using h2


theorem lines_go_nl (x : Str) : ∀ (acc y : Str), '\n' ∉ x →
    lines.go (x ++ '\n' :: y) acc = (acc ++ x) :: lines.go y [] := by
  induction x with
  | nil =>
    intro acc y _
    rw [List.nil_append, lines.go, if_pos rfl, List.append_nil]
  | cons c x ih =>
    intro acc y hx
    have hc : c ≠ '\n' := fun e => hx (by rw [e]; exact List.mem_cons_self _ _)
    rw [List.cons_append, lines.go, if_neg hc,
      ih _ y (fun h => hx (List.mem_cons_of_mem _ h))]
    simp

theorem lines_nl (x y : Str) (hx : '\n' ∉ x) : lines (x ++ '\n' :: y) = x :: lines y := by
  unfold lines
  rw [lines_go_nl x [] y hx]
  rfl

theorem margin_length {pre : Nat} {m : Str} (hm : m = [] ∨ m = List.replicate pre ' ') :
    m.length ≤ pre ∧ '\n' ∉ m := by
  rcases hm with hm | hm
  · rw [hm]; simp
  · rw [hm]
    refine ⟨by simp, ?_⟩
    intro h
    have := (List.mem_replicate.1 h).2
    revert this
    decide

/-- In a text without line breaks that `str_format` has cut into lines, every
line but the last fits into the width. -/
theorem wrapped_lines {pre len : Nat} {t out : Str} (h : wrapped pre len t out) :
    '\n' ∉ t → lines out ≠ [] ∧ ∀ L ∈ (lines out).dropLast, L.length ≤ len := by
  induction h with
  | last m t hm _ =>
    intro ht
    have hmt : '\n' ∉ m ++ t := by
      intro h
      rcases List.mem_append.1 h with h | h
      · exact (margin_length hm).2 h
      · exact ht h
    rw [show m ++ t ++ ['\n'] = (m ++ t) ++ '\n' :: [] from rfl, lines_nl _ _ hmt]
    refine ⟨by simp, ?_⟩
    intro L hL
    simp [lines, lines.go] at hL
  | line m l d t out hm hd _ hfit _ ih =>
    intro ht
    have hl : '\n' ∉ l := fun h => ht (List.mem_append_left _ h)
    have hdn : d ≠ '\n' := fun e => ht (by rw [e]; simp)
    have htt : '\n' ∉ t := fun h => ht (by simp [h])
    have hml : '\n' ∉ m ++ l := by
      intro h
      rcases List.mem_append.1 h with h | h
      · exact (margin_length hm).2 h
      · exact hl h
    obtain ⟨ih1, ih2⟩ := ih htt
    rw [show m ++ l ++ '\n' :: out = (m ++ l) ++ '\n' :: out from rfl, lines_nl _ _ hml]
    refine ⟨by simp, ?_⟩
    intro L hL
    rw [List.dropLast_cons_of_ne_nil ih1] at hL
    rcases List.mem_cons.1 hL with e | e
    · rw [e, List.length_append]
      have := hfit hdn
      have := (margin_length hm).1
      omega
    · exact ih2 L e

theorem map_no_newline (str : Str) : '\n' ∉ str.map (fun c => if c = '\n' then ' ' else c) := by
  intro h
  obtain ⟨c, _, hc⟩ := List.mem_map.1 h
  by_cases e : c = '\n'
  · rw [if_pos e] at hc; revert hc; decide
  · rw [if_neg e] at hc; exact e hc

theorem words_nil_all_break {s : Str} (h : words s = []) : ∀ c ∈ s, is_break c = true := by
  intro c hc
  by_contra hb
  obtain ⟨a, b, hs⟩ := List.append_of_mem hc
  obtain ⟨w, hw, _⟩ := run_le_word a [] [c] b
    (by intro x hx; rw [List.mem_singleton] at hx; rw [hx]; simpa using hb) (by simp)
  have e : a ++ [c] ++ b = s := by rw [hs]; simp
  rw [e] at hw
  change w ∈ words s at hw
  rw [h] at hw
  cases hw

/-- From a text that holds only blanks, tabs and line breaks the loop of
`str_format` writes only such characters. -/
theorem loop_all_break (s : Str) (pre len : Nat) (hs : ∀ c ∈ s, is_break c = true) :
    ∀ (rest : Str) (i pos ls line : Nat) (p ss : Str), (∀ c ∈ p, is_break c = true) →
      (∀ c ∈ ss, is_break c = true) →
      ∀ c ∈ str_format.loop s pre len rest i pos ls line p ss, is_break c = true := by
  intro rest
  induction rest with
  | nil =>
    intro i pos ls line p ss hp hss c hc
    rw [loop_nil] at hc
    simp only [List.mem_append, List.mem_singleton] at hc
    rcases hc with ((hc | hc) | hc) | hc
    · exact hss c hc
    · exact hp c hc
    · exact hs c (List.mem_of_mem_drop hc)
    · rw [hc]; rfl
  | cons x rest ih =>
    intro i pos ls line p ss hp hss
    have hp' : ∀ c ∈ (if line = 1 then List.replicate pre ' ' else p), is_break c = true := by
      intro c hc
      split_ifs at hc
      · rw [(List.mem_replicate.1 hc).2]; rfl
      · exact hp c hc
    cases hx : is_break x with
    | false =>
      rw [loop_word hx]
      exact ih _ _ _ _ _ _ hp hss
    | true =>
      by_cases hw : x = '\n' ∨ (i + pre) % 2 ^ 64 > (ls + len) % 2 ^ 64
      · rw [loop_wrap hx rest i pos ls line p ss hw]
        apply ih _ _ _ _ _ _ hp'
        intro c hc
        simp only [List.mem_append, List.mem_singleton] at hc
        rcases hc with ((hc | hc) | hc) | hc
        · exact hss c hc
        · exact hp' c hc
        · exact hs c (List.mem_of_mem_drop (List.mem_of_mem_take hc))
        · rw [hc]; rfl
      · rw [loop_nowrap hx rest i pos ls line p ss hw]
        exact ih _ _ _ _ _ _ hp' hss

theorem str_format_all_break (str : Str) (pre w : Nat) (rt ind : Bool)
    (hs : ∀ c ∈ str, is_break c = true) :
    ∀ c ∈ str_format str pre w rt ind, is_break c = true := by
  unfold str_format
  simp only
  apply loop_all_break
  · intro c hc
    split_ifs at hc
    · obtain ⟨x, hx, e⟩ := List.mem_map.1 hc
      rw [← e]
      split_ifs
      · rfl
      · exact hs x hx
    · exact hs c hc
  · intro c hc
    split_ifs at hc
    · rw [(List.mem_replicate.1 hc).2]; rfl
    · cases hc
  · intro c hc
    cases hc

/-- The words of the result of `str_format` are the words of the text. -/
theorem str_format_words (str : Str) (pre w : Nat) (rt ind : Bool) (hw : 2 ≤ w)
    (hsz : str.length + w < 2 ^ 64)
    (hfit : ∀ wd ∈ words str, wd.length ≤ w - 2 - pre) :
    words (str_format str pre w rt ind) = words str := by
  cases hwords : words str with
  | nil =>
    exact words_all_break _ (str_format_all_break str pre w rt ind (words_nil_all_break hwords))
  | cons wd tl =>
    have hmem : wd ∈ words str := by rw [hwords]; exact List.mem_cons_self _ _
    have h1 := hfit wd hmem
    have h2 : 0 < wd.length := List.length_pos.2 (words_go_ne_nil str [] wd hmem)
    have hpre : pre ≤ w - 2 := by omega
    rw [words_wrapped (str_format_wrapped str pre w rt ind hw ⟨by omega, hsz⟩ hpre hfit),
      ← hwords]
    split_ifs
    · exact words_go_map str []
    · rfl

/-- Running text is wrapped as the text with a blank for every line break. -/
theorem str_format_running (str : Str) (pre w : Nat) (ind : Bool) :
    str_format str pre w true ind =
      str_format (str.map (fun c => if c = '\n' then ' ' else c)) pre w false ind := rfl

theorem map_break_idem (str : Str) :
    (str.map (fun c => if c = '\n' then ' ' else c)).map (fun c => if c = '\n' then ' ' else c) =
      str.map (fun c => if c = '\n' then ' ' else c) := by
  rw [List.map_map]
  apply List.map_congr_left
  intro c _
  simp only [Function.comp]
  by_cases h : c = '\n'
  · rw [if_pos h]; rfl
  · rw [if_neg h, if_neg h]

theorem str_format_running_map (str : Str) (pre w : Nat) (ind : Bool) :
    str_format (str.map (fun c => if c = '\n' then ' ' else c)) pre w true ind =
      str_format str pre w true ind := by
  rw [str_format_running, map_break_idem, ← str_format_running]

theorem map_break_ne_nil (str : Str) :
    str.map (fun c => if c = '\n' then ' ' else c) ≠ [] ↔ str ≠ [] := by
  cases str <;> simp

/-- The help text is the same when every line break of the description and of
the epilog is replaced by a blank. -/
theorem format_help_running (p : OptionParser) (E : Env) :
    ({ p with _description := p._description.map (fun c => if c = '\n' then ' ' else c), _epilog := p._epilog.map (fun c => if c = '\n' then ' ' else c) }).format_help E =
      p.format_help E := by
  unfold OptionParser.format_help
  simp only [str_format_running_map, map_break_ne_nil]
  rfl

/-- The body of the loop of `str_format` at a line break of the text. -/
theorem loop_hard_break (s : Str) (pre len : Nat) (rest : Str) (i pos ls line : Nat) (p ss : Str)
    (hls : ls ≤ i) (hi : i + 1 < 2 ^ 64) :
    str_format.loop s pre len ('\n' :: rest) i pos ls line p ss =
      str_format.loop s pre len rest (i + 1) (i + 1) (i + 1) (line + 1)
        (if line = 1 then List.replicate pre ' ' else p)
        (ss ++ (if line = 1 then List.replicate pre ' ' else p) ++
          (s.drop ls).take (i - ls) ++ ['\n']) := by
  rw [loop_wrap (show is_break '\n' = true from rfl) rest i pos ls line p ss (Or.inl rfl)]
  rw [if_pos rfl]
  have e1 : size_t_sub (i + 1) ls = i + 1 - ls := size_t_sub_eq (by omega) hi
  have e2 : size_t_sub (i + 1 - ls) 1 = i + 1 - ls - 1 := size_t_sub_eq (by omega) (by omega)
  rw [e1, e2]
  have e3 : i + 1 - ls - 1 = i - ls := by omega
  rw [e3]
  rfl

theorem substr_part (s : Str) (a n : Nat) : substr s a n <:+: s :=
  (List.take_prefix n _).isInfix.trans (List.drop_suffix a s).isInfix

theorem lines_go_pre (x : Str) : ∀ (acc y : Str), '\n' ∉ x →
    lines.go (x ++ y) acc = lines.go y (acc ++ x) := by
  induction x with
  | nil => intro acc y _; simp
  | cons c x ih =>
    intro acc y hx
    have hc : c ≠ '\n' := fun e => hx (by rw [e]; exact List.mem_cons_self _ _)
    rw [List.cons_append, lines.go, if_neg hc, ih _ y (fun h => hx (List.mem_cons_of_mem _ h))]
    simp

theorem lines_go_append (x : Str) : ∀ (acc y : Str),
    lines.go (x ++ '\n' :: y) acc = lines.go (x ++ ['\n']) acc ++ lines.go y [] := by
  induction x with
  | nil =>
    intro acc y
    rw [List.nil_append, List.nil_append, lines.go, if_pos rfl, lines.go, if_pos rfl, lines.go,
      if_pos rfl]
    rfl
  | cons c x ih =>
    intro acc y
    by_cases hc : c = '\n'
    · rw [List.cons_append, List.cons_append, lines.go, if_pos hc, lines.go, if_pos hc, ih]
      rfl
    · rw [List.cons_append, List.cons_append, lines.go, if_neg hc, lines.go, if_neg hc, ih]

/-- The lines of a part of the text that is followed by a line break: the first
one is the accumulator and a start of the part, the other ones are parts of the
part; none holds a line break. -/
theorem lines_go_parts (u : Str) : ∀ (acc : Str), ∀ L ∈ lines.go (u ++ ['\n']) acc,
    (∃ v, L = acc ++ v ∧ v <+: u ∧ '\n' ∉ v) ∨ (∃ v, L = v ∧ v <:+: u ∧ '\n' ∉ v) := by
  induction u with
  | nil =>
    intro acc L hL
    rw [List.nil_append, lines.go, if_pos rfl, lines.go, if_pos rfl] at hL
    rw [List.mem_singleton] at hL
    exact Or.inl ⟨[], by rw [hL, List.append_nil], List.prefix_refl _, by simp⟩
  | cons c u ih =>
    intro acc L hL
    by_cases hc : c = '\n'
    · rw [List.cons_append, lines.go, if_pos hc] at hL
      rcases List.mem_cons.1 hL with hL | hL
      · exact Or.inl ⟨[], by rw [hL, List.append_nil], List.nil_prefix, by simp⟩
      · rcases ih [] L hL with ⟨v, e, hv, hn⟩ | ⟨v, e, hv, hn⟩
        · exact Or.inr ⟨v, by rw [e, List.nil_append],
            hv.isInfix.trans (List.suffix_cons c u).isInfix, hn⟩
        · exact Or.inr ⟨v, e, hv.trans (List.suffix_cons c u).isInfix, hn⟩
    · rw [List.cons_append, lines.go, if_neg hc] at hL
      rcases ih (acc ++ [c]) L hL with ⟨v, e, hv, hn⟩ | ⟨v, e, hv, hn⟩
      · refine Or.inl ⟨c :: v, by rw [e]; simp, ?_, ?_⟩
        · obtain ⟨t, ht⟩ := hv
          exact ⟨t, by rw [← ht]; rfl⟩
        · intro h
          rcases List.mem_cons.1 h with h | h
          · exact hc h.symm
          · exact hn h
      · exact Or.inr ⟨v, e, hv.trans (List.suffix_cons c u).isInfix, hn⟩

/-- A part of a text that holds no line break lies before or after a given line
break of the text. -/
theorem part_split {u a b : Str} {c : Char} (h : u <:+: a ++ c :: b) (hc : c ∉ u) :
    u <:+: a ∨ u <:+: b := by
  obtain ⟨s1, s2, e⟩ := h
  rcases List.append_eq_append_iff.1 e with ⟨a', e1, e2⟩ | ⟨c', e1, e2⟩
  · exact Or.inl ⟨s1, a', e1.symm⟩
  · cases c' with
    | nil =>
      refine Or.inl ⟨s1, [], ?_⟩
      rw [List.append_nil, e1, List.append_nil]
    | cons x c'' =>
      rw [List.cons_append] at e2
      have ex : c = x := (List.cons.inj e2).1
      have eb : b = c'' ++ s2 := (List.cons.inj e2).2
      rcases List.append_eq_append_iff.1 e1 with ⟨a', e3, e4⟩ | ⟨d, e3, e4⟩
      · exfalso
        apply hc
        rw [e4, ex]
        exact List.mem_append_right _ (List.mem_cons_self _ _)
      · cases d with
        | nil =>
          exfalso
          apply hc
          rw [List.nil_append] at e4
          rw [← e4, ex]
          exact List.mem_cons_self _ _
        | cons y d' =>
          rw [List.cons_append] at e4
          have ec : c'' = d' ++ u := (List.cons.inj e4).2
          refine Or.inr ⟨d', s2, ?_⟩
          rw [eb, ec]

/-- The lines of what the loop of `str_format` writes: each is a margin and a
part of the text that holds no line break. -/
theorem loop_lines (s : Str) (pre len : Nat) :
    ∀ (rest : Str) (i pos ls line : Nat) (p ss : Str), (p = [] ∨ p = List.replicate pre ' ') →
      (ss = [] ∨ ∃ t, ss = t ++ ['\n']) →
      (∀ L ∈ lines ss, ∃ m u, L = m ++ u ∧ (m = [] ∨ m = List.replicate pre ' ') ∧ u <:+: s ∧
        '\n' ∉ u) →
      ∀ L ∈ lines (str_format.loop s pre len rest i pos ls line p ss),
        ∃ m u, L = m ++ u ∧ (m = [] ∨ m = List.replicate pre ' ') ∧ u <:+: s ∧ '\n' ∉ u := by
  have piece : ∀ (p ss u : Str), (p = [] ∨ p = List.replicate pre ' ') →
      (ss = [] ∨ ∃ t, ss = t ++ ['\n']) → u <:+: s →
      (∀ L ∈ lines ss, ∃ m u, L = m ++ u ∧ (m = [] ∨ m = List.replicate pre ' ') ∧ u <:+: s ∧
        '\n' ∉ u) →
      ∀ L ∈ lines (ss ++ p ++ u ++ ['\n']),
        ∃ m u, L = m ++ u ∧ (m = [] ∨ m = List.replicate pre ' ') ∧ u <:+: s ∧ '\n' ∉ u := by
    intro p ss u hp hss hu hQ L hL
    have hpn : '\n' ∉ p := by
      rcases hp with hp | hp
      · rw [hp]; simp
      · rw [hp]
        intro h
        exact absurd (List.mem_replicate.1 h).2 (by decide)
    have hsplit : lines (ss ++ p ++ u ++ ['\n']) = lines ss ++ lines.go (u ++ ['\n']) p := by
      rcases hss with hss | ⟨t, ht⟩
      · rw [hss]
        unfold lines
        rw [List.nil_append, List.append_assoc, lines_go_pre p [] _ hpn]
        rfl
      · rw [ht]
        unfold lines
        have e : t ++ ['\n'] ++ p ++ u ++ ['\n'] = t ++ '\n' :: (p ++ (u ++ ['\n'])) := by simp
        rw [e, lines_go_append, lines_go_pre p [] _ hpn]
        rfl
    rw [hsplit] at hL
    rcases List.mem_append.1 hL with hL | hL
    · exact hQ L hL
    · rcases lines_go_parts u p L hL with ⟨v, e, hv, hn⟩ | ⟨v, e, hv, hn⟩
      · exact ⟨p, v, e, hp, hv.isInfix.trans hu, hn⟩
      · exact ⟨[], v, by rw [e, List.nil_append], Or.inl rfl, hv.trans hu, hn⟩
  intro rest
  induction rest with
  | nil =>
    intro i pos ls line p ss hp hss hQ
    rw [loop_nil]
    exact piece p ss _ hp hss (List.drop_suffix ls s).isInfix hQ
  | cons x rest ih =>
    intro i pos ls line p ss hp hss hQ
    cases hx : is_break x with
    | false =>
      rw [loop_word hx]
      exact ih _ _ _ _ _ _ hp hss hQ
    | true =>
      by_cases hw : x = '\n' ∨ (i + pre) % 2 ^ 64 > (ls + len) % 2 ^ 64
      · rw [loop_wrap hx rest i pos ls line p ss hw]
        exact ih _ _ _ _ _ _ (margin_update hp) (Or.inr ⟨_, rfl⟩)
          (piece _ ss _ (margin_update hp) hss (substr_part s ls _) hQ)
      · rw [loop_nowrap hx rest i pos ls line p ss hw]
        exact ih _ _ _ _ _ _ (margin_update hp) hss hQ

/-- The lines of the result of `str_format` for a text that is not running
text: each is a margin and a part of the text that holds no line break. -/
theorem str_format_lines (str : Str) (pre w : Nat) (ind : Bool) :
    ∀ L ∈ lines (str_format str pre w false ind),
      ∃ m u, L = m ++ u ∧ (m = [] ∨ m = List.replicate pre ' ') ∧ u <:+: str ∧ '\n' ∉ u := by
  have e : str_format str pre w false ind =
      str_format.loop str pre (size_t_sub w 2) str 0 0 0 0
        (if ind = true then List.replicate pre ' ' else []) [] := rfl
  rw [e]
  apply loop_lines
  · split_ifs
    · exact Or.inr rfl
    · exact Or.inl rfl
  · exact Or.inl rfl
  · intro L hL
    cases hL

/-- The method `add_option` returns when no name is empty. -/
theorem add_option_returns (c : OptionContainer) (E : Env) {v : List Str} (cfg : Opt → Opt)
    (h : [] ∉ v) : c.add_option E v cfg = some (c.add_option_result E v cfg) := by
  unfold OptionContainer.add_option
  rw [if_neg h]

/-- The method `add_option` throws when a name is empty. -/
theorem add_option_throws (c : OptionContainer) (E : Env) {v : List Str} (cfg : Opt → Opt)
    (h : [] ∈ v) : c.add_option E v cfg = none := by
  unfold OptionContainer.add_option
  rw [if_pos h]

/-- The method `add_option` of a parser returns when no name is empty. -/
theorem parser_add_option_returns (p : OptionParser) (E : Env) {v : List Str} (cfg : Opt → Opt)
    (h : [] ∉ v) : p.add_option E v cfg = some (p.add_option_result E v cfg) := by
  unfold OptionParser.add_option
  rw [add_option_returns _ E cfg h]
  rfl

/-- The method `add_option` of a group returns when no name is empty. -/
theorem group_add_option_returns (g : OptionGroup) (E : Env) {v : List Str} (cfg : Opt → Opt)
    (h : [] ∉ v) : g.add_option E v cfg = some (g.add_option_result E v cfg) := by
  unfold OptionGroup.add_option
  rw [add_option_returns _ E cfg h]
  rfl

theorem fold_insert_s_proj (o : Opt) (names : List Str) : ∀ (p : OptionParser),
    (names.foldl (fun (p : OptionParser) it => { p with _optmap_s := p._optmap_s.insert it o })
      p)._optmap_s = names.foldl (fun m it => SMap.insert m it o) p._optmap_s ∧
    (names.foldl (fun (p : OptionParser) it => { p with _optmap_s := p._optmap_s.insert it o })
      p)._optmap_l = p._optmap_l := by
  induction names with
  | nil => intro p; exact ⟨rfl, rfl⟩
  | cons n names ih =>
    intro p
    rw [List.foldl_cons, List.foldl_cons]
    exact ih _

theorem fold_insert_l_proj (o : Opt) (names : List Str) : ∀ (p : OptionParser),
    (names.foldl (fun (p : OptionParser) it => { p with _optmap_l := p._optmap_l.insert it o })
      p)._optmap_l = names.foldl (fun m it => SMap.insert m it o) p._optmap_l ∧
    (names.foldl (fun (p : OptionParser) it => { p with _optmap_l := p._optmap_l.insert it o })
      p)._optmap_s = p._optmap_s := by
  induction names with
  | nil => intro p; exact ⟨rfl, rfl⟩
  | cons n names ih =>
    intro p
    rw [List.foldl_cons, List.foldl_cons]
    exact ih _

/-- A map after the names of a list are bound to `o` one after the other. -/
theorem fold_insert_find (o : Opt) (names : List Str) (k : Str) : ∀ (m : SMap Opt),
    SMap.find (names.foldl (fun m it => SMap.insert m it o) m) k =
      if k ∈ names then some o else SMap.find m k := by
  induction names with
  | nil => intro m; simp
  | cons n names ih =>
    intro m
    rw [List.foldl_cons, ih]
    by_cases h1 : k ∈ names
    · rw [if_pos h1, if_pos (List.mem_cons_of_mem _ h1)]
    · rw [if_neg h1]
      by_cases h2 : k = n
      · subst h2
        rw [if_pos (List.mem_cons_self _ _), SMap.find_insert_self]
      · rw [if_neg (by simp [h1, h2]), SMap.find_insert_ne _ _ h2]

theorem fold_insert_ordered (o : Opt) (names : List Str) : ∀ (m : SMap Opt), SMap.ordered m →
    SMap.ordered (names.foldl (fun m it => SMap.insert m it o) m) := by
  induction names with
  | nil => intro m h; exact h
  | cons n names ih =>
    intro m h
    rw [List.foldl_cons]
    exact ih _ (SMap.insert_ordered h n o)

theorem enter_optmap (p : OptionParser) (o : Opt) :
    (OptionParser.add_option_group.enter p o)._optmap_s =
      o._short_opts.foldl (fun m it => SMap.insert m it o) p._optmap_s ∧
    (OptionParser.add_option_group.enter p o)._optmap_l =
      o._long_opts.foldl (fun m it => SMap.insert m it o) p._optmap_l := by
  unfold OptionParser.add_option_group.enter
  constructor
  · rw [(fold_insert_l_proj o o._long_opts _).2, (fold_insert_s_proj o o._short_opts p).1]
  · rw [(fold_insert_l_proj o o._long_opts _).1, (fold_insert_s_proj o o._short_opts p).2]

/-- The lookup maps after the outer loop of `add_option_group`: a name of a
flag of the group resolves to the last flag of the group that has it, any
other name as before. -/
theorem enter_fold_find (k : Str) : ∀ (opts : List Opt) (p : OptionParser),
    SMap.find (opts.foldl OptionParser.add_option_group.enter p)._optmap_s k =
      (match opts.reverse.find? (fun o => decide (k ∈ o._short_opts)) with
        | some o => some o
        | none => SMap.find p._optmap_s k) ∧
    SMap.find (opts.foldl OptionParser.add_option_group.enter p)._optmap_l k =
      (match opts.reverse.find? (fun o => decide (k ∈ o._long_opts)) with
        | some o => some o
        | none => SMap.find p._optmap_l k) := by
  intro opts
  induction opts with
  | nil => intro p; exact ⟨rfl, rfl⟩
  | cons o opts ih =>
    intro p
    rw [List.foldl_cons, List.reverse_cons, List.find?_append, List.find?_append]
    obtain ⟨h1, h2⟩ := ih (OptionParser.add_option_group.enter p o)
    rw [h1, h2, (enter_optmap p o).1, (enter_optmap p o).2, fold_insert_find, fold_insert_find]
    constructor
    · cases opts.reverse.find? (fun o => decide (k ∈ o._short_opts)) with
      | some o' => rfl
      | none =>
        by_cases h : k ∈ o._short_opts
        · simp [h]
        · simp [h]
    · cases opts.reverse.find? (fun o => decide (k ∈ o._long_opts)) with
      | some o' => rfl
      | none =>
        by_cases h : k ∈ o._long_opts
        · simp [h]
        · simp [h]

theorem enter_fold_ordered : ∀ (opts : List Opt) (p : OptionParser),
    SMap.ordered p._optmap_s → SMap.ordered p._optmap_l →
    SMap.ordered (opts.foldl OptionParser.add_option_group.enter p)._optmap_s ∧
      SMap.ordered (opts.foldl OptionParser.add_option_group.enter p)._optmap_l := by
  intro opts
  induction opts with
  | nil => intro p hs hl; exact ⟨hs, hl⟩
  | cons o opts ih =>
    intro p hs hl
    rw [List.foldl_cons]
    apply ih
    · rw [(enter_optmap p o).1]; exact fold_insert_ordered o _ _ hs
    · rw [(enter_optmap p o).2]; exact fold_insert_ordered o _ _ hl

theorem add_option_group_optmap (p : OptionParser) (g : OptionGroup) :
    (p.add_option_group g)._optmap_s =
      (g._opts.foldl OptionParser.add_option_group.enter p)._optmap_s ∧
    (p.add_option_group g)._optmap_l =
      (g._opts.foldl OptionParser.add_option_group.enter p)._optmap_l := ⟨rfl, rfl⟩

/-- The resolved default of a flag: the override of the parser for its
destination when there is one, its own default otherwise. -/
theorem get_default_eq (o : Opt) (p : OptionParser) :
    o.get_default p = (SMap.find p._defaults o._dest).getD o._default := by
  unfold Opt.get_default
  cases SMap.find p._defaults o._dest <;> rfl

/-- The member `_optional_value` of the flag that `add_option` registers is
what the setters make of the uninitialised one. -/
theorem add_option_optional_value (c : OptionContainer) (E : Env) (v : List Str)
    (cfg : Opt → Opt) (hcfg : ∀ o, (cfg o)._optional_value = o._optional_value) :
    ∃ o, (c.add_option_result E v cfg)._opts = c._opts ++ [o] ∧
      o._optional_value = E.uninit_optional_value := by
  refine ⟨_, add_option_opts c E v cfg, ?_⟩
  rw [hcfg]
  have key : ∀ (v : List Str) (st : Opt × Str),
      (v.foldl OptionContainer.add_option.name st).1._optional_value = st.1._optional_value := by
    intro v
    induction v with
    | nil => intro st; rfl
    | cons it v ih =>
      intro st
      rw [List.foldl_cons, ih]
      unfold OptionContainer.add_option.name
      obtain ⟨o, fb⟩ := st
      dsimp only
      split_ifs <;> rfl
  split_ifs
  · exact key v _
  · exact key v _

theorem flag_step_terminator (p : OptionParser) (o : Opt) (rest : List Str) :
    flag_step p o "--".toList rest = none := rfl

theorem flag_step_long {p : OptionParser} {o : Opt} {s : Str} (rest : List Str) (hs : s ≠ []) :
    flag_step p o ('-' :: '-' :: s) rest = flag_step.long p o s rest := by
  unfold flag_step
  simp [hs]

theorem flag_step_short {p : OptionParser} {o : Opt} {x : Char} (t : Str) (rest : List Str)
    (hx : x ≠ '-') :
    flag_step p o ('-' :: x :: t) rest = flag_step.short p o x t rest := by
  unfold flag_step
  simp [hx]

theorem flag_step_positional {p : OptionParser} {o : Opt} {arg : Str} (rest : List Str)
    (ha : is_positional arg = true) :
    flag_step p o arg rest = if p._interspersed_args = true then some ([], rest) else none := by
  rcases is_positional_cases ha with h | h | ⟨c, t, h, hc⟩
  · subst h; rfl
  · subst h; rfl
  · subst h
    cases t with
    | nil => rfl
    | cons c2 s =>
      unfold flag_step
      simp [hc]

theorem SMap.find_mem {α : Type} {m : SMap α} {k : Str} {v : α} (h : SMap.find m k = some v) :
    (k, v) ∈ m := by
  induction m with
  | nil => cases h
  | cons e m ih =>
    obtain ⟨k', v'⟩ := e
    simp only [SMap.find] at h
    by_cases hk : k' = k
    · rw [if_pos hk] at h
      cases h
      subst hk
      exact List.mem_cons_self _ _
    · rw [if_neg hk] at h
      exact List.mem_cons_of_mem _ (ih h)

theorem short_bound {p : OptionParser} {k : Str} {o : Opt} (h : SMap.find p._optmap_s k = some o) :
    o ∈ bound_flags p :=
  List.mem_append_left _ (List.mem_map.2 ⟨(k, o), SMap.find_mem h, rfl⟩)

theorem long_bound {p : OptionParser} {opt : Str} {o : Opt} (h : p.lookup_long_opt opt = .ok o) :
    o ∈ bound_flags p := by
  unfold OptionParser.lookup_long_opt at h
  simp only at h
  split_ifs at h
  split at h
  · rename_i o' hf
    cases h
    exact List.mem_append_right _ (List.mem_map.2 ⟨(_, o), SMap.find_mem hf, rfl⟩)
  · cases h

theorem long_name_append {name : Str} (value : Str) (h : '=' ∉ name) :
    long_name (name ++ '=' :: value) = name ∧ inline_value (name ++ '=' :: value) = value := by
  unfold long_name inline_value
  induction name with
  | nil => simp
  | cons c cs ih =>
    rw [List.mem_cons, not_or] at h
    have hc : c ≠ '=' := fun e => h.1 e.symm
    simp only [List.cons_append, List.takeWhile_cons, List.dropWhile_cons, hc, ne_eq,
      not_false_eq_true, decide_True, if_true]
    exact ⟨by rw [(ih h.2).1], (ih h.2).2⟩

theorem long_name_self {s : Str} (h : '=' ∉ s) : long_name s = s := by
  unfold long_name
  rw [List.takeWhile_eq_self_iff]
  intro c hc
  simp only [ne_eq, decide_eq_true_eq]
  intro e
  exact h (e ▸ hc)

theorem str_find_eq_mem {s : Str} (h : str_find_eq s = none) : '=' ∉ s := by
  induction s with
  | nil => simp
  | cons c cs ih =>
    simp only [str_find_eq] at h
    by_cases hc : c = '='
    · rw [if_pos hc] at h; cases h
    · rw [if_neg hc] at h
      cases hf : str_find_eq cs with
      | none =>
        intro hm
        rcases List.mem_cons.1 hm with e | e
        · exact hc e.symm
        · exact ih hf e
      | some d => rw [hf] at h; cases h

theorem appended_refl (d : Str) (vs : Values) : appended d vs vs [] :=
  ⟨by simp, rfl, fun h => absurd rfl h, fun h => h⟩

theorem appended_trans {d : Str} {vs1 vs2 vs3 : Values} {a b : List Str}
    (h1 : appended d vs1 vs2 a) (h2 : appended d vs2 vs3 b) : appended d vs1 vs3 (a ++ b) := by
  obtain ⟨a1, a2, a3, a4⟩ := h1
  obtain ⟨b1, b2, b3, b4⟩ := h2
  refine ⟨by rw [b1, a1, List.append_assoc], ?_, ?_, fun h => b4 (a4 h)⟩
  · rw [b2, List.getLast?_append]
    cases b.getLast? with
    | some v => rfl
    | none => simp [a2]
  · intro hne
    by_cases hb : b = []
    · subst hb
      rw [List.append_nil] at hne
      exact b4 (a3 hne)
    · exact b3 hb

/-- What the action of a flag `o'` does to the destination of the flag `o` of
action `append`: it appends the value when the flag is `o`, and nothing when
it is a flag of another destination. -/
theorem dispatch_appended {X q' : OptionParser} {E : Env} {o o' : Opt} {opt value : Str}
    (ha : o._action = "append".toList) (ht : o._type = "string".toList)
    (hd : o'._dest = o._dest → o' = o)
    (h : X.process_opt E o' opt value = .ok q') :
    q'._remaining = X._remaining ∧
      appended o._dest X._values q'._values (if o' = o then [value] else []) := by
  constructor
  · obtain ⟨vs, e⟩ := process_opt_ok h
    rw [e]
  · by_cases e : o' = o
    · subst e
      rw [process_opt_append E opt value ha ht] at h
      cases h
      rw [if_pos rfl]
      refine ⟨Values.all_after_append _ _ _, ?_, fun _ => ?_, fun _ => ?_⟩
      · rw [Values.get_after_append]
        rfl
      · exact Values.is_set_by_user_set _ _
      · exact Values.is_set_by_user_set _ _
    · rw [if_neg e]
      have hne : o._dest ≠ o'._dest := fun e' => e (hd e'.symm)
      obtain ⟨f1, f2, f3⟩ := process_opt_frame hne h
      exact ⟨by rw [f1, List.append_nil], f2, fun h => absurd rfl h, fun h => by rw [f3]; exact h⟩

/-- What `handle_long_opt` does to the destination of the flag `o` of action
`append`, in the terms of the reading of the token. -/
theorem handle_long_opt_reading {E : Env} {r p q' : OptionParser} {o : Opt} {s : Str}
    (ha : o._action = "append".toList) (ht : o._type = "string".toList) (hn : o._nargs = 1)
    (honly : ∀ o' ∈ bound_flags r, o'._dest = o._dest → o' = o)
    (hl : p._optmap_l = r._optmap_l) (h : p.handle_long_opt E s = .ok q') :
    ∃ vals, flag_step.long r o s p._remaining.tail = some (vals, q'._remaining) ∧
      appended o._dest p._values q'._values vals := by
  have hcongr : ∀ opt, p.lookup_long_opt opt = r.lookup_long_opt opt :=
    fun opt => lookup_long_opt_congr hl opt
  cases hd : str_find_eq s with
  | none =>
    have hm := str_find_eq_mem hd
    cases hlk : p.lookup_long_opt s with
    | error msg => rw [handle_long_opt_error hd hlk] at h; cases h
    | ok o' =>
      have hb : o'._dest = o._dest → o' = o :=
        honly o' (long_bound (by rw [← hcongr]; exact hlk))
      have hr : r.lookup_long_opt (long_name s) = .ok o' := by
        rw [long_name_self hm, ← hcongr]; exact hlk
      by_cases hn' : o'._nargs = 1
      · cases hq : p._remaining with
        | nil =>
          rw [handle_long_opt_missing hm hlk hn' (by rw [hq]; rfl)] at h
          cases h
        | cons first tl =>
          cases tl with
          | nil =>
            rw [handle_long_opt_missing hm hlk hn' (by rw [hq]; rfl)] at h
            cases h
          | cons front rest =>
            by_cases hv : front = []
            · subst hv
              rw [handle_long_opt_next_empty hm hlk hn' hq] at h
              cases h
            · rw [handle_long_opt_next hm hlk hn' hq hv] at h
              obtain ⟨e1, e2⟩ := dispatch_appended ha ht hb h
              refine ⟨if o' = o then [front] else [], ?_, e2⟩
              unfold flag_step.long
              rw [hr]
              simp only [hn', if_true, hm, if_false, List.tail_cons, e1]
      · rw [handle_long_opt_flag hm hlk hn'] at h
        obtain ⟨e1, e2⟩ := dispatch_appended ha ht hb h
        have hne : o' ≠ o := fun e => hn' (e ▸ hn)
        rw [if_neg hne] at e2
        refine ⟨[], ?_, e2⟩
        unfold flag_step.long
        rw [hr]
        simp only [hn', if_false, e1]
  | some d =>
    obtain ⟨name, value, hname, rfl⟩ : ∃ name value, '=' ∉ name ∧ s = name ++ '=' :: value :=
      ⟨_, _, (str_find_eq_some hd).1, (str_find_eq_some hd).2⟩
    cases hlk : p.lookup_long_opt name with
    | error msg => rw [handle_long_opt_error_inline hname hlk] at h; cases h
    | ok o' =>
      have hb : o'._dest = o._dest → o' = o :=
        honly o' (long_bound (by rw [← hcongr]; exact hlk))
      have hr : r.lookup_long_opt (long_name (name ++ '=' :: value)) = .ok o' := by
        rw [(long_name_append value hname).1, ← hcongr]; exact hlk
      have hmem : '=' ∈ name ++ '=' :: value :=
        List.mem_append_right _ (List.mem_cons_self _ _)
      by_cases hv : o'._nargs = 1 ∧ value = []
      · obtain ⟨hn', hv⟩ := hv
        subst hv
        rw [handle_long_opt_inline_empty hname hlk hn'] at h
        cases h
      · rw [handle_long_opt_inline hname hlk (fun hn' hv' => hv ⟨hn', hv'⟩)] at h
        obtain ⟨e1, e2⟩ := dispatch_appended ha ht hb h
        by_cases hn' : o'._nargs = 1
        · refine ⟨if o' = o then [value] else [], ?_, e2⟩
          unfold flag_step.long
          rw [hr]
          simp only [hn', if_true, hmem, (long_name_append value hname).2, e1]
        · have hne : o' ≠ o := fun e => hn' (e ▸ hn)
          rw [if_neg hne] at e2
          refine ⟨[], ?_, e2⟩
          unfold flag_step.long
          rw [hr]
          simp only [hn', if_false, e1]

/-- What `handle_short_opt` does to the destination of the flag `o` of action
`append`, in the terms of the reading of the token. -/
theorem handle_short_opt_reading {E : Env} {r p q' : OptionParser} {o : Opt} {x : Char} {t : Str}
    (ha : o._action = "append".toList) (ht : o._type = "string".toList) (hn : o._nargs = 1)
    (honly : ∀ o' ∈ bound_flags r, o'._dest = o._dest → o' = o)
    (hs : p._optmap_s = r._optmap_s) (hdef : p._defaults = r._defaults)
    (h : p.handle_short_opt E [x] ('-' :: x :: t) = .ok q') :
    ∃ vals, flag_step.short r o x t p._remaining.tail = some (vals, q'._remaining) ∧
      appended o._dest p._values q'._values vals := by
  cases hf : SMap.find p._optmap_s [x] with
  | none => rw [handle_short_opt_unknown hf] at h; cases h
  | some o' =>
    have hfr : SMap.find r._optmap_s [x] = some o' := by rw [← hs]; exact hf
    have hb : o'._dest = o._dest → o' = o := honly o' (short_bound hfr)
    by_cases hn' : o'._nargs = 1
    · by_cases hv : t = []
      · have hv' : substr_from ('-' :: x :: t) 2 = [] := by rw [hv]; rfl
        cases hq : p._remaining with
        | nil =>
          have hr : p._remaining.tail = [] := by rw [hq]; rfl
          cases hopt : o'._optional_value with
          | true =>
            rw [handle_short_opt_optional hf hn' hv' hr hopt] at h
            obtain ⟨e1, e2⟩ := dispatch_appended ha ht hb h
            refine ⟨if o' = o then [o'.get_default p] else [], ?_, e2⟩
            unfold flag_step.short
            rw [hfr]
            simp only [hn', if_true, hv, ne_eq, not_true_eq_false, if_false, List.tail_nil, hopt,
              e1, get_default_congr o' hdef]
          | false =>
            rw [handle_short_opt_missing hf hn' hv' hr hopt] at h
            cases h
        | cons first tl =>
          cases tl with
          | nil =>
            have hr : p._remaining.tail = [] := by rw [hq]; rfl
            cases hopt : o'._optional_value with
            | true =>
              rw [handle_short_opt_optional hf hn' hv' hr hopt] at h
              obtain ⟨e1, e2⟩ := dispatch_appended ha ht hb h
              refine ⟨if o' = o then [o'.get_default p] else [], ?_, e2⟩
              unfold flag_step.short
              rw [hfr]
              simp only [hn', if_true, hv, ne_eq, not_true_eq_false, if_false, List.tail_cons,
                hopt, e1, get_default_congr o' hdef]
            | false =>
              rw [handle_short_opt_missing hf hn' hv' hr hopt] at h
              cases h
          | cons front rest =>
            rw [handle_short_opt_next hf hn' hv' hq] at h
            obtain ⟨e1, e2⟩ := dispatch_appended ha ht hb h
            refine ⟨if o' = o then [front] else [], ?_, e2⟩
            unfold flag_step.short
            rw [hfr]
            simp only [hn', if_true, hv, ne_eq, not_true_eq_false, if_false, List.tail_cons, e1]
      · have hv' : substr_from ('-' :: x :: t) 2 ≠ [] := hv
        rw [handle_short_opt_attached hf hn' hv'] at h
        obtain ⟨e1, e2⟩ := dispatch_appended ha ht hb h
        refine ⟨if o' = o then [t] else [], ?_, e2⟩
        unfold flag_step.short
        rw [hfr]
        simp only [hn', if_true, hv, ne_eq, not_false_eq_true, e1]
    · rw [handle_short_opt_flag hf hn'] at h
      have hne : o' ≠ o := fun e => hn' (e ▸ hn)
      by_cases hv : t = []
      · have hl : ¬ ('-' :: x :: t).length > 2 := by rw [hv]; simp
        rw [if_neg hl] at h
        obtain ⟨e1, e2⟩ := dispatch_appended ha ht hb h
        rw [if_neg hne] at e2
        refine ⟨[], ?_, e2⟩
        unfold flag_step.short
        rw [hfr]
        simp only [hn', if_false, hv, ne_eq, not_true_eq_false, e1]
      · have hl : ('-' :: x :: t).length > 2 := by
          cases t with
          | nil => exact absurd rfl hv
          | cons c t => simp
        rw [if_pos hl] at h
        obtain ⟨e1, e2⟩ := dispatch_appended ha ht hb h
        rw [if_neg hne] at e2
        refine ⟨[], ?_, e2⟩
        unfold flag_step.short
        rw [hfr]
        simp only [hn', if_false, hv, ne_eq, not_false_eq_true, if_true, e1]
        rfl

theorem next_of_match {H : Outcome} {q' : OptionParser}
    (h : (match H with
      | .ok p => Iteration.next p
      | r => Iteration.stop r) = .next q') : H = .ok q' := by
  cases H with
  | ok p => cases h; rfl
  | error m => cases h
  | help p => cases h
  | version p => cases h

theorem stop_of_match {H : Outcome} {q' : OptionParser}
    (h : (match H with
      | .ok p => Iteration.next p
      | r => Iteration.stop r) = .stop (.ok q')) : False := by
  cases H with
  | ok p => cases h
  | error m => cases h
  | help p => cases h
  | version p => cases h

/-- An iteration of the scan in the terms of the reading of the token at the
front of the queue: when the scan goes on, the reading gives the values that
the iteration appends under the destination of `o` and the queue that it
leaves; when the scan ends with a state, the queue is empty or the reading ends
there, and nothing is appended. -/
theorem iteration_reading {E : Env} {r q q' : OptionParser} {o : Opt}
    (ha : o._action = "append".toList) (ht : o._type = "string".toList) (hn : o._nargs = 1)
    (honly : ∀ o' ∈ bound_flags r, o'._dest = o._dest → o' = o)
    (hreg : same_registry r q) :
    (OptionParser.parse_args.iteration E q = .next q' →
      ∃ arg rest vals, q._remaining = arg :: rest ∧
        flag_step r o arg rest = some (vals, q'._remaining) ∧
        appended o._dest q._values q'._values vals) ∧
    (OptionParser.parse_args.iteration E q = .stop (.ok q') →
      (q._remaining = [] ∨ ∃ arg rest, q._remaining = arg :: rest ∧ flag_step r o arg rest = none) ∧
        appended o._dest q._values q'._values []) := by
  have hs : q._optmap_s = r._optmap_s := by obtain ⟨vs, rm, l, pa, rfl⟩ := hreg; rfl
  have hl : q._optmap_l = r._optmap_l := by obtain ⟨vs, rm, l, pa, rfl⟩ := hreg; rfl
  have hdef : q._defaults = r._defaults := by obtain ⟨vs, rm, l, pa, rfl⟩ := hreg; rfl
  have hint : q._interspersed_args = r._interspersed_args := by
    obtain ⟨vs, rm, l, pa, rfl⟩ := hreg; rfl
  cases hq : q._remaining with
  | nil =>
    rw [iteration_nil hq]
    constructor
    · intro h; cases h
    · intro h
      cases h
      exact ⟨Or.inl rfl, appended_refl _ _⟩
  | cons arg rest =>
    rcases token_cases arg with ha' | ⟨s, ha', hs'⟩ | ⟨x, t, ha', hx⟩ | ha'
    · subst ha'
      rw [iteration_terminator hq]
      constructor
      · intro h; cases h
      · intro h
        cases h
        exact ⟨Or.inr ⟨_, _, rfl, rfl⟩, appended_refl _ _⟩
    · subst ha'
      rw [iteration_long hq hs']
      constructor
      · intro h
        have h0 := next_of_match h
        obtain ⟨vals, h1, h2⟩ := @handle_long_opt_reading E r
          { q with _parsed := q._parsed ++ ['-' :: '-' :: s] } q' o s ha ht hn honly hl h0
        have e : ({ q with _parsed := q._parsed ++ ['-' :: '-' :: s] } : OptionParser)._remaining.tail
            = rest := by
          show q._remaining.tail = rest
          rw [hq]; rfl
        rw [e] at h1
        exact ⟨_, _, vals, rfl, by rw [flag_step_long rest hs']; exact h1, h2⟩
      · intro h
        exact (stop_of_match h).elim
    · subst ha'
      rw [iteration_short hq hx]
      constructor
      · intro h
        have h0 := next_of_match h
        obtain ⟨vals, h1, h2⟩ := handle_short_opt_reading ha ht hn honly hs hdef h0
        have e : q._remaining.tail = rest := by rw [hq]; rfl
        rw [e] at h1
        exact ⟨_, _, vals, rfl, by rw [flag_step_short t rest hx]; exact h1, h2⟩
      · intro h
        exact (stop_of_match h).elim
    · rw [iteration_positional hq ha']
      by_cases hi : q._interspersed_args = true
      · rw [if_pos hi]
        constructor
        · intro h
          cases h
          exact ⟨_, _, [], rfl, by rw [flag_step_positional rest ha', if_pos (hint ▸ hi)],
            appended_refl _ _⟩
        · intro h; cases h
      · rw [if_neg hi]
        constructor
        · intro h; cases h
        · intro h
          cases h
          exact ⟨Or.inr ⟨_, _, rfl, by rw [flag_step_positional rest ha', if_neg (hint ▸ hi)]⟩,
            appended_refl _ _⟩

theorem flag_values_nil (p : OptionParser) (o : Opt) (n : Nat) : flag_values p o n [] = [] := by
  cases n <;> rfl

theorem flag_values_some {p : OptionParser} {o : Opt} {arg : Str} {rest vals queue : List Str}
    (n : Nat) (h : flag_step p o arg rest = some (vals, queue)) :
    flag_values p o (n + 1) (arg :: rest) = vals ++ flag_values p o n queue := by
  rw [flag_values, h]

theorem flag_values_none {p : OptionParser} {o : Opt} {arg : Str} {rest : List Str}
    (n : Nat) (h : flag_step p o arg rest = none) :
    flag_values p o (n + 1) (arg :: rest) = [] := by
  rw [flag_values, h]

/-- The scan in the terms of the reading of the queue: the values that the
scan appends under the destination of `o` are the values with which `o` occurs
in the queue. -/
theorem scan_reading {E : Env} {r : OptionParser} {o : Opt}
    (ha : o._action = "append".toList) (ht : o._type = "string".toList) (hn : o._nargs = 1)
    (honly : ∀ o' ∈ bound_flags r, o'._dest = o._dest → o' = o) (n : Nat) :
    ∀ (q q' : OptionParser), same_registry r q →
      OptionParser.parse_args.scan E n q = some (.ok q') →
      appended o._dest q._values q'._values (flag_values r o n q._remaining) := by
  induction n with
  | zero => intro q q' _ h; cases h
  | succ n ih =>
    intro q q' hreg h
    cases hi : OptionParser.parse_args.iteration E q with
    | stop r0 =>
      rw [scan_of_stop n hi] at h
      cases h
      obtain ⟨hq, happ⟩ := (iteration_reading ha ht hn honly hreg).2 hi
      rcases hq with hq | ⟨arg, rest, hq, hstep⟩
      · rw [hq, flag_values_nil]; exact happ
      · rw [hq, flag_values_none n hstep]; exact happ
    | next q1 =>
      rw [scan_of_next n hi] at h
      obtain ⟨arg, rest, vals, hq, hstep, happ⟩ := (iteration_reading ha ht hn honly hreg).1 hi
      have h2 := ih q1 q' (same_registry_trans hreg (iteration_same_registry (Or.inl hi))) h
      rw [hq, flag_values_some n hstep]
      exact appended_trans happ h2

/-- A parse in the terms of the reading of the token list. -/
theorem parse_args_reading {E : Env} {p p' : OptionParser} {o : Opt} {v : List Str}
    (hfresh : p._values = Values.new)
    (ha : o._action = "append".toList) (ht : o._type = "string".toList) (hn : o._nargs = 1)
    (honly : ∀ o' ∈ bound_flags (OptionParser.parse_args.builtin p E),
      o'._dest = o._dest → o' = o)
    (h : p.parse_args E v = some (.ok p')) :
    p'._values.all o._dest = occurrence_values (OptionParser.parse_args.builtin p E) o v ∧
    ∀ vk, (occurrence_values (OptionParser.parse_args.builtin p E) o v).getLast? = some vk →
      p'._values.get o._dest = some vk ∧ p'._values.is_set_by_user o._dest = true := by
  rw [parse_args_eq] at h
  obtain ⟨p0, hs, rfl⟩ := finish_ok_inv h
  obtain ⟨h1, h2, h3, _⟩ := scan_reading ha ht hn honly _ _ p0 (builtin_same_registry p E v) hs
  rw [builtin_remaining] at h1 h2 h3
  rw [builtin_values] at h1 h2
  have hv : ({ p with _remaining := v } : OptionParser)._values = Values.new := hfresh
  rw [hv] at h1 h2
  unfold occurrence_values
  constructor
  · rw [finish_all, h1]
    rfl
  · intro vk hvk
    have hvk' : (flag_values (OptionParser.parse_args.builtin p E) o (queue_size v + 1) v).getLast? =
        some vk := hvk
    rw [hvk'] at h2
    refine ⟨finish_get_some h2, ?_⟩
    rw [finish_user_set]
    apply h3
    intro e
    rw [e] at hvk'
    cases hvk'

theorem queue_size_nil : queue_size [] = 0 := rfl

theorem flag_step_long_facts {p : OptionParser} {o : Opt} {s : Str} {rest vals queue : List Str}
    (h : flag_step.long p o s rest = some (vals, queue)) :
    (queue = rest ∨ ∃ v, rest = v :: queue) ∧
      (vals = [] ∨ ∃ v, vals = [v] ∧ p.lookup_long_opt (long_name s) = .ok o) := by
  unfold flag_step.long at h
  cases hl : p.lookup_long_opt (long_name s) with
  | error m => rw [hl] at h; cases h
  | ok o' =>
    rw [hl] at h
    simp only at h
    by_cases h1 : o'._nargs = 1
    · rw [if_pos h1] at h
      by_cases h2 : '=' ∈ s
      · rw [if_pos h2] at h
        by_cases h3 : o' = o
        · rw [if_pos h3] at h
          cases h
          exact ⟨Or.inl rfl, Or.inr ⟨_, rfl, by rw [h3]⟩⟩
        · rw [if_neg h3] at h
          cases h
          exact ⟨Or.inl rfl, Or.inl rfl⟩
      · rw [if_neg h2] at h
        cases rest with
        | nil => cases h
        | cons value rest' =>
          simp only at h
          by_cases h3 : o' = o
          · rw [if_pos h3] at h
            cases h
            exact ⟨Or.inr ⟨_, rfl⟩, Or.inr ⟨_, rfl, by rw [h3]⟩⟩
          · rw [if_neg h3] at h
            cases h
            exact ⟨Or.inr ⟨_, rfl⟩, Or.inl rfl⟩
    · rw [if_neg h1] at h
      cases h
      exact ⟨Or.inl rfl, Or.inl rfl⟩

theorem flag_step_short_facts {p : OptionParser} {o : Opt} {x : Char} {t : Str}
    {rest vals queue : List Str} (h : flag_step.short p o x t rest = some (vals, queue)) :
    (queue = rest ∨ (∃ v, rest = v :: queue) ∨ (t ≠ [] ∧ queue = ('-' :: t) :: rest)) ∧
      (vals = [] ∨ ∃ v, vals = [v] ∧ SMap.find p._optmap_s [x] = some o) := by
  unfold flag_step.short at h
  cases hl : SMap.find p._optmap_s [x] with
  | none => rw [hl] at h; cases h
  | some o' =>
    rw [hl] at h
    simp only at h
    by_cases h1 : o'._nargs = 1
    · rw [if_pos h1] at h
      by_cases h2 : t ≠ []
      · rw [if_pos h2] at h
        by_cases h3 : o' = o
        · rw [if_pos h3] at h
          cases h
          exact ⟨Or.inl rfl, Or.inr ⟨_, rfl, by rw [h3]⟩⟩
        · rw [if_neg h3] at h
          cases h
          exact ⟨Or.inl rfl, Or.inl rfl⟩
      · rw [if_neg h2] at h
        cases rest with
        | nil =>
          simp only at h
          by_cases h4 : o'._optional_value = true
          · rw [if_pos h4] at h
            by_cases h3 : o' = o
            · rw [if_pos h3] at h
              cases h
              exact ⟨Or.inl rfl, Or.inr ⟨_, rfl, by rw [h3]⟩⟩
            · rw [if_neg h3] at h
              cases h
              exact ⟨Or.inl rfl, Or.inl rfl⟩
          · rw [if_neg h4] at h
            cases h
        | cons value rest' =>
          simp only at h
          by_cases h3 : o' = o
          · rw [if_pos h3] at h
            cases h
            exact ⟨Or.inr (Or.inl ⟨_, rfl⟩), Or.inr ⟨_, rfl, by rw [h3]⟩⟩
          · rw [if_neg h3] at h
            cases h
            exact ⟨Or.inr (Or.inl ⟨_, rfl⟩), Or.inl rfl⟩
    · rw [if_neg h1] at h
      by_cases h2 : t ≠ []
      · rw [if_pos h2] at h
        cases h
        exact ⟨Or.inr (Or.inr ⟨h2, rfl⟩), Or.inl rfl⟩
      · rw [if_neg h2] at h
        cases h
        exact ⟨Or.inl rfl, Or.inl rfl⟩

theorem flag_step_queue {p : OptionParser} {o : Opt} {arg : Str} {rest vals queue : List Str}
    (h : flag_step p o arg rest = some (vals, queue)) :
    queue_size queue < queue_size (arg :: rest) := by
  rcases token_cases arg with ha | ⟨s, ha, hs⟩ | ⟨x, t, ha, hx⟩ | ha
  · subst ha; cases h
  · subst ha
    rw [flag_step_long rest hs] at h
    rcases (flag_step_long_facts h).1 with e | ⟨v, e⟩
    · rw [e, queue_size_cons]; omega
    · rw [e, queue_size_cons, queue_size_cons]; omega
  · subst ha
    rw [flag_step_short t rest hx] at h
    rcases (flag_step_short_facts h).1 with e | ⟨v, e⟩ | ⟨_, e⟩
    · rw [e, queue_size_cons]; omega
    · rw [e, queue_size_cons, queue_size_cons]; omega
    · rw [e, queue_size_cons, queue_size_cons]
      simp only [List.length_cons]
      omega
  · rw [flag_step_positional rest ha] at h
    split_ifs at h
    cases h
    rw [queue_size_cons]; omega

/-- The reading of a queue does not depend on the bound, once the bound is
above the size of the queue. -/
theorem flag_values_fuel (p : OptionParser) (o : Opt) : ∀ (n m : Nat) (q : List Str),
    queue_size q < n → queue_size q < m → flag_values p o n q = flag_values p o m q := by
  intro n
  induction n with
  | zero => intro m q h; omega
  | succ n ih =>
    intro m q hn hm
    cases m with
    | zero => omega
    | succ m =>
      cases q with
      | nil => rfl
      | cons arg rest =>
        cases hstep : flag_step p o arg rest with
        | none => rw [flag_values_none n hstep, flag_values_none m hstep]
        | some vq =>
          obtain ⟨vals, queue⟩ := vq
          rw [flag_values_some n hstep, flag_values_some m hstep]
          have := flag_step_queue hstep
          rw [ih m queue (by omega) (by omega)]

theorem occurrence_values_some {p : OptionParser} {o : Opt} {arg : Str} {rest vals queue : List Str}
    (h : flag_step p o arg rest = some (vals, queue)) :
    occurrence_values p o (arg :: rest) = vals ++ occurrence_values p o queue := by
  unfold occurrence_values
  rw [flag_values_some _ h]
  have := flag_step_queue h
  rw [flag_values_fuel p o (queue_size (arg :: rest)) (queue_size queue + 1) queue (by omega)
    (by omega)]

theorem occurrence_values_none {p : OptionParser} {o : Opt} {arg : Str} {rest : List Str}
    (h : flag_step p o arg rest = none) : occurrence_values p o (arg :: rest) = [] := by
  unfold occurrence_values
  rw [flag_values_none _ h]

/-- The reading of an occurrence of a flag `o'` of arity 1 at the front of a
queue: its value when the flag is `o` and nothing otherwise, and the queue
behind its tokens. -/
theorem flag_step_occurrence {p : OptionParser} {o o' : Opt} (hn : o'._nargs = 1)
    (c : Occurrence) (rest : List Str) (hc : c.resolves p o') :
    ∃ arg tl, c.tokens ++ rest = arg :: tl ∧
      flag_step p o arg tl = some (if o' = o then [c.value] else [], rest) := by
  cases c with
  | long_inline name value =>
    obtain ⟨h1, h2, h3⟩ := hc
    refine ⟨'-' :: '-' :: (name ++ '=' :: value), rest, by simp [Occurrence.tokens], ?_⟩
    rw [flag_step_long rest (by simp)]
    unfold flag_step.long
    rw [(long_name_append value h1).1, h2]
    simp [hn, (long_name_append value h1).2, Occurrence.value]
  | long_next name value =>
    obtain ⟨h1, h2, h3, h4⟩ := hc
    refine ⟨'-' :: '-' :: name, value :: rest, by simp [Occurrence.tokens], ?_⟩
    rw [flag_step_long _ h2]
    unfold flag_step.long
    rw [long_name_self h1, h3]
    simp [hn, h1, Occurrence.value]
  | short_inline x value =>
    obtain ⟨h1, h2, h3⟩ := hc
    refine ⟨'-' :: x :: value, rest, by simp [Occurrence.tokens], ?_⟩
    rw [flag_step_short _ _ h1]
    unfold flag_step.short
    rw [h2]
    simp [hn, h3, Occurrence.value]
  | short_next x value =>
    obtain ⟨h1, h2⟩ := hc
    refine ⟨['-', x], value :: rest, by simp [Occurrence.tokens], ?_⟩
    rw [flag_step_short _ _ h1]
    unfold flag_step.short
    rw [h2]
    simp [hn, Occurrence.value]

theorem occurrence_values_occurrence {p : OptionParser} {o : Opt} (hn : o._nargs = 1)
    (c : Occurrence) (rest : List Str) (hc : c.resolves p o) :
    occurrence_values p o (c.tokens ++ rest) = c.value :: occurrence_values p o rest := by
  obtain ⟨arg, tl, e, h⟩ := @flag_step_occurrence p o o hn c rest hc
  rw [if_pos rfl] at h
  rw [e, occurrence_values_some h]
  rfl

theorem occurrence_values_other {p : OptionParser} {o o' : Opt} (hn : o'._nargs = 1)
    (hne : o' ≠ o) (c : Occurrence) (rest : List Str) (hc : c.resolves p o') :
    occurrence_values p o (c.tokens ++ rest) = occurrence_values p o rest := by
  obtain ⟨arg, tl, e, h⟩ := @flag_step_occurrence p o o' hn c rest hc
  rw [if_neg hne] at h
  rw [e, occurrence_values_some h]
  rfl

theorem occurrence_values_switch {p : OptionParser} {o o' : Opt} {x : Char} (t : Str)
    (rest : List Str) (hx : x ≠ '-') (hf : SMap.find p._optmap_s [x] = some o')
    (hn : o'._nargs ≠ 1) :
    occurrence_values p o (('-' :: x :: t) :: rest) =
      occurrence_values p o (if t ≠ [] then ('-' :: t) :: rest else rest) := by
  have h : flag_step p o ('-' :: x :: t) rest =
      some ([], if t ≠ [] then ('-' :: t) :: rest else rest) := by
    rw [flag_step_short t rest hx]
    unfold flag_step.short
    rw [hf]
    simp only [hn, if_false]
  rw [occurrence_values_some h]
  rfl

theorem occurrence_values_long_switch {p : OptionParser} {o o' : Opt} {name : Str}
    (rest : List Str) (hne : name ≠ []) (hname : '=' ∉ name)
    (hl : p.lookup_long_opt name = .ok o') (hn : o'._nargs ≠ 1) :
    occurrence_values p o (('-' :: '-' :: name) :: rest) = occurrence_values p o rest := by
  have h : flag_step p o ('-' :: '-' :: name) rest = some ([], rest) := by
    rw [flag_step_long rest hne]
    unfold flag_step.long
    rw [long_name_self hname, hl]
    simp only [hn, if_false]
  rw [occurrence_values_some h]
  rfl

theorem occurrence_values_positional {p : OptionParser} {o : Opt} {arg : Str} (rest : List Str)
    (ha : is_positional arg = true) :
    occurrence_values p o (arg :: rest) =
      if p._interspersed_args = true then occurrence_values p o rest else [] := by
  by_cases hi : p._interspersed_args = true
  · rw [if_pos hi, occurrence_values_some (by rw [flag_step_positional rest ha, if_pos hi])]
    rfl
  · rw [if_neg hi, occurrence_values_none (by rw [flag_step_positional rest ha, if_neg hi])]

/-- A value that the reading of a token gives is the value of a token that
names `o`. -/
theorem flag_step_names {p : OptionParser} {o : Opt} {arg : Str} {rest vals queue : List Str}
    (h : flag_step p o arg rest = some (vals, queue)) :
    vals = [] ∨ ∃ v, vals = [v] ∧
      ((∃ s, arg = '-' :: '-' :: s ∧ p.lookup_long_opt (long_name s) = .ok o) ∨
        (∃ x t, arg = '-' :: x :: t ∧ x ≠ '-' ∧ SMap.find p._optmap_s [x] = some o)) := by
  rcases token_cases arg with ha | ⟨s, ha, hs⟩ | ⟨x, t, ha, hx⟩ | ha
  · subst ha; cases h
  · subst ha
    rw [flag_step_long rest hs] at h
    rcases (flag_step_long_facts h).2 with e | ⟨v, e, hl⟩
    · exact Or.inl e
    · exact Or.inr ⟨v, e, Or.inl ⟨s, rfl, hl⟩⟩
  · subst ha
    rw [flag_step_short t rest hx] at h
    rcases (flag_step_short_facts h).2 with e | ⟨v, e, hl⟩
    · exact Or.inl e
    · exact Or.inr ⟨v, e, Or.inr ⟨x, t, rfl, hx, hl⟩⟩
  · rw [flag_step_positional rest ha] at h
    split_ifs at h
    cases h
    exact Or.inl rfl

/-- The registries of the examples are what the calls of `add_option` return:
every name given in them has at least one character. -/
theorem demo_registries_return (E : Env) :
    OptionParser.new.add_option E ["x-".toList] (fun o => o.action "store_true".toList) =
      some (demo_dash E) ∧
    OptionParser.new.add_option E ["x-".toList] id = some (demo_dash_value E) ∧
    (OptionParser.new.add_option E ["-a".toList]
        (fun o => (o.dest "x".toList).set_default "1".toList)).bind
      (fun p => p.add_option E ["-b".toList]
        (fun o => (o.dest "x".toList).set_default "2".toList)) = some (demo_shared E) ∧
    ((OptionParser.new.add_option E ["-a".toList]
        (fun o => (o.dest "x".toList).set_default "1".toList)).bind
      (fun p => p.add_option E ["-b".toList] (fun o => o.dest "x".toList))).map
      (fun p => p.set_defaults "x".toList "9".toList) = some (demo_override_shared E) ∧
    OptionParser.new.add_option E ["--num".toList] (fun o => o.type "int".toList) =
      some (demo_int E) ∧
    OptionParser.new.add_option E ["--name".toList] id = some (demo_name E) ∧
    (OptionParser.new.add_option E ["--foo".toList] id).bind
      (fun p => p.add_option E ["--foo".toList] (fun o => o.dest "other".toList)) =
        some (demo_twice E) ∧
    OptionParser.new.add_option E ["-h".toList]
      (fun o => (o.action "store_true".toList).dest "human".toList) = some (demo_own_h E) ∧
    ({ OptionParser.new with _prog := "prog".toList, _description := "one\ntwo".toList, _epilog := "three\nfour".toList }.add_option
      demo_env ["-f".toList] (fun o => o.help "first\nsecond".toList)) = some demo_breaks :=
  ⟨rfl, rfl, rfl, rfl, rfl, rfl, rfl, rfl, rfl⟩

/-- The long names `help` and `version` after the start of `parse_args`. -/
theorem builtin_find_long (p : OptionParser) (E : Env) :
    (p._add_help_option = true →
      SMap.find (OptionParser.parse_args.builtin p E)._optmap_l "help".toList =
        some (help_option E)) ∧
    (p._add_version_option = true → p._version ≠ [] →
      SMap.find (OptionParser.parse_args.builtin p E)._optmap_l "version".toList =
        some (version_option E)) := by
  rw [builtin_eq]
  simp only
  constructor
  · intro hh
    rw [if_pos hh]
    split_ifs
    · rw [SMap.find_insert_ne _ _ (by decide), SMap.find_insert_self]
    · rw [SMap.find_insert_self]
  · intro hv hne
    rw [if_pos ⟨hv, hne⟩, SMap.find_insert_self]

/-- The help text of the help example at 80 columns; at 3 columns the width of
the first column of the options is 0 and `Option::format_help` throws. -/
theorem format_help_example :
    (demo_help demo_env).format_help demo_env =
      some ("Usage: prog [options]\n\nA demo.\n\nOptions:\n" ++
       "  -f FILE, --file=FILE  write to FILE [out.txt]\n" ++
       "  -q                    be quiet\n").toList ∧
    (demo_help demo_env).format_help demo_env_narrow = none := by
  constructor
  · decide
  · decide

/-! ## The claims -/

/-- Claim C1. Exact match has priority in the resolution of long names. First part: in every parser whose map of long names is in key order (as a `std::map` is), `lookup_long_opt(n)` returns the option bound to `n` for every bound name `n`, whatever other long names start with `n`: never `no such option`, never `ambiguous option`. Second part: with `--foo` and `--foobar` registered (one value each, action `store`), parsing `--foo=1` stores `1` under `foo` and leaves `foobar` unset. -/
theorem C1_lookup_long_opt_exact_match :
    (∀ (p : OptionParser) (n : Str) (o : Opt), SMap.ordered p._optmap_l →
      SMap.find p._optmap_l n = some o → p.lookup_long_opt n = .ok o) ∧
    (∀ E : Env, ∃ p' : OptionParser,
      (demo_foo E).parse_args E ["--foo=1".toList] = some (.ok p') ∧
      p'._values.get "foo".toList = some "1".toList ∧ p'._values.is_set "foobar".toList = false) := by
  refine ⟨?_, ?_⟩
  · intro p n o hord hfind
    exact lookup_long_opt_of_matching_single
      (by simpa using matching_exact hord (SMap.find_some_mem_keys hfind) []) hfind
  · intro E
    exact ⟨_, rfl, rfl, rfl⟩

/-- Claim C1 at the registry with `--foo` and `--foobar`: the name `foo` resolves to the option of `--foo`. -/
theorem C1_lookup_long_opt_exact_match_witness :
    SMap.ordered (demo_foo demo_env)._optmap_l ∧
      SMap.find (demo_foo demo_env)._optmap_l "foo".toList =
        some ((demo_foo demo_env)._opts.headD (Opt.new demo_env)) ∧
      (demo_foo demo_env).lookup_long_opt "foo".toList =
        .ok ((demo_foo demo_env)._opts.headD (Opt.new demo_env)) :=
  ⟨by unfold SMap.ordered; decide, by decide,
    C1_lookup_long_opt_exact_match.1 (demo_foo demo_env) "foo".toList _
      (by unfold SMap.ordered; decide) (by decide)⟩

/-- Claim C2. Ambiguous abbreviation. First part: when `opt` is not a registered long name and two or more registered long names start with `opt`, `lookup_long_opt(opt)` ends in the error `ambiguous option: --opt (--k1, --k2, ...?)`, whose candidates are exactly the registered long names that start with `opt`, in ascending order. Second part: with only `--foobar` and `--foobaz` registered, parsing `--foob=x` fails and lists `--foobar, --foobaz`. -/
theorem C2_lookup_long_opt_ambiguous :
    (∀ (p : OptionParser) (opt : Str), SMap.ordered p._optmap_l →
      SMap.find p._optmap_l opt = none →
      2 ≤ ((SMap.keys p._optmap_l).filter (fun k => decide (opt <+: k))).length →
      p.lookup_long_opt opt = .error ("ambiguous option: --".toList ++ opt ++ " (".toList ++
          str_join_trans ", ".toList (str_wrap "--".toList [])
            ((SMap.keys p._optmap_l).filter (fun k => decide (opt <+: k))) ++ "?)".toList) ∧
        ((SMap.keys p._optmap_l).filter (fun k => decide (opt <+: k))).Pairwise
          (fun a b => str_lt a b = true)) ∧
    (∀ E : Env, (demo_baz E).parse_args E ["--foob=x".toList] =
      some (.error "ambiguous option: --foob (--foobar, --foobaz?)".toList)) :=
  ⟨fun p opt h1 h2 h3 => lookup_long_opt_ambiguous_general p opt h1 h2 h3, fun _ => rfl⟩

/-- Claim C2 at the registry with `--foobar` and `--foobaz` and the abbreviation `foob`. -/
theorem C2_lookup_long_opt_ambiguous_witness :
    SMap.ordered (demo_baz demo_env)._optmap_l ∧
      SMap.find (demo_baz demo_env)._optmap_l "foob".toList = none ∧
      (demo_baz demo_env).lookup_long_opt "foob".toList =
        .error "ambiguous option: --foob (--foobar, --foobaz?)".toList :=
  ⟨by unfold SMap.ordered; decide, by decide,
    ((C2_lookup_long_opt_ambiguous.1 (demo_baz demo_env) "foob".toList
      (by unfold SMap.ordered; decide) (by decide) (by decide)).1).trans rfl⟩

/-- Claim C3. Unique abbreviation. When exactly one registered long name `n` starts with `opt`, `lookup_long_opt(opt)` returns the option bound to `n`; when no registered long name starts with `opt`, it ends in the error `no such option: --opt`. -/
theorem C3_lookup_long_opt_unique_abbreviation (p : OptionParser) (opt : Str) (hord : SMap.ordered p._optmap_l) :
    (∀ (n : Str) (o : Opt), SMap.find p._optmap_l n = some o → opt <+: n →
      (∀ k ∈ SMap.keys p._optmap_l, opt <+: k → k = n) → p.lookup_long_opt opt = .ok o) ∧
    ((∀ k ∈ SMap.keys p._optmap_l, ¬ opt <+: k) →
      p.lookup_long_opt opt = .error ("no such option: --".toList ++ opt)) := by
  refine ⟨?_, ?_⟩
  · intro n o hfind hpre huniq
    have hn := SMap.find_some_mem_keys hfind
    by_cases hex : opt ∈ SMap.keys p._optmap_l
    · have : opt = n := huniq opt hex (List.prefix_refl _)
      subst this
      exact lookup_long_opt_of_matching_single (by simpa using matching_exact hord hex []) hfind
    · have hm := matching_no_exact hex []
      rw [List.nil_append] at hm
      rw [filter_eq_singleton (ordered_keys_nodup hord) hn (by simpa using hpre)
        (fun k hk hf => huniq k hk (by simpa using hf))] at hm
      exact lookup_long_opt_of_matching_single hm hfind
  · intro hnone
    have hex : opt ∉ SMap.keys p._optmap_l := fun h => hnone opt h (List.prefix_refl _)
    have hm := matching_no_exact hex []
    rw [List.nil_append] at hm
    have : (SMap.keys p._optmap_l).filter (fun k => decide (opt <+: k)) = [] := by
      rw [List.filter_eq_nil_iff]
      intro k hk
      simpa using hnone k hk
    rw [this] at hm
    simp [OptionParser.lookup_long_opt, hm]

/-- Claim C3 at the registry with `--foo` and `--foobar`: `foob` resolves to the option of `--foobar`, and `bar` is no such option. -/
theorem C3_lookup_long_opt_unique_abbreviation_witness :
    SMap.ordered (demo_foo demo_env)._optmap_l ∧
      (demo_foo demo_env).lookup_long_opt "foob".toList =
        .ok ((demo_foo demo_env)._opts.getD 1 (Opt.new demo_env)) ∧
      (demo_foo demo_env).lookup_long_opt "bar".toList = .error "no such option: --bar".toList :=
  ⟨by unfold SMap.ordered; decide,
    (C3_lookup_long_opt_unique_abbreviation (demo_foo demo_env) "foob".toList
      (by unfold SMap.ordered; decide)).1 "foobar".toList _ (by decide) (by decide) (by decide),
    (C3_lookup_long_opt_unique_abbreviation (demo_foo demo_env) "bar".toList
      (by unfold SMap.ordered; decide)).2 (by decide)⟩

/-- Claim C4, amended. Default fill. First part: let `o` be a registered flag (of the parser or of an attached group) whose resolved default `D` is not empty, and let no flag that the fill visits before `o` (the flags of the parser in order, then those of each group) with the same destination have another non-empty resolved default. Then parsing the empty token list on a parser with an empty store returns, the destination of `o` holds `D`, and it is not marked as set by the user. Second part: a destination that holds a value when the scan ends keeps that value through the default fill. -/
theorem C4_default_fill (E : Env) (p : OptionParser) :
    (∀ (o : Opt) (pre post : List Opt) (D : Str),
      p._values = Values.new → fill_order p = pre ++ o :: post →
      o.get_default p = D → D ≠ [] →
      (∀ o' ∈ pre, o'._dest = o._dest → o'.get_default p = [] ∨ o'.get_default p = D) →
      ∃ p', p.parse_args E [] = some (.ok p') ∧ p'._values.get o._dest = some D ∧
        p'._values.is_set_by_user o._dest = false) ∧
    (∀ (q : OptionParser) (d x : Str), q._values.get d = some x →
      (OptionParser.parse_args.defaults (OptionParser.parse_args.drain q))._values.get d = some x) := by
  refine ⟨?_, ?_⟩
  · intro o pre post D hfresh horder hD hne hpre
    refine ⟨_, parse_args_nil p E, ?_, ?_⟩
    · rw [defaults_eq_fill]
      generalize hq : OptionParser.parse_args.drain
        (OptionParser.parse_args.builtin { p with _remaining := [] } E) = q
      have hqd : q._defaults = p._defaults := by
        rw [← hq]; exact builtin_defaults _ E
      have hqv : q._values = p._values := by
        rw [← hq]; exact builtin_values _ E
      obtain ⟨extra, hopts, hextra⟩ := builtin_opts { p with _remaining := [] } E
      have hqo : fill_order q = (extra ++ pre) ++ o :: post := by
        rw [← hq]
        unfold fill_order
        show (OptionParser.parse_args.builtin { p with _remaining := [] } E)._opts ++
          ((OptionParser.parse_args.builtin { p with _remaining := [] } E)._groups.map
            (fun g => g._opts)).flatten = _
        rw [hopts, builtin_groups, List.append_assoc, List.append_assoc]
        congr 1
      rw [hqo, fill_append]
      have hinit : q._values.get o._dest = none ∨ q._values.get o._dest = some D := by
        left; rw [hqv, hfresh]; rfl
      have hall : ∀ o' ∈ extra ++ pre, o'._dest = o._dest →
          o'.get_default q = [] ∨ o'.get_default q = D := by
        intro o' ho' hdest
        rw [get_default_congr o' hqd]
        rcases List.mem_append.1 ho' with hm | hm
        · have hdef := hextra o' hm
          have hD' := hD
          unfold Opt.get_default at hD' ⊢
          rw [hdest]
          cases hf : SMap.find p._defaults o._dest with
          | none => left; simp only [hdef]
          | some x => right; rw [hf] at hD'; exact hD'
        · exact hpre o' hm hdest
      obtain ⟨h1, h2⟩ := fill_inv o._dest D (extra ++ pre) q hall hinit
      exact fill_hit o post _ D (by rw [h2, get_default_congr o hqd, hD]) hne h1
    · rw [defaults_proj (fun p => p._values.is_set_by_user o._dest) (fun _ _ => rfl)]
      show Values.is_set_by_user
        (OptionParser.parse_args.builtin { p with _remaining := [] } E)._values o._dest = false
      rw [builtin_values]
      show p._values.is_set_by_user o._dest = false
      rw [hfresh]
      rfl
  · intro q d x h
    rw [defaults_eq_fill]
    exact fill_get_some _ _ d x h

/-- Claim C4, amended, at the registry with `--level` of default `7`: parsing no token stores `7` under `level`, not set by the user; with the group that holds `--depth` of default `5` attached, it stores `5` under `depth`; a stored `3` stays through the default fill. -/
theorem C4_default_fill_witness :
    ((demo_level demo_env)._values = Values.new ∧
      fill_order (demo_level demo_env) =
        [] ++ (demo_level demo_env)._opts.headD (Opt.new demo_env) :: [] ∧
      ∃ p', (demo_level demo_env).parse_args demo_env [] = some (.ok p') ∧
        p'._values.get "level".toList = some "7".toList ∧
        p'._values.is_set_by_user "level".toList = false) ∧
    ((demo_grouped demo_env)._values = Values.new ∧
      fill_order (demo_grouped demo_env) =
        (demo_grouped demo_env)._opts ++ (demo_group demo_env)._opts.headD (Opt.new demo_env) :: [] ∧
      ∃ p', (demo_grouped demo_env).parse_args demo_env [] = some (.ok p') ∧
        p'._values.get "depth".toList = some "5".toList ∧
        p'._values.is_set_by_user "depth".toList = false) ∧
    ((demo_level demo_env)._values.get "level".toList = none ∧
      (demo_level_stored demo_env)._values.get "level".toList = some "3".toList ∧
      (OptionParser.parse_args.defaults (OptionParser.parse_args.drain
        (demo_level_stored demo_env)))._values.get "level".toList = some "3".toList) :=
  ⟨⟨rfl, by decide,
    (C4_default_fill demo_env (demo_level demo_env)).1
      ((demo_level demo_env)._opts.headD (Opt.new demo_env)) [] [] "7".toList rfl (by decide)
      (by decide) (by decide) (fun _ h => absurd h (List.not_mem_nil _))⟩,
    ⟨rfl, by decide,
      (C4_default_fill demo_env (demo_grouped demo_env)).1
        ((demo_group demo_env)._opts.headD (Opt.new demo_env))
        (demo_grouped demo_env)._opts [] "5".toList rfl (by decide) (by decide) (by decide)
        (by decide)⟩,
    ⟨by decide, by decide,
      (C4_default_fill demo_env (demo_level demo_env)).2 (demo_level_stored demo_env)
        "level".toList "3".toList (by decide)⟩⟩

/-- Claim C4 as stated fails. The flags `-a` and `-b` share the destination `x` with the defaults `1` and `2`; parsing the empty token list on the fresh parser stores `1` under `x`, not the default `2` of the registered flag `-b`. -/
theorem C4_shared_destination_counterexample :
    ((demo_shared demo_env)._opts.map (fun o => (o._dest, o.get_default (demo_shared demo_env))) =
        [("x".toList, "1".toList), ("x".toList, "2".toList)]) ∧
      (demo_shared demo_env)._values = Values.new ∧
      ((demo_shared demo_env).parse_args demo_env []).map (fun r =>
        match r with
        | .ok p' => p'._values.get "x".toList
        | _ => none) = some (some "1".toList) := by
  refine ⟨by decide, rfl, by decide⟩

/-- Claim C5, amended. Clustering of short flags. First part: for every short flag `x` other than `-` that takes no value, every non-empty `t` and every `rest`, parsing `-xt` followed by `rest` and parsing `-x`, `-t` followed by `rest` both end, with the same outcome (the same state of the parser: store, marks, lists, positional arguments; or the same error or exit). Second part: with `-a` (store_true) and `-b` (one value, store), `-ab X` gives `a = 1` and `b = X`, the same state as `-a -b X`. -/
theorem C5_short_cluster_equivalence :
    (∀ (E : Env) (p : OptionParser) (x : Char) (t : Str) (rest : List Str) (o : Opt),
      x ≠ '-' → t ≠ [] → SMap.find p._optmap_s [x] = some o → o._nargs = 0 →
      ∃ r, p.parse_args E (('-' :: x :: t) :: rest) = some r ∧
        p.parse_args E (['-', x] :: ('-' :: t) :: rest) = some r) ∧
    (∀ E : Env, ∃ p' : OptionParser,
      (demo_ab E).parse_args E ["-ab".toList, "X".toList] = some (.ok p') ∧
      (demo_ab E).parse_args E ["-a".toList, "-b".toList, "X".toList] = some (.ok p') ∧
      p'._values.get "a".toList = some "1".toList ∧ p'._values.get "b".toList = some "X".toList) := by
  refine ⟨?_, ?_⟩
  · intro E p x t rest o hx ht hf hn
    rw [parse_args_eq, parse_args_eq, OptionParser.parse_args.scan, OptionParser.parse_args.scan,
      ← cluster_first_step E p x t rest o hx ht hf hn]
    cases hi : OptionParser.parse_args.iteration E
        (OptionParser.parse_args.builtin { p with _remaining := ('-' :: x :: t) :: rest } E) with
    | stop r0 =>
      obtain ⟨r', hr'⟩ := finish_some r0
      exact ⟨r', hr', hr'⟩
    | next q =>
      have hq := iteration_queue hi
      rw [builtin_remaining] at hq
      obtain ⟨r0, hr0⟩ := scan_terminates E _ q hq
      have hle : queue_size (('-' :: x :: t) :: rest) ≤ queue_size (['-', x] :: ('-' :: t) :: rest) := by
        simp only [queue_size_cons, List.length_cons]; omega
      have hr1 := scan_fuel_le E hle hr0
      simp only [hr0, hr1]
      obtain ⟨r', hr'⟩ := finish_some r0
      exact ⟨r', hr', hr'⟩
  · intro E
    exact ⟨_, rfl, rfl, rfl, rfl⟩

/-- Claim C5, amended, at the registry with `-a` and `-b`, for the cluster `-ab` followed by `X`. -/
theorem C5_short_cluster_equivalence_witness :
    SMap.find (demo_ab demo_env)._optmap_s ['a'] =
        some ((demo_ab demo_env)._opts.headD (Opt.new demo_env)) ∧
      ((demo_ab demo_env)._opts.headD (Opt.new demo_env))._nargs = 0 ∧
      ∃ r, (demo_ab demo_env).parse_args demo_env [('-' :: 'a' :: ['b']), "X".toList] = some r ∧
        (demo_ab demo_env).parse_args demo_env [['-', 'a'], ('-' :: ['b']), "X".toList] = some r :=
  ⟨by decide, by decide,
    C5_short_cluster_equivalence.1 demo_env (demo_ab demo_env) 'a' ['b'] ["X".toList]
      ((demo_ab demo_env)._opts.headD (Opt.new demo_env)) (by decide) (by decide) (by decide)
      (by decide)⟩

/-- Claim C5 as stated fails for the short name `-`. In the registry where `-` is bound to a flag without value, the token of `x = -` and `t = t` is `--t`: it is read as a long option and fails with `no such option: --t`, while parsing the tokens `--`, `-t` returns with the positional argument `-t` (the first token ends the scan). -/
theorem C5_dash_counterexample :
    (SMap.find (demo_dash demo_env)._optmap_s ['-']).map (fun o => o._nargs) = some 0 ∧
      (demo_dash demo_env).parse_args demo_env ['-' :: '-' :: "t".toList] =
        some (.error "no such option: --t".toList) ∧
      ((demo_dash demo_env).parse_args demo_env [['-', '-'], '-' :: "t".toList]).map (fun r =>
        match r with
        | .ok p' => some p'._leftover
        | _ => none) = some (some ["-t".toList]) := by
  refine ⟨by decide, by decide, by decide⟩

/-- Claim C6. Count action. Let the short name `v` be bound to a flag of action `count` that takes no value, in a parser with an empty store, and let `1 ≤ n < 2^63` (a token or a token list of the program is shorter than that). Then parsing the single token `-v...v` with `n` letters returns and stores the decimal numeral of `n` under the destination, marked as set by the user; so does parsing `n` tokens `-v`. Each occurrence stores the previous number plus one (`str_inc`), starting at 1 for an unset destination. The numeral of `n` is the text of `Nat.repr n`; for `n = 3` it is `3`. -/
theorem C6_count_action (E : Env) (p : OptionParser) (o : Opt) (n : Nat)
    (hfresh : p._values = Values.new) (hf : SMap.find p._optmap_s ['v'] = some o)
    (ha : o._action = "count".toList) (hn : o._nargs = 0) (h1 : 1 ≤ n) (hbound : n < 2 ^ 63) :
    (∃ p', p.parse_args E ['-' :: List.replicate n 'v'] = some (.ok p') ∧
      p'._values.get o._dest = some (nat_to_str n) ∧ p'._values.is_set_by_user o._dest = true) ∧
    (∃ p', p.parse_args E (List.replicate n ['-', 'v']) = some (.ok p') ∧
      p'._values.get o._dest = some (nat_to_str n) ∧ p'._values.is_set_by_user o._dest = true) ∧
    (str_inc E [] = nat_to_str 1 ∧
      ∀ k : Nat, k + 1 < 2 ^ 63 → str_inc E (nat_to_str k) = nat_to_str (k + 1)) ∧
    (nat_to_str n = (Nat.repr n).toList ∧ nat_to_str 3 = "3".toList) := by
  have hv : ('v' : Char) ≠ '-' := by decide
  have hvh : (['v'] : Str) ≠ "h".toList := by decide
  have hc0 : ∀ v : List Str, counted
      (OptionParser.parse_args.builtin { p with _remaining := v } E)._values o._dest 0 := by
    intro v
    left
    refine ⟨rfl, ?_⟩
    rw [builtin_values]
    show p._values.get o._dest = none
    rw [hfresh]
    rfl
  have hfin : ∀ p' : OptionParser, counted p'._values o._dest n →
      (OptionParser.parse_args.defaults (OptionParser.parse_args.drain p'))._values.get o._dest =
        some (nat_to_str n) ∧
      (OptionParser.parse_args.defaults (OptionParser.parse_args.drain p'))._values.is_set_by_user
        o._dest = true := by
    intro p' hc
    rcases hc with ⟨h0, _⟩ | ⟨_, hg, hu⟩
    · omega
    · exact ⟨finish_get_some hg, by rw [finish_user_set]; exact hu⟩
  refine ⟨?_, ?_, str_inc_spec E, nat_to_str_eq_repr n, rfl⟩
  · obtain ⟨m, rfl⟩ : ∃ m, n = m + 1 := ⟨n - 1, by omega⟩
    obtain ⟨p', hs, hr, hc⟩ := scan_count_cluster E 'v' o hv ha hn [] m
      (OptionParser.parse_args.builtin { p with _remaining := ['-' :: List.replicate (m + 1) 'v'] } E)
      0 (by rw [builtin_remaining]; rfl) (by rw [builtin_find_short_ne E hvh]; exact hf)
      (hc0 _) (by omega)
    refine ⟨_, ?_, hfin p' (by simpa using hc)⟩
    rw [parse_args_eq]
    have hfuel : queue_size ['-' :: List.replicate (m + 1) 'v'] + 1 = 3 + (m + 1) := by
      simp [queue_size]; omega
    rw [hfuel, hs 3, scan_of_stop 2 (iteration_nil hr), finish_ok]
  · obtain ⟨p', hs, hr, hc⟩ := scan_count_tokens E 'v' o hv ha hn [] n
      (OptionParser.parse_args.builtin { p with _remaining := List.replicate n ['-', 'v'] } E)
      0 (by rw [builtin_remaining]; simp) (by rw [builtin_find_short_ne E hvh]; exact hf)
      (hc0 _) (by omega)
    refine ⟨_, ?_, hfin p' (by simpa using hc)⟩
    rw [parse_args_eq]
    have hfuel : queue_size (List.replicate n ['-', 'v']) + 1 = (2 * n + 1) + n := by
      simp [queue_size]; omega
    rw [hfuel, hs (2 * n + 1), scan_of_stop (2 * n) (iteration_nil hr), finish_ok]

/-- Claim C6 at the registry with `-v` of action `count` and the token `-vvv`. -/
theorem C6_count_action_witness :
    (demo_count demo_env)._values = Values.new ∧
      SMap.find (demo_count demo_env)._optmap_s ['v'] =
        some ((demo_count demo_env)._opts.headD (Opt.new demo_env)) ∧
      ∃ p', (demo_count demo_env).parse_args demo_env ['-' :: List.replicate 3 'v'] = some (.ok p') ∧
        p'._values.get "v".toList = some (nat_to_str 3) ∧
        p'._values.is_set_by_user "v".toList = true :=
  ⟨rfl, by decide,
    (C6_count_action demo_env (demo_count demo_env) ((demo_count demo_env)._opts.headD (Opt.new demo_env))
      3 rfl (by decide) (by decide) (by decide) (by decide) (by norm_num)).1⟩

/-- Claim C8. Terminator. First part: when an iteration of the scan finds the token `--` at the front of the queue, the parse returns; the token is dropped, every token behind it is appended to the positional arguments in order, and none of them is handled as a flag (the log of parsed flags, the marks and the lists stay as they are, stored values are kept). Second part: on a parser without positional arguments, parsing `--` followed by `rest` returns with the positional arguments `rest`. Third part: `-- --not-a-flag plain` gives the positional arguments `--not-a-flag`, `plain`. -/
theorem C8_terminator :
    (∀ (E : Env) (p : OptionParser) (rest : List Str) (n : Nat),
      p._remaining = "--".toList :: rest →
      ∃ p', OptionParser.parse_args.finish (OptionParser.parse_args.scan E (n + 1) p) =
          some (.ok p') ∧
        p'._leftover = p._leftover ++ rest ∧ p'._parsed = p._parsed ∧
        p'._values._userSet = p._values._userSet ∧ p'._values._appendMap = p._values._appendMap ∧
        ∀ d x, p._values.get d = some x → p'._values.get d = some x) ∧
    (∀ (E : Env) (p : OptionParser) (rest : List Str), p._leftover = [] →
      ∃ p', p.parse_args E ("--".toList :: rest) = some (.ok p') ∧ p'._leftover = rest) ∧
    (∀ E : Env, ∃ p' : OptionParser,
      OptionParser.new.parse_args E ["--".toList, "--not-a-flag".toList, "plain".toList] =
        some (.ok p') ∧
      p'._leftover = ["--not-a-flag".toList, "plain".toList]) := by
  refine ⟨?_, ?_, ?_⟩
  · intro E p rest n hq
    rw [scan_of_stop n (iteration_terminator hq), finish_ok]
    refine ⟨_, rfl, ?_, ?_, ?_, ?_, ?_⟩
    · rw [finish_leftover]
    · rw [defaults_proj (fun p => p._parsed) (fun _ _ => rfl)]; rfl
    · rw [defaults_proj (fun p => p._values._userSet) (fun _ _ => rfl)]; rfl
    · rw [defaults_proj (fun p => p._values._appendMap) (fun _ _ => rfl)]; rfl
    · intro d x h
      exact finish_get_some h
  · intro E p rest hl
    rw [parse_args_eq, scan_of_stop _ (iteration_terminator
      (show (OptionParser.parse_args.builtin { p with _remaining := "--".toList :: rest } E)._remaining =
        "--".toList :: rest from builtin_remaining _ E)), finish_ok]
    refine ⟨_, rfl, ?_⟩
    rw [finish_leftover]
    show (OptionParser.parse_args.builtin _ E)._leftover ++ rest = rest
    rw [builtin_leftover]
    show p._leftover ++ rest = rest
    rw [hl]
    rfl
  · intro E
    exact ⟨_, rfl, rfl⟩

/-- Claim C8 at the fresh parser, for the queue `--`, `-x` and for the parse of `--` followed by `--not-a-flag`. -/
theorem C8_terminator_witness :
    (demo_queue_terminator._remaining = "--".toList :: ["-x".toList] ∧
      ∃ p', OptionParser.parse_args.finish (OptionParser.parse_args.scan demo_env (0 + 1)
          demo_queue_terminator) = some (.ok p') ∧
        p'._leftover = [] ++ ["-x".toList] ∧ p'._parsed = []) ∧
    ((OptionParser.new)._leftover = [] ∧
      ∃ p', OptionParser.new.parse_args demo_env ("--".toList :: ["--not-a-flag".toList]) =
        some (.ok p') ∧ p'._leftover = ["--not-a-flag".toList]) :=
  ⟨⟨rfl,
    (fun ⟨p', h1, h2, h3, _⟩ => ⟨p', h1, h2, h3⟩)
      (C8_terminator.1 demo_env demo_queue_terminator ["-x".toList] 0 rfl)⟩,
    ⟨rfl, C8_terminator.2.1 demo_env OptionParser.new ["--not-a-flag".toList] rfl⟩⟩

/-- Claim C9. Interspersed arguments. First part: with interspersed arguments disabled, when an iteration of the scan finds a positional token at the front of the queue (empty, the single `-`, or not starting with `-`), the parse returns; that token and every token behind it are appended to the positional arguments in order and none is handled as a flag. Second part: the same for a whole parse that starts with a positional token. Third part: with interspersed arguments enabled, the positional token is appended and the scan goes on with the rest of the queue. Fourth part: for `pos1 --flag pos2` with `--flag` unregistered, the disabled parser returns all three tokens as positional arguments, the enabled parser fails with `no such option: --flag`. -/
theorem C9_interspersed_args :
    (∀ (E : Env) (p : OptionParser) (arg : Str) (rest : List Str) (n : Nat),
      p._interspersed_args = false → p._remaining = arg :: rest → is_positional arg = true →
      ∃ p', OptionParser.parse_args.finish (OptionParser.parse_args.scan E (n + 1) p) =
          some (.ok p') ∧
        p'._leftover = p._leftover ++ arg :: rest ∧ p'._parsed = p._parsed ∧
        p'._values._userSet = p._values._userSet ∧ p'._values._appendMap = p._values._appendMap ∧
        ∀ d x, p._values.get d = some x → p'._values.get d = some x) ∧
    (∀ (E : Env) (p : OptionParser) (arg : Str) (rest : List Str), p._interspersed_args = false →
      p._leftover = [] → is_positional arg = true →
      ∃ p', p.parse_args E (arg :: rest) = some (.ok p') ∧ p'._leftover = arg :: rest) ∧
    (∀ (E : Env) (p : OptionParser) (arg : Str) (rest : List Str) (n : Nat),
      p._interspersed_args = true → p._remaining = arg :: rest → is_positional arg = true →
      OptionParser.parse_args.scan E (n + 1) p = OptionParser.parse_args.scan E n
        { p with _remaining := rest, _leftover := p._leftover ++ [arg] }) ∧
    (∀ E : Env,
      (∃ p' : OptionParser, OptionParser.new.disable_interspersed_args.parse_args E
          ["pos1".toList, "--flag".toList, "pos2".toList] = some (.ok p') ∧
        p'._leftover = ["pos1".toList, "--flag".toList, "pos2".toList]) ∧
      OptionParser.new.parse_args E ["pos1".toList, "--flag".toList, "pos2".toList] =
        some (.error "no such option: --flag".toList)) := by
  refine ⟨?_, ?_, ?_, ?_⟩
  · intro E p arg rest n hi hq ha
    have hit := iteration_positional (E := E) hq ha
    rw [if_neg (by rw [hi]; decide)] at hit
    rw [scan_of_stop n hit, finish_ok]
    refine ⟨_, rfl, ?_, ?_, ?_, ?_, ?_⟩
    · rw [finish_leftover]; simp
    · rw [defaults_proj (fun p => p._parsed) (fun _ _ => rfl)]; rfl
    · rw [defaults_proj (fun p => p._values._userSet) (fun _ _ => rfl)]; rfl
    · rw [defaults_proj (fun p => p._values._appendMap) (fun _ _ => rfl)]; rfl
    · intro d x h
      exact finish_get_some h
  · intro E p arg rest hi hl ha
    rw [parse_args_eq]
    have hPr := builtin_remaining { p with _remaining := arg :: rest } E
    have hPi := builtin_interspersed { p with _remaining := arg :: rest } E
    have hPl := builtin_leftover { p with _remaining := arg :: rest } E
    generalize OptionParser.parse_args.builtin { p with _remaining := arg :: rest } E = P
      at hPr hPi hPl
    have hPr' : P._remaining = arg :: rest := hPr
    have hit := iteration_positional (E := E) hPr' ha
    rw [hPi] at hit
    rw [if_neg (by rw [show ({ p with _remaining := arg :: rest } : OptionParser)._interspersed_args
      = p._interspersed_args from rfl, hi]; decide)] at hit
    rw [scan_of_stop _ hit, finish_ok]
    refine ⟨_, rfl, ?_⟩
    rw [finish_leftover]
    show (P._leftover ++ [arg]) ++ rest = arg :: rest
    rw [hPl]
    show (p._leftover ++ [arg]) ++ rest = arg :: rest
    rw [hl]
    rfl
  · intro E p arg rest n hi hq ha
    have hit := iteration_positional (E := E) hq ha
    rw [if_pos hi] at hit
    exact scan_of_next n hit
  · intro E
    exact ⟨⟨_, rfl, rfl⟩, rfl⟩

/-- Claim C9 at the fresh parser: interspersed arguments disabled, for `pos1` followed by `--flag` and for the queue `-`, `-x`; enabled, for the queue `pos1`. -/
theorem C9_interspersed_args_witness :
    ((OptionParser.new.disable_interspersed_args)._interspersed_args = false ∧
      (OptionParser.new.disable_interspersed_args)._leftover = [] ∧
      is_positional "pos1".toList = true ∧
      ∃ p', OptionParser.new.disable_interspersed_args.parse_args demo_env
          ("pos1".toList :: ["--flag".toList]) = some (.ok p') ∧
        p'._leftover = "pos1".toList :: ["--flag".toList]) ∧
    (demo_queue_positional._remaining = "-".toList :: ["-x".toList] ∧
      is_positional "-".toList = true ∧
      ∃ p', OptionParser.parse_args.finish (OptionParser.parse_args.scan demo_env (0 + 1)
          demo_queue_positional) = some (.ok p') ∧
        p'._leftover = [] ++ "-".toList :: ["-x".toList] ∧ p'._parsed = []) ∧
    ((OptionParser.new)._interspersed_args = true ∧
      OptionParser.parse_args.scan demo_env (1 + 1)
          { OptionParser.new with _remaining := ["pos1".toList] } =
        OptionParser.parse_args.scan demo_env 1
          { OptionParser.new with _remaining := [], _leftover := [] ++ ["pos1".toList] }) :=
  ⟨⟨rfl, rfl, by decide,
    C9_interspersed_args.2.1 demo_env OptionParser.new.disable_interspersed_args "pos1".toList
      ["--flag".toList] rfl rfl (by decide)⟩,
    ⟨rfl, by decide,
      (fun ⟨p', h1, h2, h3, _⟩ => ⟨p', h1, h2, h3⟩)
        (C9_interspersed_args.1 demo_env demo_queue_positional "-".toList ["-x".toList] 0 rfl rfl
          (by decide))⟩,
    ⟨rfl,
      C9_interspersed_args.2.2.1 demo_env { OptionParser.new with _remaining := ["pos1".toList] }
        "pos1".toList [] 1 rfl rfl (by decide)⟩⟩

/-- Claim C10. Validation of a choice. First part: for an option of type `choice`, `check_type` returns the empty message exactly when the value is equal to one of the declared choices; otherwise it returns `option OPT: invalid choice: VALUE (choose from ...)` with every declared choice in quotes, in declared order. Second part: with `--mode` of choices `a`, `b`, parsing `--mode=c` fails with that message naming `a` and `b`. -/
theorem C10_choice_validation :
    (∀ (E : Env) (o : Opt) (opt v : Str), o._type = "choice".toList →
      (o.check_type E opt v = [] ↔ v ∈ o._choices) ∧
      (v ∉ o._choices → o.check_type E opt v =
        "option ".toList ++ opt ++ ": invalid choice: '".toList ++ v ++ "' (choose from ".toList ++
          str_join ", ".toList (o._choices.map (fun c => "'".toList ++ c ++ "'".toList)) ++
          ")".toList)) ∧
    (∀ E : Env, (demo_choice E).parse_args E ["--mode=c".toList] =
      some (.error "option --mode: invalid choice: 'c' (choose from 'a', 'b')".toList)) := by
  refine ⟨?_, ?_⟩
  · intro E o opt v ht
    have hmsg : v ∉ o._choices → o.check_type E opt v =
        "option ".toList ++ opt ++ ": invalid choice: '".toList ++ v ++ "' (choose from ".toList ++
          str_join ", ".toList (o._choices.map (fun c => "'".toList ++ c ++ "'".toList)) ++
          ")".toList := by
      intro hv
      unfold Opt.check_type
      rw [if_neg (by rw [ht]; decide), if_neg (by rw [ht]; decide), if_pos ht, if_pos hv]
      have hw : str_wrap "'".toList "'".toList = fun c => "'".toList ++ c ++ "'".toList := rfl
      rw [hw]
      simp [String.toList]
    refine ⟨⟨?_, ?_⟩, hmsg⟩
    · intro h
      by_contra hv
      rw [hmsg hv] at h
      simp [String.toList] at h
    · intro hv
      unfold Opt.check_type
      rw [if_neg (by rw [ht]; decide), if_neg (by rw [ht]; decide), if_pos ht,
        if_neg (not_not.2 hv)]
  · intro E
    rfl

/-- Claim C10 for the choices `a`, `b` and the value `c`. -/
theorem C10_choice_validation_witness :
    ((Opt.new demo_env).choices ["a".toList, "b".toList])._type = "choice".toList ∧
      "c".toList ∉ ((Opt.new demo_env).choices ["a".toList, "b".toList])._choices ∧
      ((Opt.new demo_env).choices ["a".toList, "b".toList]).check_type demo_env "--mode".toList
          "c".toList =
        "option --mode: invalid choice: 'c' (choose from 'a', 'b')".toList :=
  ⟨rfl, by decide,
    ((C10_choice_validation.1 demo_env ((Opt.new demo_env).choices ["a".toList, "b".toList])
      "--mode".toList "c".toList rfl).2 (by decide)).trans (by decide)⟩

/-- Claim C11. Integer validation, in the form that holds: for a flag of value
type `int` or `long`, `check_type` accepts every base-10 integer literal within
the range of `long`; it accepts a value exactly when the value is, after
leading whitespace, such a literal followed by anything that does not go on
with a digit (the extraction stops there and what follows is not looked at);
every other value is rejected with the message "invalid integer value"; and a
value that `check_type` rejects is never stored by the actions `store` and
`append`: the parse ends with that error. -/
theorem C11_integer_validation :
    (∀ (E : Env) (o : Opt) (opt v : Str), (o._type = "int".toList ∨ o._type = "long".toList) →
      is_int_literal v = true → LONG_MIN ≤ int_literal_value v → int_literal_value v ≤ LONG_MAX →
      o.check_type E opt v = []) ∧
    (∀ (E : Env) (o : Opt) (opt v : Str), (o._type = "int".toList ∨ o._type = "long".toList) →
      (o.check_type E opt v = [] ↔
        ∃ ws lit rest, v = ws ++ lit ++ rest ∧ (∀ c ∈ ws, is_space c = true) ∧
          is_int_literal lit = true ∧ (∀ c, rest.head? = some c → is_digit c = false) ∧
          LONG_MIN ≤ int_literal_value lit ∧ int_literal_value lit ≤ LONG_MAX)) ∧
    (∀ (E : Env) (o : Opt) (opt v : Str), (o._type = "int".toList ∨ o._type = "long".toList) →
      o.check_type E opt v ≠ [] →
      o.check_type E opt v = "option ".toList ++ opt ++ ": invalid integer value: '".toList ++ v ++
        "'".toList) ∧
    (∀ (p : OptionParser) (E : Env) (o : Opt) (opt v : Str),
      (o._action = "store".toList ∨ o._action = "append".toList) → o.check_type E opt v ≠ [] →
      p.process_opt E o opt v = .error (o.check_type E opt v)) := by
  have key : ∀ (E : Env) (o : Opt) (opt v : Str),
      (o._type = "int".toList ∨ o._type = "long".toList) →
      (o.check_type E opt v = [] ↔ extract_long_ok v = true) := by
    intro E o opt v ht
    rw [check_type_int E ht]
    by_cases h : extract_long_ok v = true
    · rw [if_pos h]; exact ⟨fun _ => h, fun _ => rfl⟩
    · rw [if_neg h]
      constructor
      · intro e
        have := congrArg List.length e
        simp at this
      · intro e; exact absurd e h
  refine ⟨?_, ?_, ?_, ?_⟩
  · intro E o opt v ht hl hmin hmax
    rw [key E o opt v ht, extract_long_ok_iff]
    exact ⟨[], v, [], by simp, by simp, hl, by simp, hmin, hmax⟩
  · intro E o opt v ht
    rw [key E o opt v ht, extract_long_ok_iff]
  · intro E o opt v ht hr
    have hk := key E o opt v ht
    rw [check_type_int E ht] at hr ⊢
    by_cases h : extract_long_ok v = true
    · rw [if_pos h] at hr; exact absurd rfl hr
    · rw [if_neg h]
      simp
  · intro p E o opt v ha hr
    exact process_opt_rejected E opt v ha hr

/-- Instance of claim C11: the literal `-42` is accepted for a flag of type `int`. -/
theorem C11_integer_validation_witness :
    ((Opt.new demo_env).type "int".toList).check_type demo_env "--num".toList "-42".toList = [] :=
  C11_integer_validation.1 demo_env ((Opt.new demo_env).type "int".toList) "--num".toList
    "-42".toList (Or.inl rfl) (by decide) (by decide) (by decide)

/-- Claim C11 as written does not hold: `12abc` and ` 7` are not base-10 integer
literals, yet `check_type` accepts them for a flag of type `int`, and the parse
stores them. -/
theorem C11_trailing_characters_counterexample :
    is_int_literal "12abc".toList = false ∧ is_int_literal " 7".toList = false ∧
    ((Opt.new demo_env).type "int".toList).check_type demo_env "--num".toList "12abc".toList = [] ∧
    ((Opt.new demo_env).type "int".toList).check_type demo_env "--num".toList " 7".toList = [] ∧
    (∃ p', (demo_int demo_env).parse_args demo_env ["--num=12abc".toList] = some (.ok p') ∧
      p'._values.get "num".toList = some "12abc".toList) :=
  ⟨by decide, by decide, by decide, by decide, ⟨_, rfl, by decide⟩⟩

/-- Claim C12. Long flag value acquisition, in the form that holds. For a long
flag of arity 1 that `name` resolves to: a non-empty inline value, everything
behind the first `=` of the token, is the value given to the action; without
`=` the next queued token is taken from the queue and, when it is not empty,
given to the action as the value; with an empty queue the parse fails with
"option requires an argument". An empty inline value and an empty next token
count as missing: the parse fails with the same message. For a flag of type
`string` and action `store`, a non-empty `V` written `--name=V` or `--name`,
`V` ends in the same store and positional arguments. -/
theorem C12_long_value_acquisition :
    (∀ (p : OptionParser) (E : Env) (name value : Str) (o : Opt), '=' ∉ name →
      p.lookup_long_opt name = .ok o → o._nargs = 1 → value ≠ [] →
      p.handle_long_opt E (name ++ '=' :: value) =
        ({ p with _remaining := p._remaining.tail }).process_opt E o ("--".toList ++ name) value) ∧
    (∀ (p : OptionParser) (E : Env) (name : Str) (o : Opt) (first front : Str) (rest : List Str),
      '=' ∉ name → p.lookup_long_opt name = .ok o → o._nargs = 1 →
      p._remaining = first :: front :: rest → front ≠ [] →
      p.handle_long_opt E name =
        ({ p with _remaining := rest }).process_opt E o ("--".toList ++ name) front) ∧
    (∀ (p : OptionParser) (E : Env) (name : Str) (o : Opt), '=' ∉ name →
      p.lookup_long_opt name = .ok o → o._nargs = 1 → p._remaining.tail = [] →
      p.handle_long_opt E name =
        .error ("--".toList ++ name ++ " ".toList ++ "option requires an argument".toList)) ∧
    (∀ (p : OptionParser) (E : Env) (name : Str) (o : Opt), '=' ∉ name →
      p.lookup_long_opt name = .ok o → o._nargs = 1 →
      p.handle_long_opt E (name ++ ['=']) =
        .error ("--".toList ++ name ++ " ".toList ++ "option requires an argument".toList)) ∧
    (∀ (p : OptionParser) (E : Env) (name : Str) (o : Opt) (first : Str) (rest : List Str),
      '=' ∉ name → p.lookup_long_opt name = .ok o → o._nargs = 1 →
      p._remaining = first :: [] :: rest →
      p.handle_long_opt E name =
        .error ("--".toList ++ name ++ " ".toList ++ "option requires an argument".toList)) ∧
    (∀ (E : Env) (p : OptionParser) (name V : Str) (o : Opt) (n : Nat), '=' ∉ name → name ≠ [] →
      V ≠ [] → p.lookup_long_opt name = .ok o → o._nargs = 1 → o._action = "store".toList →
      o._type = "string".toList →
      ∃ p1 p2,
        OptionParser.parse_args.finish (OptionParser.parse_args.scan E (n + 2)
          { p with _remaining := ["--".toList ++ name ++ '=' :: V] }) = some (.ok p1) ∧
        OptionParser.parse_args.finish (OptionParser.parse_args.scan E (n + 2)
          { p with _remaining := ["--".toList ++ name, V] }) = some (.ok p2) ∧
        p1._values = p2._values ∧ p1._leftover = p2._leftover ∧
        p1._values.get o._dest = some V) ∧
    (∀ E : Env, ∃ p1 p2,
      (demo_name E).parse_args E ["--name=a=b".toList] = some (.ok p1) ∧
      (demo_name E).parse_args E ["--name".toList, "a=b".toList] = some (.ok p2) ∧
      p1._values = p2._values ∧ p1._values.get "name".toList = some "a=b".toList) := by
  refine ⟨?_, ?_, ?_, ?_, ?_, ?_, ?_⟩
  · intro p E name value o hname hl hn hv
    exact handle_long_opt_inline hname hl (fun _ => hv)
  · intro p E name o first front rest hname hl hn hq hv
    exact handle_long_opt_next hname hl hn hq hv
  · intro p E name o hname hl hn hq
    exact handle_long_opt_missing hname hl hn hq
  · intro p E name o hname hl hn
    exact handle_long_opt_inline_empty hname hl hn
  · intro p E name o first rest hname hl hn hq
    exact handle_long_opt_next_empty hname hl hn hq
  · intro E p name V o n hname hne hV hl hn ha ht
    obtain ⟨X1, h1⟩ := long_store_inline_step (E := E)
      (q := { p with _remaining := ["--".toList ++ name ++ '=' :: V] }) hname hV
      (show OptionParser.lookup_long_opt _ name = .ok o from hl) ha ht
      (show OptionParser._remaining _ = ["--".toList ++ name ++ '=' :: V] from rfl)
    obtain ⟨X2, h2⟩ := long_store_next_step (E := E)
      (q := { p with _remaining := ["--".toList ++ name, V] }) hname hne hV
      (show OptionParser.lookup_long_opt _ name = .ok o from hl) hn ha ht
      (show OptionParser._remaining _ = ["--".toList ++ name, V] from rfl)
    rw [show n + 2 = (n + 1) + 1 from rfl, scan_of_next _ h1, scan_of_next _ h2,
      scan_of_stop n (iteration_nil rfl), scan_of_stop n (iteration_nil rfl), finish_ok, finish_ok]
    refine ⟨_, _, rfl, rfl, ?_, ?_, ?_⟩
    · have e := fun X => congrArg OptionParser._values (finish_parsed
        { p with _remaining := [], _values := (p._values.assign o._dest V).set_by_user o._dest true } X)
      exact (e X1).trans (e X2).symm
    · rw [finish_leftover, finish_leftover]
    · apply finish_get_some
      show ((p._values.assign o._dest V).set_by_user o._dest true).get o._dest = some V
      rw [Values.get_set_by_user, Values.get_assign_self]
  · intro E
    exact ⟨_, _, rfl, rfl, rfl, rfl⟩

/-- Instance of claim C12: `--name=a=b` on the registry with the flag `--name`. -/
theorem C12_long_value_acquisition_witness :
    (demo_name demo_env).handle_long_opt demo_env ("name".toList ++ '=' :: "a=b".toList) =
      ({ (demo_name demo_env) with _remaining := (demo_name demo_env)._remaining.tail }).process_opt
        demo_env ((demo_name demo_env)._opts.headD (Opt.new demo_env)) ("--".toList ++ "name".toList)
        "a=b".toList :=
  C12_long_value_acquisition.1 (demo_name demo_env) demo_env "name".toList "a=b".toList
    ((demo_name demo_env)._opts.headD (Opt.new demo_env)) (by decide) rfl rfl (by decide)

/-- Claim C12 as written does not hold for an empty inline value: `--name=`
gives the flag `--name` no value, the parse fails. -/
theorem C12_empty_inline_value_counterexample :
    (demo_name demo_env).parse_args demo_env ["--name=".toList] =
      some (.error "--name option requires an argument".toList) := by
  rfl

/-- Claim C14. Positionals are raw input tokens in original order. First part:
whenever `parse_args`, on a parser that holds no positional arguments yet,
returns for the tokens `v`, the positional arguments are a subsequence of `v`
(the same tokens, in the same order). Second part: an iteration of the scan
that goes on either handles a flag, and then leaves the positional arguments as
they are whatever it takes from the queue (the flag, its value) or pushes back
(the rest of a cluster), or it appends the positional token at the front of the
queue. Third part: a token pushed back for the rest of a cluster, `-` followed
by at least one character, is never taken for a positional argument. Fourth
part: for `x -ab v y -- -a` with `-a` a switch and `-b` taking a value, the
positional arguments are `x`, `y`, `-a`. -/
theorem C14_positionals_subsequence :
    (∀ (E : Env) (p : OptionParser) (v : List Str) (p' : OptionParser), p._leftover = [] →
      p.parse_args E v = some (.ok p') → p'._leftover.Sublist v) ∧
    (∀ (E : Env) (p p' : OptionParser), OptionParser.parse_args.iteration E p = .next p' →
      (p'._leftover = p._leftover ∧ is_positional (p._remaining.headD []) = false ∧
        (p'._remaining = p._remaining.tail ∨ p'._remaining = p._remaining.tail.tail ∨
          ∃ t, t ≠ [] ∧ p'._remaining = ('-' :: t) :: p._remaining.tail)) ∨
      (∃ arg rest, p._remaining = arg :: rest ∧ is_positional arg = true ∧
        p'._leftover = p._leftover ++ [arg] ∧ p'._remaining = rest)) ∧
    (∀ t : Str, t ≠ [] → is_positional ('-' :: t) = false) ∧
    (∀ E : Env, ∃ p', (demo_ab E).parse_args E demo_tokens = some (.ok p') ∧
      p'._leftover = ["x".toList, "y".toList, "-a".toList]) := by
  refine ⟨?_, ?_, ?_, ?_⟩
  · intro E p v p' hl h
    rw [parse_args_eq] at h
    obtain ⟨p0, hs, rfl⟩ := finish_ok_inv h
    rw [finish_leftover]
    refine scan_sublist E v _ _ p0 ⟨[], v, rfl, ?_, Or.inl (builtin_remaining _ E)⟩ hs
    rw [builtin_leftover]
    show p._leftover.Sublist []
    rw [hl]
  · intro E p p' h
    exact iteration_next_shape h
  · intro t ht
    exact pushed_back_not_positional ht
  · intro E
    exact ⟨_, rfl, rfl⟩

/-- Instance of claim C14: the parse of `x -ab v y -- -a`. -/
theorem C14_positionals_subsequence_witness :
    ∃ p', (demo_ab demo_env).parse_args demo_env demo_tokens = some (.ok p') ∧
      p'._leftover.Sublist demo_tokens :=
  ⟨_, rfl, C14_positionals_subsequence.1 demo_env (demo_ab demo_env) demo_tokens _ rfl rfl⟩

/-- Claim C15. Default override precedence, in the form that holds. First and
second part: for a flag whose destination has an override `V` in the defaults
of the parser, as `set_defaults` leaves it, the resolved default of the flag is
`V`, whatever its own default. Third part: whenever `parse_args` on a parser
with an empty store returns and the destination of a registered flag with the
override `V` is not marked as set by the user, the store holds `V` under the
destination when `V` is not empty and nothing when `V` is empty. Fourth part:
parsing no token returns, with the destination not marked and the store as in
the third part. Fifth part: with `--level` of default `7` and the override `9`
parsing no token stores `9`. -/
theorem C15_default_override :
    (∀ (p : OptionParser) (o : Opt) (V : Str), o.get_default (p.set_defaults o._dest V) = V) ∧
    (∀ (p : OptionParser) (o : Opt) (V : Str), SMap.find p._defaults o._dest = some V →
      o.get_default p = V) ∧
    (∀ (E : Env) (p p' : OptionParser) (v : List Str) (o : Opt) (V : Str),
      p._values = Values.new → o ∈ fill_order p → SMap.find p._defaults o._dest = some V →
      p.parse_args E v = some (.ok p') → p'._values.is_set_by_user o._dest = false →
      (V ≠ [] → p'._values.get o._dest = some V) ∧ (V = [] → p'._values.get o._dest = none)) ∧
    (∀ (E : Env) (p : OptionParser) (o : Opt) (V : Str),
      p._values = Values.new → o ∈ fill_order p → SMap.find p._defaults o._dest = some V →
      ∃ p', p.parse_args E [] = some (.ok p') ∧ p'._values.is_set_by_user o._dest = false ∧
        (V ≠ [] → p'._values.get o._dest = some V) ∧ (V = [] → p'._values.get o._dest = none)) ∧
    (∀ E : Env, ∃ p', (demo_override E).parse_args E [] = some (.ok p') ∧
      p'._values.get "level".toList = some "9".toList ∧
      p'._values.is_set_by_user "level".toList = false) := by
  refine ⟨?_, ?_, ?_, ?_, ?_⟩
  · intro p o V
    exact get_default_override (SMap.find_insert_self _ _ _)
  · intro p o V h
    exact get_default_override h
  · intro E p p' v o V hfresh ho hV h huser
    exact parse_args_override hfresh ho hV h huser
  · intro E p o V hfresh ho hV
    have hu : (OptionParser.parse_args.defaults (OptionParser.parse_args.drain
        (OptionParser.parse_args.builtin { p with _remaining := [] } E)))._values.is_set_by_user
        o._dest = false := by
      rw [finish_user_set, builtin_values]
      show p._values.is_set_by_user o._dest = false
      rw [hfresh]
      rfl
    exact ⟨_, parse_args_nil p E, hu, parse_args_override hfresh ho hV (parse_args_nil p E) hu⟩
  · intro E
    exact ⟨_, rfl, rfl, rfl⟩

/-- Instance of claim C15: `--level` with the default `7` and the override `9`. -/
theorem C15_default_override_witness :
    ((demo_override demo_env)._opts.headD (Opt.new demo_env))._default = "7".toList ∧
    ((demo_override demo_env)._opts.headD (Opt.new demo_env)).get_default (demo_override demo_env) =
      "9".toList :=
  ⟨by decide, C15_default_override.2.1 (demo_override demo_env)
    ((demo_override demo_env)._opts.headD (Opt.new demo_env)) "9".toList (by decide)⟩

/-- Claim C15 as written does not hold when another flag writes to the same
destination: `-a` (destination `x`, default `1`) does not occur in `-b 5`, the
override of `x` is `9`, and the parse stores `5` under `x`, marked as set by the
user. -/
theorem C15_shared_destination_counterexample :
    ∃ p', (demo_override_shared demo_env).parse_args demo_env ["-b".toList, "5".toList] =
        some (.ok p') ∧
      p'._values.get "x".toList = some "5".toList ∧
      p'._values.is_set_by_user "x".toList = true ∧
      ((demo_override_shared demo_env)._opts.headD (Opt.new demo_env)).get_default
        (demo_override_shared demo_env) = "9".toList ∧
      ((demo_override_shared demo_env)._opts.headD (Opt.new demo_env))._short_opts = ["a".toList] :=
  ⟨_, rfl, by decide, by decide, by decide, by decide⟩

/-- Claim C17. Unknown flags fail fast. First part: when an iteration of the
scan finds at the front of the queue a token `-x...` whose character `x` is not
`-` and is not a registered short name, the parse ends with the error
`no such option: -x`, whatever follows in the token and in the queue. Second and
third part: the same for a token `--name` or `--name=value` whose `name` is a
leading substring of no registered long name, with the error
`no such option: --name`. In each case the iteration leaves the loop with the
error: no later token is looked at and no state is returned. Fourth part: on the
registry with `-a` and `-b`, every token list that starts with `-zq` fails with
`no such option: -z`; on the registry with `--foo` and `--foobar`, every token
list that starts with `--bar=1` fails with `no such option: --bar`. -/
theorem C17_unknown_option :
    (∀ (E : Env) (p : OptionParser) (x : Char) (t : Str) (rest : List Str) (n : Nat),
      p._remaining = ('-' :: x :: t) :: rest → x ≠ '-' → SMap.find p._optmap_s [x] = none →
      OptionParser.parse_args.iteration E p =
          .stop (.error ("no such option".toList ++ ": -".toList ++ [x])) ∧
        OptionParser.parse_args.finish (OptionParser.parse_args.scan E (n + 1) p) =
          some (.error ("no such option".toList ++ ": -".toList ++ [x]))) ∧
    (∀ (E : Env) (p : OptionParser) (name : Str) (rest : List Str) (n : Nat),
      p._remaining = ('-' :: '-' :: name) :: rest → name ≠ [] → '=' ∉ name →
      (∀ k ∈ SMap.keys p._optmap_l, ¬ name <+: k) →
      OptionParser.parse_args.iteration E p =
          .stop (.error ("no such option".toList ++ ": --".toList ++ name)) ∧
        OptionParser.parse_args.finish (OptionParser.parse_args.scan E (n + 1) p) =
          some (.error ("no such option".toList ++ ": --".toList ++ name))) ∧
    (∀ (E : Env) (p : OptionParser) (name value : Str) (rest : List Str) (n : Nat),
      p._remaining = ('-' :: '-' :: (name ++ '=' :: value)) :: rest → '=' ∉ name →
      (∀ k ∈ SMap.keys p._optmap_l, ¬ name <+: k) →
      OptionParser.parse_args.iteration E p =
          .stop (.error ("no such option".toList ++ ": --".toList ++ name)) ∧
        OptionParser.parse_args.finish (OptionParser.parse_args.scan E (n + 1) p) =
          some (.error ("no such option".toList ++ ": --".toList ++ name))) ∧
    (∀ (E : Env) (rest : List Str),
      (demo_ab E).parse_args E ("-zq".toList :: rest) =
          some (.error "no such option: -z".toList) ∧
        (demo_foo E).parse_args E ("--bar=1".toList :: rest) =
          some (.error "no such option: --bar".toList)) := by
  refine ⟨?_, ?_, ?_, ?_⟩
  · intro E p x t rest n hq hx hf
    have hi := iteration_unknown_short (E := E) hq hx hf
    exact ⟨hi, by rw [scan_of_stop n hi, finish_error]⟩
  · intro E p name rest n hq hne hname hnone
    have hi := iteration_unknown_long (E := E) hq hne hname hnone
    exact ⟨hi, by rw [scan_of_stop n hi, finish_error]⟩
  · intro E p name value rest n hq hname hnone
    have hi := iteration_unknown_long_inline (E := E) hq hname hnone
    exact ⟨hi, by rw [scan_of_stop n hi, finish_error]⟩
  · intro E rest
    constructor
    · rw [parse_args_eq]
      have hi := @iteration_unknown_short E
        (OptionParser.parse_args.builtin { (demo_ab E) with _remaining := "-zq".toList :: rest } E)
        'z' ['q'] rest (builtin_remaining _ E) (by decide)
        (by rw [builtin_find_short_ne E (by decide)]; rfl)
      rw [scan_of_stop _ hi, finish_error]
      rfl
    · rw [parse_args_eq]
      have hk : SMap.keys (OptionParser.parse_args.builtin
          { (demo_foo E) with _remaining := "--bar=1".toList :: rest } E)._optmap_l =
          ["foo".toList, "foobar".toList, "help".toList] := rfl
      have hi := @iteration_unknown_long_inline E
        (OptionParser.parse_args.builtin
          { (demo_foo E) with _remaining := "--bar=1".toList :: rest } E)
        "bar".toList "1".toList rest (builtin_remaining _ E)
        (by decide) (by rw [hk]; decide)
      rw [scan_of_stop _ hi, finish_error]
      rfl

/-- Instance of claim C17: the queue `-zq`, `-a` on the registry with `-a` and `-b`. -/
theorem C17_unknown_option_witness :
    OptionParser.parse_args.iteration demo_env
        { (demo_ab demo_env) with _remaining := ["-zq".toList, "-a".toList] } =
      .stop (.error ("no such option".toList ++ ": -".toList ++ ['z'])) :=
  (C17_unknown_option.1 demo_env { (demo_ab demo_env) with _remaining := ["-zq".toList, "-a".toList] }
    'z' ['q'] ["-a".toList] 0 rfl (by decide) (by decide)).1

/-- Claim C19, in the form that holds. The arity is what the setters leave,
not a function of the action. First part: `action(a)` sets the arity to 0 for
`store_true`, `store_false`, `store_const`, `append_const`, `count`, `help`,
`version` and for `callback` (whose value type it empties), and leaves the
arity as it is for every other action; `type(t)` sets it to 0 for an empty `t`
and to 1 otherwise; `choices` sets it to 1; `nargs(n)` sets it to `n`. Second
part: for a flag made from a new option by calls that give a value type (`type`
with a name, `choices`) followed by one call of `action`, the arity is the one
of the claim: 0 for the actions without a value, 0 for `callback` without a
value type, 1 otherwise. -/
theorem C19_arity_of_builder_calls :
    (∀ (o : Opt) (a : Str),
      (o.action a)._nargs =
        if a ∈ switch_actions ∨ a = "callback".toList then 0 else o._nargs) ∧
    (∀ (o : Opt) (t : Str), (o.type t)._nargs = if t = [] then 0 else 1) ∧
    (∀ (o : Opt) (cs : List Str), (o.choices cs)._nargs = 1) ∧
    (∀ (o : Opt) (n : Nat), (o.nargs n)._nargs = n) ∧
    (∀ (E : Env) (calls : List BuilderCall) (a : Str), (∀ c ∈ calls, c.gives_type) →
      ((calls.foldl BuilderCall.apply (Opt.new E)).action a)._nargs =
        arity_by_action ((calls.foldl BuilderCall.apply (Opt.new E)).action a)) := by
  refine ⟨?_, ?_, ?_, ?_, ?_⟩
  · intro o a
    by_cases hs : a ∈ switch_actions
    · rw [action_switch hs, if_pos (Or.inl hs)]
    · by_cases hc : a = "callback".toList
      · subst hc
        rw [action_callback, if_pos (Or.inr rfl)]
      · rw [action_other hs hc, if_neg (by tauto)]
  · intro o t
    rfl
  · intro o cs
    rfl
  · intro o n
    rfl
  · intro E calls a hall
    exact action_arity (gives_type_nargs calls (Opt.new E) rfl hall) a

/-- Instance of claim C19: `type("int")` followed by `action("store_true")` on a new option. -/
theorem C19_arity_of_builder_calls_witness :
    (([BuilderCall.type "int".toList].foldl BuilderCall.apply (Opt.new demo_env)).action
        "store_true".toList)._nargs =
      arity_by_action (([BuilderCall.type "int".toList].foldl BuilderCall.apply
        (Opt.new demo_env)).action "store_true".toList) :=
  C19_arity_of_builder_calls.2.2.2.2 demo_env [BuilderCall.type "int".toList] "store_true".toList
    (by
      intro c hc
      rw [List.mem_singleton] at hc
      subst hc
      show "int".toList ≠ []
      decide)

/-- Claim C19 as written does not hold: `action("store_true")` followed by
`type("int")` gives a flag with the action `store_true` and arity 1; `type("")`
gives a flag with the action `store` and arity 0; `nargs(3)` gives arity 3. -/
theorem C19_setter_order_counterexample :
    (((Opt.new demo_env).action "store_true".toList).type "int".toList)._action =
        "store_true".toList ∧
      (((Opt.new demo_env).action "store_true".toList).type "int".toList)._nargs = 1 ∧
      arity_by_action (((Opt.new demo_env).action "store_true".toList).type "int".toList) = 0 ∧
      ((Opt.new demo_env).type [])._action = "store".toList ∧
      ((Opt.new demo_env).type [])._nargs = 0 ∧
      ((Opt.new demo_env).nargs 3)._nargs = 3 :=
  ⟨by decide, by decide, by decide, by decide, by decide, by decide⟩

/-- Claim C23. The scanning loop terminates on every input. First part: for
every registry and every token list `parse_args` reaches an outcome (the state
with store and positional arguments, an error, or the end of the process after
the help or the version) within `queue_size v + 1` iterations of the scan.
Second part: the scan reaches an outcome from every state, given more
iterations than the size of the queue, the number of tokens plus the number of
their characters, and further iterations do not change the outcome. Third
part: an iteration that goes on makes that size strictly smaller. Fourth part:
it does so by taking one or two tokens from the front of the queue, or by
putting the strictly shorter token `-` with `t` in the place of the front token
`-x` with `t`. -/
theorem C23_scan_terminates :
    (∀ (E : Env) (p : OptionParser) (v : List Str), ∃ r, p.parse_args E v = some r) ∧
    (∀ (E : Env) (p : OptionParser) (n : Nat), queue_size p._remaining < n →
      ∃ r, OptionParser.parse_args.scan E n p = some r ∧
        ∀ m, n ≤ m → OptionParser.parse_args.scan E m p = some r) ∧
    (∀ (E : Env) (p p' : OptionParser), OptionParser.parse_args.iteration E p = .next p' →
      queue_size p'._remaining < queue_size p._remaining) ∧
    (∀ (E : Env) (p p' : OptionParser), OptionParser.parse_args.iteration E p = .next p' →
      p'._remaining = p._remaining.tail ∨ p'._remaining = p._remaining.tail.tail ∨
      ∃ x t rest, p._remaining = ('-' :: x :: t) :: rest ∧ t ≠ [] ∧
        p'._remaining = ('-' :: t) :: rest ∧
        queue_size (('-' :: t) :: rest) < queue_size (('-' :: x :: t) :: rest)) := by
  refine ⟨?_, ?_, ?_, ?_⟩
  · intro E p v
    exact parse_args_total p E v
  · intro E p n hn
    obtain ⟨r, hr⟩ := scan_terminates E n p hn
    exact ⟨r, hr, fun m hm => scan_fuel_le E hm hr⟩
  · intro E p p' h
    exact iteration_queue h
  · intro E p p' h
    rcases iteration_next_queue h with e | e | ⟨x, t, rest, e1, e2, e3⟩
    · exact Or.inl e
    · exact Or.inr (Or.inl e)
    · refine Or.inr (Or.inr ⟨x, t, rest, e1, e2, e3, ?_⟩)
      simp only [queue_size_cons, List.length_cons]
      omega

/-- Instance of claim C23: the scan of the queue `-ab`, `v` on the registry
with `-a` and `-b`, given 7 iterations for a queue of size 6. -/
theorem C23_scan_terminates_witness :
    ∃ r, OptionParser.parse_args.scan demo_env 7
        { (demo_ab demo_env) with _remaining := ["-ab".toList, "v".toList] } = some r ∧
      ∀ m, 7 ≤ m → OptionParser.parse_args.scan demo_env m
        { (demo_ab demo_env) with _remaining := ["-ab".toList, "v".toList] } = some r :=
  C23_scan_terminates.2.1 demo_env
    { (demo_ab demo_env) with _remaining := ["-ab".toList, "v".toList] } 7 (by decide)

/-- Claim C24, in the form that holds. An empty value is treated as missing
for long flags only. First and second part: for a long flag of arity 1,
`handle_long_opt` ends in the error "option requires an argument" for an empty
inline value (`--name=`) and for an empty next token (`--name` followed by the
empty token). Third part: so does the parse from any state of the scan whose
queue is one of the two. Fourth part: for a short flag `x` with action `store`,
type `string` and arity 1, `handle_short_opt` on `-x` followed by the empty
token stores the empty string under the destination and marks it as set by the
user. Fifth part: for `x` other than `-`, the parse from a state whose queue is
`-x` and the empty token returns with the empty string stored and marked. Sixth
part: the three token lists on example registries. -/
theorem C24_empty_value :
    (∀ (p : OptionParser) (E : Env) (name : Str) (o : Opt), '=' ∉ name →
      p.lookup_long_opt name = .ok o → o._nargs = 1 →
      p.handle_long_opt E (name ++ ['=']) =
        .error ("--".toList ++ name ++ " ".toList ++ "option requires an argument".toList)) ∧
    (∀ (p : OptionParser) (E : Env) (name : Str) (o : Opt) (first : Str) (rest : List Str),
      '=' ∉ name → p.lookup_long_opt name = .ok o → o._nargs = 1 →
      p._remaining = first :: [] :: rest →
      p.handle_long_opt E name =
        .error ("--".toList ++ name ++ " ".toList ++ "option requires an argument".toList)) ∧
    (∀ (E : Env) (p : OptionParser) (name : Str) (o : Opt) (n : Nat), '=' ∉ name →
      p.lookup_long_opt name = .ok o → o._nargs = 1 →
      (p._remaining = ['-' :: '-' :: (name ++ ['='])] ∨
        (name ≠ [] ∧ p._remaining = ['-' :: '-' :: name, []])) →
      OptionParser.parse_args.finish (OptionParser.parse_args.scan E (n + 1) p) =
        some (.error ("--".toList ++ name ++ " ".toList ++
          "option requires an argument".toList))) ∧
    (∀ (p : OptionParser) (E : Env) (x : Char) (o : Opt) (first : Str) (rest : List Str),
      SMap.find p._optmap_s [x] = some o → o._nargs = 1 → o._action = "store".toList →
      o._type = "string".toList → p._remaining = first :: [] :: rest →
      p.handle_short_opt E [x] ['-', x] =
        .ok { p with _parsed := p._parsed ++ ["-".toList ++ [x]] ++ [[]], _remaining := rest,
                     _values := (p._values.assign o._dest []).set_by_user o._dest true }) ∧
    (∀ (E : Env) (p : OptionParser) (x : Char) (o : Opt) (n : Nat), x ≠ '-' →
      SMap.find p._optmap_s [x] = some o → o._nargs = 1 → o._action = "store".toList →
      o._type = "string".toList → p._remaining = [['-', x], []] →
      ∃ p', OptionParser.parse_args.finish (OptionParser.parse_args.scan E (n + 2) p) =
          some (.ok p') ∧
        p'._values.get o._dest = some [] ∧ p'._values.is_set_by_user o._dest = true ∧
        p'._leftover = p._leftover) ∧
    (∀ E : Env,
      (demo_name E).parse_args E ["--name=".toList] =
        some (.error "--name option requires an argument".toList) ∧
      (demo_name E).parse_args E ["--name".toList, []] =
        some (.error "--name option requires an argument".toList) ∧
      ∃ p', (demo_optional E).parse_args E ["-b".toList, []] = some (.ok p') ∧
        p'._values.get "b".toList = some [] ∧ p'._values.is_set_by_user "b".toList = true) := by
  refine ⟨?_, ?_, ?_, ?_, ?_, ?_⟩
  · intro p E name o hname hl hn
    exact handle_long_opt_inline_empty hname hl hn
  · intro p E name o first rest hname hl hn hq
    exact handle_long_opt_next_empty hname hl hn hq
  · intro E p name o n hname hl hn hq
    rcases hq with hq | ⟨hne, hq⟩
    · rw [scan_of_stop n (iteration_long_error hq (by simp)
        (handle_long_opt_inline_empty hname (by exact hl) hn)), finish_error]
    · rw [scan_of_stop n (iteration_long_error hq hne
        (handle_long_opt_next_empty hname (by exact hl) hn (by exact hq))), finish_error]
  · intro p E x o first rest hf hn ha ht hq
    exact handle_short_opt_store_next hf hn ha ht hq
  · intro E p x o n hx hf hn ha ht hq
    have hi : OptionParser.parse_args.iteration E p =
        .next { p with _parsed := p._parsed ++ ["-".toList ++ [x]] ++ [[]], _remaining := [],
                       _values := (p._values.assign o._dest []).set_by_user o._dest true } := by
      rw [iteration_short hq hx, handle_short_opt_store_next hf hn ha ht hq]
    rw [show n + 2 = (n + 1) + 1 from rfl, scan_of_next _ hi,
      scan_of_stop n (iteration_nil rfl), finish_ok]
    refine ⟨_, rfl, ?_, ?_, ?_⟩
    · apply finish_get_some
      show ((p._values.assign o._dest []).set_by_user o._dest true).get o._dest = some []
      rw [Values.get_set_by_user, Values.get_assign_self]
    · rw [finish_user_set]
      exact Values.is_set_by_user_set _ _
    · rw [finish_leftover]
      simp
  · intro E
    exact ⟨rfl, rfl, _, rfl, rfl, rfl⟩

/-- Instance of claim C24: `--name=` on the registry with the flag `--name`. -/
theorem C24_empty_value_witness :
    (demo_name demo_env).handle_long_opt demo_env ("name".toList ++ ['=']) =
      .error ("--".toList ++ "name".toList ++ " ".toList ++
        "option requires an argument".toList) :=
  C24_empty_value.1 (demo_name demo_env) demo_env "name".toList
    ((demo_name demo_env)._opts.headD (Opt.new demo_env)) (by decide) rfl rfl

/-- Claim C24 as written does not hold for the short name `-`: the registry has
a short flag `-` with action `store`, type `string` and arity 1, and parsing
`--` followed by the empty token stores nothing: `--` ends the scan and the
empty token is a positional argument. -/
theorem C24_dash_counterexample :
    (∃ o, SMap.find (demo_dash_value demo_env)._optmap_s ['-'] = some o ∧ o._nargs = 1 ∧
      o._action = "store".toList ∧ o._type = "string".toList ∧ o._dest = ['-']) ∧
    ∃ p', (demo_dash_value demo_env).parse_args demo_env [['-', '-'], []] = some (.ok p') ∧
      p'._values.get ['-'] = none ∧ p'._values.is_set_by_user ['-'] = false ∧
      p'._leftover = [[]] :=
  ⟨⟨_, rfl, rfl, rfl, rfl, rfl⟩, _, rfl, rfl, rfl, rfl⟩

/-- Claim C25. Value-store invariant. Whenever `parse_args` returns on a parser
whose store was empty: (1) every destination marked as set by the user holds a
value; (2) every destination whose list is not empty is marked as set by the
user; (3) every destination that holds a value and is not marked holds the
resolved default, not empty, of a flag of the registry with that destination,
where the flags of the registry are those of the parser, with the flags that
the start of `parse_args` adds for the help and the version, and those of the
attached groups. The last part runs an example with a flag given, a flag left
to its default and a list. -/
theorem C25_store_invariant :
    (∀ (E : Env) (p p' : OptionParser) (v : List Str), p._values = Values.new →
      p.parse_args E v = some (.ok p') →
      (∀ d, p'._values.is_set_by_user d = true → p'._values.get d ≠ none) ∧
      (∀ d, p'._values.all d ≠ [] → p'._values.is_set_by_user d = true) ∧
      (∀ d x, p'._values.get d = some x → p'._values.is_set_by_user d = false →
        ∃ o ∈ fill_order p', o._dest = d ∧ o.get_default p' = x ∧ x ≠ []) ∧
      fill_order p' = fill_order (OptionParser.parse_args.builtin p E)) ∧
    (∀ E : Env, ∃ p',
      ((demo_level E).add_option_result E ["--tag".toList] (fun o => o.action "append".toList)).parse_args
        E ["--tag=a".toList] = some (.ok p') ∧
      p'._values.get "level".toList = some "7".toList ∧
      p'._values.is_set_by_user "level".toList = false ∧
      p'._values.get "tag".toList = some "a".toList ∧
      p'._values.is_set_by_user "tag".toList = true ∧
      p'._values.all "tag".toList = ["a".toList]) := by
  refine ⟨?_, ?_⟩
  · intro E p p' v hfresh h
    exact parse_args_store_inv hfresh h
  · intro E
    exact ⟨_, rfl, rfl, rfl, rfl, rfl, rfl⟩

/-- Instance of claim C25: the parse of `--tag=a` on the registry with the
flag `--tag` of action `append`. -/
theorem C25_store_invariant_witness :
    ∃ p', (demo_tag demo_env).parse_args demo_env ["--tag=a".toList] = some (.ok p') ∧
      (∀ d, p'._values.is_set_by_user d = true → p'._values.get d ≠ none) ∧
      (∀ d, p'._values.all d ≠ [] → p'._values.is_set_by_user d = true) :=
  ⟨_, rfl,
    (C25_store_invariant.1 demo_env (demo_tag demo_env) _ ["--tag=a".toList] rfl rfl).1,
    (C25_store_invariant.1 demo_env (demo_tag demo_env) _ ["--tag=a".toList] rfl rfl).2.1⟩

/-- Claim C21, in the form that holds. Wrap width bound. Let no word of the
text be longer than `w - 2 - pre`, with `2 ≤ w`, a margin `pre` of at most
`w - 2`, and sizes that `size_t` holds. First part: `str_format` cuts the text
into lines at blanks, tabs and line breaks; every line that ends at a blank or a
tab takes at most `w - 2` columns with the margin `pre`, and within every line,
also the last one, what stands before a break point does: a new line is started
whenever a word that is followed by a break point would reach beyond `w - 2`
columns. The last word of the text has no break point behind it and is added to
the last line without a test. Second part: for running text every line of the
result but the last takes at most `w - 2` columns, margin included. -/
theorem C21_wrap_width :
    (∀ (str : Str) (pre w : Nat) (rt ind : Bool), 2 ≤ w →
      str.length + pre < 2 ^ 64 ∧ str.length + w < 2 ^ 64 → pre ≤ w - 2 →
      (∀ wd ∈ words str, wd.length ≤ w - 2 - pre) →
      wrapped pre (w - 2)
        (if rt = true then str.map (fun c => if c = '\n' then ' ' else c) else str)
        (str_format str pre w rt ind)) ∧
    (∀ (str : Str) (pre w : Nat) (ind : Bool), 2 ≤ w →
      str.length + pre < 2 ^ 64 ∧ str.length + w < 2 ^ 64 → pre ≤ w - 2 →
      (∀ wd ∈ words str, wd.length ≤ w - 2 - pre) →
      ∀ L ∈ (lines (str_format str pre w true ind)).dropLast, L.length ≤ w - 2) := by
  refine ⟨?_, ?_⟩
  · intro str pre w rt ind hw hsz hpre hfit
    exact str_format_wrapped str pre w rt ind hw hsz hpre hfit
  · intro str pre w ind hw hsz hpre hfit
    have h := str_format_wrapped str pre w true ind hw hsz hpre hfit
    rw [if_pos rfl] at h
    exact (wrapped_lines h (map_no_newline str)).2

/-- Instance of claim C21: the text `aaa bbb ccc ddd eee` at the margin 2 and
the width 10. -/
theorem C21_wrap_width_witness :
    ∀ L ∈ (lines (str_format "aaa bbb ccc ddd eee".toList 2 10 true true)).dropLast,
      L.length ≤ 10 - 2 :=
  C21_wrap_width.2 "aaa bbb ccc ddd eee".toList 2 10 true (by decide) (by decide) (by decide)
    (by decide)

/-- Claim C21 as written does not hold for the last line: at the margin 2 and
the width 10 the text `aaa bbb ccc ddd eee`, whose words all fit, ends in the
line `ddd eee`, which holds two words and takes 9 columns. With a first word
that is too long, the first line is the whole text. -/
theorem C21_last_line_counterexample :
    str_format "aaa bbb ccc ddd eee".toList 2 10 true true =
      "  aaa\n  bbb\n  ccc\n  ddd eee\n".toList ∧
    (∃ L ∈ lines (str_format "aaa bbb ccc ddd eee".toList 2 10 true true),
      1 < (words L).length ∧ 10 - 2 < L.length) ∧
    str_format "aaaaaaaaaaaaaaaa bbb ccc".toList 2 10 true true =
      "  aaaaaaaaaaaaaaaa bbb ccc\n  aaaaaaaaaaaaaaaa\n  bbb ccc\n".toList :=
  ⟨by decide, ⟨"  ddd eee".toList, by decide, by decide, by decide⟩, by decide⟩

/-- Claim C26. Wrapping preserves the words. Let `2 ≤ w` and let no word of
the text be longer than `w - 2 - pre`. The sizes are those of the program: the
length of the text plus `w` is below `2 ^ 64`. It is for every call of
`str_format`, a function local to its file: each caller passes a width of type
`unsigned int`, and a string is shorter than `2 ^ 63`. First part: the words of
the result of `str_format` are the words of the text, in the same order.
Second part: when the margin is at most `w - 2` (it is as soon as the text has
a word), the result is the text cut into lines; a line is a margin of blanks, a
part of the text and a line break, and between two parts exactly one character
of the text is left out, a blank, a tab or a line break (for running text the
line breaks of the text count as blanks). Third part: the first part for a
width of type `unsigned int` and a text shorter than `2 ^ 63`. -/
theorem C26_wrap_preserves_words :
    (∀ (str : Str) (pre w : Nat) (rt ind : Bool), 2 ≤ w → str.length + w < 2 ^ 64 →
      (∀ wd ∈ words str, wd.length ≤ w - 2 - pre) →
      words (str_format str pre w rt ind) = words str) ∧
    (∀ (str : Str) (pre w : Nat) (rt ind : Bool), 2 ≤ w → str.length + w < 2 ^ 64 →
      (∀ wd ∈ words str, wd.length ≤ w - 2 - pre) → (pre ≤ w - 2 ∨ words str ≠ []) →
      wrapped pre (w - 2)
        (if rt = true then str.map (fun c => if c = '\n' then ' ' else c) else str)
        (str_format str pre w rt ind)) ∧
    (∀ (str : Str) (pre w : Nat) (rt ind : Bool), 2 ≤ w → w < 2 ^ 32 → str.length < 2 ^ 63 →
      (∀ wd ∈ words str, wd.length ≤ w - 2 - pre) →
      words (str_format str pre w rt ind) = words str) := by
  refine ⟨?_, ?_, ?_⟩
  · intro str pre w rt ind hw hsz hfit
    exact str_format_words str pre w rt ind hw hsz hfit
  · intro str pre w rt ind hw hsz hfit hpre
    have hpre2 : pre ≤ w - 2 := by
      rcases hpre with hpre | hne
      · exact hpre
      · cases hwords : words str with
        | nil => exact absurd hwords hne
        | cons wd tl =>
          have hmem : wd ∈ words str := by rw [hwords]; exact List.mem_cons_self _ _
          have h1 := hfit wd hmem
          have h2 : 0 < wd.length := List.length_pos.2 (words_go_ne_nil str [] wd hmem)
          omega
    exact str_format_wrapped str pre w rt ind hw ⟨by omega, hsz⟩ hpre2 hfit
  · intro str pre w rt ind hw hw32 hlen hfit
    exact str_format_words str pre w rt ind hw (by omega) hfit

/-- Instance of claim C26: the words of `aaa bbb ccc ddd eee` at the margin 2
and the width 10. -/
theorem C26_wrap_preserves_words_witness :
    words (str_format "aaa bbb ccc ddd eee".toList 2 10 true true) =
      words "aaa bbb ccc ddd eee".toList :=
  C26_wrap_preserves_words.1 "aaa bbb ccc ddd eee".toList 2 10 true true (by decide) (by decide)
    (by decide)

/-- Claim C22. Line breaks in the texts of the help. First part: the
description and the epilog are wrapped as running text, and `str_format` then
replaces every line break of the text by a blank before it looks for the ends
of lines, so the result is that of the text with blanks for the line breaks.
Second part: the help text of a parser is the same when every line break of its
description and of its epilog is replaced by a blank. Third part: outside
running text, which is how the help text of an option is wrapped, the loop ends
the line at a line break of the text, whatever the width: it writes the margin,
the text from the start of the line to the line break and an end of line, and
goes on with the character after the line break as the start of the next line.
Fourth part: outside running text no line of the result holds characters from
both sides of a line break of the text; each line is a margin and a part of the
text before the line break or a part of the text after it. Fifth part: the
help text of the option of an example. -/
theorem C22_hard_breaks :
    (∀ (str : Str) (pre w : Nat) (ind : Bool),
      str_format str pre w true ind =
        str_format (str.map (fun c => if c = '\n' then ' ' else c)) pre w false ind ∧
      str_format (str.map (fun c => if c = '\n' then ' ' else c)) pre w true ind =
        str_format str pre w true ind) ∧
    (∀ (p : OptionParser) (E : Env),
      ({ p with _description := p._description.map (fun c => if c = '\n' then ' ' else c), _epilog := p._epilog.map (fun c => if c = '\n' then ' ' else c) }).format_help E =
        p.format_help E) ∧
    (∀ (s : Str) (pre len : Nat) (rest : Str) (i pos ls line : Nat) (p ss : Str),
      ls ≤ i → i + 1 < 2 ^ 64 →
      str_format.loop s pre len ('\n' :: rest) i pos ls line p ss =
        str_format.loop s pre len rest (i + 1) (i + 1) (i + 1) (line + 1)
          (if line = 1 then List.replicate pre ' ' else p)
          (ss ++ (if line = 1 then List.replicate pre ' ' else p) ++
            (s.drop ls).take (i - ls) ++ ['\n'])) ∧
    (∀ (a b : Str) (pre w : Nat) (ind : Bool),
      ∀ L ∈ lines (str_format (a ++ '\n' :: b) pre w false ind),
        ∃ m u, L = m ++ u ∧ (m = [] ∨ m = List.replicate pre ' ') ∧ (u <:+: a ∨ u <:+: b)) ∧
    (demo_breaks._opts.headD (Opt.new demo_env)).format_help demo_breaks demo_env 2 =
      some "  -f F                  first\nsecond\n".toList := by
  refine ⟨?_, ?_, ?_, ?_, ?_⟩
  · intro str pre w ind
    exact ⟨str_format_running str pre w ind, str_format_running_map str pre w ind⟩
  · intro p E
    exact format_help_running p E
  · intro s pre len rest i pos ls line p ss hls hi
    exact loop_hard_break s pre len rest i pos ls line p ss hls hi
  · intro a b pre w ind L hL
    obtain ⟨m, u, e, hm, hu, hn⟩ := str_format_lines (a ++ '\n' :: b) pre w ind L hL
    exact ⟨m, u, e, hm, part_split hu hn⟩
  · decide

/-- Instance of claim C22: the line `one two` of the text `one two`, line
break, `three`, wrapped outside running text at the margin 4 and the width 12,
is a part of `one two`. -/
theorem C22_hard_breaks_witness :
    "one two".toList ∈ lines (str_format ("one two".toList ++ '\n' :: "three".toList) 4 12 false false) ∧
    ∃ m u, "one two".toList = m ++ u ∧ (m = [] ∨ m = List.replicate 4 ' ') ∧
      (u <:+: "one two".toList ∨ u <:+: "three".toList) :=
  ⟨by decide, C22_hard_breaks.2.2.2.1 "one two".toList "three".toList 4 12 false
    "one two".toList (by decide)⟩

/-- Counterexample to claim C22 as worded for the description and the epilog:
the description `one`, line break, `two` and the epilog `three`, line break,
`four` are rendered at width 80 as the lines `one two` and `three four`; the
words on the two sides of the line break share a line of the help text. -/
theorem C22_description_counterexample :
    demo_breaks._description = "one\ntwo".toList ∧ demo_breaks._epilog = "three\nfour".toList ∧
    demo_breaks.format_help demo_env =
      some ("Usage: prog [options]\n\none two\n\nOptions:\n" ++
       "  -f F                  first\nsecond\n\nthree four\n").toList ∧
    (∃ t, demo_breaks.format_help demo_env = some t ∧ "one two".toList ∈ lines t ∧
      "three four".toList ∈ lines t) ∧
    str_format "one\ntwo".toList 0 80 true true = "one two\n".toList := by
  refine ⟨by decide, by decide, by decide,
    ⟨("Usage: prog [options]\n\none two\n\nOptions:\n" ++
       "  -f F                  first\nsecond\n\nthree four\n").toList,
      by decide, by decide, by decide⟩, by decide⟩

/-- Claim C18, in the form that holds. Registration does not look whether a
name is already bound. First part: given names of at least one character each,
`add_option` returns, appends the new flag to the flags of the container, which
stay as they are, and binds every name of the list to the new flag in the
lookup maps, whatever the name was bound to before: the last registration under
a name wins. Second part: the one call of `add_option` that registers nothing
is the one with an empty name, which throws, whatever is bound. Third part:
`add_option_group` appends the group, leaves the flags of the parser as they
are, and rebinds the lookup maps: a short or long name of a flag of the group
resolves to the last flag of the group that has the name, whatever it was bound
to before, and every other name resolves as before. Fourth part: the start of
`parse_args` binds `h` and `help` to the automatic help flag and `version` to
the automatic version flag, whatever they were bound to before, and keeps the
flags of the caller. Fifth part: the lookup maps stay
maps, so a name has one entry in them. Sixth part: after `--foo` is registered
twice, two flags of the registry have the long name `foo`, and `foo` resolves
to the second; the same with the second `--foo` in an attached group. -/
theorem C18_registration_rebinds :
    (∀ (c : OptionContainer) (E : Env) (v : List Str) (cfg : Opt → Opt), [] ∉ v →
      ∃ c' o, c.add_option E v cfg = some c' ∧ c'._opts = c._opts ++ [o] ∧
        (∀ it ∈ v, substr it 0 2 = "--".toList →
          SMap.find c'._optmap_l (substr_from it 2) = some o) ∧
        (∀ it ∈ v, ¬ substr it 0 2 = "--".toList →
          SMap.find c'._optmap_s (substr it 1 1) = some o)) ∧
    (∀ (c : OptionContainer) (E : Env) (v : List Str) (cfg : Opt → Opt),
      c.add_option E v cfg = none ↔ [] ∈ v) ∧
    (∀ (p : OptionParser) (g : OptionGroup),
      (p.add_option_group g)._groups = p._groups ++ [g] ∧
      (p.add_option_group g)._opts = p._opts ∧
      (∀ k : Str, SMap.find (p.add_option_group g)._optmap_s k =
        (match g._opts.reverse.find? (fun o => decide (k ∈ o._short_opts)) with
          | some o => some o
          | none => SMap.find p._optmap_s k)) ∧
      (∀ k : Str, SMap.find (p.add_option_group g)._optmap_l k =
        (match g._opts.reverse.find? (fun o => decide (k ∈ o._long_opts)) with
          | some o => some o
          | none => SMap.find p._optmap_l k))) ∧
    (∀ (p : OptionParser) (E : Env),
      (p._add_help_option = true →
        SMap.find (OptionParser.parse_args.builtin p E)._optmap_s "h".toList =
          some (help_option E) ∧
        SMap.find (OptionParser.parse_args.builtin p E)._optmap_l "help".toList =
          some (help_option E)) ∧
      (p._add_version_option = true → p._version ≠ [] →
        SMap.find (OptionParser.parse_args.builtin p E)._optmap_l "version".toList =
          some (version_option E)) ∧
      ∀ o ∈ p._opts, o ∈ (OptionParser.parse_args.builtin p E)._opts) ∧
    (∀ (c : OptionContainer) (E : Env) (v : List Str) (cfg : Opt → Opt) (c' : OptionContainer),
      SMap.ordered c._optmap_s → SMap.ordered c._optmap_l → c.add_option E v cfg = some c' →
      (SMap.keys c'._optmap_s).Nodup ∧ (SMap.keys c'._optmap_l).Nodup) ∧
    (∀ (p : OptionParser) (g : OptionGroup),
      SMap.ordered p._optmap_s → SMap.ordered p._optmap_l →
      (SMap.keys (p.add_option_group g)._optmap_s).Nodup ∧
        (SMap.keys (p.add_option_group g)._optmap_l).Nodup) ∧
    (∀ E : Env, (demo_twice E)._opts.map (fun o => o._long_opts) =
        [["foo".toList], ["foo".toList]] ∧
      (SMap.find (demo_twice E)._optmap_l "foo".toList).map (fun o => o._dest) =
        some "other".toList ∧
      (demo_group_twice E)._opts.map (fun o => o._long_opts) = [["foo".toList]] ∧
      (demo_group_twice E)._groups.map (fun g => g._opts.map (fun o => o._long_opts)) =
        [[["foo".toList]]] ∧
      (SMap.find (demo_group_twice E)._optmap_l "foo".toList).map (fun o => o._dest) =
        some "other".toList) := by
  refine ⟨?_, ?_, ?_, ?_, ?_, ?_, ?_⟩
  · intro c E v cfg hv
    obtain ⟨o, h1, h2, h3⟩ := add_option_binds c E v cfg
    exact ⟨_, o, add_option_returns c E cfg hv, h1, h2, h3⟩
  · intro c E v cfg
    constructor
    · intro h
      by_contra hv
      rw [add_option_returns c E cfg hv] at h
      cases h
    · intro hv
      exact add_option_throws c E cfg hv
  · intro p g
    refine ⟨(add_option_group_groups p g).1, (add_option_group_groups p g).2, ?_, ?_⟩
    · intro k
      rw [(add_option_group_optmap p g).1]
      exact (enter_fold_find k g._opts p).1
    · intro k
      rw [(add_option_group_optmap p g).2]
      exact (enter_fold_find k g._opts p).2
  · intro p E
    refine ⟨fun hh => ⟨?_, (builtin_find_long p E).1 hh⟩, (builtin_find_long p E).2, ?_⟩
    · rw [builtin_optmap_s, if_pos hh, SMap.find_insert_self]
    · intro o ho
      obtain ⟨extra, he, _⟩ := builtin_opts p E
      rw [he]
      exact List.mem_append_right _ ho
  · intro c E v cfg c' hs hl h
    have hv : [] ∉ v := by
      intro hv
      rw [add_option_throws c E cfg hv] at h
      cases h
    rw [add_option_returns c E cfg hv] at h
    cases h
    obtain ⟨h1, h2⟩ := add_option_ordered c E v cfg hs hl
    exact ⟨ordered_keys_nodup h1, ordered_keys_nodup h2⟩
  · intro p g hs hl
    rw [(add_option_group_optmap p g).1, (add_option_group_optmap p g).2]
    obtain ⟨h1, h2⟩ := enter_fold_ordered g._opts p hs hl
    exact ⟨ordered_keys_nodup h1, ordered_keys_nodup h2⟩
  · intro E
    exact ⟨rfl, rfl, rfl, rfl, rfl⟩

/-- Instance of claim C18: `--foo` is registered in a container in which `foo`
is bound already, with the destination `other`; `foo` then resolves to the new
flag. -/
theorem C18_registration_rebinds_witness :
    (SMap.find (OptionParser.new.toOptionContainer.add_option_result demo_env ["--foo".toList]
        id)._optmap_l "foo".toList).map (fun o => o._dest) = some "foo".toList ∧
    ∃ c' o, (OptionParser.new.toOptionContainer.add_option_result demo_env ["--foo".toList]
        id).add_option demo_env ["--foo".toList] (fun o => o.dest "other".toList) = some c' ∧
      c'._opts = (OptionParser.new.toOptionContainer.add_option_result demo_env ["--foo".toList]
        id)._opts ++ [o] ∧
      (∀ it ∈ ["--foo".toList], substr it 0 2 = "--".toList →
        SMap.find c'._optmap_l (substr_from it 2) = some o) ∧
      (∀ it ∈ ["--foo".toList], ¬ substr it 0 2 = "--".toList →
        SMap.find c'._optmap_s (substr it 1 1) = some o) :=
  ⟨by decide, C18_registration_rebinds.1 _ demo_env ["--foo".toList]
    (fun o => o.dest "other".toList) (by decide)⟩

/-- Claim C18 as written does not hold: registering `--foo` a second time is
not rejected, and then two flags of the registry have the long name `foo`; a
parser whose caller has bound `-h` gets a second flag with the short name `h`
at the start of `parse_args`, and `-h` then shows the help. -/
theorem C18_duplicate_name_counterexample :
    (∃ p, (OptionParser.new.add_option demo_env ["--foo".toList] id).bind
        (fun p => p.add_option demo_env ["--foo".toList] (fun o => o.dest "other".toList)) =
          some p ∧ p = demo_twice demo_env) ∧
    (demo_twice demo_env)._opts.map (fun o => o._long_opts) = [["foo".toList], ["foo".toList]] ∧
    (demo_twice demo_env)._opts.map (fun o => o._dest) = ["foo".toList, "other".toList] ∧
    (OptionParser.parse_args.builtin (demo_own_h demo_env) demo_env)._opts.map
      (fun o => o._short_opts) = [["h".toList], ["h".toList]] ∧
    (∃ p', (demo_own_h demo_env).parse_args demo_env ["-h".toList] = some (.help p')) :=
  ⟨⟨_, rfl, rfl⟩, by decide, by decide, by decide, ⟨_, rfl⟩⟩

/-- Claim C13. Short flag value acquisition. First part: for a short flag `x`
of arity 1, `handle_short_opt` takes as the value (1) the rest of the token
behind the letter when that rest is not empty; otherwise (2) the next queued
token, which is taken from the queue, when the queue is not empty; otherwise
(3) the resolved default of the flag when the member `_optional_value` of the
flag holds `true`, the resolved default being the override of the parser for
the destination when `set_defaults` has given one and the default of the flag
otherwise; otherwise (4) the parse fails with "option requires an argument". In
the cases 1 to 3 the value goes to `process_opt` with the flag. Second part:
the member `_optional_value` is what `set_optional_value` has stored; on a flag
on which `set_optional_value` was not called it is what the memory held, since
the constructor of `Option` does not initialise it. Third part: so for the flag
of `add_option("-b")` alone, parsing `-b` fails with "option requires an
argument" when that memory holds `false`, and returns with the empty default
stored as the value, marked as set by the user, when it holds `true`. Fourth
part: the four cases through `parse_args` on a registry whose flags have the
member set, and the third case with an override. -/
theorem C13_short_value_acquisition :
    (∀ (p : OptionParser) (E : Env) (x : Char) (t : Str) (o : Opt),
      SMap.find p._optmap_s [x] = some o → o._nargs = 1 →
      (t ≠ [] → p.handle_short_opt E [x] ('-' :: x :: t) =
        ({ p with _parsed := p._parsed ++ ["-".toList ++ [x]],
                  _remaining := p._remaining.tail }).process_opt E o ("-".toList ++ [x]) t) ∧
      (∀ (first front : Str) (rest : List Str), p._remaining = first :: front :: rest →
        p.handle_short_opt E [x] ['-', x] =
          ({ p with _parsed := p._parsed ++ ["-".toList ++ [x]] ++ [front],
                    _remaining := rest }).process_opt E o ("-".toList ++ [x]) front) ∧
      (p._remaining.tail = [] → o._optional_value = true →
        p.handle_short_opt E [x] ['-', x] =
          ({ p with _parsed := p._parsed ++ ["-".toList ++ [x]] ++
                      [(SMap.find p._defaults o._dest).getD o._default],
                    _remaining := [] }).process_opt E o ("-".toList ++ [x])
            ((SMap.find p._defaults o._dest).getD o._default)) ∧
      (p._remaining.tail = [] → o._optional_value = false →
        p.handle_short_opt E [x] ['-', x] =
          .error ("-".toList ++ [x] ++ " ".toList ++ "option requires an argument".toList))) ∧
    ((∀ (o : Opt) (b : Bool), (o.set_optional_value b)._optional_value = b) ∧
      (∀ E : Env, (Opt.new E)._optional_value = E.uninit_optional_value) ∧
      (∀ (c : OptionContainer) (E : Env) (v : List Str) (cfg : Opt → Opt),
        (∀ o, (cfg o)._optional_value = o._optional_value) →
        ∃ o, (c.add_option_result E v cfg)._opts = c._opts ++ [o] ∧
          o._optional_value = E.uninit_optional_value)) ∧
    (∀ E : Env,
      OptionParser.new.add_option E ["-b".toList] id = some (demo_plain E) ∧
      (E.uninit_optional_value = false →
        (demo_plain E).parse_args E ["-b".toList] =
          some (.error "-b option requires an argument".toList)) ∧
      (E.uninit_optional_value = true →
        ∃ p', (demo_plain E).parse_args E ["-b".toList] = some (.ok p') ∧
          p'._values.get "b".toList = some [] ∧
          p'._values.is_set_by_user "b".toList = true)) ∧
    (∀ E : Env,
      (∃ p', (demo_optional E).parse_args E ["-bval".toList] = some (.ok p') ∧
        p'._values.get "b".toList = some "val".toList) ∧
      (∃ p', (demo_optional E).parse_args E ["-b".toList, "-o".toList] = some (.ok p') ∧
        p'._values.get "b".toList = some "-o".toList ∧ p'._leftover = []) ∧
      (∃ p', (demo_optional E).parse_args E ["-o".toList] = some (.ok p') ∧
        p'._values.get "o".toList = some "dflt".toList ∧
        p'._values.is_set_by_user "o".toList = true) ∧
      (∃ p', (demo_optional_override E).parse_args E ["-o".toList] = some (.ok p') ∧
        p'._values.get "o".toList = some "over".toList ∧
        p'._values.is_set_by_user "o".toList = true) ∧
      (demo_optional E).parse_args E ["-b".toList] =
        some (.error "-b option requires an argument".toList)) := by
  refine ⟨?_, ⟨fun o b => rfl, fun E => rfl, ?_⟩, ?_, ?_⟩
  · intro p E x t o hf hn
    refine ⟨?_, ?_, ?_, ?_⟩
    · intro ht
      exact handle_short_opt_attached hf hn ht
    · intro first front rest hq
      exact handle_short_opt_next hf hn (show substr_from ['-', x] 2 = [] from rfl) hq
    · intro hq ho
      rw [← get_default_eq]
      exact handle_short_opt_optional hf hn (show substr_from ['-', x] 2 = [] from rfl) hq ho
    · intro hq ho
      exact handle_short_opt_missing hf hn (show substr_from ['-', x] 2 = [] from rfl) hq ho
  · intro c E v cfg hcfg
    exact add_option_optional_value c E v cfg hcfg
  · intro E
    refine ⟨rfl, ?_, ?_⟩
    · intro h
      obtain ⟨f1, f2, f3, f4, f5⟩ := E
      simp only at h
      subst h
      rfl
    · intro h
      obtain ⟨f1, f2, f3, f4, f5⟩ := E
      simp only at h
      subst h
      exact ⟨_, rfl, rfl, rfl⟩
  · intro E
    exact ⟨⟨_, rfl, rfl⟩, ⟨_, rfl, rfl, rfl⟩, ⟨_, rfl, rfl, rfl⟩, ⟨_, rfl, rfl, rfl⟩, rfl⟩

/-- Instance of claim C13: `-o` at the end of the queue on the registry whose
flag `-o` has an optional value, the default `dflt` and the override `over`. -/
theorem C13_short_value_acquisition_witness :
    (demo_optional_override demo_env).handle_short_opt demo_env ['o'] ['-', 'o'] =
      ({ (demo_optional_override demo_env) with
          _parsed := (demo_optional_override demo_env)._parsed ++ ["-".toList ++ ['o']] ++
            [(SMap.find (demo_optional_override demo_env)._defaults
              ((demo_optional_override demo_env)._opts.getLastD (Opt.new demo_env))._dest).getD
              ((demo_optional_override demo_env)._opts.getLastD (Opt.new demo_env))._default],
          _remaining := [] }).process_opt demo_env
        ((demo_optional_override demo_env)._opts.getLastD (Opt.new demo_env))
        ("-".toList ++ ['o'])
        ((SMap.find (demo_optional_override demo_env)._defaults
          ((demo_optional_override demo_env)._opts.getLastD (Opt.new demo_env))._dest).getD
          ((demo_optional_override demo_env)._opts.getLastD (Opt.new demo_env))._default) ∧
    (SMap.find (demo_optional_override demo_env)._defaults
      ((demo_optional_override demo_env)._opts.getLastD (Opt.new demo_env))._dest).getD
      ((demo_optional_override demo_env)._opts.getLastD (Opt.new demo_env))._default =
        "over".toList :=
  ⟨(C13_short_value_acquisition.1 (demo_optional_override demo_env) demo_env 'o' []
    ((demo_optional_override demo_env)._opts.getLastD (Opt.new demo_env)) (by decide) rfl).2.2.1
      rfl rfl, by decide⟩

/-- The input on which the code leaves claim C13: the flag of
`add_option("-b")`, for which no optional value was asked, and the token `-b`
with nothing behind it. Where the memory of `_optional_value` holds `true`, the
parse does not fail: it returns with the empty default stored under `b`,
marked as set by the user. -/
theorem C13_uninitialised_counterexample :
    OptionParser.new.add_option demo_env_set ["-b".toList] id = some (demo_plain demo_env_set) ∧
    ∃ p', (demo_plain demo_env_set).parse_args demo_env_set ["-b".toList] = some (.ok p') ∧
      p'._values.get "b".toList = some [] ∧
      p'._values.is_set_by_user "b".toList = true ∧ p'._leftover = [] :=
  ⟨rfl, _, rfl, rfl, rfl, rfl⟩

/-- Claim C7. Append action. Let `o` be a flag of action `append` and type
`string` that takes one value, the only flag of its destination that a name of
the registry is bound to, in a parser with an empty store. First part:
whenever the parse of a token list returns, whatever flags and positional
arguments the list holds, the list of the destination is
`occurrence_values`, the values with which `o` occurs in the token list in
order of appearance; when there is such a value the scalar value is the last
one and the destination is marked as set by the user. Second part: what
`occurrence_values` reads. It reads the tokens from the front: nothing in an
empty list and nothing from `--` on; for an occurrence of `o`, written
`--name=value`, `--name value`, `-xvalue` or `-x value` with a name that
resolves to `o`, the value and then what it reads behind the occurrence; an
occurrence of another flag that takes a value is passed over with its value;
a flag that takes no value is passed over, in a cluster `-xt` with the rest
`-t` read next; a positional argument is passed over, or ends the reading when
arguments may not be interspersed. Every value that it reads comes from a token
that names `o` (for a last token `-x` with nothing behind it and a flag whose
`_optional_value` holds, the value is the resolved default, as in the code). Third part: for a token list made of `k ≥ 1` occurrences of `o`
the parse returns, with the list of the values in order, the last one as the
scalar value and the mark. Fourth part: the action of a flag with another
destination leaves the list, the scalar value and the mark of this destination
as they are. Fifth part: with `--tag` of action `append`, `--tag=x --tag=y`
gives the list `x, y` and the scalar `y`. Sixth part: on a registry with a
switch `-a` and a flag `-n` with a value, the tokens `x --tag=p -a -atq -n
--tag=no --tag r y -t s -- --tag=z` give the list `p, q, r, s` and the scalar
`s`. -/
theorem C7_append_action :
    (∀ (E : Env) (p p' : OptionParser) (o : Opt) (v : List Str),
      p._values = Values.new → o._action = "append".toList → o._type = "string".toList →
      o._nargs = 1 →
      (∀ o' ∈ bound_flags (OptionParser.parse_args.builtin p E), o'._dest = o._dest → o' = o) →
      p.parse_args E v = some (.ok p') →
      p'._values.all o._dest = occurrence_values (OptionParser.parse_args.builtin p E) o v ∧
      ∀ vk, (occurrence_values (OptionParser.parse_args.builtin p E) o v).getLast? = some vk →
        p'._values.get o._dest = some vk ∧ p'._values.is_set_by_user o._dest = true) ∧
    (∀ (p : OptionParser) (o : Opt), o._nargs = 1 →
      occurrence_values p o [] = [] ∧
      (∀ rest, occurrence_values p o ("--".toList :: rest) = []) ∧
      (∀ (c : Occurrence) (rest : List Str), c.resolves p o →
        occurrence_values p o (c.tokens ++ rest) = c.value :: occurrence_values p o rest) ∧
      (∀ (o' : Opt) (c : Occurrence) (rest : List Str), o'._nargs = 1 → o' ≠ o →
        c.resolves p o' →
        occurrence_values p o (c.tokens ++ rest) = occurrence_values p o rest) ∧
      (∀ (o' : Opt) (x : Char) (t : Str) (rest : List Str), x ≠ '-' →
        SMap.find p._optmap_s [x] = some o' → o'._nargs ≠ 1 →
        occurrence_values p o (('-' :: x :: t) :: rest) =
          occurrence_values p o (if t ≠ [] then ('-' :: t) :: rest else rest)) ∧
      (∀ (o' : Opt) (name : Str) (rest : List Str), name ≠ [] → '=' ∉ name →
        p.lookup_long_opt name = .ok o' → o'._nargs ≠ 1 →
        occurrence_values p o (('-' :: '-' :: name) :: rest) = occurrence_values p o rest) ∧
      (∀ (arg : Str) (rest : List Str), is_positional arg = true →
        occurrence_values p o (arg :: rest) =
          if p._interspersed_args = true then occurrence_values p o rest else []) ∧
      (∀ (arg : Str) (rest vals queue : List Str), flag_step p o arg rest = some (vals, queue) →
        occurrence_values p o (arg :: rest) = vals ++ occurrence_values p o queue ∧
        (vals = [] ∨ ∃ v, vals = [v] ∧
          ((∃ s, arg = '-' :: '-' :: s ∧ p.lookup_long_opt (long_name s) = .ok o) ∨
            (∃ x t, arg = '-' :: x :: t ∧ x ≠ '-' ∧ SMap.find p._optmap_s [x] = some o))))) ∧
    (∀ (E : Env) (p : OptionParser) (o : Opt) (occs : List Occurrence),
      p._values = Values.new → o._action = "append".toList → o._type = "string".toList →
      o._nargs = 1 → occs ≠ [] →
      (∀ c ∈ occs, c.resolves (OptionParser.parse_args.builtin p E) o) →
      ∃ p', p.parse_args E (occs.flatMap Occurrence.tokens) = some (.ok p') ∧
        p'._values.all o._dest = occs.map Occurrence.value ∧
        p'._values.get o._dest = (occs.map Occurrence.value).getLast? ∧
        p'._values.is_set_by_user o._dest = true) ∧
    (∀ (E : Env) (p p' : OptionParser) (o' : Opt) (opt value d : Str), d ≠ o'._dest →
      p.process_opt E o' opt value = .ok p' →
      p'._values.all d = p._values.all d ∧ p'._values.get d = p._values.get d ∧
        p'._values.is_set_by_user d = p._values.is_set_by_user d) ∧
    (∀ E : Env, ∃ p' : OptionParser,
      (demo_tag E).parse_args E ["--tag=x".toList, "--tag=y".toList] = some (.ok p') ∧
      p'._values.all "tag".toList = ["x".toList, "y".toList] ∧
      p'._values.get "tag".toList = some "y".toList ∧
      p'._values.is_set_by_user "tag".toList = true) ∧
    (∃ p' : OptionParser,
      (demo_tag_mixed demo_env).parse_args demo_env demo_tag_tokens = some (.ok p') ∧
      p'._values.all "tag".toList = ["p".toList, "q".toList, "r".toList, "s".toList] ∧
      p'._values.get "tag".toList = some "s".toList ∧
      p'._values.is_set_by_user "tag".toList = true ∧
      p'._values.get "n".toList = some "--tag=no".toList ∧
      p'._leftover = ["x".toList, "y".toList, "--tag=z".toList]) := by
  refine ⟨?_, ?_, ?_, fun E p p' o' opt value d hd h => process_opt_frame hd h, ?_, ?_⟩
  · intro E p p' o v hfresh ha ht hn honly h
    exact parse_args_reading hfresh ha ht hn honly h
  · intro p o hn
    refine ⟨rfl, fun rest => occurrence_values_none (flag_step_terminator p o rest),
      fun c rest hc => occurrence_values_occurrence hn c rest hc,
      fun o' c rest hn' hne hc => occurrence_values_other hn' hne c rest hc,
      fun o' x t rest hx hf hn' => occurrence_values_switch t rest hx hf hn',
      fun o' name rest hne hname hl hn' => occurrence_values_long_switch rest hne hname hl hn',
      fun arg rest ha => occurrence_values_positional rest ha,
      fun arg rest vals queue h => ⟨occurrence_values_some h, flag_step_names h⟩⟩
  · intro E p o occs hfresh ha ht hn hne hres
    obtain ⟨p', hscan, hr, hall, hlast, huser, _⟩ := scan_append E o ha ht hn [] occs
      (OptionParser.parse_args.builtin { p with _remaining := occs.flatMap Occurrence.tokens } E)
      (by rw [builtin_remaining]; simp)
      (fun c hc => resolves_congr (by simp only [builtin_eq]) (by simp only [builtin_eq])
        (hres c hc))
    have hstop := scan_of_stop (E := E) 0 (iteration_nil hr)
    have hrun := hscan 1
    rw [Nat.add_comm] at hrun
    rw [hstop] at hrun
    have hfuel := scan_fuel_le E (show occs.length + 1 ≤
      queue_size (occs.flatMap Occurrence.tokens) + 1 by
        have := occurrences_length_le occs; omega) hrun
    refine ⟨_, by rw [parse_args_eq, hfuel, finish_ok], ?_, ?_, ?_⟩
    · rw [finish_all, hall, builtin_values]
      show p._values.all o._dest ++ _ = _
      rw [hfresh]
      rfl
    · have hsome : ∃ v, (occs.map Occurrence.value).getLast? = some v := by
        cases occs with
        | nil => exact absurd rfl hne
        | cons c occs => exact ⟨_, getLast?_cons_or _ _⟩
      obtain ⟨v, hv⟩ := hsome
      rw [hv] at hlast ⊢
      exact finish_get_some hlast
    · rw [finish_user_set]
      exact huser hne
  · intro E
    exact ⟨_, rfl, rfl, rfl, rfl⟩
  · exact ⟨_, rfl, by decide, by decide, by decide, by decide, by decide⟩

/-- Instance of claim C7: the flag `-t`, `--tag` in the token list `x --tag=p -a
-atq -n --tag=no --tag r y -t s -- --tag=z`, between a positional argument, a
switch, a cluster and a flag whose value looks like an occurrence. -/
theorem C7_append_action_witness :
    (∃ p', (demo_tag_mixed demo_env).parse_args demo_env demo_tag_tokens = some (.ok p') ∧
      p'._values.all (demo_tag_flag demo_env)._dest =
        occurrence_values (OptionParser.parse_args.builtin (demo_tag_mixed demo_env) demo_env)
          (demo_tag_flag demo_env) demo_tag_tokens) ∧
    occurrence_values (OptionParser.parse_args.builtin (demo_tag_mixed demo_env) demo_env)
      (demo_tag_flag demo_env) demo_tag_tokens =
        ["p".toList, "q".toList, "r".toList, "s".toList] ∧
    (demo_tag_flag demo_env)._dest = "tag".toList :=
  ⟨⟨_, rfl, (C7_append_action.1 demo_env (demo_tag_mixed demo_env) _ (demo_tag_flag demo_env)
      demo_tag_tokens rfl (by decide) (by decide) (by decide) (by decide) rfl).1⟩,
    by decide, by decide⟩

end optparse
